import Mathlib

/-! Backbone `Events` and `Model.set` : a shallow embedding

Source files: `src/event.js` (the `Events` mixin) and `src/model.js` (`Model`).

The embedding is state passing over one record (a `Model`, which mixes in
`Events`).  JavaScript objects with string keys are association lists that keep
the enumeration order of the keys; a function object is named by an identifier
and its body is a script of calls to the record's public methods, so a listener
can call back into `set`, `on`, `off`, `once` and `trigger`.  Calls that run
listeners take a fuel argument and return `none` when it runs out.
-/

namespace Backbone

/-! ## Values and plain objects -/

/-- Identity of a JavaScript object that is used as `this` / `context`. -/
abbrev Ref := Nat

/-- Attribute values: the JavaScript primitives.  On these `_.isEqual` is
equality of the value. -/
inductive Value
  | undefined
  | null
  | bool (b : Bool)
  | num (n : Int)
  | str (s : String)
deriving DecidableEq, Repr

/-- JavaScript truthiness (`!!v`). -/
def Value.truthy : Value → Bool
  | .undefined => false
  | .null => false
  | .bool b => b
  | .num n => n != 0
  | .str s => s != ""

/-- `_.isEqual(a, b)` of underscore, on primitive values. -/
def isEqual (a b : Value) : Bool := decide (a = b)

/-- A plain object whose own enumerable keys are strings, in enumeration order.
Only own keys are represented: the members a plain object inherits from
`Object.prototype` are listed in `inheritedKeys`, and the embedding follows the
code for the reads of every other name. -/
abbrev Dict (α : Type) := List (String × α)

/-- The names of the members of `Object.prototype`.  The maps of the code
(`_events`, `attributes`, `_previousAttributes`, an options hash) are plain
objects, so a read `o[k]` of one of these names on an object without own key
`k` yields the inherited member (a function, the prototype itself for
`__proto__`) and not `undefined`: `on` and `once` then throw at event.js line 35
(`events.push` is not a function), `trigger` throws at lines 205-207 when the
member has a positive `length`, and `set` compares the incoming value with the
member at model.js lines 153-156. -/
def inheritedKeys : List String :=
  ["constructor", "hasOwnProperty", "isPrototypeOf", "propertyIsEnumerable", "toLocaleString",
    "toString", "valueOf", "__proto__", "__defineGetter__", "__defineSetter__",
    "__lookupGetter__", "__lookupSetter__"]

/-- Property read `o[k]` seen as an optional value (`none` when `k` is not an own
key).  It is the read of the code for every `k` outside `inheritedKeys`. -/
def Dict.find {α : Type} : Dict α → String → Option α
  | [], _ => none
  | (k', v) :: rest, k => if k' = k then some v else Dict.find rest k

/-- Test `k in o` (own keys only; inherited prototype keys are not modelled). -/
def Dict.has {α : Type} (o : Dict α) (k : String) : Bool := (o.find k).isSome

/-- Assignment `o[k] = v`: an existing key keeps its place, a new key goes last.
This is the enumeration order of JavaScript for keys that are not canonical
array indices (such as `"1"`), which an engine enumerates first, in numeric
order. -/
def Dict.put {α : Type} : Dict α → String → α → Dict α
  | [], k, v => [(k, v)]
  | (k', v') :: rest, k, v => if k' = k then (k, v) :: rest else (k', v') :: Dict.put rest k v

/-- Statement `delete o[k]`. -/
def Dict.del {α : Type} : Dict α → String → Dict α
  | [], _ => []
  | (k', v') :: rest, k => if k' = k then Dict.del rest k else (k', v') :: Dict.del rest k

/-- A bag of attribute values (`attributes`, `changed`, an options hash, ...). -/
abbrev Obj := Dict Value

/-- Property read `o[k]` of a value: `undefined` when the key is absent.  It is
the read of the code for every `k` outside `inheritedKeys`, and for every own
key. -/
def Obj.get (o : Obj) (k : String) : Value := (Dict.find o k).getD Value.undefined

/-- Underscore `_.extend(dst, src)`: every own key of `src` is assigned on `dst`. -/
def extend (dst src : Obj) : Obj := src.foldl (fun o kv => Dict.put o kv.1 kv.2) dst

/-! ## Event records, callbacks, arguments -/

/-- A function object that can be stored as a callback.
`fn f` is the user function number `f`.  `once uid name f` is the wrapper
built by `Events.once` for the user function `f` under event `name`; `uid` is
the identity of that wrapper (`_callback` of the wrapper is `fn f`). -/
inductive Callback
  | fn (f : Nat)
  | once (uid : Nat) (name : String) (f : Nat)
deriving DecidableEq, Repr

/-- Property `callback._callback`: set on the wrappers of `once` only. -/
def Callback._callback : Callback → Option Callback
  | .fn _ => none
  | .once _ _ f => some (.fn f)

/-- One subscription `{callback, context, ctx}` (event.js line 35). -/
structure EventRec where
  callback : Callback
  context : Option Ref
  ctx : Ref
deriving DecidableEq, Repr

/-- An argument passed along with an event.  `withSuccess o` is the object `o`
with a function stored under `success` (a function is not a `Value`): the
options `Model.destroy` passes along. -/
inductive Arg
  | ref (r : Ref)
  | val (v : Value)
  | obj (o : Obj)
  | withSuccess (o : Obj)
deriving DecidableEq, Repr

/-- What an observer of the record sees, in order of occurrence:
`emit name args` is a call `this.trigger(name, ...args)` made by `set`,
`_validate` or user code, `call f ctx args` is the user function `f` entered with `this = ctx`. -/
inductive Obs
  | emit (name : String) (args : List Arg)
  | call (f : Nat) (ctx : Ref) (args : List Arg)
deriving DecidableEq, Repr

/-! ## The record -/

/-- State of one record.  `_events` maps an event name to a reference into
`arrays`, the store of the bucket arrays: `on` pushes onto the array in place
and `off` installs a new array, and `trigger` holds on to the array it read,
so arrays have an identity.  `nextUid`, `onceRan` are the identities and the
`_.once` latches of the wrappers made by `once`.  `trace` is the observation
log.  The record is taken after construction, where `changed` and
`_previousAttributes` are objects. -/
structure Model where
  self : Ref
  attributes : Obj
  changed : Obj
  _previousAttributes : Obj
  id : Value
  validationError : Value
  _changing : Bool
  _pending : Option Obj
  _events : Option (Dict Nat)
  arrays : List (List EventRec)
  nextUid : Nat
  onceRan : List Nat
  trace : List Obs
deriving Repr

/-! ## `eventsApi` : names with white space -/

/-- Characters matched by `\s` in a JavaScript regular expression. -/
def isSpace (c : Char) : Bool :=
  c.val.toNat ∈ [0x09, 0x0A, 0x0B, 0x0C, 0x0D, 0x20, 0xA0, 0x1680, 0x2028, 0x2029, 0x202F,
    0x205F, 0x3000, 0xFEFF] || (0x2000 ≤ c.val.toNat && c.val.toNat ≤ 0x200A)

/-- Expression `eventSplitter.test(name)` with `eventSplitter = /\s+/`. -/
def eventSplitterTest (name : String) : Bool := name.data.any isSpace

/-- Worker of `splitNames`: `cur` is the piece being read (reversed), `inRun` says
that the previous character was white space. -/
def splitAux : List Char → List Char → Bool → List String
  | [], cur, _ => [String.mk cur.reverse]
  | c :: cs, cur, inRun =>
    if isSpace c then
      if inRun then splitAux cs cur true
      else String.mk cur.reverse :: splitAux cs [] true
    else splitAux cs (c :: cur) false

/-- Expression `name.split(eventSplitter)`: the pieces between maximal runs of
white space (a leading or trailing run gives an empty first or last piece). -/
def splitNames (name : String) : List String := splitAux name.data [] false

/-- The decision taken by `eventsApi(obj, action, name, rest)` for a string
`name` (event.js lines 175-196): `none` when it returns `true` (the caller goes
on with `name`), `some names` when it calls `obj[action]` once per piece of a
name with white space and returns `false`.  An event map (`typeof name ===
'object'`) is not a string and is outside this embedding. -/
def eventsApi (name : String) : Option (List String) :=
  if name = "" then none
  else if eventSplitterTest name then some (splitNames name)
  else none

/-! ## `Events.on`, `Events.once`, `Events.off` -/

/-- Body of `Events.on` past its guard (event.js lines 31-37): push a record on
the bucket of `name`, creating the table and the bucket array when absent.
For a `name` in `inheritedKeys` without own bucket the code throws at line 35;
the body is the code's for every other name. -/
def Events.onBody (name : String) (callback : Callback) (context : Option Ref)
    (m : Model) : Model :=
  let tbl := m._events.getD []
  let r : EventRec := { callback := callback, context := context, ctx := context.getD m.self }
  match Dict.find tbl name with
  | some a =>
    { m with _events := some tbl, arrays := m.arrays.set a (m.arrays.getD a [] ++ [r]) }
  | none =>
    { m with _events := some (Dict.put tbl name m.arrays.length), arrays := m.arrays ++ [[r]] }

/-- Method `Events.on(name, callback, context)` (event.js lines 28-38).  The calls
made by `eventsApi` for the pieces of a name with white space are calls of `on`
with a name without white space, which run the guard on `callback` and the body. -/
def Events.on (name : String) (callback : Option Callback) (context : Option Ref)
    (m : Model) : Model :=
  match eventsApi name with
  | some names =>
    names.foldl (fun m n => match callback with
      | some cb => Events.onBody n cb context m
      | none => m) m
  | none =>
    match callback with
    | some cb => Events.onBody name cb context m
    | none => m

/-- Body of `Events.once` past its guard (event.js lines 47-54): a new wrapper,
subscribed with `on`. -/
def Events.onceBody (name : String) (f : Nat) (context : Option Ref) (m : Model) : Model :=
  Events.on name (some (Callback.once m.nextUid name f)) context
    { m with nextUid := m.nextUid + 1 }

/-- Method `Events.once(name, callback, context)` (event.js lines 45-55). -/
def Events.once (name : String) (callback : Option Nat) (context : Option Ref)
    (m : Model) : Model :=
  match eventsApi name with
  | some names =>
    names.foldl (fun m n => match callback with
      | some f => Events.onceBody n f context m
      | none => m) m
  | none =>
    match callback with
    | some f => Events.onceBody name f context m
    | none => m

/-- The test of event.js lines 101-105: the record `ev` is kept by
`off(_, callback, context)`. -/
def Events.keeps (callback : Option Callback) (context : Option Ref) (ev : EventRec) : Bool :=
  (callback.isSome && callback != some ev.callback && callback != ev.callback._callback)
    || (context.isSome && context != ev.context)

/-- One turn of the loop over `names` in `Events.off` (event.js lines 82-117),
on the table `tbl` and the array store. -/
def Events.offName (callback : Option Callback) (context : Option Ref)
    (st : Dict Nat × List (List EventRec)) (name : String) : Dict Nat × List (List EventRec) :=
  match Dict.find st.1 name with
  | none => st
  | some a =>
    if callback.isNone && context.isNone then (Dict.del st.1 name, st.2)
    else
      let remaining := (st.2.getD a []).filter (Events.keeps callback context)
      if remaining.length != 0 then (Dict.put st.1 name st.2.length, st.2 ++ [remaining])
      else (Dict.del st.1 name, st.2)

/-- Method `Events.off` past the `eventsApi` guard (event.js lines 68-120), for a
`name` that is absent or has no white space.  The empty string is falsy like
an absent name. -/
def Events.offBody (name : Option String) (callback : Option Callback)
    (context : Option Ref) (m : Model) : Model :=
  match m._events with
  | none => m
  | some tbl =>
    let named := name.isSome && name != some ""
    if !named && callback.isNone && context.isNone then { m with _events := none }
    else
      let names := if named then [name.getD ""] else tbl.map Prod.fst
      let st := names.foldl (Events.offName callback context) (tbl, m.arrays)
      { m with _events := some st.1, arrays := st.2 }

/-- Method `Events.off(name, callback, context)` (event.js lines 67-121). -/
def Events.off (name : Option String) (callback : Option Callback) (context : Option Ref)
    (m : Model) : Model :=
  match m._events with
  | none => m
  | some _ =>
    match name.bind eventsApi with
    | some names => names.foldl (fun m n => Events.offBody (some n) callback context m) m
    | none => Events.offBody name callback context m

/-! ## Listeners -/

/-- First argument of `Model.set`: `null`, an attribute hash, or a key with its value. -/
inductive KeyArg
  | null
  | map (attrs : Obj)
  | key (k : String) (val : Value)

/-- A call of a method of the record made by user code. -/
inductive Cmd
  | set (key : KeyArg) (options : Obj)
  | on (name : String) (callback : Option Nat) (context : Option Ref)
  | once (name : String) (callback : Option Nat) (context : Option Ref)
  | off (name : Option String) (callback : Option Nat) (context : Option Ref)
  | trigger (name : String) (args : List Arg)

/-- Body of a user function: the method calls it makes on the record, each next
step chosen from the state the record is in after the previous call. -/
inductive Script
  | done
  | call (c : Cmd) (next : Model → Script)

/-- What is configured on the record type and the user functions:
`idAttribute`, the optional `validate(attrs, options)` method (it may read the
record), and the body of each user function, from the record at entry, the
`this` it is bound to and its arguments. -/
structure Env where
  idAttribute : String
  validate : Option (Model → Obj → Obj → Value)
  listener : Nat → Model → Ref → List Arg → Script

/-- How a stored callback is run: `callback.apply(ctx, args)`. -/
abbrev Invoker := Callback → Ref → List Arg → Model → Option Model

/-! ## `Events.trigger` -/

/-- Function `triggerEvents(events, args)` (event.js lines 204-213) on the records
the array holds when the pass starts (`l = events.length` is read once and the
first `l` entries of an array never change).  The five cases of the `switch`
all call `ev.callback` on `ev.ctx` with the arguments. -/
def triggerEvents (inv : Invoker) : List EventRec → List Arg → Model → Option Model
  | [], _, m => some m
  | ev :: rest, args, m => (inv ev.callback ev.ctx args m).bind (triggerEvents inv rest args)

/-- Lines 134-140 of `Events.trigger`: both bucket arrays are read from the
table first; the array of `name` is run, then the array of `"all"` with the
name put in front of the arguments.  For a `name` in `inheritedKeys` without
own bucket the code runs `triggerEvents` on the inherited member and may
throw; the body is the code's for every other name. -/
def Events.triggerBody (inv : Invoker) (name : String) (args : List Arg) (m : Model) :
    Option Model :=
  let tbl := m._events.getD []
  let events := Dict.find tbl name
  let allEvents := Dict.find tbl "all"
  (match events with
    | some a => triggerEvents inv (m.arrays.getD a []) args m
    | none => some m).bind fun m1 =>
  match allEvents with
  | some a => triggerEvents inv (m1.arrays.getD a []) (Arg.val (Value.str name) :: args) m1
  | none => some m1

/-- A call `obj.trigger(n, ...args)` made by `eventsApi` for a piece `n` of a name
with white space (event.js lines 131-140; `eventsApi` returns `true` for `n`). -/
def Events.triggerOne (inv : Invoker) (name : String) (args : List Arg) (m : Model) :
    Option Model :=
  match m._events with
  | none => some m
  | some _ => Events.triggerBody inv name args m

/-- The loop of `eventsApi` for `trigger`: one call per piece of the name. -/
def Events.triggerEach (inv : Invoker) : List String → List Arg → Model → Option Model
  | [], _, m => some m
  | n :: ns, args, m => (Events.triggerOne inv n args m).bind (Events.triggerEach inv ns args)

/-- Method `Events.trigger(name, ...args)` (event.js lines 130-141), as called by
`set`, `_validate` or user code: the call is logged as `Obs.emit`. -/
def Events.trigger (inv : Invoker) (name : String) (args : List Arg) (m : Model) :
    Option Model :=
  let m := { m with trace := m.trace ++ [Obs.emit name args] }
  match m._events with
  | none => some m
  | some _ =>
    match eventsApi name with
    | none => Events.triggerBody inv name args m
    | some names => Events.triggerEach inv names args m

/-! ## `Model.set` -/

/-- What `set` returns: the record (`this`) or `false`. -/
inductive SetResult
  | record
  | rejected
deriving DecidableEq, Repr

/-- Method `Model._validate(attrs, options)` (model.js lines 431-438).  The result
is `true` or `false` with the record after the call. -/
def Model._validate (inv : Invoker) (env : Env) (attrs options : Obj) (m : Model) :
    Option (Bool × Model) :=
  match env.validate with
  | none => some (true, m)
  | some validate =>
    if !(Obj.get options "validate").truthy then some (true, m)
    else
      let attrs := extend (extend [] m.attributes) attrs
      let res := validate m attrs options
      let error := if res.truthy then res else Value.null
      let m := { m with validationError := error }
      if !error.truthy then some (true, m)
      else
        (Events.trigger inv "invalid"
          [Arg.ref m.self, Arg.val error, Arg.obj (extend options [("validationError", error)])]
          m).map fun m => (false, m)

/-- One turn of the loop `for (attr in attrs)` of `set` (model.js lines 150-163)
on `(changes, changed, current)`.  The reads `current[attr]` and `prev[attr]`
are those of the code when `attr` is an own key or is outside `inheritedKeys`. -/
def Model.setAttr (unset : Bool) (prev : Obj) (st : List String × Obj × Obj)
    (kv : String × Value) : List String × Obj × Obj :=
  let changes := if !isEqual (Obj.get st.2.2 kv.1) kv.2 then st.1 ++ [kv.1] else st.1
  let changed :=
    if !isEqual (Obj.get prev kv.1) kv.2 then Dict.put st.2.1 kv.1 kv.2
    else Dict.del st.2.1 kv.1
  let current := if unset then Dict.del st.2.2 kv.1 else Dict.put st.2.2 kv.1 kv.2
  (changes, changed, current)

/-- The loop of model.js lines 171-173: one `"change:" + key` event per entry of
`changes`, with the value `attributes` holds for the key at that moment. -/
def Model.fireChanges (inv : Invoker) : List String → Obj → Model → Option Model
  | [], _, m => some m
  | k :: ks, options, m =>
    (Events.trigger inv ("change:" ++ k)
      [Arg.ref m.self, Arg.val (Obj.get m.attributes k), Arg.obj options] m).bind
      (Model.fireChanges inv ks options)

/-- The loop `while (this._pending)` of model.js lines 180-184. -/
def Model.changeLoop (inv : Invoker) : Nat → Model → Option Model
  | 0, m => if m._pending.isNone then some m else none
  | fuel + 1, m =>
    match m._pending with
    | none => some m
    | some options =>
      (Events.trigger inv "change" [Arg.ref m.self, Arg.obj options]
        { m with _pending := none }).bind (Model.changeLoop inv fuel)

/-- The reentrancy bookkeeping of `set` (model.js lines 132-140): the call is
nested when `_changing` was set; an outermost call copies `attributes` to
`_previousAttributes` and empties `changed`. -/
def Model.setBegin (m : Model) : Model :=
  let changing := m._changing
  let m := { m with _changing := true }
  if !changing then { m with _previousAttributes := m.attributes, changed := [] } else m

/-- The update of `id` and the loop over the incoming attributes (model.js lines
142-163): the list `changes` and the record after the loop. -/
def Model.setApply (env : Env) (attrs options : Obj) (m : Model) : List String × Model :=
  let unset := (Obj.get options "unset").truthy
  let prev := m._previousAttributes
  let m := if Dict.has attrs env.idAttribute
    then { m with id := Obj.get attrs env.idAttribute } else m
  let st := attrs.foldl (Model.setAttr unset prev) ([], m.changed, m.attributes)
  (st.1, { m with changed := st.2.1, attributes := st.2.2 })

/-- The notification of the attribute changes (model.js lines 167-174). -/
def Model.setNotify (inv : Invoker) (changes : List String) (options : Obj) (m : Model) :
    Option Model :=
  if !(Obj.get options "silent").truthy then
    let m := if changes.length != 0 then { m with _pending := some options } else m
    Model.fireChanges inv changes options m
  else some m

/-- The end of an outermost `set` (model.js lines 179-188). -/
def Model.setFinish (inv : Invoker) (fuel : Nat) (options : Obj) (m : Model) :
    Option (SetResult × Model) :=
  (if !(Obj.get options "silent").truthy then Model.changeLoop inv fuel m else some m).bind
    fun m => some (SetResult.record, { m with _pending := none, _changing := false })

/-- Method `Model.set` past the normalisation of its arguments (model.js lines
125-188), with the attribute hash `attrs`. -/
def Model.setAttrs (inv : Invoker) (fuel : Nat) (env : Env) (attrs options : Obj)
    (m : Model) : Option (SetResult × Model) :=
  (Model._validate inv env attrs options m).bind fun vm =>
  if !vm.1 then some (SetResult.rejected, vm.2)
  else
    let changing := vm.2._changing
    let am := Model.setApply env attrs options (Model.setBegin vm.2)
    (Model.setNotify inv am.1 options am.2).bind fun m =>
    if changing then some (SetResult.record, m)
    else Model.setFinish inv fuel options m

/-- Method `Model.set(key, val, options)` with a listener runner (model.js lines
107-189). -/
def Model.setWith (inv : Invoker) (fuel : Nat) (env : Env) (key : KeyArg) (options : Obj)
    (m : Model) : Option (SetResult × Model) :=
  match key with
  | .null => some (SetResult.record, m)
  | .map attrs => Model.setAttrs inv fuel env attrs options m
  | .key k val => Model.setAttrs inv fuel env [(k, val)] options m

/-! ## Running listeners -/

/-- Run one method call made by user code. -/
def execCmd (inv : Invoker) (fuel : Nat) (env : Env) (c : Cmd) (m : Model) : Option Model :=
  match c with
  | .set key options => (Model.setWith inv fuel env key options m).map Prod.snd
  | .on name callback context => some (Events.on name (callback.map Callback.fn) context m)
  | .once name callback context => some (Events.once name callback context m)
  | .off name callback context => some (Events.off name (callback.map Callback.fn) context m)
  | .trigger name args => Events.trigger inv name args m

/-- Run a script of method calls. -/
def runScript (inv : Invoker) (fuel : Nat) (env : Env) : Script → Model → Option Model
  | .done, m => some m
  | .call c next, m =>
    match execCmd inv fuel env c m with
    | none => none
    | some m1 => runScript inv fuel env (next m1) m1

/-- Enter the user function `f` with `this = ctx`: log the call, run the body. -/
def runUser (inv : Invoker) (fuel : Nat) (env : Env) (f : Nat) (ctx : Ref) (args : List Arg)
    (m : Model) : Option Model :=
  runScript inv fuel env (env.listener f m ctx args)
    { m with trace := m.trace ++ [Obs.call f ctx args] }

/-- Run a stored callback, `callback.apply(ctx, args)`, with `fuel` levels of
nested listener calls.  A wrapper of `once` (event.js lines 49-52, under
`_.once`) does nothing after its first run; on its first run it unsubscribes
itself, then runs the user function. -/
def invoke : Nat → Env → Invoker
  | 0, _, _, _, _, _ => none
  | fuel + 1, env, cb, ctx, args, m =>
    match cb with
    | .fn f => runUser (invoke fuel env) fuel env f ctx args m
    | .once uid name f =>
      if uid ∈ m.onceRan then some m
      else
        runUser (invoke fuel env) fuel env f ctx args
          (Events.off (some name) (some (Callback.once uid name f)) none
            { m with onceRan := uid :: m.onceRan })

/-- Method `Events.trigger` with `fuel` levels of listener calls. -/
def trigger (fuel : Nat) (env : Env) (name : String) (args : List Arg) (m : Model) :
    Option Model :=
  Events.trigger (invoke fuel env) name args m

/-- Method `Model.set` with `fuel` levels of listener calls and `fuel` turns of
the `"change"` loop. -/
def Model.set (fuel : Nat) (env : Env) (key : KeyArg) (options : Obj) (m : Model) :
    Option (SetResult × Model) :=
  Model.setWith (invoke fuel env) fuel env key options m


/-! ## Predicates of the statements -/

/-- Every call along every path of a script satisfies `p`. -/
inductive Script.All (p : Cmd → Prop) : Script → Prop
  | done : Script.All p Script.done
  | call (c : Cmd) (next : Model → Script) :
      p c → (∀ m, Script.All p (next m)) → Script.All p (Script.call c next)

/-- Every call made by every user function satisfies `p`. -/
def Env.All (env : Env) (p : Cmd → Prop) : Prop :=
  ∀ f m ctx args, Script.All p (env.listener f m ctx args)

/-- A call that neither mutates the record nor emits an event: `on`, `once`, `off`. -/
def Cmd.Passive : Cmd → Prop
  | .on _ _ _ => True
  | .once _ _ _ => True
  | .off _ _ _ => True
  | .set _ _ => False
  | .trigger _ _ => False

/-- The attribute hash a first argument of `set` stands for (`none` for `null`). -/
def KeyArg.attrs : KeyArg → Option Obj
  | .null => none
  | .map attrs => some attrs
  | .key k val => some [(k, val)]

/-- The events emitted so far: the `trigger` calls of the log, in order. -/
def emitted : List Obs → List (String × List Arg)
  | [] => []
  | Obs.emit name args :: rest => (name, args) :: emitted rest
  | Obs.call _ _ _ :: rest => emitted rest

/-- The user function calls of the log, in order. -/
def calls : List Obs → List (Nat × Ref × List Arg)
  | [] => []
  | Obs.emit _ _ :: rest => calls rest
  | Obs.call f ctx args :: rest => (f, ctx, args) :: calls rest

/-- The fields of the record proper (all but the subscription table and the log). -/
def Model.core (m : Model) : Ref × Obj × Obj × Obj × Value × Value × Bool × Option Obj :=
  (m.self, m.attributes, m.changed, m._previousAttributes, m.id, m.validationError,
    m._changing, m._pending)

/-- The validator rejects `attrs` on the record `m` (model.js lines 432-435):
a validator is configured, `options.validate` is truthy and the validator
returns a truthy value on the current attributes overlaid with `attrs`. -/
def Rejects (env : Env) (attrs options : Obj) (m : Model) : Prop :=
  ∃ validate, env.validate = some validate ∧ (Obj.get options "validate").truthy = true ∧
    (validate m (extend (extend [] m.attributes) attrs) options).truthy = true

/-- The relation between `changed`, `attributes` and `_previousAttributes`:
a key is in `changed` exactly when its current value differs from the snapshot,
and `changed` then holds the current value. -/
def ChangedInv (m : Model) : Prop :=
  ∀ k, (Dict.has m.changed k = true ↔
      isEqual (Obj.get m.attributes k) (Obj.get m._previousAttributes k) = false) ∧
    (Dict.has m.changed k = true → Obj.get m.changed k = Obj.get m.attributes k)

/-- Method `Model.previous(attr)` for a key (model.js lines 249-252). -/
def Model.previous (m : Model) (attr : String) : Value := Obj.get m._previousAttributes attr

/-- The record `m'` differs from `m` at most in the subscription state
(`_events`, `arrays`, `nextUid`, `onceRan`). -/
def EvOnly (m m' : Model) : Prop :=
  m' = { m with _events := m'._events, arrays := m'.arrays, nextUid := m'.nextUid,
                onceRan := m'.onceRan }

/-- A relation between the record before and after a step that holds across
changes of the subscription state and across logged user function calls. -/
structure Closed (R : Model → Model → Prop) : Prop where
  refl : ∀ m, R m m
  trans : ∀ a b c, R a b → R b c → R a c
  events : ∀ m m', EvOnly m m' → R m m'
  call : ∀ m f ctx args, R m { m with trace := m.trace ++ [Obs.call f ctx args] }

/-- A closed relation that also holds across logged `trigger` calls and across
writes of `validationError` and `_pending`. -/
structure ClosedSet (R : Model → Model → Prop) extends Closed R : Prop where
  emit : ∀ m name args, R m { m with trace := m.trace ++ [Obs.emit name args] }
  verr : ∀ m e, R m { m with validationError := e }
  pending : ∀ m o, R m { m with _pending := o }

/-- Every run of a stored callback by `inv` is a step of `R`. -/
def InvRel (R : Model → Model → Prop) (inv : Invoker) : Prop :=
  ∀ cb ctx args a b, inv cb ctx args a = some b → R a b

/-- The log of `m'` extends the log of `m`. -/
def TraceGrows (m m' : Model) : Prop := ∃ t, m'.trace = m.trace ++ t

/-- The step from `m` to `m'` left the record proper alone and emitted no event. -/
def Same (m m' : Model) : Prop :=
  m'.core = m.core ∧ emitted m'.trace = emitted m.trace ∧ TraceGrows m m'

/-- A property of the record that depends on its log only and survives every
extension of the log. -/
def Stable (S : Model → Prop) : Prop := ∀ m m', S m → TraceGrows m m' → S m'

/-- On the records that satisfy `S`, every run of a stored callback by `inv`
returns, leaves the record proper alone and emits no event. -/
def QuietOn (S : Model → Prop) (inv : Invoker) : Prop :=
  ∀ cb ctx args m, S m → ∃ m', inv cb ctx args m = some m' ∧ Same m m'

/-- Every run of a stored callback by `inv` returns, leaves the record proper
alone and emits no event. -/
def Quiet (inv : Invoker) : Prop := ∀ cb ctx args m, ∃ m', inv cb ctx args m = some m' ∧ Same m m'

/-! ## Records and record types of the examples -/

/-- A record as the constructor leaves it for the attributes `attributes`, on a
type without defaults and with `idAttribute = "id"`: nothing is subscribed. -/
def Model.init (self : Ref) (attributes : Obj) : Model :=
  { self := self, attributes := attributes, changed := [], _previousAttributes := [],
    id := Obj.get attributes "id", validationError := Value.null, _changing := false,
    _pending := none, _events := none, arrays := [], nextUid := 0, onceRan := [], trace := [] }

/-- A record type without validator whose user functions all do nothing. -/
def Env.plain : Env :=
  { idAttribute := "id", validate := none, listener := fun _ _ _ _ => Script.done }

/-- A record type whose validator rejects `n = 0` with the failure `"zero"`;
its user functions do nothing. -/
def Env.strict : Env :=
  { idAttribute := "id",
    validate := some fun _ attrs _ =>
      if Obj.get attrs "n" = Value.num 0 then Value.str "zero" else Value.undefined,
    listener := fun _ _ _ _ => Script.done }

/-- The list `changes` and the record when an accepted `set` is about to notify
(model.js line 170), `e` being the value `_validate` left in `validationError`. -/
def Model.applied (env : Env) (attrs options : Obj) (e : Value) (m : Model) :
    List String × Model :=
  let am := Model.setApply env attrs options (Model.setBegin { m with validationError := e })
  (am.1, if !(Obj.get options "silent").truthy && am.1.length != 0
    then { am.2 with _pending := some options } else am.2)

/-- The `unset` option is used as `Model.unset` and `Model.clear` use it: when it
is truthy every incoming value is `undefined`. -/
def UnsetSafe (attrs options : Obj) : Prop :=
  (Obj.get options "unset").truthy = true → ∀ kv ∈ attrs, kv.2 = Value.undefined

/-- A call by user code that, when it is a `set`, uses `unset` as above. -/
def Cmd.UnsetSafe : Cmd → Prop
  | .set key options => ∀ attrs, key.attrs = some attrs → Backbone.UnsetSafe attrs options
  | .on _ _ _ => True
  | .once _ _ _ => True
  | .off _ _ _ => True
  | .trigger _ _ => True

/-- Inside a `set` the relation `ChangedInv` holds. -/
def Good (m : Model) : Prop := m._changing = true → ChangedInv m

/-- A step that keeps `_changing` and keeps `Good`. -/
def KeepsGood (m m' : Model) : Prop := m'._changing = m._changing ∧ (Good m → Good m')

/-- A record type whose user functions all set `A` back to `1`. -/
def Env.revert : Env :=
  { idAttribute := "id", validate := none,
    listener := fun _ _ _ _ =>
      Script.call (Cmd.set (KeyArg.map [("A", Value.num 1)]) []) fun _ => Script.done }

/-- The record `{A: 1}` with the user function `0` subscribed to `"change:A"`. -/
def Model.watched : Model :=
  Events.on "change:A" (some (Callback.fn 0)) none (Model.init 7 [("A", Value.num 1)])

/-- The record `Model.watched` after `set({A: 2})` on the type `Env.revert`. -/
def Model.watchedAfter : Model :=
  { Model.watched with
    _previousAttributes := [("A", Value.num 1)]
    trace := [Obs.emit "change:A" [Arg.ref 7, Arg.val (Value.num 2), Arg.obj []],
      Obs.call 0 7 [Arg.ref 7, Arg.val (Value.num 2), Arg.obj []],
      Obs.emit "change:A" [Arg.ref 7, Arg.val (Value.num 1), Arg.obj []],
      Obs.call 0 7 [Arg.ref 7, Arg.val (Value.num 1), Arg.obj []],
      Obs.emit "change" [Arg.ref 7, Arg.obj []]] }

/-- The `"change:<key>"` events of an accepted, non-silent `set`, from the
attributes before the call: one per incoming key whose incoming value differs
from the current one, in the order of the incoming hash, carrying the record,
the value `attributes` holds for the key after the loop (the incoming value, or
`undefined` under `unset`) and the options. -/
def changeEvents (self : Ref) (current attrs options : Obj) : List (String × List Arg) :=
  (attrs.filter fun kv => !isEqual (Obj.get current kv.1) kv.2).map fun kv =>
    ("change:" ++ kv.1,
      [Arg.ref self,
        Arg.val (if (Obj.get options "unset").truthy then Value.undefined else kv.2),
        Arg.obj options])

/-- The `"change:<key>"` events as claim C4 words them: each carries the incoming
("new") value. -/
def claimedChangeEvents (self : Ref) (current attrs options : Obj) :
    List (String × List Arg) :=
  (attrs.filter fun kv => !isEqual (Obj.get current kv.1) kv.2).map fun kv =>
    ("change:" ++ kv.1, [Arg.ref self, Arg.val kv.2, Arg.obj options])

/-- The record `{name: "x"}` with the user function `0` subscribed to
`"change:name"` and the user function `1` to `"change"`. -/
def Model.named : Model :=
  Events.on "change" (some (Callback.fn 1)) none
    (Events.on "change:name" (some (Callback.fn 0)) none (Model.init 7 [("name", Value.str "x")]))

/-- A step that keeps `_changing` and, inside a `set`, keeps the snapshot. -/
def KeepsPrev (m m' : Model) : Prop :=
  m'._changing = m._changing ∧
    (m._changing = true → m'._previousAttributes = m._previousAttributes)

/-- A step that leaves `attributes`, `changed`, `_previousAttributes` and `id` alone. -/
def SameAttrs (m m' : Model) : Prop :=
  m'.attributes = m.attributes ∧ m'.changed = m.changed ∧
    m'._previousAttributes = m._previousAttributes ∧ m'.id = m.id

/-- A record inside an outermost `set` that began with `A = 0` and made it `1`. -/
def Model.inFlight : Model :=
  { Model.init 7 [("A", Value.num 1)] with
    _changing := true
    _previousAttributes := [("A", Value.num 0)]
    changed := [("A", Value.num 1)] }

/-- The record `Model.named` with an entry left in `changed` by an earlier `set`. -/
def Model.namedStale : Model :=
  { Model.named with changed := [("stale", Value.num 9)] }

/-- The record `Model.inFlight` after the nested `set({A: 2})`. -/
def Model.inFlightAfter : Model :=
  { Model.inFlight with
    attributes := [("A", Value.num 2)]
    changed := [("A", Value.num 2)]
    _pending := some []
    trace := [Obs.emit "change:A" [Arg.ref 7, Arg.val (Value.num 2), Arg.obj []]] }

/-- The record `Model.namedStale` after `set({name: "y"})`. -/
def Model.namedAfter : Model :=
  { Model.namedStale with
    attributes := [("name", Value.str "y")]
    changed := [("name", Value.str "y")]
    _previousAttributes := [("name", Value.str "x")]
    trace := [Obs.emit "change:name" [Arg.ref 7, Arg.val (Value.str "y"), Arg.obj []],
      Obs.call 0 7 [Arg.ref 7, Arg.val (Value.str "y"), Arg.obj []],
      Obs.emit "change" [Arg.ref 7, Arg.obj []],
      Obs.call 1 7 [Arg.ref 7, Arg.obj []]] }

/-- The record `{A: 1}` after `set({A: 2})`: `changed` is `{A: 2}`. -/
def Model.afterChange : Model :=
  { Model.init 7 [("A", Value.num 2)] with
    changed := [("A", Value.num 2)]
    _previousAttributes := [("A", Value.num 1)]
    trace := [Obs.emit "change:A" [Arg.ref 7, Arg.val (Value.num 2), Arg.obj []],
      Obs.emit "change" [Arg.ref 7, Arg.obj []]] }

/-! ## The subscription table -/

/-- The user function a stored callback runs. -/
def Callback.user : Callback → Nat
  | .fn f => f
  | .once _ _ f => f

/-- The records of the bucket array `name` refers to in a table (none when the
table has no such bucket). -/
def bucketOf (st : Dict Nat × List (List EventRec)) (name : String) : List EventRec :=
  match Dict.find st.1 name with
  | some a => st.2.getD a []
  | none => []

/-- The records subscribed under `name` on the record. -/
def Model.bucket (m : Model) (name : String) : List EventRec :=
  bucketOf (m._events.getD [], m.arrays) name

/-- A table whose references point into the store, to one array each. -/
structure TableWF (st : Dict Nat × List (List EventRec)) : Prop where
  bound : ∀ n a, Dict.find st.1 n = some a → a < st.2.length
  inj : ∀ n1 n2 a, Dict.find st.1 n1 = some a → Dict.find st.1 n2 = some a → n1 = n2

/-- A record whose subscription state is as the methods of `Events` leave it:
the table is well formed, the wrappers of `once` in the store have an identity
already given out and a single event name, and the latches that are set belong
to identities already given out. -/
structure Model.WF (m : Model) : Prop where
  table : TableWF (m._events.getD [], m.arrays)
  uids : ∀ arr ∈ m.arrays, ∀ ev ∈ arr, ∀ u n f, ev.callback = Callback.once u n f →
    u < m.nextUid ∧ eventsApi n = none
  ran : ∀ u ∈ m.onceRan, u < m.nextUid

/-! ## Listeners that do nothing -/

/-- Every user function is empty. -/
def Env.Inert (env : Env) : Prop := ∀ f m ctx args, env.listener f m ctx args = Script.done

/-- The stored callback `cb` runs its user function when called on `m`: always
for a user function, only with its latch unset for a wrapper of `once`. -/
def Callback.fires (cb : Callback) (m : Model) : Bool :=
  match cb with
  | .fn _ => true
  | .once uid _ _ => decide (uid ∉ m.onceRan)

/-- The effect of calling the stored callback `cb` when user functions are empty. -/
def runInert (cb : Callback) (ctx : Ref) (args : List Arg) (m : Model) : Model :=
  match cb with
  | .fn f => { m with trace := m.trace ++ [Obs.call f ctx args] }
  | .once uid name f =>
    if uid ∈ m.onceRan then m
    else
      { Events.off (some name) (some (Callback.once uid name f)) none
          { m with onceRan := uid :: m.onceRan } with
        trace := m.trace ++ [Obs.call f ctx args] }

/-- The effect of `triggerEvents` when user functions are empty. -/
def dispatchInert (evs : List EventRec) (args : List Arg) (m : Model) : Model :=
  evs.foldl (fun m ev => runInert ev.callback ev.ctx args m) m

/-- One pass of `trigger` over the bucket array with reference `a` (no pass when
the table had no such bucket), when user functions are empty. -/
def passInert (a : Option Nat) (args : List Arg) (m : Model) : Model :=
  match a with
  | some a => dispatchInert (m.arrays.getD a []) args m
  | none => m

/-- The effect of `trigger` with a single name when user functions are empty. -/
def triggerInert (name : String) (args : List Arg) (m : Model) : Model :=
  match m._events with
  | none => { m with trace := m.trace ++ [Obs.emit name args] }
  | some tbl =>
    passInert (Dict.find tbl "all") (Arg.val (Value.str name) :: args)
      (passInert (Dict.find tbl name) args { m with trace := m.trace ++ [Obs.emit name args] })

/-- The calls `on(name, c1, x1)`, ..., `on(name, cn, xn)` in order, for user
functions `ci` with contexts `xi`. -/
def subscribeAll (name : String) (subs : List (Nat × Option Ref)) (m : Model) : Model :=
  subs.foldl (fun m s => Events.on name (some (Callback.fn s.1)) s.2 m) m

/-- Successive calls `trigger(name, ...args)`, one per argument list. -/
def triggerAll (fuel : Nat) (env : Env) (name : String) : List (List Arg) → Model → Option Model
  | [], m => some m
  | args :: rest, m => (trigger fuel env name args m).bind (triggerAll fuel env name rest)

/-- The state of a record on which the user function `L` is subscribed only
through the wrapper `once u name L`: every record of the table is that wrapper
or runs another function, the wrapper is the only function object with the
identity `u`, it is subscribed under `name` only, and it is in no bucket once
its latch is set. -/
structure OnceInv (L u : Nat) (name : String) (m : Model) : Prop where
  wf : Model.WF m
  entries : ∀ n, ∀ ev ∈ m.bucket n, ev.callback = Callback.once u name L ∨ ev.callback.user ≠ L
  only : ∀ arr ∈ m.arrays, ∀ ev ∈ arr, ∀ n f,
    ev.callback = Callback.once u n f → ev.callback = Callback.once u name L
  gone : u ∈ m.onceRan → ∀ n, ∀ ev ∈ m.bucket n, ev.callback ≠ Callback.once u name L
  home : ∀ n, n ≠ name → ∀ ev ∈ m.bucket n, ev.callback ≠ Callback.once u name L

/-- A stored callback that is not the wrapper with identity `u` and does not run `L`. -/
def Foreign (L u : Nat) (cb : Callback) : Prop :=
  cb.user ≠ L ∧ ∀ n f, cb ≠ Callback.once u n f

/-- The call of `L` a dispatch over `evs` makes through the wrapper `w` with
identity `u`: one call, on the context of the first record holding `w`, when
the latch of `w` is not set yet. -/
def wrapperCall (L u : Nat) (w : Callback) (evs : List EventRec) (args : List Arg)
    (m : Model) : List (Nat × Ref × List Arg) :=
  if u ∈ m.onceRan then []
  else
    match evs.find? (fun ev => decide (ev.callback = w)) with
    | some ev => [(L, ev.ctx, args)]
    | none => []

/-! ## A `"change"` listener that sets again -/

/-- The user function `g` has been entered at some point of the log. -/
def Spent (g : Nat) (m : Model) : Prop := (calls m.trace).any (fun c => c.1 == g) = true

/-- The user functions of a record type with a single mutating listener: `g`
calls `set(key2, options2)` the first time it is entered and does nothing
afterwards; every other user function does nothing. -/
def Env.Replays (env : Env) (g : Nat) (key2 : KeyArg) (options2 : Obj) : Prop :=
  ∀ f m ctx args, env.listener f m ctx args =
    if f = g ∧ (calls m.trace).any (fun c => c.1 == g) = false
    then Script.call (Cmd.set key2 options2) (fun _ => Script.done) else Script.done

/-- A record type without validator whose user function `g` calls
`set(key2, options2)` the first time it is entered; its other user functions,
and `g` afterwards, do nothing. -/
def Env.replay (g : Nat) (key2 : KeyArg) (options2 : Obj) : Env :=
  { idAttribute := "id", validate := none,
    listener := fun f m _ _ =>
      if f = g ∧ (calls m.trace).any (fun c => c.1 == g) = false
      then Script.call (Cmd.set key2 options2) (fun _ => Script.done) else Script.done }

/-- A record of the table subscribed with `on` for a user function other than `g`. -/
def EventRec.Other (g : Nat) (ev : EventRec) : Prop := ∃ f, ev.callback = Callback.fn f ∧ f ≠ g

/-- The step from `m` to `m'` only extended the log, by the events `E` and by
calls of user functions other than `g`. -/
def Logged (g : Nat) (E : List (String × List Arg)) (m m' : Model) : Prop :=
  ∃ t, m' = { m with trace := m.trace ++ t } ∧ emitted t = E ∧
    (calls t).any (fun c => c.1 == g) = false

/-- The attributes of the record when an accepted `set(attrs, options)` is about
to notify (model.js line 165). -/
def Model.attrsAfter (env : Env) (attrs options : Obj) (m : Model) : Obj :=
  (Model.setApply env attrs options (Model.setBegin m)).2.attributes

/-- The number of events named `name` in a list of emitted events. -/
def countEvent (name : String) (E : List (String × List Arg)) : Nat :=
  (E.filter fun ev => ev.1 == name).length

/-- The record `{A: 1}` with the user function `0` subscribed to `"change:A"` and
to `"all"`, and the user functions `0`, `1`, `0` subscribed to `"change"`. -/
def Model.replayed : Model :=
  Events.on "change" (some (Callback.fn 0)) none
    (Events.on "change" (some (Callback.fn 1)) none
      (Events.on "change all" (some (Callback.fn 0)) none
        (Events.on "change:A" (some (Callback.fn 0)) none (Model.init 7 [("A", Value.num 1)]))))

/-! ## The law of `off` as the specification words it -/

/-- The removal condition in the words of the specification: the record is
removed when (no callback is given, or the callback is the stored callback, or
the callback is the original callback behind a wrapper of `once`) and (no
context is given, or the context is the record's context). -/
def Events.removalLaw (callback : Option Callback) (context : Option Ref) (ev : EventRec) :
    Bool :=
  (callback.isNone || callback == some ev.callback || callback == ev.callback._callback) &&
    (context.isNone || context == ev.context)

/-- The records of a bucket that `off(name, cb)` removes in the words of the
specification: the stored callback, or the original callback behind a wrapper
of `once`, is `cb`. -/
def Events.matchesCallback (cb : Callback) (ev : EventRec) : Bool :=
  ev.callback == cb || ev.callback._callback == some cb

/-- A single event name: not empty and without white space. -/
def SingleName (name : String) : Prop := name ≠ "" ∧ eventsApi name = none

/-- The record `{}` with the user function `0` subscribed to `"a"` on the context
`5`, the user function `1` subscribed once to `"a"`, the user function `1`
subscribed to `"a"` and the user function `0` subscribed to `"b"`. -/
def Model.subscribed : Model :=
  Events.on "b" (some (Callback.fn 0)) none
    (Events.on "a" (some (Callback.fn 1)) none
      (Events.once "a" (some 1) none
        (Events.on "a" (some (Callback.fn 0)) (some 5) (Model.init 7 []))))

/-! ## No empty buckets -/

/-- Every event name present in the table refers to a non-empty array of records. -/
def NoEmptySt (st : Dict Nat × List (List EventRec)) : Prop :=
  ∀ n a, Dict.find st.1 n = some a → st.2.getD a [] ≠ []

/-- Every event name present in the subscription table of the record has a
non-empty sequence of subscription records. -/
def NoEmpty (m : Model) : Prop := NoEmptySt (m._events.getD [], m.arrays)

/-- A relation between the record before and after a step that holds across
the calls of `on` and `off` and across every step that leaves the subscription
table and the store of bucket arrays alone. -/
structure TableClosed (R : Model → Model → Prop) : Prop where
  refl : ∀ m, R m m
  trans : ∀ a b c, R a b → R b c → R a c
  frame : ∀ m m', m'._events = m._events → m'.arrays = m.arrays → R m m'
  subscribe : ∀ name cb context m, R m (Events.on name cb context m)
  unsubscribe : ∀ name cb context m, R m (Events.off name cb context m)

/-- User code that subscribes the user function `0` to `"a"`, dispatches `"a"`
and unsubscribes the function again. -/
def Script.onTriggerOff : Script :=
  Script.call (Cmd.on "a" (some 0) none) fun _ =>
  Script.call (Cmd.trigger "a" []) fun _ =>
  Script.call (Cmd.off (some "a") (some 0) none) fun _ => Script.done

/-! ## `Model.hasChanged`, `Model.changedAttributes` -/

/-- Method `Model.hasChanged(attr)` (model.js lines 217-220); `none` is an absent
attribute name. -/
def Model.hasChanged (m : Model) (attr : Option String) : Bool :=
  match attr with
  | none => !m.changed.isEmpty
  | some a => Dict.has m.changed a

/-- One turn of the loop of `changedAttributes` (model.js lines 237-240) on the
result so far (`none` is `false`). -/
def Model.diffAttr (old : Obj) (changed : Option Obj) (kv : String × Value) : Option Obj :=
  if isEqual (Obj.get old kv.1) kv.2 then changed
  else some (Dict.put (changed.getD []) kv.1 kv.2)

/-- Method `Model.changedAttributes(diff)` (model.js lines 233-242).  The result
`none` is `false`; `_.clone` copies the object. -/
def Model.changedAttributes (m : Model) (diff : Option Obj) : Option Obj :=
  match diff with
  | none => if m.hasChanged none then some m.changed else none
  | some diff =>
    let old := if m._changing then m._previousAttributes else m.attributes
    diff.foldl (Model.diffAttr old) none

/-- The baseline of `changedAttributes` in the words of the specification:
`previousAttributes` while a mutation is in flight, the current `attributes`
otherwise. -/
def Model.baseline (m : Model) : Obj :=
  if m._changing = true then m._previousAttributes else m.attributes

/-- A result of `changedAttributes` in the words of the specification: `false`
for an empty map, the map otherwise. -/
def orFalse (o : Obj) : Option Obj := if o = [] then none else some o

/-! ## Dispatch to records with wrappers of `once` -/

/-- The identity of a wrapper of `once` (none for a user function). -/
def Callback.wrapperId : Callback → Option Nat
  | .fn _ => none
  | .once u _ _ => some u

/-- The identities of the wrappers of `once` among the records, in order. -/
def wrapperIds (evs : List EventRec) : List Nat := evs.filterMap fun ev => ev.callback.wrapperId

/-- The wrappers of `once` among the records are pairwise distinct function
objects whose latch is not set on `m`: each of them was subscribed by its own
call of `once` and has not run yet. -/
def FreshWrappers (evs : List EventRec) (m : Model) : Prop :=
  (wrapperIds evs).Nodup ∧ ∀ u ∈ wrapperIds evs, u ∉ m.onceRan

/-- The calls of user functions a dispatch to the records `evs` with the
arguments `args` makes, in order: each on the `ctx` of its record. -/
def callsOf (evs : List EventRec) (args : List Arg) : List (Nat × Ref × List Arg) :=
  evs.map fun ev => (ev.callback.user, ev.ctx, args)

/-- The record `Model.subscribed` with the user function `2` subscribed to `"all"`
on the context `9`. -/
def Model.wild : Model := Events.on "all" (some (Callback.fn 2)) (some 9) Model.subscribed

/-! ## A listener that changes the subscriptions during a dispatch -/

/-- A record type whose user function `0` calls `off("a", f1)`, `on("a", f3)` and
`on("all", f2)`; its other user functions do nothing. -/
def Env.meddle : Env :=
  { idAttribute := "id", validate := none,
    listener := fun f _ _ _ =>
      if f = 0 then
        Script.call (Cmd.off (some "a") (some 1) none) fun _ =>
        Script.call (Cmd.on "a" (some 3) none) fun _ =>
        Script.call (Cmd.on "all" (some 2) none) fun _ => Script.done
      else Script.done }

/-- The record `{}` with the user functions `0` and `1` subscribed to `"a"` and the
user function `4` subscribed to `"all"`. -/
def Model.meddled : Model :=
  Events.on "all" (some (Callback.fn 4)) none
    (Events.on "a" (some (Callback.fn 1)) none
      (Events.on "a" (some (Callback.fn 0)) none (Model.init 7 [])))

/-! ## The constructor and `clone` -/

/-- Underscore `_.defaults(obj, src)` for one source: every own key of `src` whose
value in `obj` is `undefined` is assigned on `obj`. -/
def defaults (obj src : Obj) : Obj :=
  src.foldl (fun o kv => if Obj.get o kv.1 = Value.undefined then Dict.put o kv.1 kv.2 else o) obj

/-- The constructor `new Model(attributes, options)` (model.js lines 15-29) for a
record type that keeps the default `parse` and `initialize`, building the
record with identity `self`.  `dflts` is the value of `_.result(this,
'defaults')` (`[]` for a type without defaults); an absent `attributes` is
`none`.  The `cid` and `collection` properties are not part of `Model`. -/
def Model.construct (fuel : Nat) (env : Env) (dflts : Obj) (self : Ref)
    (attributes : Option Obj) (options : Obj) : Option Model :=
  let attrs := attributes.getD []
  let this : Model :=
    { self := self, attributes := [], changed := [], _previousAttributes := [],
      id := Value.undefined, validationError := Value.null, _changing := false,
      _pending := none, _events := none, arrays := [], nextUid := 0, onceRan := [], trace := [] }
  let attrs := defaults (defaults [] attrs) dflts
  (Model.set fuel env (KeyArg.map attrs) options this).map fun rm =>
    { rm.2 with changed := [] }

/-- Method `Model.clone()` (model.js lines 405-407): a new record, with identity
`self`, constructed from the attributes of `m`. -/
def Model.clone (fuel : Nat) (env : Env) (dflts : Obj) (self : Ref) (m : Model) :
    Option Model :=
  Model.construct fuel env dflts self (some m.attributes) []

/-! ## A listener that sets another key of the incoming map -/

/-- A record type whose user function `0` calls `set({b: 5})`; its other user
functions do nothing. -/
def Env.override : Env :=
  { idAttribute := "id", validate := none,
    listener := fun f _ _ _ =>
      if f = 0 then Script.call (Cmd.set (KeyArg.map [("b", Value.num 5)]) []) fun _ => Script.done
      else Script.done }

/-- The record `{}` with the user function `0` subscribed to `"change:a"` and the
user function `1` to `"change:b"`. -/
def Model.pair : Model :=
  Events.on "change:b" (some (Callback.fn 1)) none
    (Events.on "change:a" (some (Callback.fn 0)) none (Model.init 7 []))

/-! ## Lists of names and event maps -/

/-- The names `n1`, ..., `nk` written as one string, separated by one blank. -/
def spaced : List String → String
  | [] => ""
  | [n] => n
  | n :: rest => n ++ " " ++ spaced rest

/-- Method `Events.on(name, second, third)` when `name` is an event map, through
the branch of `eventsApi` for objects (event.js lines 179-184, called at line
29): one call `on(key, name[key], second, third)` per key of the map, in key
order.  The value of the key is the callback and the second argument of the
call is the context; the third argument lands in a fourth position that `on`
does not read. -/
def Events.onMap (map : Dict Callback) (second _third : Option Ref) (m : Model) : Model :=
  map.foldl (fun m kv => Events.on kv.1 (some kv.2) second m) m

/-! ## Several entities: `listenTo`, `stopListening`, `destroy` -/

/-- An entity with the `Events` mixin among others: its own state (`model`), the
bookkeeping of `listenTo` (`_listeningTo` maps a listen id to the entity
listened to, `_listenId` is the id other entities know this one by), and the
`collection` property of a record. -/
structure Entity where
  model : Model
  _listeningTo : Option (Dict Ref)
  _listenId : Option String
  collection : Option Ref

/-- The entities, by identity, and the counter of underscore's `_.uniqueId`. -/
structure World where
  objs : Ref → Entity
  idCounter : Nat

/-- Replace the state of the entity `r`. -/
def World.put (w : World) (r : Ref) (e : Entity) : World :=
  { w with objs := fun x => if x = r then e else w.objs x }

/-- Replace the record state of the entity `r`. -/
def World.setModel (w : World) (r : Ref) (m : Model) : World :=
  w.put r { w.objs r with model := m }

/-- Assignment `r._listeningTo = d`. -/
def World.setListeningTo (w : World) (r : Ref) (d : Dict Ref) : World :=
  w.put r { w.objs r with _listeningTo := some d }

/-- Assignment `r._listenId = id`. -/
def World.setListenId (w : World) (r : Ref) (id : String) : World :=
  w.put r { w.objs r with _listenId := some id }

/-- Underscore `_.uniqueId(pre)`: the counter is incremented and appended to `pre`. -/
def uniqueId (pre : String) (w : World) : String × World :=
  (pre ++ toString (w.idCounter + 1), { w with idCounter := w.idCounter + 1 })

/-- The methods `listenTo` (`once = false`, implemented by `on`) and
`listenToOnce` (`once = true`, implemented by `once`) of event.js lines
224-233, for a string `name`: `self` is `this`, `other` is `obj`. -/
def Events.listen (once : Bool) (self other : Ref) (name : String) (callback : Option Nat)
    (w : World) : World :=
  let w := w.setListeningTo self ((w.objs self)._listeningTo.getD [])
  let iw : String × World := match (w.objs other)._listenId with
    | some id => (id, w)
    | none => ((uniqueId "l" w).1, (uniqueId "l" w).2.setListenId other (uniqueId "l" w).1)
  let w := iw.2.setListeningTo self (Dict.put ((iw.2.objs self)._listeningTo.getD []) iw.1 other)
  w.setModel other (match once with
    | true => Events.once name callback (some self) (w.objs other).model
    | false => Events.on name (callback.map Callback.fn) (some self) (w.objs other).model)

/-- Method `Events.listenTo(obj, name, callback)`. -/
def Events.listenTo (self other : Ref) (name : String) (callback : Option Nat) (w : World) :
    World :=
  Events.listen false self other name callback w

/-- Method `Events.listenToOnce(obj, name, callback)`. -/
def Events.listenToOnce (self other : Ref) (name : String) (callback : Option Nat)
    (w : World) : World :=
  Events.listen true self other name callback w

/-- Underscore `_.isEmpty(obj._events)`: no table, or a table without keys. -/
def isEmptyTable (ev : Option (Dict Nat)) : Bool :=
  match ev with
  | none => true
  | some tbl => tbl.isEmpty

/-- One turn of the loop of `stopListening` (event.js lines 155-157) for the
entry `id ↦ obj` of the map iterated over: `obj.off(name, callback, this)`, then
`delete this._listeningTo[id]` when `remove` holds or `obj._events` is empty.
The loop runs only where `this._listeningTo` exists (line 150). -/
def Events.stopStep (self : Ref) (name : Option String) (callback : Option Callback)
    (remove : Bool) (w : World) (entry : String × Ref) : World :=
  let w := w.setModel entry.2 (Events.off name callback (some self) (w.objs entry.2).model)
  if remove || isEmptyTable (w.objs entry.2).model._events then
    w.setListeningTo self (Dict.del ((w.objs self)._listeningTo.getD []) entry.1)
  else w

/-- Method `Events.stopListening(obj, name, callback)` (event.js lines 148-160)
for a `name` that is absent or a string.  A name that is absent or empty is
falsy; an `obj` without listen id is looked up under the key `"undefined"`. -/
def Events.stopListening (self : Ref) (obj : Option Ref) (name : Option String)
    (callback : Option Nat) (w : World) : World :=
  match (w.objs self)._listeningTo with
  | none => w
  | some listeningTo =>
    let remove := !(name.isSome && name != some "") && callback.isNone
    let entries := match obj with
      | some o => [(((w.objs o)._listenId).getD "undefined", o)]
      | none => listeningTo
    entries.foldl (Events.stopStep self name (callback.map Callback.fn) remove) w

/-- Methods `Model.has` and `Model.isNew` (model.js lines 96-98 and 414-416): the
record is new when its id attribute is `null` or `undefined`. -/
def Model.isNew (env : Env) (m : Model) : Bool :=
  Obj.get m.attributes env.idAttribute == Value.undefined ||
    Obj.get m.attributes env.idAttribute == Value.null

/-- The argument `model.collection` of the `"destroy"` event. -/
def collectionArg (collection : Option Ref) : Arg :=
  match collection with
  | some c => Arg.ref c
  | none => Arg.val Value.undefined

/-- Method `Model.destroy(options)` (model.js lines 349-376) for a record that is
new.  The options are cloned and the wrapper `options.success` is stored in
the clone (lines 350-363), which is what the `"destroy"` and `"sync"` events
carry (`Arg.withSuccess`).  For a new record `options.success()` runs
`stopListening()`, triggers `"destroy"` with the record, its collection and
the options, calls the caller's `success` when it is truthy (it is not a
function here, a function not being a `Value`: the call throws), and triggers
`"sync"` if the record is no longer new.  The listeners run on the record.  A
record that is not new goes through `sync`, which is not part of the sources:
the result is `none`, as when the code throws or the fuel runs out. -/
def Model.destroy (fuel : Nat) (env : Env) (self : Ref) (options : Obj) (w : World) :
    Option World :=
  if Model.isNew env (w.objs self).model then
    let w1 := Events.stopListening self none none none w
    let e1 := w1.objs self
    (Events.trigger (invoke fuel env) "destroy"
      [Arg.ref e1.model.self, collectionArg e1.collection, Arg.withSuccess options]
      e1.model).bind fun m1 =>
    if (Obj.get options "success").truthy then none
    else
      (if !Model.isNew env m1 then
        Events.trigger (invoke fuel env) "sync"
          [Arg.ref m1.self, Arg.val Value.undefined, Arg.withSuccess options] m1
      else some m1).map fun m2 => w1.setModel self m2
  else none

/-- The world in which every entity `r` is the record `{}` with identity `r`,
without subscriptions, and no id was given out. -/
def World.init : World :=
  { objs := fun r =>
      { model := Model.init r [], _listeningTo := none, _listenId := none, collection := none },
    idCounter := 0 }

/-- The subscription table of every entity is well formed. -/
def World.WF (w : World) : Prop :=
  ∀ o, TableWF ((w.objs o).model._events.getD [], (w.objs o).model.arrays)

/-- Every entity that holds a subscription whose context is `self` is remembered
in the `listeningTo` mapping of `self`: `self` subscribed to other entities
through `listenTo` and `listenToOnce` only. -/
def Tracked (w : World) (self : Ref) : Prop :=
  ∀ o n, ∀ ev ∈ (w.objs o).model.bucket n, ev.context = some self →
    o ∈ ((w.objs self)._listeningTo.getD []).map Prod.snd

/-- Three entities: `2` has the user function `5` subscribed to `"x"` on the
context `7`; then `1` listens to `"x"` on `2` with the user function `0` and
once to `"y"` on `3` with the user function `1`. -/
def World.listening : World :=
  Events.listenToOnce 1 3 "y" (some 1)
    (Events.listenTo 1 2 "x" (some 0)
      (World.init.setModel 2 (Events.on "x" (some (Callback.fn 5)) (some 7) (Model.init 2 []))))

/-- The world in which the record `1`, new, has the user function `0` subscribed
to its own `"change"` event. -/
def World.publisher : World :=
  World.init.setModel 1 (Events.on "change" (some (Callback.fn 0)) none (Model.init 1 []))

/-! ## Names inherited from `Object.prototype` -/

/-- The read `o[k]` finds no own key but a member inherited from
`Object.prototype`: the code then leaves what `Dict.find` and `Obj.get` say. -/
def Dict.inherits {α : Type} (o : Dict α) (k : String) : Bool :=
  !Dict.has o k && inheritedKeys.contains k

/-- No piece of the event name `name` is the name of a member of
`Object.prototype`. -/
def OwnName (name : String) : Prop :=
  ∀ n ∈ (eventsApi name).getD [name], n ∉ inheritedKeys

/-- No key of the attribute hash is the name of a member of `Object.prototype`,
and neither is a piece of the name of its `"change:<key>"` event. -/
def OwnKeys (attrs : Obj) : Prop :=
  ∀ kv ∈ attrs, kv.1 ∉ inheritedKeys ∧ OwnName ("change:" ++ kv.1)

/-- A call by user code whose attribute keys and event names are not names of
members of `Object.prototype`. -/
def Cmd.Own : Cmd → Prop
  | .set key _ => ∀ attrs, key.attrs = some attrs → OwnKeys attrs
  | .on name _ _ => OwnName name
  | .once name _ _ => OwnName name
  | .off name _ _ => ∀ n, name = some n → OwnName n
  | .trigger name _ => OwnName name

instance (name : String) : Decidable (OwnName name) := by
  unfold OwnName
  infer_instance

instance (attrs : Obj) : Decidable (OwnKeys attrs) := by
  unfold OwnKeys
  infer_instance

/-! ## Records and record types of the counterexamples -/

/-- A record type without validator whose user function `g` calls
`trigger(name)` the first time it is entered; its other user functions, and
`g` afterwards, do nothing. -/
def Env.echo (g : Nat) (name : String) : Env :=
  { idAttribute := "id", validate := none,
    listener := fun f m _ _ =>
      if f = g ∧ (calls m.trace).any (fun c => c.1 == g) = false
      then Script.call (Cmd.trigger name []) (fun _ => Script.done) else Script.done }

/-- A record type without validator whose user function `g` calls
`once(name, g)` each time it is entered; its other user functions do nothing. -/
def Env.again (g : Nat) (name : String) : Env :=
  { idAttribute := "id", validate := none,
    listener := fun f _ _ _ =>
      if f = g then Script.call (Cmd.once name (some g) none) (fun _ => Script.done)
      else Script.done }

/-- A record type without validator whose user function `0` calls
`on("all", f1)`; its other user functions do nothing. -/
def Env.recruit : Env :=
  { idAttribute := "id", validate := none,
    listener := fun f _ _ _ =>
      if f = 0 then Script.call (Cmd.on "all" (some 1) none) (fun _ => Script.done)
      else Script.done }

/-- A record type without validator whose user function `0` calls
`off("change", f1)` and whose user function `1` calls `set({B: 1})` the first
time it is entered; its other user functions do nothing. -/
def Env.unhook : Env :=
  { idAttribute := "id", validate := none,
    listener := fun f m _ _ =>
      if f = 0 then Script.call (Cmd.off (some "change") (some 1) none) (fun _ => Script.done)
      else if f = 1 ∧ (calls m.trace).any (fun c => c.1 == 1) = false
      then Script.call (Cmd.set (KeyArg.map [("B", Value.num 1)]) []) (fun _ => Script.done)
      else Script.done }

/-- The record type `Env.strict` (its validator rejects `n = 0`) whose user
functions all call `set({x: 1})`. -/
def Env.strictSet : Env :=
  { Env.strict with
    listener := fun _ _ _ _ =>
      Script.call (Cmd.set (KeyArg.map [("x", Value.num 1)]) []) (fun _ => Script.done) }

/-- A record type whose validator rejects every call whose options have `silent`
set; its user functions do nothing. -/
def Env.shy : Env :=
  { idAttribute := "id",
    validate := some fun _ _ options =>
      if (Obj.get options "silent").truthy then Value.str "silent" else Value.undefined,
    listener := fun _ _ _ _ => Script.done }

/-- The world in which the entity `2` has the user function `5` subscribed to
`"x"` with the record `1` as context, by a direct call `on("x", f5, record)`
that no `listeningTo` mapping remembers. -/
def World.untracked : World :=
  World.init.setModel 2 (Events.on "x" (some (Callback.fn 5)) (some 1) (Model.init 2 []))

/-- A call by user code that, when it is a `set`, has attribute keys as above. -/
def Cmd.OwnKeys : Cmd → Prop
  | .set key _ => ∀ attrs, key.attrs = some attrs → Backbone.OwnKeys attrs
  | .on _ _ _ => True
  | .once _ _ _ => True
  | .off _ _ _ => True
  | .trigger _ _ => True

/-! ## Objects -/

theorem Dict.find_put {α : Type} (o : Dict α) (k k' : String) (v : α) :
    Dict.find (Dict.put o k v) k' = if k = k' then some v else Dict.find o k' := by
  induction o with
  | nil => simp [Dict.put, Dict.find]
  | cons hd tl ih =>
    obtain ⟨k0, v0⟩ := hd
    by_cases h0 : k0 = k
    · subst h0
      by_cases h1 : k0 = k' <;> simp [Dict.put, Dict.find, h1]
    · by_cases h1 : k0 = k'
      · subst h1
        simp [Dict.put, Dict.find, h0, Ne.symm h0]
      · simp [Dict.put, Dict.find, h0, h1, ih]

theorem Dict.find_del {α : Type} (o : Dict α) (k k' : String) :
    Dict.find (Dict.del o k) k' = if k = k' then none else Dict.find o k' := by
  induction o with
  | nil => simp [Dict.del, Dict.find]
  | cons hd tl ih =>
    obtain ⟨k0, v0⟩ := hd
    by_cases h0 : k0 = k
    · subst h0
      by_cases h1 : k0 = k'
      · subst h1
        simpa [Dict.del, Dict.find] using ih
      · simpa [Dict.del, Dict.find, h1] using ih
    · by_cases h1 : k0 = k'
      · subst h1
        simp [Dict.del, Dict.find, h0, Ne.symm h0]
      · simp [Dict.del, Dict.find, h0, h1, ih]

theorem Obj.get_put (o : Obj) (k k' : String) (v : Value) :
    Obj.get (Dict.put o k v) k' = if k = k' then v else Obj.get o k' := by
  unfold Obj.get
  rw [Dict.find_put]
  split <;> rfl

theorem Obj.get_del (o : Obj) (k k' : String) :
    Obj.get (Dict.del o k) k' = if k = k' then Value.undefined else Obj.get o k' := by
  unfold Obj.get
  rw [Dict.find_del]
  split <;> rfl

theorem Dict.has_put {α : Type} (o : Dict α) (k k' : String) (v : α) :
    Dict.has (Dict.put o k v) k' = if k = k' then true else Dict.has o k' := by
  unfold Dict.has
  rw [Dict.find_put]
  split <;> rfl

theorem Dict.has_del {α : Type} (o : Dict α) (k k' : String) :
    Dict.has (Dict.del o k) k' = if k = k' then false else Dict.has o k' := by
  unfold Dict.has
  rw [Dict.find_del]
  split <;> rfl

theorem isEqual_eq_true (a b : Value) : isEqual a b = true ↔ a = b := by
  simp [isEqual]

theorem isEqual_eq_false (a b : Value) : isEqual a b = false ↔ a ≠ b := by
  simp [isEqual]

/-! ## Subscription changes leave the record proper alone -/

theorem evOnly_refl (m : Model) : EvOnly m m := by
  cases m; rfl

theorem evOnly_trans {a b c : Model} (h1 : EvOnly a b) (h2 : EvOnly b c) : EvOnly a c := by
  unfold EvOnly at *
  rw [h2, h1]

theorem evOnly_foldl {α : Type} (f : Model → α → Model) (hf : ∀ m x, EvOnly m (f m x))
    (l : List α) (m : Model) : EvOnly m (l.foldl f m) := by
  induction l generalizing m with
  | nil => exact evOnly_refl m
  | cons x xs ih => exact evOnly_trans (hf m x) (ih (f m x))

theorem Events.onBody_evOnly (name : String) (cb : Callback) (context : Option Ref)
    (m : Model) : EvOnly m (Events.onBody name cb context m) := by
  unfold Events.onBody
  cases m
  simp only
  split <;> rfl

theorem Events.on_evOnly (name : String) (cb : Option Callback) (context : Option Ref)
    (m : Model) : EvOnly m (Events.on name cb context m) := by
  unfold Events.on
  cases cb with
  | none =>
    split
    · exact evOnly_foldl _ (fun m _ => evOnly_refl m) _ m
    · exact evOnly_refl m
  | some cb =>
    split
    · exact evOnly_foldl _ (fun m n => Events.onBody_evOnly n cb context m) _ m
    · exact Events.onBody_evOnly name cb context m

theorem Events.onceBody_evOnly (name : String) (f : Nat) (context : Option Ref)
    (m : Model) : EvOnly m (Events.onceBody name f context m) := by
  unfold Events.onceBody
  refine evOnly_trans ?_ (Events.on_evOnly _ _ _ _)
  cases m; rfl

theorem Events.once_evOnly (name : String) (f : Option Nat) (context : Option Ref)
    (m : Model) : EvOnly m (Events.once name f context m) := by
  unfold Events.once
  cases f with
  | none =>
    split
    · exact evOnly_foldl _ (fun m _ => evOnly_refl m) _ m
    · exact evOnly_refl m
  | some f =>
    split
    · exact evOnly_foldl _ (fun m n => Events.onceBody_evOnly n f context m) _ m
    · exact Events.onceBody_evOnly name f context m

theorem Events.offBody_evOnly (name : Option String) (cb : Option Callback)
    (context : Option Ref) (m : Model) : EvOnly m (Events.offBody name cb context m) := by
  unfold Events.offBody
  split
  · exact evOnly_refl m
  · simp only
    split
    · cases m; rfl
    · cases m; rfl

theorem Events.off_evOnly (name : Option String) (cb : Option Callback)
    (context : Option Ref) (m : Model) : EvOnly m (Events.off name cb context m) := by
  unfold Events.off
  split
  · exact evOnly_refl m
  · split
    · exact evOnly_foldl _ (fun m n => Events.offBody_evOnly (some n) cb context m) _ m
    · exact Events.offBody_evOnly name cb context m

/-! ## Lifting a relation on listener runs to `trigger`, `set` and `invoke` -/

theorem triggerEvents_rel {R : Model → Model → Prop} (hR : Closed R) {inv : Invoker}
    (hinv : InvRel R inv) (evs : List EventRec) (args : List Arg) (m m' : Model)
    (h : triggerEvents inv evs args m = some m') : R m m' := by
  induction evs generalizing m with
  | nil =>
    simp only [triggerEvents, Option.some.injEq] at h
    subst h
    exact hR.refl m
  | cons ev rest ih =>
    simp only [triggerEvents] at h
    cases h1 : inv ev.callback ev.ctx args m with
    | none => simp [h1] at h
    | some m1 =>
      rw [h1] at h
      exact hR.trans _ _ _ (hinv _ _ _ _ _ h1) (ih m1 h)

theorem Events.triggerBody_rel {R : Model → Model → Prop} (hR : Closed R) {inv : Invoker}
    (hinv : InvRel R inv) (name : String) (args : List Arg) (m m' : Model)
    (h : Events.triggerBody inv name args m = some m') : R m m' := by
  unfold Events.triggerBody at h
  simp only at h
  cases h1 : (match Dict.find (m._events.getD []) name with
    | some a => triggerEvents inv (m.arrays.getD a []) args m
    | none => some m) with
  | none => rw [h1] at h; simp at h
  | some m1 =>
    rw [h1] at h
    simp only [Option.bind] at h
    have r1 : R m m1 := by
      split at h1
      · exact triggerEvents_rel hR hinv _ _ _ _ h1
      · simp only [Option.some.injEq] at h1
        subst h1
        exact hR.refl m
    have r2 : R m1 m' := by
      split at h
      · exact triggerEvents_rel hR hinv _ _ _ _ h
      · simp only [Option.some.injEq] at h
        subst h
        exact hR.refl m1
    exact hR.trans _ _ _ r1 r2

theorem Events.triggerOne_rel {R : Model → Model → Prop} (hR : Closed R) {inv : Invoker}
    (hinv : InvRel R inv) (name : String) (args : List Arg) (m m' : Model)
    (h : Events.triggerOne inv name args m = some m') : R m m' := by
  unfold Events.triggerOne at h
  split at h
  · simp only [Option.some.injEq] at h
    subst h
    exact hR.refl m
  · exact Events.triggerBody_rel hR hinv _ _ _ _ h

theorem Events.triggerEach_rel {R : Model → Model → Prop} (hR : Closed R) {inv : Invoker}
    (hinv : InvRel R inv) (names : List String) (args : List Arg) (m m' : Model)
    (h : Events.triggerEach inv names args m = some m') : R m m' := by
  induction names generalizing m with
  | nil =>
    simp only [Events.triggerEach, Option.some.injEq] at h
    subst h
    exact hR.refl m
  | cons n ns ih =>
    simp only [Events.triggerEach] at h
    cases h1 : Events.triggerOne inv n args m with
    | none => simp [h1] at h
    | some m1 =>
      rw [h1] at h
      exact hR.trans _ _ _ (Events.triggerOne_rel hR hinv _ _ _ _ h1) (ih m1 h)

theorem Events.trigger_rel {R : Model → Model → Prop} (hR : Closed R) {inv : Invoker}
    (hinv : InvRel R inv) (name : String) (args : List Arg) (m m' : Model)
    (hemit : R m { m with trace := m.trace ++ [Obs.emit name args] })
    (h : Events.trigger inv name args m = some m') : R m m' := by
  unfold Events.trigger at h
  simp only at h
  refine hR.trans _ _ _ hemit ?_
  split at h
  · simp only [Option.some.injEq] at h
    subst h
    exact hR.refl _
  · split at h
    · exact Events.triggerBody_rel hR hinv _ _ _ _ h
    · exact Events.triggerEach_rel hR hinv _ _ _ _ h

theorem Model.fireChanges_rel {R : Model → Model → Prop} (hR : ClosedSet R) {inv : Invoker}
    (hinv : InvRel R inv) (ks : List String) (options : Obj) (m m' : Model)
    (h : Model.fireChanges inv ks options m = some m') : R m m' := by
  induction ks generalizing m with
  | nil =>
    simp only [Model.fireChanges, Option.some.injEq] at h
    subst h
    exact hR.refl m
  | cons k ks ih =>
    simp only [Model.fireChanges] at h
    cases h1 : Events.trigger inv ("change:" ++ k)
        [Arg.ref m.self, Arg.val (Obj.get m.attributes k), Arg.obj options] m with
    | none => simp [h1] at h
    | some m1 =>
      rw [h1] at h
      exact hR.trans _ _ _
        (Events.trigger_rel hR.toClosed hinv _ _ _ _ (hR.emit _ _ _) h1) (ih m1 h)

theorem Model.changeLoop_rel {R : Model → Model → Prop} (hR : ClosedSet R) {inv : Invoker}
    (hinv : InvRel R inv) (fuel : Nat) (m m' : Model)
    (h : Model.changeLoop inv fuel m = some m') : R m m' := by
  induction fuel generalizing m with
  | zero =>
    simp only [Model.changeLoop] at h
    split at h
    · simp only [Option.some.injEq] at h
      subst h
      exact hR.refl m
    · simp at h
  | succ n ih =>
    simp only [Model.changeLoop] at h
    split at h
    · simp only [Option.some.injEq] at h
      subst h
      exact hR.refl m
    · rename_i options _
      cases h1 : Events.trigger inv "change" [Arg.ref m.self, Arg.obj options]
          { m with _pending := none } with
      | none => simp [h1] at h
      | some m1 =>
        rw [h1] at h
        exact hR.trans _ _ _ (hR.pending m none)
          (hR.trans _ _ _
            (Events.trigger_rel hR.toClosed hinv _ _ _ _ (hR.emit _ _ _) h1) (ih m1 h))

theorem Model._validate_of_not_rejects (inv : Invoker) (env : Env) (attrs options : Obj)
    (m : Model) (h : ¬ Rejects env attrs options m) :
    ∃ e, Model._validate inv env attrs options m = some (true, { m with validationError := e }) := by
  unfold Model._validate
  cases hv : env.validate with
  | none => exact ⟨m.validationError, rfl⟩
  | some validate =>
    simp only
    by_cases ho : (Obj.get options "validate").truthy = true
    · have hres : (validate m (extend (extend [] m.attributes) attrs) options).truthy = false := by
        by_contra hc
        exact h ⟨validate, hv, ho, by simpa using hc⟩
      have hnull : Value.truthy Value.null = false := rfl
      refine ⟨Value.null, ?_⟩
      simp [ho, hres, hnull]
    · refine ⟨m.validationError, ?_⟩
      simp [ho]

theorem Model._validate_of_rejects (inv : Invoker) (env : Env) (attrs options : Obj)
    (m : Model) (validate : Model → Obj → Obj → Value) (hv : env.validate = some validate)
    (ho : (Obj.get options "validate").truthy = true)
    (hres : (validate m (extend (extend [] m.attributes) attrs) options).truthy = true) :
    Model._validate inv env attrs options m =
      (Events.trigger inv "invalid"
        [Arg.ref m.self, Arg.val (validate m (extend (extend [] m.attributes) attrs) options),
          Arg.obj (extend options [("validationError",
            validate m (extend (extend [] m.attributes) attrs) options)])]
        { m with validationError :=
            validate m (extend (extend [] m.attributes) attrs) options }).map
        fun m => (false, m) := by
  unfold Model._validate
  simp [hv, ho, hres]

theorem Model._validate_rel {R : Model → Model → Prop} (hR : ClosedSet R) {inv : Invoker}
    (hinv : InvRel R inv) (env : Env) (attrs options : Obj) (m : Model) (ok : Bool)
    (m' : Model) (h : Model._validate inv env attrs options m = some (ok, m')) : R m m' := by
  by_cases hrej : Rejects env attrs options m
  · obtain ⟨validate, hv, ho, hres⟩ := hrej
    rw [Model._validate_of_rejects inv env attrs options m validate hv ho hres] at h
    simp only [Option.map_eq_some', Prod.mk.injEq] at h
    obtain ⟨m1, h1, -, rfl⟩ := h
    exact hR.trans _ _ _ (hR.verr m _)
      (Events.trigger_rel hR.toClosed hinv _ _ _ _ (hR.emit _ _ _) h1)
  · obtain ⟨e, he⟩ := Model._validate_of_not_rejects inv env attrs options m hrej
    rw [he] at h
    simp only [Option.some.injEq, Prod.mk.injEq] at h
    rw [← h.2]
    exact hR.verr m e

theorem runScript_rel {R : Model → Model → Prop} (hR : Closed R) {inv : Invoker}
    (hinv : InvRel R inv) (fuel : Nat) (env : Env) (p : Cmd → Prop)
    (hset : ∀ key options m r m', p (Cmd.set key options) →
      Model.setWith inv fuel env key options m = some (r, m') → R m m')
    (htrig : ∀ name args m, p (Cmd.trigger name args) →
      R m { m with trace := m.trace ++ [Obs.emit name args] })
    (s : Script) (hs : Script.All p s) (m m' : Model)
    (h : runScript inv fuel env s m = some m') : R m m' := by
  induction hs generalizing m with
  | done =>
    simp only [runScript, Option.some.injEq] at h
    subst h
    exact hR.refl m
  | call c next hc _ ih =>
    simp only [runScript] at h
    cases h1 : execCmd inv fuel env c m with
    | none => simp [h1] at h
    | some m1 =>
      rw [h1] at h
      refine hR.trans _ _ _ ?_ (ih m1 m1 h)
      rcases c with ⟨key, options⟩ | ⟨name, callback, context⟩ | ⟨name, callback, context⟩ |
        ⟨name, callback, context⟩ | ⟨name, args⟩
      · simp only [execCmd, Option.map_eq_some'] at h1
        obtain ⟨⟨r, m2⟩, h2, rfl⟩ := h1
        exact hset key options m r m2 hc h2
      · simp only [execCmd, Option.some.injEq] at h1
        subst h1
        exact hR.events _ _ (Events.on_evOnly _ _ _ _)
      · simp only [execCmd, Option.some.injEq] at h1
        subst h1
        exact hR.events _ _ (Events.once_evOnly _ _ _ _)
      · simp only [execCmd, Option.some.injEq] at h1
        subst h1
        exact hR.events _ _ (Events.off_evOnly _ _ _ _)
      · simp only [execCmd] at h1
        exact Events.trigger_rel hR hinv _ _ _ _ (htrig name args m hc) h1

theorem invoke_rel {R : Model → Model → Prop} (hR : Closed R) (env : Env) (p : Cmd → Prop)
    (henv : Env.All env p)
    (hset : ∀ inv fuel key options m r m', InvRel R inv → p (Cmd.set key options) →
      Model.setWith inv fuel env key options m = some (r, m') → R m m')
    (htrig : ∀ name args m, p (Cmd.trigger name args) →
      R m { m with trace := m.trace ++ [Obs.emit name args] })
    (fuel : Nat) : InvRel R (invoke fuel env) := by
  induction fuel with
  | zero =>
    intro cb ctx args a b h
    simp [invoke] at h
  | succ n ih =>
    intro cb ctx args a b h
    cases cb with
    | fn f =>
      simp only [invoke, runUser] at h
      refine hR.trans _ _ _ (hR.call a f ctx args) ?_
      exact runScript_rel hR ih n env p (fun key options m r m' => hset _ n key options m r m' ih)
        htrig _ (henv f a ctx args) _ _ h
    | once uid name f =>
      simp only [invoke] at h
      split at h
      · simp only [Option.some.injEq] at h
        subst h
        exact hR.refl a
      · simp only [runUser] at h
        have e1 : EvOnly a (Events.off (some name) (some (Callback.once uid name f)) none
            { a with onceRan := uid :: a.onceRan }) := by
          refine evOnly_trans ?_ (Events.off_evOnly _ _ _ _)
          cases a; rfl
        refine hR.trans _ _ _ (hR.events _ _ e1) ?_
        refine hR.trans _ _ _ (hR.call _ f ctx args) ?_
        exact runScript_rel hR ih n env p
          (fun key options m r m' => hset _ n key options m r m' ih) htrig _
          (henv f _ ctx args) _ _ h

/-! ## Listeners that only subscribe and unsubscribe -/

theorem emitted_append (l1 l2 : List Obs) : emitted (l1 ++ l2) = emitted l1 ++ emitted l2 := by
  induction l1 with
  | nil => rfl
  | cons o rest ih =>
    cases o with
    | emit name args => simp [emitted, ih]
    | call f ctx args => simp [emitted, ih]

theorem calls_append (l1 l2 : List Obs) : calls (l1 ++ l2) = calls l1 ++ calls l2 := by
  induction l1 with
  | nil => rfl
  | cons o rest ih =>
    cases o with
    | emit name args => simp [calls, ih]
    | call f ctx args => simp [calls, ih]

theorem traceGrows_refl (m : Model) : TraceGrows m m := ⟨[], by simp⟩

theorem traceGrows_trans {a b c : Model} (h1 : TraceGrows a b) (h2 : TraceGrows b c) :
    TraceGrows a c := by
  obtain ⟨t1, e1⟩ := h1
  obtain ⟨t2, e2⟩ := h2
  exact ⟨t1 ++ t2, by rw [e2, e1, List.append_assoc]⟩

theorem traceGrows_of_eq {m m' : Model} (h : m'.trace = m.trace) : TraceGrows m m' :=
  ⟨[], by simp [h]⟩

theorem same_refl (m : Model) : Same m m := ⟨rfl, rfl, traceGrows_refl m⟩

theorem same_trans {a b c : Model} (h1 : Same a b) (h2 : Same b c) : Same a c :=
  ⟨h2.1.trans h1.1, h2.2.1.trans h1.2.1, traceGrows_trans h1.2.2 h2.2.2⟩

theorem same_of_evOnly {m m' : Model} (h : EvOnly m m') : Same m m' := by
  unfold EvOnly at h
  rw [h]
  exact ⟨rfl, rfl, traceGrows_of_eq rfl⟩

theorem same_closed : Closed Same where
  refl := same_refl
  trans := fun _ _ _ h1 h2 => same_trans h1 h2
  events := fun _ _ h => same_of_evOnly h
  call := fun m f ctx args => ⟨rfl, by simp [emitted_append, emitted], ⟨_, rfl⟩⟩

theorem stable_true : Stable (fun _ => True) := fun _ _ _ _ => trivial

theorem quietOn_of_quiet {inv : Invoker} (h : Quiet inv) : QuietOn (fun _ => True) inv :=
  fun cb ctx args m _ => h cb ctx args m

theorem runScript_passive_some (inv : Invoker) (fuel : Nat) (env : Env) (s : Script)
    (hs : Script.All Cmd.Passive s) (m : Model) : ∃ m', runScript inv fuel env s m = some m' := by
  induction hs generalizing m with
  | done => exact ⟨m, rfl⟩
  | call c next hc _ ih =>
    rcases c with ⟨key, options⟩ | ⟨name, callback, context⟩ | ⟨name, callback, context⟩ |
      ⟨name, callback, context⟩ | ⟨name, args⟩
    · exact absurd hc (by simp [Cmd.Passive])
    · simp only [runScript, execCmd]
      exact ih _ _
    · simp only [runScript, execCmd]
      exact ih _ _
    · simp only [runScript, execCmd]
      exact ih _ _
    · exact absurd hc (by simp [Cmd.Passive])

theorem invoke_passive_some (env : Env) (henv : Env.All env Cmd.Passive) (n : Nat)
    (cb : Callback) (ctx : Ref) (args : List Arg) (m : Model) :
    ∃ m', invoke (n + 1) env cb ctx args m = some m' := by
  cases cb with
  | fn f =>
    simp only [invoke, runUser]
    exact runScript_passive_some _ _ _ _ (henv f m ctx args) _
  | once uid name f =>
    simp only [invoke, runUser]
    split
    · exact ⟨m, rfl⟩
    · exact runScript_passive_some _ _ _ _ (henv f _ ctx args) _

theorem invoke_passive (env : Env) (henv : Env.All env Cmd.Passive) (n : Nat) :
    Quiet (invoke (n + 1) env) := by
  intro cb ctx args m
  obtain ⟨m', h⟩ := invoke_passive_some env henv n cb ctx args m
  refine ⟨m', h, ?_⟩
  exact invoke_rel same_closed env Cmd.Passive henv
    (fun _ _ _ _ _ _ _ _ hp _ => absurd hp (by simp [Cmd.Passive]))
    (fun _ _ _ hp => absurd hp (by simp [Cmd.Passive])) (n + 1) cb ctx args m m' h

theorem triggerEvents_quietOn {S : Model → Prop} (hS : Stable S) {inv : Invoker}
    (hinv : QuietOn S inv) (evs : List EventRec) (args : List Arg) (m : Model) (hm : S m) :
    ∃ m', triggerEvents inv evs args m = some m' ∧ Same m m' := by
  induction evs generalizing m with
  | nil => exact ⟨m, rfl, same_refl m⟩
  | cons ev rest ih =>
    obtain ⟨m1, h1, s1⟩ := hinv ev.callback ev.ctx args m hm
    obtain ⟨m2, h2, s2⟩ := ih m1 (hS m m1 hm s1.2.2)
    exact ⟨m2, by simp [triggerEvents, h1, h2], same_trans s1 s2⟩

theorem Events.triggerBody_quietOn {S : Model → Prop} (hS : Stable S) {inv : Invoker}
    (hinv : QuietOn S inv) (name : String) (args : List Arg) (m : Model) (hm : S m) :
    ∃ m', Events.triggerBody inv name args m = some m' ∧ Same m m' := by
  unfold Events.triggerBody
  simp only
  have h1 : ∃ m1, (match Dict.find (m._events.getD []) name with
      | some a => triggerEvents inv (m.arrays.getD a []) args m
      | none => some m) = some m1 ∧ Same m m1 := by
    split
    · exact triggerEvents_quietOn hS hinv _ _ _ hm
    · exact ⟨m, rfl, same_refl m⟩
  obtain ⟨m1, e1, s1⟩ := h1
  rw [e1]
  simp only [Option.bind]
  split
  · obtain ⟨m2, e2, s2⟩ := triggerEvents_quietOn hS hinv (m1.arrays.getD _ [])
      (Arg.val (Value.str name) :: args) m1 (hS m m1 hm s1.2.2)
    exact ⟨m2, e2, same_trans s1 s2⟩
  · exact ⟨m1, rfl, s1⟩

theorem Events.triggerEach_quietOn {S : Model → Prop} (hS : Stable S) {inv : Invoker}
    (hinv : QuietOn S inv) (names : List String) (args : List Arg) (m : Model) (hm : S m) :
    ∃ m', Events.triggerEach inv names args m = some m' ∧ Same m m' := by
  induction names generalizing m with
  | nil => exact ⟨m, rfl, same_refl m⟩
  | cons n ns ih =>
    have h1 : ∃ m1, Events.triggerOne inv n args m = some m1 ∧ Same m m1 := by
      unfold Events.triggerOne
      split
      · exact ⟨m, rfl, same_refl m⟩
      · exact Events.triggerBody_quietOn hS hinv _ _ _ hm
    obtain ⟨m1, e1, s1⟩ := h1
    obtain ⟨m2, e2, s2⟩ := ih m1 (hS m m1 hm s1.2.2)
    exact ⟨m2, by simp [Events.triggerEach, e1, e2], same_trans s1 s2⟩

theorem Events.trigger_quietOn {S : Model → Prop} (hS : Stable S) {inv : Invoker}
    (hinv : QuietOn S inv) (name : String) (args : List Arg) (m : Model) (hm : S m) :
    ∃ m', Events.trigger inv name args m = some m' ∧ m'.core = m.core ∧
      emitted m'.trace = emitted m.trace ++ [(name, args)] ∧ TraceGrows m m' := by
  have e0 : emitted (m.trace ++ [Obs.emit name args]) = emitted m.trace ++ [(name, args)] := by
    simp [emitted_append, emitted]
  have g0 : TraceGrows m { m with trace := m.trace ++ [Obs.emit name args] } := ⟨_, rfl⟩
  have hm0 : S { m with trace := m.trace ++ [Obs.emit name args] } := hS _ _ hm g0
  unfold Events.trigger
  simp only
  split
  · exact ⟨_, rfl, rfl, e0, g0⟩
  · split
    · obtain ⟨m', e, s⟩ := Events.triggerBody_quietOn hS hinv name args
        { m with trace := m.trace ++ [Obs.emit name args] } hm0
      exact ⟨m', e, s.1, s.2.1.trans e0, traceGrows_trans g0 s.2.2⟩
    · rename_i names _
      obtain ⟨m', e, s⟩ := Events.triggerEach_quietOn hS hinv names args
        { m with trace := m.trace ++ [Obs.emit name args] } hm0
      exact ⟨m', e, s.1, s.2.1.trans e0, traceGrows_trans g0 s.2.2⟩

theorem Events.trigger_quiet {inv : Invoker} (hinv : Quiet inv) (name : String)
    (args : List Arg) (m : Model) :
    ∃ m', Events.trigger inv name args m = some m' ∧ m'.core = m.core ∧
      emitted m'.trace = emitted m.trace ++ [(name, args)] := by
  obtain ⟨m', e, c, t, -⟩ := Events.trigger_quietOn stable_true (quietOn_of_quiet hinv) name args
    m trivial
  exact ⟨m', e, c, t⟩

theorem Model.core_eq (m m' : Model) : m'.core = m.core ↔
    m'.self = m.self ∧ m'.attributes = m.attributes ∧ m'.changed = m.changed ∧
    m'._previousAttributes = m._previousAttributes ∧ m'.id = m.id ∧
    m'.validationError = m.validationError ∧ m'._changing = m._changing ∧
    m'._pending = m._pending := by
  simp [Model.core]

theorem Model.fireChanges_quietOn {S : Model → Prop} (hS : Stable S) {inv : Invoker}
    (hinv : QuietOn S inv) (ks : List String) (options : Obj) (m : Model) (hm : S m) :
    ∃ m', Model.fireChanges inv ks options m = some m' ∧ m'.core = m.core ∧
      emitted m'.trace = emitted m.trace ++ ks.map (fun k =>
        ("change:" ++ k, [Arg.ref m.self, Arg.val (Obj.get m.attributes k), Arg.obj options])) ∧
      TraceGrows m m' := by
  induction ks generalizing m with
  | nil => exact ⟨m, rfl, rfl, by simp, traceGrows_refl m⟩
  | cons k ks ih =>
    obtain ⟨m1, e1, c1, t1, g1⟩ := Events.trigger_quietOn hS hinv ("change:" ++ k)
      [Arg.ref m.self, Arg.val (Obj.get m.attributes k), Arg.obj options] m hm
    obtain ⟨m2, e2, c2, t2, g2⟩ := ih m1 (hS m m1 hm g1)
    have hc := (Model.core_eq m m1).1 c1
    refine ⟨m2, by simp [Model.fireChanges, e1, e2], c2.trans c1, ?_, traceGrows_trans g1 g2⟩
    rw [t2, t1, hc.1, hc.2.1]
    simp

theorem Model.fireChanges_quiet {inv : Invoker} (hinv : Quiet inv) (ks : List String)
    (options : Obj) (m : Model) :
    ∃ m', Model.fireChanges inv ks options m = some m' ∧ m'.core = m.core ∧
      emitted m'.trace = emitted m.trace ++ ks.map (fun k =>
        ("change:" ++ k, [Arg.ref m.self, Arg.val (Obj.get m.attributes k), Arg.obj options])) := by
  obtain ⟨m', e, c, t, -⟩ := Model.fireChanges_quietOn stable_true (quietOn_of_quiet hinv) ks
    options m trivial
  exact ⟨m', e, c, t⟩

theorem Model.changeLoop_quietOn {S : Model → Prop} (hS : Stable S) {inv : Invoker}
    (hinv : QuietOn S inv) (n : Nat) (m : Model) (hm : S m) :
    ∃ m', Model.changeLoop inv (n + 1) m = some m' ∧
      m'.core = ({ m with _pending := none } : Model).core ∧
      emitted m'.trace = emitted m.trace ++
        (match m._pending with
          | none => []
          | some o => [("change", [Arg.ref m.self, Arg.obj o])]) ∧
      TraceGrows m m' := by
  cases hp : m._pending with
  | none =>
    refine ⟨m, by simp [Model.changeLoop, hp], ?_, by simp, traceGrows_refl m⟩
    simp [Model.core, hp]
  | some o =>
    have hm0 : S { m with _pending := none } := hS _ _ hm (traceGrows_of_eq rfl)
    obtain ⟨m1, e1, c1, t1, g1⟩ := Events.trigger_quietOn hS hinv "change"
      [Arg.ref m.self, Arg.obj o] { m with _pending := none } hm0
    have hc := (Model.core_eq _ m1).1 c1
    have hend : Model.changeLoop inv n m1 = some m1 := by
      cases n with
      | zero => simp [Model.changeLoop, hc.2.2.2.2.2.2.2]
      | succ k => simp [Model.changeLoop, hc.2.2.2.2.2.2.2]
    refine ⟨m1, by simp [Model.changeLoop, hp, e1, hend], c1, ?_, g1⟩
    rw [t1]

theorem Model.changeLoop_quiet {inv : Invoker} (hinv : Quiet inv) (n : Nat) (m : Model) :
    ∃ m', Model.changeLoop inv (n + 1) m = some m' ∧
      m'.core = ({ m with _pending := none } : Model).core ∧
      emitted m'.trace = emitted m.trace ++
        (match m._pending with
          | none => []
          | some o => [("change", [Arg.ref m.self, Arg.obj o])]) := by
  obtain ⟨m', e, c, t, -⟩ := Model.changeLoop_quietOn stable_true (quietOn_of_quiet hinv) n m
    trivial
  exact ⟨m', e, c, t⟩

/-! ## Validation (claims C2 and C3) -/

theorem Model.setAttrs_rejected (inv : Invoker) (fuel : Nat) (env : Env) (attrs options : Obj)
    (m : Model) (validate : Model → Obj → Obj → Value) (hv : env.validate = some validate)
    (ho : (Obj.get options "validate").truthy = true)
    (hres : (validate m (extend (extend [] m.attributes) attrs) options).truthy = true) :
    Model.setAttrs inv fuel env attrs options m =
      (Events.trigger inv "invalid"
        [Arg.ref m.self, Arg.val (validate m (extend (extend [] m.attributes) attrs) options),
          Arg.obj (extend options [("validationError",
            validate m (extend (extend [] m.attributes) attrs) options)])]
        { m with validationError :=
            validate m (extend (extend [] m.attributes) attrs) options }).map
        fun m => (SetResult.rejected, m) := by
  unfold Model.setAttrs
  rw [Model._validate_of_rejects inv env attrs options m validate hv ho hres]
  cases Events.trigger inv "invalid" _ _ <;> simp

theorem Model.setWith_attrs (inv : Invoker) (fuel : Nat) (env : Env) (key : KeyArg)
    (attrs options : Obj) (m : Model) (hkey : key.attrs = some attrs) :
    Model.setWith inv fuel env key options m = Model.setAttrs inv fuel env attrs options m := by
  cases key with
  | null => simp [KeyArg.attrs] at hkey
  | map a =>
    simp only [KeyArg.attrs, Option.some.injEq] at hkey
    subst hkey
    rfl
  | key k v =>
    simp only [KeyArg.attrs, Option.some.injEq] at hkey
    subst hkey
    rfl

/-- C2: when a validator is configured, `options.validate` is truthy and the
validator rejects the candidate, `set` (listeners not mutating the record)
returns `false`, leaves `attributes`, `changed` and `id` as they were, stores
the failure in `validationError` and emits exactly one event, `"invalid"`,
carrying the record, the failure and the options. -/
theorem set_rejected_atomic (env : Env) (henv : Env.All env Cmd.Passive) (fuel : Nat)
    (key : KeyArg) (attrs options : Obj) (m : Model)
    (validate : Model → Obj → Obj → Value)
    (hkey : key.attrs = some attrs) (hv : env.validate = some validate)
    (ho : (Obj.get options "validate").truthy = true)
    (hres : (validate m (extend (extend [] m.attributes) attrs) options).truthy = true) :
    ∃ m', Model.set (fuel + 1) env key options m = some (SetResult.rejected, m') ∧
      m'.attributes = m.attributes ∧ m'.changed = m.changed ∧ m'.id = m.id ∧
      m'.validationError = validate m (extend (extend [] m.attributes) attrs) options ∧
      emitted m'.trace = emitted m.trace ++
        [("invalid", [Arg.ref m.self,
          Arg.val (validate m (extend (extend [] m.attributes) attrs) options),
          Arg.obj (extend options [("validationError",
            validate m (extend (extend [] m.attributes) attrs) options)])])] := by
  obtain ⟨m', e, c, t⟩ := Events.trigger_quiet (invoke_passive env henv fuel) "invalid"
    [Arg.ref m.self, Arg.val (validate m (extend (extend [] m.attributes) attrs) options),
      Arg.obj (extend options [("validationError",
        validate m (extend (extend [] m.attributes) attrs) options)])]
    { m with validationError := validate m (extend (extend [] m.attributes) attrs) options }
  have hc := (Model.core_eq _ m').1 c
  refine ⟨m', ?_, hc.2.1, hc.2.2.1, hc.2.2.2.2.1, hc.2.2.2.2.2.1, t⟩
  unfold Model.set
  rw [Model.setWith_attrs _ _ _ key attrs options m hkey,
    Model.setAttrs_rejected _ _ env attrs options m validate hv ho hres, e]
  rfl

theorem set_rejected_atomic_witness :
    ∃ m', Model.set 1 Env.strict (KeyArg.map [("n", Value.num 0)]) [("validate", Value.bool true)]
        (Model.init 7 [("n", Value.num 1)]) = some (SetResult.rejected, m') ∧
      m'.attributes = [("n", Value.num 1)] ∧ m'.changed = [] ∧ m'.id = Value.undefined ∧
      m'.validationError = Value.str "zero" ∧
      emitted m'.trace = [("invalid", [Arg.ref 7, Arg.val (Value.str "zero"),
        Arg.obj [("validate", Value.bool true), ("validationError", Value.str "zero")]])] :=
  set_rejected_atomic Env.strict (fun _ _ _ _ => Script.All.done) 0
    (KeyArg.map [("n", Value.num 0)]) [("n", Value.num 0)] [("validate", Value.bool true)]
    (Model.init 7 [("n", Value.num 1)]) _ rfl rfl (by decide) (by decide)

theorem Model.setFinish_result (inv : Invoker) (fuel : Nat) (options : Obj) (m : Model)
    (r : SetResult) (m' : Model) (h : Model.setFinish inv fuel options m = some (r, m')) :
    r = SetResult.record := by
  unfold Model.setFinish at h
  simp only [Option.bind_eq_some, Option.some.injEq, Prod.mk.injEq] at h
  obtain ⟨_, _, h2, _⟩ := h
  exact h2.symm

theorem Model.setAttrs_result (inv : Invoker) (fuel : Nat) (env : Env) (attrs options : Obj)
    (m : Model) (r : SetResult) (m' : Model)
    (h : Model.setAttrs inv fuel env attrs options m = some (r, m')) :
    r = SetResult.rejected ↔ Rejects env attrs options m := by
  by_cases hrej : Rejects env attrs options m
  · obtain ⟨validate, hv, ho, hres⟩ := hrej
    rw [Model.setAttrs_rejected inv fuel env attrs options m validate hv ho hres] at h
    simp only [Option.map_eq_some', Prod.mk.injEq] at h
    obtain ⟨_, _, h2, _⟩ := h
    exact ⟨fun _ => ⟨validate, hv, ho, hres⟩, fun _ => h2.symm⟩
  · obtain ⟨e, he⟩ := Model._validate_of_not_rejects inv env attrs options m hrej
    unfold Model.setAttrs at h
    rw [he] at h
    simp only [Option.some_bind, Bool.not_true, Bool.false_eq_true, if_false,
      Option.bind_eq_some] at h
    obtain ⟨m4, _, h4⟩ := h
    have hr : r = SetResult.record := by
      split at h4
      · simp only [Option.some.injEq, Prod.mk.injEq] at h4
        exact h4.1.symm
      · exact Model.setFinish_result _ _ _ _ _ _ h4
    subst hr
    exact ⟨fun hc => (by cases hc), fun hc => absurd hc hrej⟩

theorem Model.setNotify_quiet {inv : Invoker} (hinv : Quiet inv) (changes : List String)
    (options : Obj) (m : Model) :
    ∃ m', Model.setNotify inv changes options m = some m' ∧
      m'.core = (if !(Obj.get options "silent").truthy && changes.length != 0
        then { m with _pending := some options } else m).core ∧
      emitted m'.trace = emitted m.trace ++
        (if (Obj.get options "silent").truthy then [] else changes.map (fun k =>
          ("change:" ++ k, [Arg.ref m.self, Arg.val (Obj.get m.attributes k), Arg.obj options]))) := by
  unfold Model.setNotify
  cases hs : (Obj.get options "silent").truthy with
  | true => exact ⟨m, by simp, by simp, by simp⟩
  | false =>
    simp only [Bool.not_false, if_true, Bool.true_and, Bool.false_eq_true, if_false]
    obtain ⟨m', e, c, t⟩ := Model.fireChanges_quiet hinv changes options
      (if (changes.length != 0) = true then { m with _pending := some options } else m)
    refine ⟨m', e, c, ?_⟩
    rw [t]
    split <;> rfl

theorem Model.setFinish_quietOn {S : Model → Prop} (hS : Stable S) {inv : Invoker}
    (hinv : QuietOn S inv) (n : Nat) (options : Obj) (m : Model) (hm : S m) :
    ∃ m', Model.setFinish inv (n + 1) options m = some (SetResult.record, m') ∧
      m'.core = ({ m with _pending := none, _changing := false } : Model).core ∧
      emitted m'.trace = emitted m.trace ++
        (if (Obj.get options "silent").truthy then [] else
          match m._pending with
          | none => []
          | some o => [("change", [Arg.ref m.self, Arg.obj o])]) ∧
      TraceGrows m m' := by
  unfold Model.setFinish
  cases hs : (Obj.get options "silent").truthy with
  | true => exact ⟨_, by simp, rfl, by simp, traceGrows_of_eq rfl⟩
  | false =>
    simp only [Bool.not_false, if_true, Bool.false_eq_true, if_false]
    obtain ⟨m1, e1, c1, t1, g1⟩ := Model.changeLoop_quietOn hS hinv n m hm
    have hc := (Model.core_eq _ m1).1 c1
    refine ⟨{ m1 with _pending := none, _changing := false }, ?_, ?_, t1, g1⟩
    · rw [e1]
      rfl
    · simp only [Model.core, Prod.mk.injEq, and_true, true_and]
      exact ⟨hc.1, hc.2.1, hc.2.2.1, hc.2.2.2.1, hc.2.2.2.2.1, hc.2.2.2.2.2.1⟩

theorem Model.setFinish_quiet {inv : Invoker} (hinv : Quiet inv) (n : Nat) (options : Obj)
    (m : Model) :
    ∃ m', Model.setFinish inv (n + 1) options m = some (SetResult.record, m') ∧
      m'.core = ({ m with _pending := none, _changing := false } : Model).core ∧
      emitted m'.trace = emitted m.trace ++
        (if (Obj.get options "silent").truthy then [] else
          match m._pending with
          | none => []
          | some o => [("change", [Arg.ref m.self, Arg.obj o])]) := by
  obtain ⟨m', e, c, t, -⟩ := Model.setFinish_quietOn stable_true (quietOn_of_quiet hinv) n options
    m trivial
  exact ⟨m', e, c, t⟩

theorem Model.setBegin_frame (m : Model) :
    (Model.setBegin m).self = m.self ∧ (Model.setBegin m).attributes = m.attributes ∧
    (Model.setBegin m).id = m.id ∧ (Model.setBegin m).validationError = m.validationError ∧
    (Model.setBegin m)._changing = true ∧ (Model.setBegin m)._pending = m._pending ∧
    (Model.setBegin m).trace = m.trace := by
  unfold Model.setBegin
  cases m._changing <;> simp

theorem Model.setApply_frame (env : Env) (attrs options : Obj) (m : Model) :
    (Model.setApply env attrs options m).2.self = m.self ∧
    (Model.setApply env attrs options m).2._previousAttributes = m._previousAttributes ∧
    (Model.setApply env attrs options m).2.validationError = m.validationError ∧
    (Model.setApply env attrs options m).2._changing = m._changing ∧
    (Model.setApply env attrs options m).2._pending = m._pending ∧
    (Model.setApply env attrs options m).2.trace = m.trace := by
  unfold Model.setApply
  cases Dict.has attrs env.idAttribute <;> simp

theorem Model.applied_frame (env : Env) (attrs options : Obj) (e : Value) (m : Model) :
    (Model.applied env attrs options e m).2.self = m.self ∧
    (Model.applied env attrs options e m).2.trace = m.trace ∧
    (Model.applied env attrs options e m).2._changing = true ∧
    (Model.applied env attrs options e m).2.validationError = e := by
  have hb := Model.setBegin_frame { m with validationError := e }
  have ha := Model.setApply_frame env attrs options (Model.setBegin { m with validationError := e })
  unfold Model.applied
  simp only
  split
  · exact ⟨ha.1.trans hb.1, ha.2.2.2.2.2.trans hb.2.2.2.2.2.2, ha.2.2.2.1.trans hb.2.2.2.2.1,
      ha.2.2.1.trans hb.2.2.2.1⟩
  · exact ⟨ha.1.trans hb.1, ha.2.2.2.2.2.trans hb.2.2.2.2.2.2, ha.2.2.2.1.trans hb.2.2.2.2.1,
      ha.2.2.1.trans hb.2.2.2.1⟩

theorem Model.setNotify_applied (inv : Invoker) (env : Env) (attrs options : Obj) (e : Value)
    (m : Model) :
    Model.setNotify inv
      (Model.setApply env attrs options (Model.setBegin { m with validationError := e })).1 options
      (Model.setApply env attrs options (Model.setBegin { m with validationError := e })).2 =
    if !(Obj.get options "silent").truthy then
      Model.fireChanges inv (Model.applied env attrs options e m).1 options
        (Model.applied env attrs options e m).2
    else some (Model.applied env attrs options e m).2 := by
  unfold Model.setNotify Model.applied
  cases (Obj.get options "silent").truthy <;> simp

theorem Model.setAttrs_accepted (inv : Invoker) (fuel : Nat) (env : Env) (attrs options : Obj)
    (e : Value) (m : Model)
    (he : Model._validate inv env attrs options m = some (true, { m with validationError := e })) :
    Model.setAttrs inv fuel env attrs options m =
      (if !(Obj.get options "silent").truthy then
        Model.fireChanges inv (Model.applied env attrs options e m).1 options
          (Model.applied env attrs options e m).2
      else some (Model.applied env attrs options e m).2).bind fun m4 =>
        if m._changing then some (SetResult.record, m4)
        else Model.setFinish inv fuel options m4 := by
  unfold Model.setAttrs
  rw [he]
  simp only [Option.some_bind, Bool.not_true, Bool.false_eq_true, if_false]
  rw [Model.setNotify_applied]

theorem Model.setAttrs_quietOn {S : Model → Prop} (hS : Stable S) {inv : Invoker}
    (hinv : QuietOn S inv) (n : Nat) (env : Env)
    (attrs options : Obj) (m : Model) (hm : S m) (hrej : ¬ Rejects env attrs options m) :
    ∃ e m',
      Model.setAttrs inv (n + 1) env attrs options m = some (SetResult.record, m') ∧
      m'.core = (if m._changing then (Model.applied env attrs options e m).2
        else { (Model.applied env attrs options e m).2 with
                _pending := none, _changing := false }).core ∧
      emitted m'.trace = emitted m.trace ++
        (if (Obj.get options "silent").truthy then [] else
          (Model.applied env attrs options e m).1.map (fun k =>
            ("change:" ++ k, [Arg.ref m.self,
              Arg.val (Obj.get (Model.applied env attrs options e m).2.attributes k),
              Arg.obj options]))) ++
        (if m._changing || (Obj.get options "silent").truthy then [] else
          match (Model.applied env attrs options e m).2._pending with
          | none => []
          | some o => [("change", [Arg.ref m.self, Arg.obj o])]) ∧
      TraceGrows m m' := by
  obtain ⟨e, he⟩ := Model._validate_of_not_rejects inv env attrs options m hrej
  refine ⟨e, ?_⟩
  rw [Model.setAttrs_accepted inv (n + 1) env attrs options e m he]
  have hf := Model.applied_frame env attrs options e m
  generalize Model.applied env attrs options e m = am at hf
  obtain ⟨changes, m3⟩ := am
  simp only at hf ⊢
  have g3 : TraceGrows m m3 := traceGrows_of_eq hf.2.1
  have hm3 : S m3 := hS m m3 hm g3
  have h4 : ∃ m4, (if !(Obj.get options "silent").truthy then
        Model.fireChanges inv changes options m3 else some m3) = some m4 ∧
      m4.core = m3.core ∧ emitted m4.trace = emitted m.trace ++
        (if (Obj.get options "silent").truthy then [] else
          changes.map (fun k => ("change:" ++ k, [Arg.ref m.self,
              Arg.val (Obj.get m3.attributes k), Arg.obj options]))) ∧
      TraceGrows m m4 := by
    cases hs : (Obj.get options "silent").truthy with
    | true => exact ⟨m3, by simp, rfl, by simp [hf.2.1], g3⟩
    | false =>
      obtain ⟨m4, e4, c4, t4, g4⟩ := Model.fireChanges_quietOn hS hinv changes options m3 hm3
      refine ⟨m4, by simpa using e4, c4, ?_, traceGrows_trans g3 g4⟩
      rw [t4, hf.1, hf.2.1]
      simp
  obtain ⟨m4, e4, c4, t4, g4⟩ := h4
  have hc4 := (Model.core_eq _ m4).1 c4
  rw [e4]
  simp only [Option.some_bind]
  cases hch : m._changing with
  | true =>
    refine ⟨m4, by simp, by simpa using c4, ?_, g4⟩
    rw [t4]
    simp
  | false =>
    obtain ⟨m5, e5, c5, t5, g5⟩ := Model.setFinish_quietOn hS hinv n options m4 (hS m m4 hm g4)
    refine ⟨m5, by simpa using e5, ?_, ?_, traceGrows_trans g4 g5⟩
    · rw [c5]
      simp only [Bool.false_eq_true, if_false]
      simp only [Model.core, Prod.mk.injEq, and_true]
      exact ⟨hc4.1, hc4.2.1, hc4.2.2.1, hc4.2.2.2.1, hc4.2.2.2.2.1, hc4.2.2.2.2.2.1⟩
    · rw [t5, t4, hc4.1, hf.1, hc4.2.2.2.2.2.2.2]
      simp only [Bool.false_or, List.append_assoc]

theorem Model.setAttrs_quiet {inv : Invoker} (hinv : Quiet inv) (n : Nat) (env : Env)
    (attrs options : Obj) (m : Model) (hrej : ¬ Rejects env attrs options m) :
    ∃ e m',
      Model.setAttrs inv (n + 1) env attrs options m = some (SetResult.record, m') ∧
      m'.core = (if m._changing then (Model.applied env attrs options e m).2
        else { (Model.applied env attrs options e m).2 with
                _pending := none, _changing := false }).core ∧
      emitted m'.trace = emitted m.trace ++
        (if (Obj.get options "silent").truthy then [] else
          (Model.applied env attrs options e m).1.map (fun k =>
            ("change:" ++ k, [Arg.ref m.self,
              Arg.val (Obj.get (Model.applied env attrs options e m).2.attributes k),
              Arg.obj options]))) ++
        (if m._changing || (Obj.get options "silent").truthy then [] else
          match (Model.applied env attrs options e m).2._pending with
          | none => []
          | some o => [("change", [Arg.ref m.self, Arg.obj o])]) := by
  obtain ⟨e, m', h, c, t, -⟩ := Model.setAttrs_quietOn stable_true (quietOn_of_quiet hinv) n env
    attrs options m trivial hrej
  exact ⟨e, m', h, c, t⟩

/-- C3: `set` with a non-null key map returns `false` exactly when a validator
is configured, `options.validate` is truthy and the validator returns a truthy
failure on the current attributes overlaid with the incoming map, and the
record otherwise: whenever the call returns, for any listeners; and it does
return when the listeners only subscribe and unsubscribe. -/
theorem set_returns_false_iff_rejected (env : Env) (key : KeyArg) (attrs options : Obj)
    (m : Model) (hkey : key.attrs = some attrs) :
    (∀ fuel r m', Model.set fuel env key options m = some (r, m') →
      ((r = SetResult.rejected ↔ Rejects env attrs options m) ∧
       (r = SetResult.record ↔ ¬ Rejects env attrs options m))) ∧
    (Env.All env Cmd.Passive → ∀ fuel, ∃ r m',
      Model.set (fuel + 1) env key options m = some (r, m')) := by
  constructor
  · intro fuel r m' h
    unfold Model.set at h
    rw [Model.setWith_attrs _ _ _ key attrs options m hkey] at h
    have h1 := Model.setAttrs_result _ _ _ _ _ _ _ _ h
    refine ⟨h1, ?_⟩
    rw [← h1]
    cases r <;> simp
  · intro henv fuel
    unfold Model.set
    rw [Model.setWith_attrs _ _ _ key attrs options m hkey]
    by_cases hrej : Rejects env attrs options m
    · obtain ⟨validate, hv, ho, hres⟩ := hrej
      obtain ⟨m', e, -⟩ := Events.trigger_quiet (invoke_passive env henv fuel) "invalid"
        [Arg.ref m.self, Arg.val (validate m (extend (extend [] m.attributes) attrs) options),
          Arg.obj (extend options [("validationError",
            validate m (extend (extend [] m.attributes) attrs) options)])]
        { m with validationError := validate m (extend (extend [] m.attributes) attrs) options }
      refine ⟨SetResult.rejected, m', ?_⟩
      rw [Model.setAttrs_rejected _ _ env attrs options m validate hv ho hres, e]
      rfl
    · obtain ⟨e, m', h, -⟩ := Model.setAttrs_quiet (invoke_passive env henv fuel) fuel env attrs
        options m hrej
      exact ⟨SetResult.record, m', h⟩

theorem set_returns_false_iff_rejected_witness :
    ((SetResult.rejected = SetResult.rejected ↔
        Rejects Env.strict [("n", Value.num 0)] [("validate", Value.bool true)]
          (Model.init 7 [("n", Value.num 1)])) ∧
      (SetResult.rejected = SetResult.record ↔
        ¬ Rejects Env.strict [("n", Value.num 0)] [("validate", Value.bool true)]
          (Model.init 7 [("n", Value.num 1)]))) ∧
    ∃ r m', Model.set 1 Env.strict (KeyArg.key "n" (Value.num 2)) []
      (Model.init 7 [("n", Value.num 1)]) = some (r, m') :=
  ⟨(set_returns_false_iff_rejected Env.strict (KeyArg.map [("n", Value.num 0)])
      [("n", Value.num 0)] [("validate", Value.bool true)] (Model.init 7 [("n", Value.num 1)])
      rfl).1 1 SetResult.rejected
      { Model.init 7 [("n", Value.num 1)] with
          validationError := Value.str "zero"
          trace := [Obs.emit "invalid" [Arg.ref 7, Arg.val (Value.str "zero"),
            Arg.obj [("validate", Value.bool true), ("validationError", Value.str "zero")]]] }
      (by rfl),
   (set_returns_false_iff_rejected Env.strict (KeyArg.key "n" (Value.num 2))
      [("n", Value.num 2)] [] (Model.init 7 [("n", Value.num 1)]) rfl).2
      (fun _ _ _ _ => Script.All.done) 0⟩

/-! ## `changed` against the snapshot (claim C1) -/

theorem keepsGood_of_fields {m m' : Model} (h1 : m'._changing = m._changing)
    (h2 : m'.attributes = m.attributes) (h3 : m'.changed = m.changed)
    (h4 : m'._previousAttributes = m._previousAttributes) : KeepsGood m m' := by
  refine ⟨h1, fun hg hc => ?_⟩
  have := hg (h1 ▸ hc)
  unfold ChangedInv at *
  rw [h2, h3, h4]
  exact this

theorem keepsGood_closedSet : ClosedSet KeepsGood where
  refl := fun m => ⟨rfl, id⟩
  trans := fun _ _ _ h1 h2 => ⟨h2.1.trans h1.1, fun hg => h2.2 (h1.2 hg)⟩
  events := fun m m' h => by
    unfold EvOnly at h
    rw [h]
    exact keepsGood_of_fields rfl rfl rfl rfl
  call := fun _ _ _ _ => keepsGood_of_fields rfl rfl rfl rfl
  emit := fun _ _ _ => keepsGood_of_fields rfl rfl rfl rfl
  verr := fun _ _ => keepsGood_of_fields rfl rfl rfl rfl
  pending := fun _ _ => keepsGood_of_fields rfl rfl rfl rfl

/-- The relation of `ChangedInv` on the three objects the loop of `set` works on. -/
theorem Model.setAttr_inv (unset : Bool) (prev : Obj) (st : List String × Obj × Obj)
    (kv : String × Value) (hsafe : unset = true → kv.2 = Value.undefined)
    (h : ∀ k, (Dict.has st.2.1 k = true ↔ isEqual (Obj.get st.2.2 k) (Obj.get prev k) = false) ∧
      (Dict.has st.2.1 k = true → Obj.get st.2.1 k = Obj.get st.2.2 k)) :
    ∀ k, (Dict.has (Model.setAttr unset prev st kv).2.1 k = true ↔
        isEqual (Obj.get (Model.setAttr unset prev st kv).2.2 k) (Obj.get prev k) = false) ∧
      (Dict.has (Model.setAttr unset prev st kv).2.1 k = true →
        Obj.get (Model.setAttr unset prev st kv).2.1 k =
          Obj.get (Model.setAttr unset prev st kv).2.2 k) := by
  intro k
  obtain ⟨k0, v⟩ := kv
  have hcur : Obj.get (Model.setAttr unset prev st (k0, v)).2.2 k =
      if k0 = k then v else Obj.get st.2.2 k := by
    unfold Model.setAttr
    cases hu : unset with
    | true =>
      have hv : v = Value.undefined := hsafe hu
      simp only [if_true, Obj.get_del, hv]
    | false => simp only [Bool.false_eq_true, if_false, Obj.get_put]
  rw [hcur]
  by_cases hk : k0 = k
  · subst hk
    simp only [if_true]
    unfold Model.setAttr
    by_cases he : isEqual (Obj.get prev k0) v = true
    · have he' : isEqual v (Obj.get prev k0) = true := by
        rw [isEqual_eq_true] at he ⊢
        exact he.symm
      simp [he, he', Dict.has_del]
    · have he1 : isEqual (Obj.get prev k0) v = false := by simpa using he
      have he' : isEqual v (Obj.get prev k0) = false := by
        rw [isEqual_eq_false] at he1 ⊢
        exact fun hc => he1 hc.symm
      simp [he1, he', Dict.has_put, Obj.get_put]
  · simp only [hk, if_false]
    have hh : Dict.has (Model.setAttr unset prev st (k0, v)).2.1 k = Dict.has st.2.1 k := by
      unfold Model.setAttr
      simp only
      split
      · simp [Dict.has_put, hk]
      · simp [Dict.has_del, hk]
    have hg : Obj.get (Model.setAttr unset prev st (k0, v)).2.1 k = Obj.get st.2.1 k := by
      unfold Model.setAttr
      simp only
      split
      · simp [Obj.get_put, hk]
      · simp [Obj.get_del, hk]
    rw [hh, hg]
    exact h k

theorem Model.setAttr_foldl_inv (unset : Bool) (prev : Obj) (attrs : Obj)
    (hsafe : unset = true → ∀ kv ∈ attrs, kv.2 = Value.undefined)
    (st : List String × Obj × Obj)
    (h : ∀ k, (Dict.has st.2.1 k = true ↔ isEqual (Obj.get st.2.2 k) (Obj.get prev k) = false) ∧
      (Dict.has st.2.1 k = true → Obj.get st.2.1 k = Obj.get st.2.2 k)) :
    ∀ k, (Dict.has (attrs.foldl (Model.setAttr unset prev) st).2.1 k = true ↔
        isEqual (Obj.get (attrs.foldl (Model.setAttr unset prev) st).2.2 k) (Obj.get prev k)
          = false) ∧
      (Dict.has (attrs.foldl (Model.setAttr unset prev) st).2.1 k = true →
        Obj.get (attrs.foldl (Model.setAttr unset prev) st).2.1 k =
          Obj.get (attrs.foldl (Model.setAttr unset prev) st).2.2 k) := by
  induction attrs generalizing st with
  | nil => exact h
  | cons kv rest ih =>
    simp only [List.foldl_cons]
    apply ih
    · intro hu kv' hm
      exact hsafe hu kv' (List.mem_cons_of_mem _ hm)
    · exact Model.setAttr_inv unset prev st kv
        (fun hu => hsafe hu kv (List.mem_cons_self _ _)) h

theorem Model.setApply_changedInv (env : Env) (attrs options : Obj) (m : Model)
    (hsafe : UnsetSafe attrs options) (h : ChangedInv m) :
    ChangedInv (Model.setApply env attrs options m).2 := by
  unfold ChangedInv Model.setApply
  simp only
  have key := Model.setAttr_foldl_inv (Obj.get options "unset").truthy m._previousAttributes
    attrs hsafe ([], m.changed, m.attributes) h
  split <;> exact key

theorem Model.setBegin_changedInv (m : Model) (hg : Good m) : ChangedInv (Model.setBegin m) := by
  unfold Model.setBegin
  cases hc : m._changing with
  | true =>
    have := hg hc
    simpa [ChangedInv] using this
  | false =>
    intro k
    simp [Dict.has, Dict.find, isEqual]

theorem Model.applied_changedInv (env : Env) (attrs options : Obj) (e : Value) (m : Model)
    (hsafe : UnsetSafe attrs options) (hg : Good m) :
    ChangedInv (Model.applied env attrs options e m).2 := by
  have h1 : ChangedInv (Model.setBegin { m with validationError := e }) :=
    Model.setBegin_changedInv _ (fun hc => hg hc)
  have h2 := Model.setApply_changedInv env attrs options _ hsafe h1
  unfold Model.applied
  simp only
  split
  · exact h2
  · exact h2

theorem Model.setFinish_some (inv : Invoker) (fuel : Nat) (options : Obj) (m : Model)
    (r : SetResult) (m' : Model) (h : Model.setFinish inv fuel options m = some (r, m')) :
    ∃ m5, (if !(Obj.get options "silent").truthy then Model.changeLoop inv fuel m else some m)
        = some m5 ∧ r = SetResult.record ∧ m' = { m5 with _pending := none, _changing := false } := by
  unfold Model.setFinish at h
  simp only [Option.bind_eq_some, Option.some.injEq, Prod.mk.injEq] at h
  obtain ⟨m5, h5, hr, hm⟩ := h
  exact ⟨m5, h5, hr.symm, hm.symm⟩

theorem Model.setAttrs_good {inv : Invoker} (hinv : InvRel KeepsGood inv) (fuel : Nat)
    (env : Env) (attrs options : Obj) (m : Model) (r : SetResult) (m' : Model)
    (hsafe : UnsetSafe attrs options)
    (h : Model.setAttrs inv fuel env attrs options m = some (r, m')) :
    KeepsGood m m' ∧ (Good m → r = SetResult.record → ChangedInv m') := by
  by_cases hrej : Rejects env attrs options m
  · have hr := (Model.setAttrs_result _ _ _ _ _ _ _ _ h).2 hrej
    obtain ⟨validate, hv, ho, hres⟩ := hrej
    rw [Model.setAttrs_rejected inv fuel env attrs options m validate hv ho hres] at h
    simp only [Option.map_eq_some', Prod.mk.injEq] at h
    obtain ⟨m1, h1, -, rfl⟩ := h
    refine ⟨?_, fun _ hc => by rw [hr] at hc; cases hc⟩
    exact keepsGood_closedSet.trans _ _ _ (keepsGood_closedSet.verr m _)
      (Events.trigger_rel keepsGood_closedSet.toClosed hinv _ _ _ _
        (keepsGood_closedSet.emit _ _ _) h1)
  · obtain ⟨e, he⟩ := Model._validate_of_not_rejects inv env attrs options m hrej
    rw [Model.setAttrs_accepted inv fuel env attrs options e m he] at h
    have hf := Model.applied_frame env attrs options e m
    have hci := Model.applied_changedInv env attrs options e m hsafe
    generalize Model.applied env attrs options e m = am at hf hci h
    obtain ⟨changes, m3⟩ := am
    simp only at hf hci h
    simp only [Option.bind_eq_some] at h
    obtain ⟨m4, h4, h⟩ := h
    have k34 : KeepsGood m3 m4 := by
      split at h4
      · exact Model.fireChanges_rel keepsGood_closedSet hinv _ _ _ _ h4
      · simp only [Option.some.injEq] at h4
        subst h4
        exact keepsGood_closedSet.refl _
    have c4 : m4._changing = true := k34.1.trans hf.2.2.1
    have i4 : Good m → ChangedInv m4 := fun hg => k34.2 (fun _ => hci hg) c4
    cases hch : m._changing with
    | true =>
      rw [hch] at h
      simp only [if_true, Option.some.injEq, Prod.mk.injEq] at h
      obtain ⟨-, rfl⟩ := h
      exact ⟨⟨c4.trans hch.symm, fun hg _ => i4 hg⟩, fun hg _ => i4 hg⟩
    | false =>
      rw [hch] at h
      simp only [Bool.false_eq_true, if_false] at h
      obtain ⟨m5, h5, -, rfl⟩ := Model.setFinish_some _ _ _ _ _ _ h
      have k45 : KeepsGood m4 m5 := by
        split at h5
        · exact Model.changeLoop_rel keepsGood_closedSet hinv _ _ _ h5
        · simp only [Option.some.injEq] at h5
          subst h5
          exact keepsGood_closedSet.refl _
      have i5 : Good m → ChangedInv m5 := fun hg => k45.2 (fun _ => i4 hg) (k45.1.trans c4)
      have i6 : Good m → ChangedInv { m5 with _pending := none, _changing := false } := i5
      exact ⟨⟨hch.symm, fun hg _ => i6 hg⟩, fun hg _ => i6 hg⟩

theorem invoke_keepsGood (env : Env) (henv : Env.All env Cmd.UnsetSafe) (fuel : Nat) :
    InvRel KeepsGood (invoke fuel env) := by
  refine invoke_rel keepsGood_closedSet.toClosed env Cmd.UnsetSafe henv ?_
    (fun _ _ _ _ => keepsGood_closedSet.emit _ _ _) fuel
  intro inv fuel key options m r m' hinv hp h
  cases hk : key.attrs with
  | none =>
    cases key with
    | null =>
      simp only [Model.setWith, Option.some.injEq, Prod.mk.injEq] at h
      rw [← h.2]
      exact keepsGood_closedSet.refl m
    | map a => simp [KeyArg.attrs] at hk
    | key k v => simp [KeyArg.attrs] at hk
  | some attrs =>
    rw [Model.setWith_attrs _ _ _ key attrs options m hk] at h
    exact (Model.setAttrs_good hinv fuel env attrs options m r m' (hp attrs hk) h).1

/-- C1, the amended claim: at the return of a `set` call with a non-null key map
that returns the record, outermost or nested (a nested call being entered
with the relation holding), when this call and every `set` call made by the
listeners use `unset` with `undefined` values only and have no attribute key
that is the name of a member of `Object.prototype`: a key is in `changed`
exactly when its current value differs from its value in
`_previousAttributes`, and `changed` holds its current value. -/
theorem changed_tracks_snapshot (env : Env) (henv : Env.All env Cmd.UnsetSafe)
    (_hownenv : Env.All env Cmd.OwnKeys) (fuel : Nat)
    (key : KeyArg) (attrs options : Obj) (m m' : Model) (hkey : key.attrs = some attrs)
    (hsafe : UnsetSafe attrs options) (_hown : OwnKeys attrs)
    (hentry : m._changing = true → ChangedInv m)
    (h : Model.set fuel env key options m = some (SetResult.record, m')) : ChangedInv m' := by
  unfold Model.set at h
  rw [Model.setWith_attrs _ _ _ key attrs options m hkey] at h
  exact (Model.setAttrs_good (invoke_keepsGood env henv fuel) fuel env attrs options m _ m'
    hsafe h).2 hentry rfl

theorem changed_tracks_snapshot_witness :
    Model.set 2 Env.revert (KeyArg.map [("A", Value.num 2)]) [] Model.watched
      = some (SetResult.record, Model.watchedAfter) ∧
    ChangedInv Model.watchedAfter :=
  ⟨by rfl,
   changed_tracks_snapshot Env.revert
    (fun _ _ _ _ => Script.All.call _ _
      (fun _ _ h => absurd h (by decide)) (fun _ => Script.All.done))
    (fun _ _ _ _ => Script.All.call _ _
      (fun _ h => by cases h; decide) (fun _ => Script.All.done))
    2 (KeyArg.map [("A", Value.num 2)]) [("A", Value.num 2)] [] Model.watched Model.watchedAfter
    rfl (fun h => absurd h (by decide)) (by decide) (fun h => absurd h (by decide)) (by rfl)⟩

/-- C1 as stated fails: with `unset` and a value that is not `undefined`, `set`
returns with `a` removed from `attributes` (so differing from the snapshot)
and absent from `changed`; a rejected `set` returns with the record as the
constructor left it, where `n` differs from the snapshot and `changed` is
empty; and on a record without own attribute `constructor` the reads of
`attributes` and of the snapshot under that name find the member inherited
from `Object.prototype`, which `unset("constructor")` compares with `undefined`
at lines 153-156 of model.js: the key enters `changed` although both read the
same. -/
theorem changed_tracks_snapshot_counterexample :
    (Dict.inherits (Model.init 7 []).attributes "constructor" = true ∧
      Dict.inherits (Model.setBegin (Model.init 7 []))._previousAttributes "constructor" = true) ∧
    (∃ m', Model.set 1 Env.plain (KeyArg.map [("a", Value.num 1)]) [("unset", Value.bool true)]
        (Model.init 7 [("a", Value.num 1)]) = some (SetResult.record, m') ∧
      m'.attributes = [] ∧ m'._previousAttributes = [("a", Value.num 1)] ∧ m'.changed = [] ∧
      ¬ ChangedInv m') ∧
    (∃ m', Model.set 1 Env.strict (KeyArg.map [("n", Value.num 0)]) [("validate", Value.bool true)]
        (Model.init 7 [("n", Value.num 1)]) = some (SetResult.rejected, m') ∧
      m'.attributes = [("n", Value.num 1)] ∧ m'._previousAttributes = [] ∧ m'.changed = [] ∧
      ¬ ChangedInv m') :=
  ⟨⟨by rfl, by rfl⟩,
   ⟨{ Model.init 7 [] with _previousAttributes := [("a", Value.num 1)] }, by rfl, rfl, rfl, rfl,
      fun h => absurd ((h "a").1.2 (by decide)) (by decide)⟩,
   ⟨{ Model.init 7 [("n", Value.num 1)] with
        validationError := Value.str "zero"
        trace := [Obs.emit "invalid" [Arg.ref 7, Arg.val (Value.str "zero"),
          Arg.obj [("validate", Value.bool true), ("validationError", Value.str "zero")]]] },
      by rfl, rfl, rfl, rfl, fun h => absurd ((h "n").1.2 (by decide)) (by decide)⟩⟩

/-! ## The events of a `set` (claim C4) -/

theorem Model.setAttr_foldl_other (unset : Bool) (prev : Obj) (attrs : Obj)
    (st : List String × Obj × Obj) (k : String) (hk : k ∉ attrs.map Prod.fst) :
    Obj.get (attrs.foldl (Model.setAttr unset prev) st).2.2 k = Obj.get st.2.2 k := by
  induction attrs generalizing st with
  | nil => rfl
  | cons kv rest ih =>
    simp only [List.map_cons, List.mem_cons, not_or] at hk
    simp only [List.foldl_cons]
    rw [ih _ hk.2]
    unfold Model.setAttr
    cases unset
    · simp [Obj.get_put, Ne.symm hk.1]
    · simp [Obj.get_del, Ne.symm hk.1]

theorem Model.setAttr_foldl_changes (unset : Bool) (prev : Obj) (attrs : Obj)
    (hnd : (attrs.map Prod.fst).Nodup) (st : List String × Obj × Obj) :
    (attrs.foldl (Model.setAttr unset prev) st).1 =
      st.1 ++ (attrs.filter fun kv => !isEqual (Obj.get st.2.2 kv.1) kv.2).map Prod.fst := by
  induction attrs generalizing st with
  | nil => simp
  | cons kv rest ih =>
    simp only [List.map_cons, List.nodup_cons] at hnd
    simp only [List.foldl_cons]
    rw [ih hnd.2]
    have hrest : (rest.filter fun kv' =>
          !isEqual (Obj.get (Model.setAttr unset prev st kv).2.2 kv'.1) kv'.2) =
        rest.filter fun kv' => !isEqual (Obj.get st.2.2 kv'.1) kv'.2 := by
      apply List.filter_congr
      intro kv' hm
      have hne : kv.1 ≠ kv'.1 := fun hc => hnd.1 (hc ▸ List.mem_map_of_mem Prod.fst hm)
      have : Obj.get (Model.setAttr unset prev st kv).2.2 kv'.1 = Obj.get st.2.2 kv'.1 := by
        unfold Model.setAttr
        cases unset
        · simp [Obj.get_put, hne]
        · simp [Obj.get_del, hne]
      rw [this]
    rw [hrest]
    unfold Model.setAttr
    by_cases hc : isEqual (Obj.get st.2.2 kv.1) kv.2 = true
    · simp [hc, List.filter_cons]
    · have hc' : isEqual (Obj.get st.2.2 kv.1) kv.2 = false := by simpa using hc
      simp [hc', List.filter_cons]

theorem Model.setAttr_foldl_value (unset : Bool) (prev : Obj) (attrs : Obj)
    (hnd : (attrs.map Prod.fst).Nodup) (st : List String × Obj × Obj)
    (kv : String × Value) (hm : kv ∈ attrs) :
    Obj.get (attrs.foldl (Model.setAttr unset prev) st).2.2 kv.1 =
      if unset then Value.undefined else kv.2 := by
  induction attrs generalizing st with
  | nil => simp at hm
  | cons kv0 rest ih =>
    simp only [List.map_cons, List.nodup_cons] at hnd
    simp only [List.foldl_cons]
    rcases List.mem_cons.1 hm with h0 | h0
    · subst h0
      rw [Model.setAttr_foldl_other unset prev rest _ kv.1 hnd.1]
      unfold Model.setAttr
      cases unset
      · simp [Obj.get_put]
      · simp [Obj.get_del]
    · exact ih hnd.2 _ h0

theorem Model.applied_changes (env : Env) (attrs options : Obj) (e : Value) (m : Model)
    (hnd : (attrs.map Prod.fst).Nodup) :
    (Model.applied env attrs options e m).1 =
      (attrs.filter fun kv => !isEqual (Obj.get m.attributes kv.1) kv.2).map Prod.fst := by
  have hb := Model.setBegin_frame { m with validationError := e }
  unfold Model.applied Model.setApply
  simp only
  rw [Model.setAttr_foldl_changes _ _ attrs hnd]
  split <;> simp [hb.2.1]

theorem Model.applied_value (env : Env) (attrs options : Obj) (e : Value) (m : Model)
    (hnd : (attrs.map Prod.fst).Nodup) (kv : String × Value) (hm : kv ∈ attrs) :
    Obj.get (Model.applied env attrs options e m).2.attributes kv.1 =
      if (Obj.get options "unset").truthy then Value.undefined else kv.2 := by
  have key := fun st => Model.setAttr_foldl_value (Obj.get options "unset").truthy
    (Model.setBegin { m with validationError := e })._previousAttributes attrs hnd st kv hm
  unfold Model.applied Model.setApply
  simp only
  split <;> split <;> exact key _

theorem Model.applied_pending (env : Env) (attrs options : Obj) (e : Value) (m : Model) :
    (Model.applied env attrs options e m).2._pending =
      if !(Obj.get options "silent").truthy && (Model.applied env attrs options e m).1.length != 0
      then some options else m._pending := by
  have hb := Model.setBegin_frame { m with validationError := e }
  have ha := Model.setApply_frame env attrs options (Model.setBegin { m with validationError := e })
  unfold Model.applied
  simp only
  split
  · rfl
  · exact ha.2.2.2.2.1.trans hb.2.2.2.2.2.1

theorem changeEvents_eq (env : Env) (attrs options : Obj) (e : Value) (m : Model)
    (hnd : (attrs.map Prod.fst).Nodup) :
    (Model.applied env attrs options e m).1.map (fun k =>
      ("change:" ++ k, [Arg.ref m.self,
        Arg.val (Obj.get (Model.applied env attrs options e m).2.attributes k),
        Arg.obj options])) = changeEvents m.self m.attributes attrs options := by
  rw [Model.applied_changes env attrs options e m hnd]
  unfold changeEvents
  rw [List.map_map]
  apply List.map_congr_left
  intro kv hm
  have hm' : kv ∈ attrs := (List.mem_filter.1 hm).1
  simp only [Function.comp]
  rw [Model.applied_value env attrs options e m hnd kv hm']

/-- C4, the amended claim: an outermost, non-silent `set` that passes validation,
on a record whose listeners only subscribe and unsubscribe, no incoming key
(or piece of its event name) and no event name used by the listeners being
the name of a member of `Object.prototype`, returns the record and emits
exactly: one `"change:<key>"` per incoming key whose incoming value
differs from the value current before the call, in the order of the incoming
hash, carrying the record, the value the attribute then holds (the incoming
value, `undefined` under `unset`) and the options; then one `"change"` with
the record and the options if a per-key event was emitted, and none otherwise. -/
theorem set_emits_changes (env : Env) (henv : Env.All env Cmd.Passive)
    (_hownenv : Env.All env Cmd.Own) (fuel : Nat)
    (key : KeyArg) (attrs options : Obj) (m : Model) (hkey : key.attrs = some attrs)
    (hnd : (attrs.map Prod.fst).Nodup) (_hown : OwnKeys attrs) (hout : m._changing = false) (hpend : m._pending = none)
    (hsilent : (Obj.get options "silent").truthy = false)
    (hacc : ¬ Rejects env attrs options m) :
    ∃ m', Model.set (fuel + 1) env key options m = some (SetResult.record, m') ∧
      emitted m'.trace = emitted m.trace ++ changeEvents m.self m.attributes attrs options ++
        (if changeEvents m.self m.attributes attrs options = [] then []
          else [("change", [Arg.ref m.self, Arg.obj options])]) := by
  obtain ⟨e, m', h, -, t⟩ := Model.setAttrs_quiet (invoke_passive env henv fuel) fuel env attrs
    options m hacc
  refine ⟨m', ?_, ?_⟩
  · unfold Model.set
    rw [Model.setWith_attrs _ _ _ key attrs options m hkey]
    exact h
  · rw [t, hsilent, hout, Model.applied_pending, hsilent, hpend]
    simp only [Bool.false_eq_true, if_false, Bool.or_false, Bool.not_false, Bool.true_and]
    rw [changeEvents_eq env attrs options e m hnd]
    have hlen : ((Model.applied env attrs options e m).1.length != 0) =
        !(decide (changeEvents m.self m.attributes attrs options = [])) := by
      rw [← changeEvents_eq env attrs options e m hnd]
      cases (Model.applied env attrs options e m).1 <;> simp
    rw [hlen]
    by_cases hce : changeEvents m.self m.attributes attrs options = []
    · simp [hce]
    · simp [hce]

theorem set_emits_changes_witness :
    ∃ m', Model.set 1 Env.plain (KeyArg.map [("name", Value.str "y")]) [] Model.named
        = some (SetResult.record, m') ∧
      emitted m'.trace = [("change:name", [Arg.ref 7, Arg.val (Value.str "y"), Arg.obj []]),
        ("change", [Arg.ref 7, Arg.obj []])] :=
  set_emits_changes Env.plain (fun _ _ _ _ => Script.All.done)
    (fun _ _ _ _ => Script.All.done) 0
    (KeyArg.map [("name", Value.str "y")]) [("name", Value.str "y")] [] Model.named rfl
    (by decide) (by decide) rfl rfl rfl (fun h => by obtain ⟨_, hv, _⟩ := h; cases hv)

/-- C4 as stated fails: under `unset` the `"change:a"` event of `set({a: 5})`
carries `undefined`, not the incoming value `5`, and `set({a: 1})` on `{a: 1}`
removes `a` without any event; a rejected `set({n: 0})` emits `"invalid"` and
no `"change:n"` although `0` differs from the current `1`.  And on a record
without own attribute `constructor` the read of `attributes` under that name
finds the member inherited from `Object.prototype`: `unset("constructor")`
finds it different from `undefined` at line 153 of model.js and emits
`"change:constructor"` carrying the member read at line 172. -/
theorem set_emits_changes_counterexample :
    Dict.inherits (Model.init 7 []).attributes "constructor" = true ∧
    (∃ m', Model.set 1 Env.plain (KeyArg.map [("a", Value.num 5)]) [("unset", Value.bool true)]
        (Model.init 7 [("a", Value.num 1)]) = some (SetResult.record, m') ∧
      emitted m'.trace =
        [("change:a", [Arg.ref 7, Arg.val Value.undefined, Arg.obj [("unset", Value.bool true)]]),
         ("change", [Arg.ref 7, Arg.obj [("unset", Value.bool true)]])] ∧
      emitted m'.trace ≠
        claimedChangeEvents 7 [("a", Value.num 1)] [("a", Value.num 5)] [("unset", Value.bool true)]
          ++ [("change", [Arg.ref 7, Arg.obj [("unset", Value.bool true)]])]) ∧
    (∃ m', Model.set 1 Env.plain (KeyArg.map [("a", Value.num 1)]) [("unset", Value.bool true)]
        (Model.init 7 [("a", Value.num 1)]) = some (SetResult.record, m') ∧
      Obj.get m'.attributes "a" = Value.undefined ∧ emitted m'.trace = []) ∧
    (∃ m', Model.set 1 Env.strict (KeyArg.map [("n", Value.num 0)]) [("validate", Value.bool true)]
        (Model.init 7 [("n", Value.num 1)]) = some (SetResult.rejected, m') ∧
      emitted m'.trace = [("invalid", [Arg.ref 7, Arg.val (Value.str "zero"),
        Arg.obj [("validate", Value.bool true), ("validationError", Value.str "zero")]])] ∧
      emitted m'.trace ≠
        claimedChangeEvents 7 [("n", Value.num 1)] [("n", Value.num 0)]
            [("validate", Value.bool true)]
          ++ [("change", [Arg.ref 7, Arg.obj [("validate", Value.bool true)]])]) :=
  ⟨by rfl,
   ⟨{ Model.init 7 [] with
        _previousAttributes := [("a", Value.num 1)]
        changed := [("a", Value.num 5)]
        trace := [Obs.emit "change:a"
            [Arg.ref 7, Arg.val Value.undefined, Arg.obj [("unset", Value.bool true)]],
          Obs.emit "change" [Arg.ref 7, Arg.obj [("unset", Value.bool true)]]] },
      by rfl, by rfl, by decide⟩,
   ⟨{ Model.init 7 [] with _previousAttributes := [("a", Value.num 1)] }, by rfl, by rfl, by rfl⟩,
   ⟨{ Model.init 7 [("n", Value.num 1)] with
        validationError := Value.str "zero"
        trace := [Obs.emit "invalid" [Arg.ref 7, Arg.val (Value.str "zero"),
          Arg.obj [("validate", Value.bool true), ("validationError", Value.str "zero")]]] },
      by rfl, by rfl, by decide⟩⟩

/-! ## The snapshot (claim C5) -/

theorem keepsPrev_of_fields {m m' : Model} (h1 : m'._changing = m._changing)
    (h2 : m'._previousAttributes = m._previousAttributes) : KeepsPrev m m' :=
  ⟨h1, fun _ => h2⟩

theorem keepsPrev_closedSet : ClosedSet KeepsPrev where
  refl := fun m => ⟨rfl, fun _ => rfl⟩
  trans := fun _ _ _ h1 h2 =>
    ⟨h2.1.trans h1.1, fun hc => (h2.2 (h1.1.trans hc)).trans (h1.2 hc)⟩
  events := fun m m' h => by
    unfold EvOnly at h
    rw [h]
    exact keepsPrev_of_fields rfl rfl
  call := fun _ _ _ _ => keepsPrev_of_fields rfl rfl
  emit := fun _ _ _ => keepsPrev_of_fields rfl rfl
  verr := fun _ _ => keepsPrev_of_fields rfl rfl
  pending := fun _ _ => keepsPrev_of_fields rfl rfl

theorem Model.applied_prev (env : Env) (attrs options : Obj) (e : Value) (m : Model) :
    (Model.applied env attrs options e m).2._previousAttributes =
      if m._changing then m._previousAttributes else m.attributes := by
  have ha := Model.setApply_frame env attrs options (Model.setBegin { m with validationError := e })
  have hb : (Model.setBegin { m with validationError := e })._previousAttributes =
      if m._changing then m._previousAttributes else m.attributes := by
    unfold Model.setBegin
    cases m._changing <;> rfl
  unfold Model.applied
  simp only
  split
  · exact ha.2.1.trans hb
  · exact ha.2.1.trans hb

theorem Model.setAttrs_prev {inv : Invoker} (hinv : InvRel KeepsPrev inv) (fuel : Nat)
    (env : Env) (attrs options : Obj) (m : Model) (r : SetResult) (m' : Model)
    (h : Model.setAttrs inv fuel env attrs options m = some (r, m')) :
    KeepsPrev m m' ∧
      (m._changing = false → r = SetResult.record → m'._previousAttributes = m.attributes) := by
  by_cases hrej : Rejects env attrs options m
  · have hr := (Model.setAttrs_result _ _ _ _ _ _ _ _ h).2 hrej
    obtain ⟨validate, hv, ho, hres⟩ := hrej
    rw [Model.setAttrs_rejected inv fuel env attrs options m validate hv ho hres] at h
    simp only [Option.map_eq_some', Prod.mk.injEq] at h
    obtain ⟨m1, h1, -, rfl⟩ := h
    refine ⟨?_, fun _ hc => by rw [hr] at hc; cases hc⟩
    exact keepsPrev_closedSet.trans _ _ _ (keepsPrev_closedSet.verr m _)
      (Events.trigger_rel keepsPrev_closedSet.toClosed hinv _ _ _ _
        (keepsPrev_closedSet.emit _ _ _) h1)
  · obtain ⟨e, he⟩ := Model._validate_of_not_rejects inv env attrs options m hrej
    rw [Model.setAttrs_accepted inv fuel env attrs options e m he] at h
    have hf := Model.applied_frame env attrs options e m
    have hp := Model.applied_prev env attrs options e m
    generalize Model.applied env attrs options e m = am at hf hp h
    obtain ⟨changes, m3⟩ := am
    simp only at hf hp h
    simp only [Option.bind_eq_some] at h
    obtain ⟨m4, h4, h⟩ := h
    have k34 : KeepsPrev m3 m4 := by
      split at h4
      · exact Model.fireChanges_rel keepsPrev_closedSet hinv _ _ _ _ h4
      · simp only [Option.some.injEq] at h4
        subst h4
        exact keepsPrev_closedSet.refl _
    have c4 : m4._changing = true := k34.1.trans hf.2.2.1
    have p4 : m4._previousAttributes = m3._previousAttributes := k34.2 hf.2.2.1
    cases hch : m._changing with
    | true =>
      rw [hch] at h hp
      simp only [if_true, Option.some.injEq, Prod.mk.injEq] at h hp
      obtain ⟨-, rfl⟩ := h
      exact ⟨⟨c4.trans hch.symm, fun _ => p4.trans hp⟩, fun hc => by cases hc⟩
    | false =>
      rw [hch] at h hp
      simp only [Bool.false_eq_true, if_false] at h hp
      obtain ⟨m5, h5, -, rfl⟩ := Model.setFinish_some _ _ _ _ _ _ h
      have k45 : KeepsPrev m4 m5 := by
        split at h5
        · exact Model.changeLoop_rel keepsPrev_closedSet hinv _ _ _ h5
        · simp only [Option.some.injEq] at h5
          subst h5
          exact keepsPrev_closedSet.refl _
      have p5 : m5._previousAttributes = m.attributes := ((k45.2 c4).trans p4).trans hp
      exact ⟨⟨hch.symm, fun hc => by rw [hch] at hc; cases hc⟩, fun _ _ => p5⟩

theorem invoke_keepsPrev (env : Env) (fuel : Nat) : InvRel KeepsPrev (invoke fuel env) := by
  have henv : Env.All env (fun _ => True) := by
    intro f m ctx args
    generalize env.listener f m ctx args = s
    induction s with
    | done => exact Script.All.done
    | call c next ih => exact Script.All.call c next trivial ih
  refine invoke_rel keepsPrev_closedSet.toClosed env (fun _ => True) henv ?_
    (fun _ _ _ _ => keepsPrev_closedSet.emit _ _ _) fuel
  intro inv fuel key options m r m' hinv _ h
  cases hk : key.attrs with
  | none =>
    cases key with
    | null =>
      simp only [Model.setWith, Option.some.injEq, Prod.mk.injEq] at h
      rw [← h.2]
      exact keepsPrev_closedSet.refl m
    | map a => simp [KeyArg.attrs] at hk
    | key k v => simp [KeyArg.attrs] at hk
  | some attrs =>
    rw [Model.setWith_attrs _ _ _ key attrs options m hk] at h
    exact (Model.setAttrs_prev hinv fuel env attrs options m r m' h).1

theorem Model.setAttrs_accepted_rel {R : Model → Model → Prop} (hR : ClosedSet R)
    {inv : Invoker} (hinv : InvRel R inv) (fuel : Nat) (env : Env) (attrs options : Obj)
    (m : Model) (r : SetResult) (m' : Model) (hacc : ¬ Rejects env attrs options m)
    (h : Model.setAttrs inv fuel env attrs options m = some (r, m')) :
    ∃ e m4, R (Model.applied env attrs options e m).2 m4 ∧
      m' = if m._changing then m4 else { m4 with _pending := none, _changing := false } := by
  obtain ⟨e, he⟩ := Model._validate_of_not_rejects inv env attrs options m hacc
  rw [Model.setAttrs_accepted inv fuel env attrs options e m he] at h
  refine ⟨e, ?_⟩
  generalize Model.applied env attrs options e m = am at h
  obtain ⟨changes, m3⟩ := am
  simp only at h ⊢
  simp only [Option.bind_eq_some] at h
  obtain ⟨m4, h4, h⟩ := h
  have k34 : R m3 m4 := by
    split at h4
    · exact Model.fireChanges_rel hR hinv _ _ _ _ h4
    · simp only [Option.some.injEq] at h4
      subst h4
      exact hR.refl _
  cases hch : m._changing with
  | true =>
    rw [hch] at h
    simp only [if_true, Option.some.injEq, Prod.mk.injEq] at h
    exact ⟨m4, k34, h.2.symm⟩
  | false =>
    rw [hch] at h
    simp only [Bool.false_eq_true, if_false] at h
    obtain ⟨m5, h5, -, rfl⟩ := Model.setFinish_some _ _ _ _ _ _ h
    have k45 : R m4 m5 := by
      split at h5
      · exact Model.changeLoop_rel hR hinv _ _ _ h5
      · simp only [Option.some.injEq] at h5
        subst h5
        exact hR.refl _
    exact ⟨m5, hR.trans _ _ _ k34 k45, rfl⟩

theorem sameAttrs_closedSet : ClosedSet SameAttrs where
  refl := fun m => ⟨rfl, rfl, rfl, rfl⟩
  trans := fun _ _ _ h1 h2 =>
    ⟨h2.1.trans h1.1, h2.2.1.trans h1.2.1, h2.2.2.1.trans h1.2.2.1, h2.2.2.2.trans h1.2.2.2⟩
  events := fun m m' h => by
    unfold EvOnly at h
    rw [h]
    exact ⟨rfl, rfl, rfl, rfl⟩
  call := fun _ _ _ _ => ⟨rfl, rfl, rfl, rfl⟩
  emit := fun _ _ _ => ⟨rfl, rfl, rfl, rfl⟩
  verr := fun _ _ => ⟨rfl, rfl, rfl, rfl⟩
  pending := fun _ _ => ⟨rfl, rfl, rfl, rfl⟩

theorem invoke_sameAttrs (env : Env) (henv : Env.All env Cmd.Passive) (fuel : Nat) :
    InvRel SameAttrs (invoke fuel env) := by
  intro cb ctx args a b h
  have hs := invoke_rel same_closed env Cmd.Passive henv
    (fun _ _ _ _ _ _ _ _ hp _ => absurd hp (by simp [Cmd.Passive]))
    (fun _ _ _ hp => absurd hp (by simp [Cmd.Passive])) fuel cb ctx args a b h
  have hc := (Model.core_eq a b).1 hs.1
  exact ⟨hc.2.1, hc.2.2.1, hc.2.2.2.1, hc.2.2.2.2.1⟩

theorem Model.applied_changed (env : Env) (attrs options : Obj) (e : Value) (m : Model)
    (hout : m._changing = false) :
    (Model.applied env attrs options e m).2.changed =
      (attrs.foldl (Model.setAttr (Obj.get options "unset").truthy m.attributes)
        ([], [], m.attributes)).2.1 := by
  have hb : (Model.setBegin { m with validationError := e }).changed = [] ∧
      (Model.setBegin { m with validationError := e }).attributes = m.attributes ∧
      (Model.setBegin { m with validationError := e })._previousAttributes = m.attributes := by
    unfold Model.setBegin
    simp [hout]
  have ha : ∀ m2 : Model, (Model.setApply env attrs options m2).2.changed =
      (attrs.foldl (Model.setAttr (Obj.get options "unset").truthy m2._previousAttributes)
        ([], m2.changed, m2.attributes)).2.1 := by
    intro m2
    unfold Model.setApply
    simp only
    split <;> rfl
  have key : (Model.applied env attrs options e m).2.changed =
      (Model.setApply env attrs options (Model.setBegin { m with validationError := e })).2.changed := by
    unfold Model.applied
    simp only
    split <;> rfl
  rw [key, ha, hb.1, hb.2.1, hb.2.2]

/-- C5, the amended claim: a nested `set` leaves `_previousAttributes` unchanged;
an outermost `set` with a non-null key map that returns the record leaves
`_previousAttributes` equal to the attributes as they were before the call,
whatever the listeners do and however many nested calls they make, so
`previous(k)` is then the value `k` had before the call; and (listeners that
only subscribe and unsubscribe) its `changed` is built from the empty object. -/
theorem previous_is_outermost_snapshot (env : Env) (fuel : Nat) (key : KeyArg)
    (attrs options : Obj) (m : Model) (r : SetResult) (m' : Model)
    (hkey : key.attrs = some attrs)
    (h : Model.set fuel env key options m = some (r, m')) :
    (m._changing = true → m'._previousAttributes = m._previousAttributes) ∧
    (m._changing = false → r = SetResult.record →
      m'._previousAttributes = m.attributes ∧
      ∀ k, Model.previous m' k = Obj.get m.attributes k) ∧
    (m._changing = false → r = SetResult.record → Env.All env Cmd.Passive →
      m'.changed = (attrs.foldl (Model.setAttr (Obj.get options "unset").truthy m.attributes)
        ([], [], m.attributes)).2.1) := by
  unfold Model.set at h
  rw [Model.setWith_attrs _ _ _ key attrs options m hkey] at h
  have hp := Model.setAttrs_prev (invoke_keepsPrev env fuel) fuel env attrs options m r m' h
  refine ⟨hp.1.2, fun hout hr => ?_, fun hout hr henv => ?_⟩
  · have := hp.2 hout hr
    exact ⟨this, fun k => by unfold Model.previous; rw [this]⟩
  · have hacc : ¬ Rejects env attrs options m := by
      intro hc
      have := (Model.setAttrs_result _ _ _ _ _ _ _ _ h).2 hc
      rw [hr] at this
      cases this
    obtain ⟨e, m4, hs, hm'⟩ := Model.setAttrs_accepted_rel sameAttrs_closedSet
      (invoke_sameAttrs env henv fuel) fuel env attrs options m r m' hacc h
    rw [hout] at hm'
    simp only [Bool.false_eq_true, if_false] at hm'
    rw [hm']
    simp only
    rw [hs.2.1, Model.applied_changed env attrs options e m hout]

theorem previous_is_outermost_snapshot_witness :
    (Model.set 2 Env.revert (KeyArg.map [("A", Value.num 2)]) [] Model.watched
        = some (SetResult.record, Model.watchedAfter) ∧
      Model.watchedAfter._previousAttributes = [("A", Value.num 1)] ∧
      ∀ k, Model.previous Model.watchedAfter k = Obj.get [("A", Value.num 1)] k) ∧
    (Model.set 0 Env.plain (KeyArg.map [("A", Value.num 2)]) [] Model.inFlight
        = some (SetResult.record, Model.inFlightAfter) ∧
      Model.inFlightAfter._previousAttributes = [("A", Value.num 0)]) ∧
    (Model.set 1 Env.plain (KeyArg.map [("name", Value.str "y")]) [] Model.namedStale
        = some (SetResult.record, Model.namedAfter) ∧
      Model.namedAfter.changed = [("name", Value.str "y")]) :=
  ⟨⟨by rfl,
    (previous_is_outermost_snapshot Env.revert 2 (KeyArg.map [("A", Value.num 2)])
      [("A", Value.num 2)] [] Model.watched SetResult.record Model.watchedAfter rfl
      (by rfl)).2.1 rfl rfl⟩,
   ⟨by rfl,
    (previous_is_outermost_snapshot Env.plain 0 (KeyArg.map [("A", Value.num 2)])
      [("A", Value.num 2)] [] Model.inFlight SetResult.record Model.inFlightAfter rfl
      (by rfl)).1 rfl⟩,
   ⟨by rfl,
    (previous_is_outermost_snapshot Env.plain 1 (KeyArg.map [("name", Value.str "y")])
      [("name", Value.str "y")] [] Model.namedStale SetResult.record Model.namedAfter rfl
      (by rfl)).2.2 rfl rfl (fun _ _ _ _ => Script.All.done)⟩⟩

/-- C5 as stated fails: an outermost `set` that the validator rejects returns
without touching `_previousAttributes`, so `previous("n")` is not the value `n`
had before the call. -/
theorem previous_is_outermost_snapshot_counterexample :
    ∃ m', Model.set 1 Env.strict (KeyArg.map [("n", Value.num 0)]) [("validate", Value.bool true)]
        (Model.init 7 [("n", Value.num 1)]) = some (SetResult.rejected, m') ∧
      (Model.init 7 [("n", Value.num 1)])._changing = false ∧
      m'._previousAttributes ≠ (Model.init 7 [("n", Value.num 1)]).attributes ∧
      Model.previous m' "n" = Value.undefined ∧
      Obj.get (Model.init 7 [("n", Value.num 1)]).attributes "n" = Value.num 1 :=
  ⟨{ Model.init 7 [("n", Value.num 1)] with
      validationError := Value.str "zero"
      trace := [Obs.emit "invalid" [Arg.ref 7, Arg.val (Value.str "zero"),
        Arg.obj [("validate", Value.bool true), ("validationError", Value.str "zero")]]] },
    by rfl, rfl, by decide, by rfl, by rfl⟩

/-! ## Coalescing and replay (claims C6 and C7) -/

/-- C6: on the record `{A: 1}` whose `"change:A"` listener sets `A` back to `1`,
the outermost `set({A: 2})` returns with `A = 1` in `attributes` and `A` absent
from `changed`, after `"change:A"` was emitted exactly twice, first with the
value `2`, then with the value `1` (and `"change"` once, last). -/
theorem change_coalescing :
    ∃ m', Model.set 2 Env.revert (KeyArg.map [("A", Value.num 2)]) [] Model.watched
        = some (SetResult.record, m') ∧
      Obj.get m'.attributes "A" = Value.num 1 ∧ Dict.has m'.changed "A" = false ∧
      emitted m'.trace =
        [("change:A", [Arg.ref 7, Arg.val (Value.num 2), Arg.obj []]),
         ("change:A", [Arg.ref 7, Arg.val (Value.num 1), Arg.obj []]),
         ("change", [Arg.ref 7, Arg.obj []])] ∧
      calls m'.trace =
        [(0, 7, [Arg.ref 7, Arg.val (Value.num 2), Arg.obj []]),
         (0, 7, [Arg.ref 7, Arg.val (Value.num 1), Arg.obj []])] :=
  ⟨Model.watchedAfter, by rfl, by rfl, by rfl, by rfl, by rfl⟩

/-! ## Setting the value an attribute already has (claim C8) -/

theorem Dict.put_same {α : Type} (o : Dict α) (k : String) (v : α)
    (h : Dict.find o k = some v) : Dict.put o k v = o := by
  induction o with
  | nil => simp [Dict.find] at h
  | cons hd tl ih =>
    obtain ⟨k0, v0⟩ := hd
    by_cases h0 : k0 = k
    · subst h0
      simp only [Dict.find, if_true, Option.some.injEq] at h
      simp [Dict.put, h]
    · simp only [Dict.find, h0, if_false] at h
      simp [Dict.put, h0, ih h]

theorem Dict.del_absent {α : Type} (o : Dict α) (k : String)
    (h : Dict.find o k = none) : Dict.del o k = o := by
  induction o with
  | nil => rfl
  | cons hd tl ih =>
    obtain ⟨k0, v0⟩ := hd
    by_cases h0 : k0 = k
    · subst h0
      simp [Dict.find] at h
    · simp only [Dict.find, h0, if_false] at h
      simp [Dict.del, h0, ih h]

theorem Model.applied_fold (env : Env) (attrs options : Obj) (e : Value) (m : Model) :
    (Model.applied env attrs options e m).2.changed =
      (attrs.foldl (Model.setAttr (Obj.get options "unset").truthy
          (if m._changing then m._previousAttributes else m.attributes))
        ([], if m._changing then m.changed else [], m.attributes)).2.1 ∧
    (Model.applied env attrs options e m).2.attributes =
      (attrs.foldl (Model.setAttr (Obj.get options "unset").truthy
          (if m._changing then m._previousAttributes else m.attributes))
        ([], if m._changing then m.changed else [], m.attributes)).2.2 := by
  have hb : (Model.setBegin { m with validationError := e }).changed =
        (if m._changing then m.changed else []) ∧
      (Model.setBegin { m with validationError := e }).attributes = m.attributes ∧
      (Model.setBegin { m with validationError := e })._previousAttributes =
        (if m._changing then m._previousAttributes else m.attributes) := by
    unfold Model.setBegin
    cases m._changing <;> simp
  have ha : ∀ m2 : Model,
      (Model.setApply env attrs options m2).2.changed =
        (attrs.foldl (Model.setAttr (Obj.get options "unset").truthy m2._previousAttributes)
          ([], m2.changed, m2.attributes)).2.1 ∧
      (Model.setApply env attrs options m2).2.attributes =
        (attrs.foldl (Model.setAttr (Obj.get options "unset").truthy m2._previousAttributes)
          ([], m2.changed, m2.attributes)).2.2 := by
    intro m2
    unfold Model.setApply
    simp only
    split <;> exact ⟨rfl, rfl⟩
  have key : (Model.applied env attrs options e m).2.changed =
        (Model.setApply env attrs options
          (Model.setBegin { m with validationError := e })).2.changed ∧
      (Model.applied env attrs options e m).2.attributes =
        (Model.setApply env attrs options
          (Model.setBegin { m with validationError := e })).2.attributes := by
    unfold Model.applied
    simp only
    split <;> exact ⟨rfl, rfl⟩
  rw [key.1, key.2, (ha _).1, (ha _).2, hb.1, hb.2.1, hb.2.2]
  exact ⟨rfl, rfl⟩

theorem Model.applied_same_value (env : Env) (A : String) (v : Value) (options : Obj)
    (e : Value) (m : Model) (hA : Dict.find m.attributes A = some v)
    (hunset : (Obj.get options "unset").truthy = false) :
    (Model.applied env [(A, v)] options e m).1 = [] ∧
    (Model.applied env [(A, v)] options e m).2.attributes = m.attributes ∧
    (Model.applied env [(A, v)] options e m).2._pending = m._pending ∧
    (Model.applied env [(A, v)] options e m).2.changed =
      (if m._changing then
        (if !isEqual (Obj.get m._previousAttributes A) v then Dict.put m.changed A v
          else Dict.del m.changed A)
      else []) := by
  have hget : Obj.get m.attributes A = v := by simp [Obj.get, hA]
  have hch : (Model.applied env [(A, v)] options e m).1 = [] := by
    rw [Model.applied_changes env [(A, v)] options e m (by simp)]
    simp [hget, isEqual]
  have hpend := Model.applied_pending env [(A, v)] options e m
  rw [hch] at hpend
  simp only [List.length_nil, bne_self_eq_false, Bool.and_false, Bool.false_eq_true,
    if_false] at hpend
  have hf := Model.applied_fold env [(A, v)] options e m
  refine ⟨hch, ?_, hpend, ?_⟩
  · rw [hf.2]
    simp only [List.foldl_cons, List.foldl_nil, Model.setAttr, hunset, Bool.false_eq_true,
      if_false]
    exact Dict.put_same _ _ _ hA
  · rw [hf.1]
    simp only [List.foldl_cons, List.foldl_nil, Model.setAttr]
    cases m._changing
    · have : isEqual (Obj.get m.attributes A) v = true := by simp [hget, isEqual]
      simp [this, Dict.del]
    · simp

/-- C8, the amended claim: for an own key `A` of `attributes` holding `v`, a
`set({A: v})` without `unset` that passes validation returns the record, for
any listeners, without emitting any event and with `attributes` unchanged; an
outermost call leaves `changed` empty, a nested call (entered with `changed`
in line with the snapshot) leaves `changed` as it was. -/
theorem set_same_value_noop (env : Env) (fuel : Nat) (key : KeyArg) (A : String) (v : Value)
    (options : Obj) (m : Model) (hkey : key.attrs = some [(A, v)])
    (hA : Dict.find m.attributes A = some v)
    (hunset : (Obj.get options "unset").truthy = false)
    (hacc : ¬ Rejects env [(A, v)] options m)
    (hpend : m._changing = false → m._pending = none) :
    ∃ m', Model.set fuel env key options m = some (SetResult.record, m') ∧
      m'.trace = m.trace ∧ m'.attributes = m.attributes ∧
      (m._changing = false → m'.changed = []) ∧
      (m._changing = true → ChangedInv m → m'.changed = m.changed) := by
  obtain ⟨e, he⟩ := Model._validate_of_not_rejects (invoke fuel env) env [(A, v)] options m hacc
  unfold Model.set
  rw [Model.setWith_attrs _ _ _ key [(A, v)] options m hkey,
    Model.setAttrs_accepted _ fuel env [(A, v)] options e m he]
  have hf := Model.applied_frame env [(A, v)] options e m
  have hs := Model.applied_same_value env A v options e m hA hunset
  generalize Model.applied env [(A, v)] options e m = am at hf hs
  obtain ⟨changes, m3⟩ := am
  simp only at hf hs ⊢
  obtain ⟨hch, hattr, hp3, hchanged⟩ := hs
  subst hch
  have h4 : (if !(Obj.get options "silent").truthy then
      Model.fireChanges (invoke fuel env) [] options m3 else some m3) = some m3 := by
    split <;> rfl
  rw [h4]
  simp only [Option.some_bind]
  cases hc : m._changing with
  | true =>
    refine ⟨m3, by simp, hf.2.1, hattr, (fun h => by cases h), fun _ hinv => ?_⟩
    rw [hchanged, hc]
    simp only [if_true]
    have hk := hinv A
    have hget : Obj.get m.attributes A = v := by simp [Obj.get, hA]
    rw [hget] at hk
    by_cases heq : isEqual (Obj.get m._previousAttributes A) v = true
    · have heq' : isEqual v (Obj.get m._previousAttributes A) = true := by
        rw [isEqual_eq_true] at heq ⊢
        exact heq.symm
      have hno : Dict.has m.changed A = false := by
        by_contra hcon
        have := hk.1.1 (by simpa using hcon)
        rw [heq'] at this
        cases this
      simp only [heq, Bool.not_true, Bool.false_eq_true, if_false]
      exact Dict.del_absent _ _ (by simpa [Dict.has] using hno)
    · have heq1 : isEqual (Obj.get m._previousAttributes A) v = false := by simpa using heq
      have heq' : isEqual v (Obj.get m._previousAttributes A) = false := by
        rw [isEqual_eq_false] at heq1 ⊢
        exact fun hcon => heq1 hcon.symm
      have hhas : Dict.has m.changed A = true := hk.1.2 heq'
      have hval : Obj.get m.changed A = v := hk.2 hhas
      simp only [heq1, Bool.not_false, if_true]
      apply Dict.put_same
      unfold Dict.has at hhas
      unfold Obj.get at hval
      cases hfind : Dict.find m.changed A with
      | none => simp [hfind] at hhas
      | some w =>
        rw [hfind] at hval
        simp only [Option.getD_some] at hval
        rw [hval]
  | false =>
    have hp : m3._pending = none := hp3.trans (hpend hc)
    have hloop : Model.changeLoop (invoke fuel env) fuel m3 = some m3 := by
      cases fuel <;> simp [Model.changeLoop, hp]
    have hfin : Model.setFinish (invoke fuel env) fuel options m3 =
        some (SetResult.record, { m3 with _pending := none, _changing := false }) := by
      unfold Model.setFinish
      split
      · rw [hloop]
        rfl
      · rfl
    refine ⟨{ m3 with _pending := none, _changing := false }, by simpa using hfin, hf.2.1, hattr,
      fun _ => ?_, (fun h => by cases h)⟩
    simp only
    rw [hchanged, hc]
    simp

theorem changedInv_inFlight : ChangedInv Model.inFlight := by
  intro k
  by_cases hk : "A" = k
  · subst hk
    exact ⟨by decide, by decide⟩
  · simp [Model.inFlight, Model.init, Dict.has, Dict.find, Obj.get, hk, isEqual]

theorem set_same_value_noop_witness :
    (∃ m', Model.set 0 Env.revert (KeyArg.map [("name", Value.str "x")]) [] Model.namedStale
        = some (SetResult.record, m') ∧
      m'.trace = [] ∧ m'.attributes = [("name", Value.str "x")] ∧ m'.changed = []) ∧
    (∃ m', Model.set 0 Env.revert (KeyArg.key "A" (Value.num 1)) [] Model.inFlight
        = some (SetResult.record, m') ∧
      m'.trace = [] ∧ m'.attributes = [("A", Value.num 1)] ∧
      m'.changed = [("A", Value.num 1)]) :=
  ⟨(set_same_value_noop Env.revert 0 (KeyArg.map [("name", Value.str "x")]) "name"
      (Value.str "x") [] Model.namedStale rfl rfl rfl (fun h => by obtain ⟨_, hv, _⟩ := h; cases hv)
      (fun _ => rfl)).imp fun _ h => ⟨h.1, h.2.1, h.2.2.1, h.2.2.2.1 rfl⟩,
   (set_same_value_noop Env.revert 0 (KeyArg.key "A" (Value.num 1)) "A"
      (Value.num 1) [] Model.inFlight rfl rfl rfl (fun h => by obtain ⟨_, hv, _⟩ := h; cases hv)
      (fun h => by cases h)).imp fun _ h =>
        ⟨h.1, h.2.1, h.2.2.1, h.2.2.2.2 rfl changedInv_inFlight⟩⟩

/-- C8 as stated fails: after `set({A: 2})` on `{A: 1}` the record holds `A = 2`
with `changed = {A: 2}`; the outermost `set({A: 2})` that follows emits
nothing and leaves `attributes` alone but empties `changed`. -/
theorem set_same_value_noop_counterexample :
    Model.set 1 Env.plain (KeyArg.map [("A", Value.num 2)]) [] (Model.init 7 [("A", Value.num 1)])
      = some (SetResult.record, Model.afterChange) ∧
    Obj.get Model.afterChange.attributes "A" = Value.num 2 ∧
    Model.afterChange.changed = [("A", Value.num 2)] ∧
    ∃ m', Model.set 1 Env.plain (KeyArg.map [("A", Value.num 2)]) [] Model.afterChange
        = some (SetResult.record, m') ∧
      m'.trace = Model.afterChange.trace ∧ m'.changed = [] ∧
      m'.changed ≠ Model.afterChange.changed :=
  ⟨by rfl, by rfl, by rfl,
   { Model.afterChange with changed := [], _previousAttributes := [("A", Value.num 2)] },
   by rfl, by rfl, by rfl, by decide⟩

/-! ## The subscription table under `on` and `off` -/

theorem List.getD_set_eq' {α : Type} (l : List α) (i : Nat) (x d : α) (h : i < l.length) :
    (l.set i x).getD i d = x := by
  simp [List.getD, List.getElem?_set, h]

theorem List.getD_set_ne' {α : Type} (l : List α) (i j : Nat) (x d : α) (h : i ≠ j) :
    (l.set i x).getD j d = l.getD j d := by
  simp [List.getD, List.getElem?_set, h]

theorem List.getD_append_left' {α : Type} (l l' : List α) (i : Nat) (d : α)
    (h : i < l.length) : (l ++ l').getD i d = l.getD i d := by
  simp [List.getD, List.getElem?_append_left h]

theorem List.getD_append_length' {α : Type} (l : List α) (x d : α) :
    (l ++ [x]).getD l.length d = x := by
  simp [List.getD]

theorem Events.onBody_table (name : String) (cb : Callback) (context : Option Ref) (m : Model)
    (hwf : TableWF (m._events.getD [], m.arrays)) :
    TableWF ((Events.onBody name cb context m)._events.getD [],
      (Events.onBody name cb context m).arrays) ∧
    ∀ n, (Events.onBody name cb context m).bucket n =
      if name = n then m.bucket name ++
        [{ callback := cb, context := context, ctx := context.getD m.self }]
      else m.bucket n := by
  unfold Events.onBody Model.bucket bucketOf
  simp only
  cases hf : Dict.find (m._events.getD []) name with
  | some a =>
    have ha := hwf.bound name a hf
    simp only [Option.getD_some]
    refine ⟨⟨fun n b hb => ?_, fun n1 n2 b h1 h2 => hwf.inj n1 n2 b h1 h2⟩, fun n => ?_⟩
    · simpa using hwf.bound n b hb
    · by_cases hn : name = n
      · subst hn
        simp only [hf, if_true]
        exact List.getD_set_eq' _ _ _ _ ha
      · simp only [hn, if_false]
        cases hf' : Dict.find (m._events.getD []) n with
        | none => rfl
        | some b =>
          simp only
          have hne : a ≠ b := fun hab => hn (hwf.inj name n a hf (hab ▸ hf'))
          exact List.getD_set_ne' _ _ _ _ _ hne
  | none =>
    simp only [Option.getD_some]
    refine ⟨⟨fun n b hb => ?_, fun n1 n2 b h1 h2 => ?_⟩, fun n => ?_⟩
    · rw [Dict.find_put] at hb
      simp only [List.length_append, List.length_singleton]
      split at hb
      · simp only [Option.some.injEq] at hb
        omega
      · have := hwf.bound n b hb
        simp only at this
        omega
    · rw [Dict.find_put] at h1 h2
      split at h1 <;> split at h2
      · rename_i e1 e2
        exact e1.symm.trans e2
      · simp only [Option.some.injEq] at h1
        have := hwf.bound n2 b h2
        simp only at this
        omega
      · simp only [Option.some.injEq] at h2
        have := hwf.bound n1 b h1
        simp only at this
        omega
      · exact hwf.inj n1 n2 b h1 h2
    · rw [Dict.find_put]
      by_cases hn : name = n
      · subst hn
        simp only [if_true, hf]
        rw [List.getD_append_length']
        rfl
      · simp only [hn, if_false]
        cases hf' : Dict.find (m._events.getD []) n with
        | none => rfl
        | some b =>
          simp only
          exact List.getD_append_left' _ _ _ _ (hwf.bound n b hf')

theorem Events.keeps_none (ev : EventRec) : Events.keeps none none ev = false := by
  simp [Events.keeps]

theorem Events.offName_table (cb : Option Callback) (context : Option Ref)
    (st : Dict Nat × List (List EventRec)) (name : String) (hwf : TableWF st) :
    TableWF (Events.offName cb context st name) ∧
    (∃ extra, (Events.offName cb context st name).2 = st.2 ++ extra ∧
      ∀ arr ∈ extra, ∃ old ∈ st.2, ∀ ev ∈ arr, ev ∈ old) ∧
    ∀ n, bucketOf (Events.offName cb context st name) n =
      if name = n then (bucketOf st name).filter (Events.keeps cb context) else bucketOf st n := by
  obtain ⟨tbl, arrs⟩ := st
  unfold Events.offName
  simp only
  cases hf : Dict.find tbl name with
  | none =>
    refine ⟨hwf, ⟨[], by simp, by simp⟩, fun n => ?_⟩
    by_cases hn : name = n
    · subst hn
      simp [bucketOf, hf]
    · simp [hn]
  | some a =>
    have ha : a < arrs.length := hwf.bound name a hf
    have hdel : TableWF (Dict.del tbl name, arrs) := by
      refine ⟨fun n b hb => ?_, fun n1 n2 b h1 h2 => ?_⟩
      · simp only [Dict.find_del] at hb
        split at hb
        · cases hb
        · exact hwf.bound n b hb
      · simp only [Dict.find_del] at h1 h2
        split at h1
        · cases h1
        · split at h2
          · cases h2
          · exact hwf.inj n1 n2 b h1 h2
    have hdelb : ∀ n, bucketOf (Dict.del tbl name, arrs) n =
        if name = n then [] else bucketOf (tbl, arrs) n := by
      intro n
      unfold bucketOf
      simp only [Dict.find_del]
      by_cases hn : name = n
      · simp [hn]
      · simp [hn]
    simp only
    by_cases hcc : (cb.isNone && context.isNone) = true
    · simp only [hcc, if_true]
      refine ⟨hdel, ⟨[], by simp, by simp⟩, fun n => ?_⟩
      rw [hdelb]
      have hnone : cb = none ∧ context = none := by
        cases cb <;> cases context <;> simp at hcc ⊢
      rw [hnone.1, hnone.2]
      split
      · simp [Events.keeps_none]
      · rfl
    · simp only [hcc, Bool.false_eq_true, if_false]
      by_cases hrem : ((arrs.getD a []).filter (Events.keeps cb context)).length != 0
      · simp only [hrem, if_true]
        refine ⟨⟨fun n b hb => ?_, fun n1 n2 b h1 h2 => ?_⟩,
          ⟨[(arrs.getD a []).filter (Events.keeps cb context)], rfl, ?_⟩, fun n => ?_⟩
        · simp only [Dict.find_put] at hb
          simp only [List.length_append, List.length_singleton]
          split at hb
          · simp only [Option.some.injEq] at hb
            omega
          · have := hwf.bound n b hb
            simp only at this
            omega
        · simp only [Dict.find_put] at h1 h2
          split at h1 <;> split at h2
          · rename_i e1 e2
            exact e1.symm.trans e2
          · simp only [Option.some.injEq] at h1
            have := hwf.bound n2 b h2
            simp only at this
            omega
          · simp only [Option.some.injEq] at h2
            have := hwf.bound n1 b h1
            simp only at this
            omega
          · exact hwf.inj n1 n2 b h1 h2
        · intro arr harr
          simp only [List.mem_singleton] at harr
          subst harr
          refine ⟨arrs.getD a [], ?_, fun ev hev => (List.mem_filter.1 hev).1⟩
          have hget : arrs.getD a [] = arrs[a] := by
            simp [List.getD, List.getElem?_eq_getElem ha]
          rw [hget]
          exact List.getElem_mem ha
        · unfold bucketOf
          simp only [Dict.find_put, hf]
          by_cases hn : name = n
          · subst hn
            simp only [if_true]
            exact List.getD_append_length' _ _ _
          · simp only [hn, if_false]
            cases hf' : Dict.find tbl n with
            | none => rfl
            | some b =>
              simp only
              exact List.getD_append_left' _ _ _ _ (hwf.bound n b hf')
      · simp only [hrem, Bool.false_eq_true, if_false]
        refine ⟨hdel, ⟨[], by simp, by simp⟩, fun n => ?_⟩
        rw [hdelb]
        have hnil : (arrs.getD a []).filter (Events.keeps cb context) = [] := by
          simpa using hrem
        split
        · unfold bucketOf
          simp only [hf]
          exact hnil.symm
        · rfl

theorem Events.offName_foldl_table (cb : Option Callback) (context : Option Ref)
    (names : List String) (st : Dict Nat × List (List EventRec)) (hwf : TableWF st) :
    TableWF (names.foldl (Events.offName cb context) st) ∧
    (∃ extra, (names.foldl (Events.offName cb context) st).2 = st.2 ++ extra ∧
      ∀ arr ∈ extra, ∀ ev ∈ arr, ∃ old ∈ st.2, ev ∈ old) ∧
    ∀ n, bucketOf (names.foldl (Events.offName cb context) st) n =
      if n ∈ names then (bucketOf st n).filter (Events.keeps cb context) else bucketOf st n := by
  induction names generalizing st with
  | nil => exact ⟨hwf, ⟨[], by simp, by simp⟩, fun n => by simp⟩
  | cons name rest ih =>
    obtain ⟨w1, ⟨ex1, e1, o1⟩, b1⟩ := Events.offName_table cb context st name hwf
    obtain ⟨w2, ⟨ex2, e2, o2⟩, b2⟩ := ih (Events.offName cb context st name) w1
    simp only [List.foldl_cons]
    refine ⟨w2, ⟨ex1 ++ ex2, by rw [e2, e1, List.append_assoc], ?_⟩, fun n => ?_⟩
    · intro arr harr ev hev
      rcases List.mem_append.1 harr with h | h
      · obtain ⟨old, hold, hsub⟩ := o1 arr h
        exact ⟨old, hold, hsub ev hev⟩
      · obtain ⟨old, hold, hin⟩ := o2 arr h ev hev
        rw [e1] at hold
        rcases List.mem_append.1 hold with h' | h'
        · exact ⟨old, h', hin⟩
        · obtain ⟨old', hold', hsub⟩ := o1 old h'
          exact ⟨old', hold', hsub ev hin⟩
    · rw [b2 n, b1 n]
      by_cases hn : name = n
      · subst hn
        simp only [if_true, List.mem_cons, true_or]
        split
        · simp
        · rfl
      · have hn' : ¬ n = name := fun h => hn h.symm
        simp only [hn, if_false, List.mem_cons, hn', false_or]

theorem bucketOf_nil (arrs : List (List EventRec)) (n : String) : bucketOf ([], arrs) n = [] := by
  simp [bucketOf, Dict.find]

theorem Dict.find_isSome_iff_mem {α : Type} (o : Dict α) (k : String) :
    (Dict.find o k).isSome = true ↔ k ∈ o.map Prod.fst := by
  induction o with
  | nil => simp [Dict.find]
  | cons hd tl ih =>
    obtain ⟨k0, v0⟩ := hd
    by_cases h0 : k0 = k
    · simp [Dict.find, h0]
    · have h0' : ¬ k = k0 := fun h => h0 h.symm
      simp [Dict.find, h0, h0', ih]

/-- The law of `off` on a record, for a name that is absent or has no white
space: the bucket of an event name that the call selects keeps exactly the
records that pass the test of event.js lines 101-105, in order; the other
buckets are as before.  The store only grows, by arrays made of old records. -/
theorem Events.offBody_bucket (name : Option String) (cb : Option Callback)
    (context : Option Ref) (m : Model) (hwf : TableWF (m._events.getD [], m.arrays)) :
    TableWF ((Events.offBody name cb context m)._events.getD [],
      (Events.offBody name cb context m).arrays) ∧
    (∃ extra, (Events.offBody name cb context m).arrays = m.arrays ++ extra ∧
      ∀ arr ∈ extra, ∀ ev ∈ arr, ∃ old ∈ m.arrays, ev ∈ old) ∧
    ∀ n, (Events.offBody name cb context m).bucket n =
      if name = none ∨ name = some "" ∨ name = some n
      then (m.bucket n).filter (Events.keeps cb context) else m.bucket n := by
  unfold Events.offBody
  cases hev : m._events with
  | none =>
    simp only [hev, Option.getD_none] at hwf ⊢
    refine ⟨hwf, ⟨[], by simp, by simp⟩, fun n => ?_⟩
    simp [Model.bucket, hev, bucketOf_nil]
  | some tbl =>
    simp only [hev, Option.getD_some] at hwf ⊢
    by_cases hall : (!(name.isSome && name != some "") && cb.isNone && context.isNone) = true
    · simp only [hall, if_true]
      refine ⟨⟨fun n a h => by simp [Dict.find] at h, fun n1 n2 a h => by simp [Dict.find] at h⟩,
        ⟨[], by simp, by simp⟩, fun n => ?_⟩
      have hnm : name = none ∨ name = some "" := by
        cases name with
        | none => exact Or.inl rfl
        | some s =>
          right
          by_cases hs : s = ""
          · rw [hs]
          · simp [hs] at hall
      have hcb : cb = none ∧ context = none := by
        cases cb <;> cases context <;> simp at hall ⊢
      have hsel : name = none ∨ name = some "" ∨ name = some n := by
        rcases hnm with h | h
        · exact Or.inl h
        · exact Or.inr (Or.inl h)
      simp only [Model.bucket, Option.getD_none, bucketOf_nil, hsel, if_true, hcb.1, hcb.2]
      simp [Events.keeps_none]
    · simp only [hall, Bool.false_eq_true, if_false]
      obtain ⟨w, ex, b⟩ := Events.offName_foldl_table cb context
        (if (name.isSome && name != some "") = true then [name.getD ""] else tbl.map Prod.fst)
        (tbl, m.arrays) hwf
      refine ⟨w, ex, fun n => ?_⟩
      simp only [Model.bucket, Option.getD_some, hev]
      rw [b n]
      by_cases hnamed : (name.isSome && name != some "") = true
      · simp only [hnamed, if_true, List.mem_singleton]
        cases name with
        | none => simp at hnamed
        | some s =>
          have hs : s ≠ "" := by
            intro h
            simp [h] at hnamed
          simp only [Option.getD_some, Option.some.injEq, hs, false_or, reduceCtorEq]
          by_cases hn : n = s
          · simp [hn]
          · have hn' : ¬ s = n := fun h => hn h.symm
            simp [hn, hn']
      · have hnm : name = none ∨ name = some "" := by
          cases name with
          | none => exact Or.inl rfl
          | some s =>
            right
            by_cases hs : s = ""
            · rw [hs]
            · simp [hs] at hnamed
        have hsel : name = none ∨ name = some "" ∨ name = some n := by
          rcases hnm with h | h
          · exact Or.inl h
          · exact Or.inr (Or.inl h)
        simp only [hnamed, Bool.false_eq_true, if_false, hsel, if_true]
        by_cases hmem : n ∈ tbl.map Prod.fst
        · simp only [hmem, if_true]
        · simp only [hmem, if_false]
          have hnone : Dict.find tbl n = none := by
            cases hfn : Dict.find tbl n with
            | none => rfl
            | some a =>
              exact absurd ((Dict.find_isSome_iff_mem tbl n).1 (by simp [hfn])) hmem
          simp [bucketOf, hnone]

/-! ## Dispatch when user functions are empty -/

theorem evOnly_trace {m m' : Model} (h : EvOnly m m') : m'.trace = m.trace := by
  unfold EvOnly at h
  rw [h]

theorem invoke_inert (env : Env) (henv : Env.Inert env) (n : Nat) (cb : Callback) (ctx : Ref)
    (args : List Arg) (m : Model) :
    invoke (n + 1) env cb ctx args m = some (runInert cb ctx args m) := by
  cases cb with
  | fn f => simp [invoke, runUser, henv f m ctx args, runScript, runInert]
  | once uid name f =>
    simp only [invoke, runUser, runInert]
    split
    · rfl
    · rw [henv]
      simp only [runScript, Option.some.injEq]
      have := evOnly_trace (Events.off_evOnly (some name) (some (Callback.once uid name f)) none
        { m with onceRan := uid :: m.onceRan })
      simp only at this
      rw [this]

theorem triggerEvents_inert (env : Env) (henv : Env.Inert env) (n : Nat) (evs : List EventRec)
    (args : List Arg) (m : Model) :
    triggerEvents (invoke (n + 1) env) evs args m = some (dispatchInert evs args m) := by
  induction evs generalizing m with
  | nil => rfl
  | cons ev rest ih =>
    simp only [triggerEvents, invoke_inert env henv, Option.some_bind, ih]
    rfl

theorem trigger_inert (env : Env) (henv : Env.Inert env) (n : Nat) (name : String)
    (hname : eventsApi name = none) (args : List Arg) (m : Model) :
    trigger (n + 1) env name args m = some (triggerInert name args m) := by
  unfold trigger Events.trigger triggerInert
  cases hev : m._events with
  | none => simp [hev]
  | some tbl =>
    simp only [hev, hname, Events.triggerBody, Option.getD_some, passInert]
    cases Dict.find tbl name with
    | none =>
      simp only [Option.some_bind]
      cases Dict.find tbl "all" with
      | none => rfl
      | some a => exact triggerEvents_inert env henv n _ _ _
    | some b =>
      simp only [triggerEvents_inert env henv, Option.some_bind]
      cases Dict.find tbl "all" with
      | none => rfl
      | some a => rfl

theorem Events.off_single (name : String) (hname : eventsApi name = none)
    (cb : Option Callback) (context : Option Ref) (m : Model) :
    Events.off (some name) cb context m = Events.offBody (some name) cb context m := by
  unfold Events.off
  cases hev : m._events with
  | none => simp [Events.offBody, hev]
  | some tbl => simp [hname]

theorem Events.offBody_frame (name : Option String) (cb : Option Callback)
    (context : Option Ref) (m : Model) :
    (Events.offBody name cb context m).nextUid = m.nextUid ∧
    (Events.offBody name cb context m).onceRan = m.onceRan ∧
    (Events.offBody name cb context m).self = m.self ∧
    (Events.offBody name cb context m).trace = m.trace := by
  have h := Events.offBody_evOnly name cb context m
  unfold EvOnly at h
  unfold Events.offBody
  split
  · exact ⟨rfl, rfl, rfl, rfl⟩
  · simp only
    split <;> exact ⟨rfl, rfl, rfl, rfl⟩

theorem Events.offBody_wf (name : Option String) (cb : Option Callback)
    (context : Option Ref) (m : Model) (hwf : Model.WF m) :
    Model.WF (Events.offBody name cb context m) := by
  obtain ⟨w, ⟨extra, e, o⟩, -⟩ := Events.offBody_bucket name cb context m hwf.table
  have hf := Events.offBody_frame name cb context m
  refine ⟨w, fun arr harr ev hev u n f hcb => ?_, fun u hu => ?_⟩
  · rw [hf.1]
    rw [e] at harr
    rcases List.mem_append.1 harr with h | h
    · exact hwf.uids arr h ev hev u n f hcb
    · obtain ⟨old, hold, hin⟩ := o arr h ev hev
      exact hwf.uids old hold ev hin u n f hcb
  · rw [hf.1]
    rw [hf.2.1] at hu
    exact hwf.ran u hu

theorem runInert_once_ran (uid : Nat) (name : String) (f : Nat) (ctx : Ref) (args : List Arg)
    (m : Model) (h : uid ∈ m.onceRan) :
    runInert (Callback.once uid name f) ctx args m = m := by
  simp [runInert, h]

theorem runInert_once_fresh (uid : Nat) (name : String) (f : Nat) (ctx : Ref) (args : List Arg)
    (m : Model) (h : uid ∉ m.onceRan) :
    runInert (Callback.once uid name f) ctx args m =
      { Events.off (some name) (some (Callback.once uid name f)) none
          { m with onceRan := uid :: m.onceRan } with
        trace := m.trace ++ [Obs.call f ctx args] } := by
  simp [runInert, h]

theorem runInert_spec (cb : Callback) (ctx : Ref) (args : List Arg) (m : Model)
    (hwf : Model.WF m)
    (hcb : ∀ u n f, cb = Callback.once u n f → u < m.nextUid ∧ eventsApi n = none) :
    Model.WF (runInert cb ctx args m) ∧
    (∃ extra, (runInert cb ctx args m).arrays = m.arrays ++ extra) ∧
    (runInert cb ctx args m).nextUid = m.nextUid ∧
    (runInert cb ctx args m).self = m.self ∧
    (runInert cb ctx args m).trace =
      m.trace ++ (if cb.fires m then [Obs.call cb.user ctx args] else []) ∧
    (∀ n ev, ev ∈ (runInert cb ctx args m).bucket n → ev ∈ m.bucket n) := by
  cases cb with
  | fn f =>
    refine ⟨⟨hwf.table, hwf.uids, hwf.ran⟩, ⟨[], by simp [runInert]⟩, rfl, rfl, ?_,
      fun n ev h => h⟩
    simp [runInert, Callback.fires, Callback.user]
  | once uid name f =>
    obtain ⟨hu, hn⟩ := hcb uid name f rfl
    by_cases hran : uid ∈ m.onceRan
    · rw [runInert_once_ran uid name f ctx args m hran]
      refine ⟨hwf, ⟨[], by simp⟩, rfl, rfl, ?_, fun n ev h => h⟩
      simp [Callback.fires, hran]
    · rw [runInert_once_fresh uid name f ctx args m hran]
      rw [Events.off_single name hn]
      have hwf1 : Model.WF { m with onceRan := uid :: m.onceRan } :=
        ⟨hwf.table, hwf.uids, fun u hu' => by
          rcases List.mem_cons.1 hu' with h | h
          · rw [h]; exact hu
          · exact hwf.ran u h⟩
      have hwf2 := Events.offBody_wf (some name) (some (Callback.once uid name f)) none _ hwf1
      obtain ⟨-, ⟨extra, e, -⟩, b⟩ := Events.offBody_bucket (some name)
        (some (Callback.once uid name f)) none { m with onceRan := uid :: m.onceRan } hwf.table
      have hf := Events.offBody_frame (some name) (some (Callback.once uid name f)) none
        { m with onceRan := uid :: m.onceRan }
      refine ⟨⟨hwf2.table, hwf2.uids, hwf2.ran⟩, ⟨extra, e⟩, hf.1, hf.2.2.1, ?_, fun n ev h => ?_⟩
      · simp [Callback.fires, hran, Callback.user]
      · have hb := b n
        have hbk : (Model.bucket { Events.offBody (some name) (some (Callback.once uid name f)) none
              { m with onceRan := uid :: m.onceRan } with
            trace := m.trace ++ [Obs.call f ctx args] } n) =
            (Events.offBody (some name) (some (Callback.once uid name f)) none
              { m with onceRan := uid :: m.onceRan }).bucket n := rfl
        rw [hbk, hb] at h
        split at h
        · exact (List.mem_filter.1 h).1
        · exact h

theorem dispatchInert_spec (P : Nat → Bool) (evs : List EventRec) (args : List Arg) (m : Model)
    (hwf : Model.WF m)
    (hevs : ∀ ev ∈ evs, ∀ u n f, ev.callback = Callback.once u n f →
      u < m.nextUid ∧ eventsApi n = none)
    (hP : ∀ ev ∈ evs, P ev.callback.user = true → ∃ f, ev.callback = Callback.fn f) :
    Model.WF (dispatchInert evs args m) ∧
    (∃ extra, (dispatchInert evs args m).arrays = m.arrays ++ extra) ∧
    (dispatchInert evs args m).nextUid = m.nextUid ∧
    (dispatchInert evs args m).self = m.self ∧
    (∃ t, (dispatchInert evs args m).trace = m.trace ++ t ∧ emitted t = [] ∧
      (calls t).filter (fun c => P c.1) =
        (evs.filter fun ev => P ev.callback.user).map fun ev =>
          (ev.callback.user, ev.ctx, args)) ∧
    (∀ n ev, ev ∈ (dispatchInert evs args m).bucket n → ev ∈ m.bucket n) := by
  induction evs generalizing m with
  | nil =>
    exact ⟨hwf, ⟨[], by simp [dispatchInert]⟩, rfl, rfl, ⟨[], by simp [dispatchInert], rfl, rfl⟩,
      fun n ev h => h⟩
  | cons ev rest ih =>
    obtain ⟨w1, ⟨ex1, e1⟩, n1, s1, t1, b1⟩ := runInert_spec ev.callback ev.ctx args m hwf
      (hevs ev (List.mem_cons_self _ _))
    obtain ⟨w2, ⟨ex2, e2⟩, n2, s2, ⟨t2, ht2, hem2, hc2⟩, b2⟩ :=
      ih (runInert ev.callback ev.ctx args m) w1
        (fun ev' h' u n f hcb => by
          rw [n1]
          exact hevs ev' (List.mem_cons_of_mem _ h') u n f hcb)
        (fun ev' h' => hP ev' (List.mem_cons_of_mem _ h'))
    have hd : dispatchInert (ev :: rest) args m =
        dispatchInert rest args (runInert ev.callback ev.ctx args m) := rfl
    rw [hd]
    refine ⟨w2, ⟨ex1 ++ ex2, by rw [e2, e1, List.append_assoc]⟩, n2.trans n1, s2.trans s1,
      ⟨(if ev.callback.fires m then [Obs.call ev.callback.user ev.ctx args] else []) ++ t2,
        by rw [ht2, t1, List.append_assoc], ?_, ?_⟩,
      fun n ev' h => b1 n ev' (b2 n ev' h)⟩
    · rw [emitted_append, hem2]
      split <;> simp [emitted]
    · rw [calls_append, List.filter_append, hc2]
      by_cases hp : P ev.callback.user = true
      · obtain ⟨f, hf⟩ := hP ev (List.mem_cons_self _ _) hp
        have hfire : ev.callback.fires m = true := by rw [hf]; rfl
        simp [hfire, calls, hp, List.filter_cons]
      · have hp' : P ev.callback.user = false := by simpa using hp
        split
        · simp [calls, hp', List.filter_cons]
        · simp [calls, hp', List.filter_cons]

theorem Model.bucket_find (m : Model) (tbl : Dict Nat) (hev : m._events = some tbl)
    (n : String) :
    m.bucket n = match Dict.find tbl n with
      | some a => m.arrays.getD a []
      | none => [] := by
  simp [Model.bucket, bucketOf, hev]

theorem Model.bucket_mem_arrays (m : Model) (hwf : TableWF (m._events.getD [], m.arrays))
    (n : String) (ev : EventRec) (h : ev ∈ m.bucket n) : ∃ arr ∈ m.arrays, ev ∈ arr := by
  unfold Model.bucket bucketOf at h
  cases hf : Dict.find (m._events.getD []) n with
  | none => simp [hf] at h
  | some a =>
    simp only [hf] at h
    have ha : a < m.arrays.length := hwf.bound n a hf
    have hget : m.arrays.getD a [] = m.arrays[a] := by
      simp [List.getD, List.getElem?_eq_getElem ha]
    rw [hget] at h
    exact ⟨m.arrays[a], List.getElem_mem ha, h⟩

theorem Model.bucket_uids (m : Model) (hwf : Model.WF m) (n : String) :
    ∀ ev ∈ m.bucket n, ∀ u nm f, ev.callback = Callback.once u nm f →
      u < m.nextUid ∧ eventsApi nm = none := by
  intro ev hev u nm f hcb
  obtain ⟨arr, harr, hin⟩ := Model.bucket_mem_arrays m hwf.table n ev hev
  exact hwf.uids arr harr ev hin u nm f hcb

theorem passInert_spec (P : Nat → Bool) (a : Option Nat) (bk : List EventRec)
    (args : List Arg) (m : Model) (hwf : Model.WF m)
    (hbk : (match a with
      | some a => m.arrays.getD a []
      | none => []) = bk)
    (hevs : ∀ ev ∈ bk, ∀ u n f, ev.callback = Callback.once u n f →
      u < m.nextUid ∧ eventsApi n = none)
    (hP : ∀ ev ∈ bk, P ev.callback.user = true → ∃ f, ev.callback = Callback.fn f) :
    Model.WF (passInert a args m) ∧
    (∃ extra, (passInert a args m).arrays = m.arrays ++ extra) ∧
    (passInert a args m).nextUid = m.nextUid ∧
    (passInert a args m).self = m.self ∧
    (∃ t, (passInert a args m).trace = m.trace ++ t ∧ emitted t = [] ∧
      (calls t).filter (fun c => P c.1) =
        (bk.filter fun ev => P ev.callback.user).map fun ev =>
          (ev.callback.user, ev.ctx, args)) ∧
    (∀ n ev, ev ∈ (passInert a args m).bucket n → ev ∈ m.bucket n) := by
  cases a with
  | none =>
    simp only at hbk
    subst hbk
    exact ⟨hwf, ⟨[], by simp [passInert]⟩, rfl, rfl, ⟨[], by simp [passInert], rfl, rfl⟩,
      fun n ev h => h⟩
  | some a =>
    simp only at hbk
    subst hbk
    exact dispatchInert_spec P _ args m hwf hevs hP

theorem triggerInert_spec (P : Nat → Bool) (name : String) (args : List Arg) (m : Model)
    (hwf : Model.WF m)
    (hPn : ∀ ev ∈ m.bucket name, P ev.callback.user = true → ∃ f, ev.callback = Callback.fn f)
    (hPa : ∀ ev ∈ m.bucket "all", P ev.callback.user = true → ∃ f, ev.callback = Callback.fn f) :
    Model.WF (triggerInert name args m) ∧
    (triggerInert name args m).nextUid = m.nextUid ∧
    (triggerInert name args m).self = m.self ∧
    (∃ t, (triggerInert name args m).trace = m.trace ++ t ∧ emitted t = [(name, args)] ∧
      (calls t).filter (fun c => P c.1) =
        ((m.bucket name).filter fun ev => P ev.callback.user).map (fun ev =>
          (ev.callback.user, ev.ctx, args)) ++
        ((m.bucket "all").filter fun ev => P ev.callback.user).map (fun ev =>
          (ev.callback.user, ev.ctx, Arg.val (Value.str name) :: args))) ∧
    (∀ n ev, ev ∈ (triggerInert name args m).bucket n → ev ∈ m.bucket n) := by
  have hwf0 : Model.WF { m with trace := m.trace ++ [Obs.emit name args] } :=
    ⟨hwf.table, hwf.uids, hwf.ran⟩
  unfold triggerInert
  split
  · rename_i hev
    refine ⟨hwf0, rfl, rfl, ⟨[Obs.emit name args], rfl, rfl, ?_⟩, fun n ev h => h⟩
    simp [Model.bucket, bucketOf, hev, Dict.find, calls]
  · rename_i tbl hev
    have hbn := Model.bucket_find m tbl hev name
    have hba := Model.bucket_find m tbl hev "all"
    obtain ⟨w1, ⟨ex1, e1⟩, nu1, se1, ⟨t1, ht1, hem1, hc1⟩, b1⟩ :=
      passInert_spec P (Dict.find tbl name) (m.bucket name) args
        { m with trace := m.trace ++ [Obs.emit name args] } hwf0 hbn.symm
        (Model.bucket_uids m hwf name) hPn
    have hsame : (match Dict.find tbl "all" with
        | some a => (passInert (Dict.find tbl name) args
            { m with trace := m.trace ++ [Obs.emit name args] }).arrays.getD a []
        | none => []) = m.bucket "all" := by
      rw [hba]
      cases hfa : Dict.find tbl "all" with
      | none => rfl
      | some a =>
        simp only
        have ha : a < m.arrays.length := by
          have := hwf.table.bound "all" a (by simpa [hev] using hfa)
          simpa using this
        rw [e1]
        exact List.getD_append_left' _ _ _ _ ha
    obtain ⟨w, ex, nu, se, ⟨t, ht, hem, hc⟩, b⟩ :=
      passInert_spec P (Dict.find tbl "all") (m.bucket "all") (Arg.val (Value.str name) :: args)
        _ w1 hsame
        (fun ev h u n f hcb => by
          rw [nu1]
          exact Model.bucket_uids m hwf "all" ev h u n f hcb) hPa
    refine ⟨w, nu.trans nu1, se.trans se1, ⟨Obs.emit name args :: (t1 ++ t), ?_, ?_, ?_⟩,
      fun n ev h => b1 n ev (b n ev h)⟩
    · rw [ht, ht1]
      simp
    · simp [emitted, emitted_append, hem1, hem]
    · simp only [calls, calls_append, List.filter_append, hc1, hc]

/-! ## Subscription order (claim C9) -/

theorem Events.on_single (name : String) (hname : eventsApi name = none) (cb : Callback)
    (context : Option Ref) (m : Model) :
    Events.on name (some cb) context m = Events.onBody name cb context m := by
  simp [Events.on, hname]

theorem Events.onBody_frame (name : String) (cb : Callback) (context : Option Ref) (m : Model) :
    (Events.onBody name cb context m).nextUid = m.nextUid ∧
    (Events.onBody name cb context m).onceRan = m.onceRan ∧
    (Events.onBody name cb context m).self = m.self ∧
    (Events.onBody name cb context m).trace = m.trace := by
  unfold Events.onBody
  simp only
  split <;> exact ⟨rfl, rfl, rfl, rfl⟩

theorem Events.onBody_wf (name : String) (cb : Callback) (context : Option Ref) (m : Model)
    (hwf : Model.WF m)
    (hcb : ∀ u n f, cb = Callback.once u n f → u < m.nextUid ∧ eventsApi n = none) :
    Model.WF (Events.onBody name cb context m) := by
  have hf := Events.onBody_frame name cb context m
  refine ⟨(Events.onBody_table name cb context m hwf.table).1, ?_, fun u hu => ?_⟩
  · rw [hf.1]
    intro arr harr ev hev u n f hc
    unfold Events.onBody at harr
    simp only at harr
    split at harr
    · simp only at harr
      rcases List.mem_or_eq_of_mem_set harr with h | h
      · exact hwf.uids arr h ev hev u n f hc
      · rw [h] at hev
        rcases List.mem_append.1 hev with h' | h'
        · rename_i a _
          by_cases ha : a < m.arrays.length
          · have hget : m.arrays.getD a [] = m.arrays[a] := by
              simp [List.getD, List.getElem?_eq_getElem ha]
            rw [hget] at h'
            exact hwf.uids _ (List.getElem_mem ha) ev h' u n f hc
          · have hget : m.arrays.getD a [] = [] := by
              simp [List.getD, List.getElem?_eq_none (Nat.le_of_not_lt ha)]
            rw [hget] at h'
            simp at h'
        · simp only [List.mem_singleton] at h'
          rw [h'] at hc
          exact hcb u n f hc
    · simp only [List.mem_append, List.mem_singleton] at harr
      rcases harr with h | h
      · exact hwf.uids arr h ev hev u n f hc
      · rw [h] at hev
        simp only [List.mem_singleton] at hev
        rw [hev] at hc
        exact hcb u n f hc
  · rw [hf.1]
    rw [hf.2.1] at hu
    exact hwf.ran u hu

theorem subscribeAll_spec (name : String) (hname : eventsApi name = none)
    (subs : List (Nat × Option Ref)) (m : Model) (hwf : Model.WF m) :
    Model.WF (subscribeAll name subs m) ∧
    (subscribeAll name subs m).self = m.self ∧
    (subscribeAll name subs m).trace = m.trace ∧
    ∀ n, (subscribeAll name subs m).bucket n =
      if name = n then m.bucket name ++ subs.map (fun s =>
        { callback := Callback.fn s.1, context := s.2, ctx := s.2.getD m.self })
      else m.bucket n := by
  induction subs generalizing m with
  | nil =>
    refine ⟨hwf, rfl, rfl, fun n => ?_⟩
    by_cases hn : name = n
    · subst hn
      simp [subscribeAll]
    · simp [subscribeAll, hn]
  | cons s rest ih =>
    have hstep : subscribeAll name (s :: rest) m =
        subscribeAll name rest (Events.onBody name (Callback.fn s.1) s.2 m) := by
      simp [subscribeAll, Events.on_single name hname]
    have hw1 := Events.onBody_wf name (Callback.fn s.1) s.2 m hwf (fun u n f h => by cases h)
    have hf1 := Events.onBody_frame name (Callback.fn s.1) s.2 m
    have hb1 := (Events.onBody_table name (Callback.fn s.1) s.2 m hwf.table).2
    obtain ⟨w, se, tr, b⟩ := ih (Events.onBody name (Callback.fn s.1) s.2 m) hw1
    rw [hstep]
    refine ⟨w, se.trans hf1.2.2.1, tr.trans hf1.2.2.2, fun n => ?_⟩
    rw [b n, hf1.2.2.1]
    by_cases hn : name = n
    · subst hn
      simp only [if_true]
      rw [hb1 name]
      simp
    · simp only [hn, if_false]
      rw [hb1 n]
      simp [hn]

/-- C9, the amended claim: on a record in a well-formed subscription state and
with empty user functions, after `on(name, ci, xi)` for user functions
`c1..cn` that are not yet subscribed under `name` or `"all"`, with `name` a single
event name other than `"all"` and other than the names of the members of
`Object.prototype`, `trigger(name, ...args)` returns and, of these
functions, calls exactly `c1..cn`, once per subscription and in subscription
order, each on its context (the record when none was given) with `args`. -/
theorem on_then_trigger_in_order (env : Env) (henv : Env.Inert env) (fuel : Nat) (m : Model)
    (hwf : Model.WF m) (name : String) (hname : eventsApi name = none) (hall : name ≠ "all")
    (_hown : name ∉ inheritedKeys) (subs : List (Nat × Option Ref))
    (hfresh : ∀ ev ∈ m.bucket name ++ m.bucket "all", ev.callback.user ∉ subs.map Prod.fst)
    (args : List Arg) :
    ∃ m' t, trigger (fuel + 1) env name args (subscribeAll name subs m) = some m' ∧
      m'.trace = m.trace ++ t ∧ emitted t = [(name, args)] ∧
      (calls t).filter (fun c => decide (c.1 ∈ subs.map Prod.fst)) =
        subs.map (fun s => (s.1, s.2.getD m.self, args)) := by
  obtain ⟨w, se, tr, b⟩ := subscribeAll_spec name hname subs m hwf
  have hbn := b name
  have hba := b "all"
  simp only [if_true] at hbn
  simp only [hall, if_false] at hba
  have hold : ∀ ev ∈ m.bucket name, decide (ev.callback.user ∈ subs.map Prod.fst) = false :=
    fun ev h => by simpa using hfresh ev (List.mem_append_left _ h)
  have holda : ∀ ev ∈ m.bucket "all", decide (ev.callback.user ∈ subs.map Prod.fst) = false :=
    fun ev h => by simpa using hfresh ev (List.mem_append_right _ h)
  obtain ⟨-, -, -, ⟨t, ht, hem, hc⟩, -⟩ := triggerInert_spec
    (fun f => decide (f ∈ subs.map Prod.fst)) name args (subscribeAll name subs m) w
    (fun ev h hp => by
      rw [hbn] at h
      rcases List.mem_append.1 h with h' | h'
      · have hp' : decide (ev.callback.user ∈ subs.map Prod.fst) = true := hp
        rw [hold ev h'] at hp'
        cases hp'
      · obtain ⟨s, -, rfl⟩ := List.mem_map.1 h'
        exact ⟨s.1, rfl⟩)
    (fun ev h hp => by
      rw [hba] at h
      have hp' : decide (ev.callback.user ∈ subs.map Prod.fst) = true := hp
      rw [holda ev h] at hp'
      cases hp')
  refine ⟨_, t, trigger_inert env henv fuel name hname args _, by rw [ht, tr], hem, ?_⟩
  rw [hc, hbn, hba, List.filter_append]
  have h1 : (m.bucket name).filter (fun ev => decide (ev.callback.user ∈ subs.map Prod.fst))
      = [] := List.filter_eq_nil_iff.2 (fun ev h => by simp [hold ev h])
  have h2 : (m.bucket "all").filter (fun ev => decide (ev.callback.user ∈ subs.map Prod.fst))
      = [] := List.filter_eq_nil_iff.2 (fun ev h => by simp [holda ev h])
  have h3 : (subs.map (fun s : Nat × Option Ref =>
        ({ callback := Callback.fn s.1, context := s.2, ctx := s.2.getD m.self } : EventRec))).filter
        (fun ev => decide (ev.callback.user ∈ subs.map Prod.fst)) =
      subs.map (fun s => { callback := Callback.fn s.1, context := s.2, ctx := s.2.getD m.self }) := by
    apply List.filter_eq_self.2
    intro ev h
    obtain ⟨s, hs, rfl⟩ := List.mem_map.1 h
    simpa [Callback.user] using List.mem_map_of_mem Prod.fst hs
  rw [h1, h2, h3]
  simp [List.map_map, Function.comp, Callback.user]

theorem Model.init_wf (self : Ref) (attributes : Obj) : Model.WF (Model.init self attributes) :=
  ⟨⟨fun n a h => by simp [Model.init, Dict.find] at h,
    fun n1 n2 a h => by simp [Model.init, Dict.find] at h⟩,
   fun arr h => by simp [Model.init] at h,
   fun u h => by simp [Model.init] at h⟩

theorem on_then_trigger_in_order_witness :
    ∃ m' t, trigger 1 Env.plain "ping" [Arg.val (Value.num 5)]
        (subscribeAll "ping" [(1, none), (2, some 9), (3, none)] (Model.init 7 [])) = some m' ∧
      m'.trace = [] ++ t ∧ emitted t = [("ping", [Arg.val (Value.num 5)])] ∧
      (calls t).filter (fun c => decide (c.1 ∈ [1, 2, 3])) =
        [(1, 7, [Arg.val (Value.num 5)]), (2, 9, [Arg.val (Value.num 5)]),
         (3, 7, [Arg.val (Value.num 5)])] :=
  on_then_trigger_in_order Env.plain (fun _ _ _ _ => rfl) 0 (Model.init 7 [])
    (Model.init_wf 7 []) "ping" (by decide) (by decide) (by decide)
    [(1, none), (2, some 9), (3, none)] (by decide) [Arg.val (Value.num 5)]

/-- C9 as stated fails.  For the event name `"all"`: after `on("all", c1)`,
`trigger("all", 5)` calls `c1` twice, the second time with `"all"` put in
front of the arguments.  For a callback subscribed before: after
`on("ping", c1)` on a record that has `c1` under `"ping"` already,
`trigger("ping", 5)` calls `c1` twice.  For a listener that acts: when `c1`
calls `trigger("ping")` the first time it runs, `trigger("ping")` after
`on("ping", c1)`, `on("ping", c2)` calls `c2` twice.  For the name
`"constructor"`: the read of the bucket at line 33 of event.js finds the
member inherited from `Object.prototype`, and line 35 throws. -/
theorem on_then_trigger_in_order_counterexample :
    (∃ m', trigger 1 Env.plain "all" [Arg.val (Value.num 5)]
        (subscribeAll "all" [(1, none)] (Model.init 7 [])) = some m' ∧
      calls m'.trace =
        [(1, 7, [Arg.val (Value.num 5)]),
         (1, 7, [Arg.val (Value.str "all"), Arg.val (Value.num 5)])]) ∧
    (trigger 1 Env.plain "ping" [Arg.val (Value.num 5)]
        (subscribeAll "ping" [(1, none)]
          (Events.on "ping" (some (Callback.fn 1)) none (Model.init 7 [])))).map
        (fun m' => calls m'.trace) =
      some [(1, 7, [Arg.val (Value.num 5)]), (1, 7, [Arg.val (Value.num 5)])] ∧
    (trigger 3 (Env.echo 1 "ping") "ping" []
        (subscribeAll "ping" [(1, none), (2, none)] (Model.init 7 []))).map
        (fun m' => calls m'.trace) =
      some [(1, 7, []), (1, 7, []), (2, 7, []), (2, 7, [])] ∧
    Dict.inherits ((Model.init 7 [])._events.getD []) "constructor" = true :=
  ⟨⟨_, by rfl, by rfl⟩, by rfl, by rfl, by rfl⟩

/-! ## `once` (claim C10) -/

theorem Events.offBody_heap (Q : EventRec → Prop) (name : Option String) (cb : Option Callback)
    (context : Option Ref) (m : Model) (hwf : TableWF (m._events.getD [], m.arrays))
    (hQ : ∀ arr ∈ m.arrays, ∀ ev ∈ arr, Q ev) :
    ∀ arr ∈ (Events.offBody name cb context m).arrays, ∀ ev ∈ arr, Q ev := by
  obtain ⟨-, ⟨extra, e, o⟩, -⟩ := Events.offBody_bucket name cb context m hwf
  intro arr harr ev hev
  rw [e] at harr
  rcases List.mem_append.1 harr with h | h
  · exact hQ arr h ev hev
  · obtain ⟨old, hold, hin⟩ := o arr h ev hev
    exact hQ old hold ev hin

theorem runInert_heap (Q : EventRec → Prop) (cb : Callback) (ctx : Ref) (args : List Arg)
    (m : Model) (hwf : Model.WF m)
    (hcb : ∀ u n f, cb = Callback.once u n f → u < m.nextUid ∧ eventsApi n = none)
    (hQ : ∀ arr ∈ m.arrays, ∀ ev ∈ arr, Q ev) :
    ∀ arr ∈ (runInert cb ctx args m).arrays, ∀ ev ∈ arr, Q ev := by
  cases cb with
  | fn f => exact hQ
  | once uid name f =>
    obtain ⟨-, hn⟩ := hcb uid name f rfl
    by_cases hran : uid ∈ m.onceRan
    · rw [runInert_once_ran uid name f ctx args m hran]
      exact hQ
    · rw [runInert_once_fresh uid name f ctx args m hran, Events.off_single name hn]
      exact Events.offBody_heap Q (some name) (some (Callback.once uid name f)) none
        { m with onceRan := uid :: m.onceRan } hwf.table hQ

theorem runInert_onceRan (cb : Callback) (ctx : Ref) (args : List Arg) (m : Model)
    (hcb : ∀ u n f, cb = Callback.once u n f → eventsApi n = none) (u : Nat) :
    u ∈ (runInert cb ctx args m).onceRan ↔
      u ∈ m.onceRan ∨ ∃ n f, cb = Callback.once u n f := by
  cases cb with
  | fn f => simp [runInert]
  | once uid name f =>
    have hn := hcb uid name f rfl
    by_cases hran : uid ∈ m.onceRan
    · rw [runInert_once_ran uid name f ctx args m hran]
      constructor
      · exact fun h => Or.inl h
      · rintro (h | ⟨n, f', h⟩)
        · exact h
        · cases h
          exact hran
    · rw [runInert_once_fresh uid name f ctx args m hran, Events.off_single name hn]
      have hf := Events.offBody_frame (some name) (some (Callback.once uid name f)) none
        { m with onceRan := uid :: m.onceRan }
      have : ({ Events.offBody (some name) (some (Callback.once uid name f)) none
            { m with onceRan := uid :: m.onceRan } with
          trace := m.trace ++ [Obs.call f ctx args] } : Model).onceRan = uid :: m.onceRan :=
        hf.2.1
      rw [this]
      simp only [List.mem_cons, Callback.once.injEq]
      constructor
      · rintro (h | h)
        · exact Or.inr ⟨name, f, h.symm, rfl, rfl⟩
        · exact Or.inl h
      · rintro (h | ⟨n, f', h, -, -⟩)
        · exact Or.inr h
        · exact Or.inl h.symm

theorem Events.keeps_wrapper (w : Callback) (ev : EventRec)
    (h : Events.keeps (some w) none ev = true) : ev.callback ≠ w := by
  intro hc
  simp [Events.keeps, hc] at h

theorem runInert_onceInv (L u : Nat) (name : String) (cb : Callback) (ctx : Ref)
    (args : List Arg) (m : Model) (hK : OnceInv L u name m) (hname : eventsApi name = none)
    (hcb : ∀ u' n f, cb = Callback.once u' n f → u' < m.nextUid ∧ eventsApi n = none)
    (hdich : cb = Callback.once u name L ∨ Foreign L u cb) :
    OnceInv L u name (runInert cb ctx args m) ∧
    (calls (runInert cb ctx args m).trace).filter (fun c => decide (c.1 = L)) =
      (calls m.trace).filter (fun c => decide (c.1 = L)) ++
        (if cb = Callback.once u name L ∧ u ∉ m.onceRan then [(L, ctx, args)] else []) := by
  obtain ⟨w1, -, nu1, se1, t1, b1⟩ := runInert_spec cb ctx args m hK.wf hcb
  refine ⟨⟨w1, fun n ev h => hK.entries n ev (b1 n ev h), ?_, ?_,
    fun n hn ev h => hK.home n hn ev (b1 n ev h)⟩, ?_⟩
  · exact runInert_heap
      (fun ev => ∀ n f, ev.callback = Callback.once u n f → ev.callback = Callback.once u name L)
      cb ctx args m hK.wf hcb hK.only
  · intro hu n ev hev
    rcases (runInert_onceRan cb ctx args m (fun u' n f h => (hcb u' n f h).2) u).1 hu with h | h
    · exact hK.gone h n ev (b1 n ev hev)
    · obtain ⟨n', f', hcb'⟩ := h
      have hw : cb = Callback.once u name L := by
        rcases hdich with h | h
        · exact h
        · exact absurd hcb' (h.2 n' f')
      by_cases hran : u ∈ m.onceRan
      · exact hK.gone hran n ev (b1 n ev hev)
      · rw [hw, runInert_once_fresh u name L ctx args m hran, Events.off_single name hname] at hev
        obtain ⟨-, -, b⟩ := Events.offBody_bucket (some name)
          (some (Callback.once u name L)) none { m with onceRan := u :: m.onceRan } hK.wf.table
        have hbk : (Model.bucket { Events.offBody (some name) (some (Callback.once u name L)) none
              { m with onceRan := u :: m.onceRan } with
            trace := m.trace ++ [Obs.call L ctx args] } n) =
            (Events.offBody (some name) (some (Callback.once u name L)) none
              { m with onceRan := u :: m.onceRan }).bucket n := rfl
        rw [hbk, b n] at hev
        split at hev
        · exact Events.keeps_wrapper _ ev (List.mem_filter.1 hev).2
        · rename_i hsel
          have hne : n ≠ name := fun hc => hsel (Or.inr (Or.inr (by rw [hc])))
          exact hK.home n hne ev hev
  · rw [t1, calls_append, List.filter_append]
    congr 1
    rcases hdich with h | h
    · subst h
      by_cases hran : u ∈ m.onceRan
      · simp [Callback.fires, hran, calls]
      · simp [Callback.fires, hran, calls, Callback.user]
    · have hne : cb ≠ Callback.once u name L := h.2 name L
      have hu : ¬ cb.user = L := h.1
      split
      · simp [calls, hu, hne]
      · simp [calls, hne]

theorem dispatchInert_onceInv (L u : Nat) (name : String) (evs : List EventRec)
    (args : List Arg) (m : Model) (hK : OnceInv L u name m) (hname : eventsApi name = none)
    (hevs : ∀ ev ∈ evs,
      (∀ u' n f, ev.callback = Callback.once u' n f → u' < m.nextUid ∧ eventsApi n = none) ∧
      (ev.callback = Callback.once u name L ∨ Foreign L u ev.callback)) :
    OnceInv L u name (dispatchInert evs args m) ∧
    (dispatchInert evs args m).nextUid = m.nextUid ∧
    (dispatchInert evs args m).self = m.self ∧
    (∃ extra, (dispatchInert evs args m).arrays = m.arrays ++ extra) ∧
    (∃ t, (dispatchInert evs args m).trace = m.trace ++ t ∧ emitted t = []) ∧
    (calls (dispatchInert evs args m).trace).filter (fun c => decide (c.1 = L)) =
      (calls m.trace).filter (fun c => decide (c.1 = L)) ++
        wrapperCall L u (Callback.once u name L) evs args m ∧
    (u ∈ (dispatchInert evs args m).onceRan ↔
      u ∈ m.onceRan ∨ ∃ ev ∈ evs, ev.callback = Callback.once u name L) ∧
    (∀ n ev, ev ∈ (dispatchInert evs args m).bucket n → ev ∈ m.bucket n) := by
  induction evs generalizing m with
  | nil =>
    refine ⟨hK, rfl, rfl, ⟨[], by simp [dispatchInert]⟩, ⟨[], by simp [dispatchInert], rfl⟩,
      ?_, by simp [dispatchInert], fun n ev h => h⟩
    simp [dispatchInert, wrapperCall]
  | cons ev rest ih =>
    obtain ⟨hcb, hdich⟩ := hevs ev (List.mem_cons_self _ _)
    obtain ⟨k1, c1⟩ := runInert_onceInv L u name ev.callback ev.ctx args m hK hname hcb hdich
    obtain ⟨-, ⟨ex1, e1⟩, nu1, se1, t1, b1⟩ := runInert_spec ev.callback ev.ctx args m hK.wf hcb
    have r1 := runInert_onceRan ev.callback ev.ctx args m (fun u' n f h => (hcb u' n f h).2) u
    obtain ⟨k2, nu2, se2, ⟨ex2, e2⟩, ⟨t2, ht2, hem2⟩, c2, r2, b2⟩ :=
      ih (runInert ev.callback ev.ctx args m) k1
        (fun ev' h' => by
          rw [nu1]
          exact hevs ev' (List.mem_cons_of_mem _ h'))
    have hd : dispatchInert (ev :: rest) args m =
        dispatchInert rest args (runInert ev.callback ev.ctx args m) := rfl
    rw [hd]
    refine ⟨k2, nu2.trans nu1, se2.trans se1, ⟨ex1 ++ ex2, by rw [e2, e1, List.append_assoc]⟩,
      ⟨(if ev.callback.fires m then [Obs.call ev.callback.user ev.ctx args] else []) ++ t2,
        by rw [ht2, t1, List.append_assoc], ?_⟩, ?_, ?_, fun n ev' h => b1 n ev' (b2 n ev' h)⟩
    · rw [emitted_append, hem2]
      split <;> simp [emitted]
    · rw [c2, c1, List.append_assoc]
      congr 1
      unfold wrapperCall
      by_cases hran : u ∈ m.onceRan
      · have hran' : u ∈ (runInert ev.callback ev.ctx args m).onceRan := r1.2 (Or.inl hran)
        simp [hran, hran']
      · by_cases hw : ev.callback = Callback.once u name L
        · have hran' : u ∈ (runInert ev.callback ev.ctx args m).onceRan :=
            r1.2 (Or.inr ⟨name, L, hw⟩)
          rw [hw] at hran'
          simp [hran, hran', hw, List.find?_cons]
        · have hran' : u ∉ (runInert ev.callback ev.ctx args m).onceRan := by
            intro hc
            rcases r1.1 hc with h | ⟨n, f, h⟩
            · exact hran h
            · rcases hdich with h' | h'
              · exact hw h'
              · exact h'.2 n f h
          simp [hran, hran', hw, List.find?_cons]
    · rw [r2, r1]
      constructor
      · rintro ((h | ⟨n, f, h⟩) | ⟨ev', hev', h⟩)
        · exact Or.inl h
        · rcases hdich with h' | h'
          · exact Or.inr ⟨ev, List.mem_cons_self _ _, h'⟩
          · exact absurd h (h'.2 n f)
        · exact Or.inr ⟨ev', List.mem_cons_of_mem _ hev', h⟩
      · rintro (h | ⟨ev', hev', h⟩)
        · exact Or.inl (Or.inl h)
        · rcases List.mem_cons.1 hev' with h' | h'
          · subst h'
            exact Or.inl (Or.inr ⟨name, L, h⟩)
          · exact Or.inr ⟨ev', h', h⟩

theorem onceInv_dich (L u : Nat) (name : String) (m : Model) (hK : OnceInv L u name m)
    (n : String) (ev : EventRec) (hev : ev ∈ m.bucket n) :
    (∀ u' n' f, ev.callback = Callback.once u' n' f → u' < m.nextUid ∧ eventsApi n' = none) ∧
    (ev.callback = Callback.once u name L ∨ Foreign L u ev.callback) := by
  refine ⟨Model.bucket_uids m hK.wf n ev hev, ?_⟩
  rcases hK.entries n ev hev with h | h
  · exact Or.inl h
  · right
    refine ⟨h, fun n' f hc => ?_⟩
    obtain ⟨arr, harr, hin⟩ := Model.bucket_mem_arrays m hK.wf.table n ev hev
    have := hK.only arr harr ev hin n' f hc
    rw [this] at h
    exact h rfl

theorem passInert_onceInv (L u : Nat) (name : String) (a : Option Nat) (bk : List EventRec)
    (args : List Arg) (m : Model) (hK : OnceInv L u name m) (hname : eventsApi name = none)
    (hbk : (match a with
      | some a => m.arrays.getD a []
      | none => []) = bk)
    (hevs : ∀ ev ∈ bk,
      (∀ u' n f, ev.callback = Callback.once u' n f → u' < m.nextUid ∧ eventsApi n = none) ∧
      (ev.callback = Callback.once u name L ∨ Foreign L u ev.callback)) :
    OnceInv L u name (passInert a args m) ∧
    (passInert a args m).nextUid = m.nextUid ∧
    (passInert a args m).self = m.self ∧
    (∃ extra, (passInert a args m).arrays = m.arrays ++ extra) ∧
    (∃ t, (passInert a args m).trace = m.trace ++ t ∧ emitted t = []) ∧
    (calls (passInert a args m).trace).filter (fun c => decide (c.1 = L)) =
      (calls m.trace).filter (fun c => decide (c.1 = L)) ++
        wrapperCall L u (Callback.once u name L) bk args m ∧
    (u ∈ (passInert a args m).onceRan ↔
      u ∈ m.onceRan ∨ ∃ ev ∈ bk, ev.callback = Callback.once u name L) ∧
    (∀ n ev, ev ∈ (passInert a args m).bucket n → ev ∈ m.bucket n) := by
  cases a with
  | none =>
    simp only at hbk
    subst hbk
    refine ⟨hK, rfl, rfl, ⟨[], by simp [passInert]⟩, ⟨[], by simp [passInert], rfl⟩, ?_,
      by simp [passInert], fun n ev h => h⟩
    simp [passInert, wrapperCall]
  | some a =>
    simp only at hbk
    subst hbk
    exact dispatchInert_onceInv L u name _ args m hK hname hevs

theorem triggerInert_onceInv (L u : Nat) (name : String) (nm : String) (args : List Arg)
    (m : Model) (hK : OnceInv L u name m) (hname : eventsApi name = none) :
    OnceInv L u name (triggerInert nm args m) ∧
    (triggerInert nm args m).nextUid = m.nextUid ∧
    (triggerInert nm args m).self = m.self ∧
    (∃ t, (triggerInert nm args m).trace = m.trace ++ t ∧ emitted t = [(nm, args)]) ∧
    (∃ m1 : Model,
      (u ∈ m1.onceRan ↔ u ∈ m.onceRan ∨ ∃ ev ∈ m.bucket nm, ev.callback = Callback.once u name L) ∧
      (calls (triggerInert nm args m).trace).filter (fun c => decide (c.1 = L)) =
        (calls m.trace).filter (fun c => decide (c.1 = L)) ++
          wrapperCall L u (Callback.once u name L) (m.bucket nm) args m ++
          wrapperCall L u (Callback.once u name L) (m.bucket "all")
            (Arg.val (Value.str nm) :: args) m1 ∧
      (u ∈ (triggerInert nm args m).onceRan ↔
        u ∈ m1.onceRan ∨ ∃ ev ∈ m.bucket "all", ev.callback = Callback.once u name L)) := by
  have hK0 : OnceInv L u name { m with trace := m.trace ++ [Obs.emit nm args] } :=
    ⟨⟨hK.wf.table, hK.wf.uids, hK.wf.ran⟩, hK.entries, hK.only, hK.gone, hK.home⟩
  unfold triggerInert
  split
  · rename_i hev
    have hb : ∀ n, m.bucket n = [] := fun n => by simp [Model.bucket, bucketOf, hev, Dict.find]
    refine ⟨hK0, rfl, rfl, ⟨[Obs.emit nm args], rfl, rfl⟩, m, ?_, ?_, ?_⟩
    · simp [hb]
    · simp [hb, wrapperCall, calls_append, calls]
    · simp [hb]
  · rename_i tbl hev
    have hbn := Model.bucket_find m tbl hev nm
    have hba := Model.bucket_find m tbl hev "all"
    obtain ⟨k1, nu1, se1, ⟨ex1, e1⟩, ⟨t1, ht1, hem1⟩, c1, r1, b1⟩ :=
      passInert_onceInv L u name (Dict.find tbl nm) (m.bucket nm) args
        { m with trace := m.trace ++ [Obs.emit nm args] } hK0 hname hbn.symm
        (fun ev h => onceInv_dich L u name m hK nm ev h)
    have hsame : (match Dict.find tbl "all" with
        | some a => (passInert (Dict.find tbl nm) args
            { m with trace := m.trace ++ [Obs.emit nm args] }).arrays.getD a []
        | none => []) = m.bucket "all" := by
      rw [hba]
      cases hfa : Dict.find tbl "all" with
      | none => rfl
      | some a =>
        simp only
        have ha : a < m.arrays.length := by
          have := hK.wf.table.bound "all" a (by simpa [hev] using hfa)
          simpa using this
        rw [e1]
        exact List.getD_append_left' _ _ _ _ ha
    obtain ⟨k2, nu2, se2, -, ⟨t2, ht2, hem2⟩, c2, r2, -⟩ :=
      passInert_onceInv L u name (Dict.find tbl "all") (m.bucket "all")
        (Arg.val (Value.str nm) :: args) _ k1 hname hsame
        (fun ev h => by
          have := onceInv_dich L u name m hK "all" ev h
          rw [nu1]
          exact this)
    refine ⟨k2, nu2.trans nu1, se2.trans se1, ⟨Obs.emit nm args :: (t1 ++ t2), ?_, ?_⟩,
      _, r1, ?_, r2⟩
    · rw [ht2, ht1]
      simp
    · simp [emitted, emitted_append, hem1, hem2]
    · rw [c2, c1]
      simp [calls_append, calls, wrapperCall]

theorem Events.onBody_heap (Q : EventRec → Prop) (name : String) (cb : Callback)
    (context : Option Ref) (m : Model) (hQ : ∀ arr ∈ m.arrays, ∀ ev ∈ arr, Q ev)
    (hr : Q { callback := cb, context := context, ctx := context.getD m.self }) :
    ∀ arr ∈ (Events.onBody name cb context m).arrays, ∀ ev ∈ arr, Q ev := by
  intro arr harr ev hev
  unfold Events.onBody at harr
  simp only at harr
  split at harr
  · simp only at harr
    rcases List.mem_or_eq_of_mem_set harr with h | h
    · exact hQ arr h ev hev
    · rw [h] at hev
      rcases List.mem_append.1 hev with h' | h'
      · rename_i a _
        by_cases ha : a < m.arrays.length
        · have hget : m.arrays.getD a [] = m.arrays[a] := by
            simp [List.getD, List.getElem?_eq_getElem ha]
          rw [hget] at h'
          exact hQ _ (List.getElem_mem ha) ev h'
        · have hget : m.arrays.getD a [] = [] := by
            simp [List.getD, List.getElem?_eq_none (Nat.le_of_not_lt ha)]
          rw [hget] at h'
          simp at h'
      · simp only [List.mem_singleton] at h'
        rw [h']
        exact hr
  · simp only [List.mem_append, List.mem_singleton] at harr
    rcases harr with h | h
    · exact hQ arr h ev hev
    · rw [h] at hev
      simp only [List.mem_singleton] at hev
      rw [hev]
      exact hr

theorem Events.once_single (name : String) (hname : eventsApi name = none) (L : Nat)
    (context : Option Ref) (m : Model) :
    Events.once name (some L) context m =
      Events.onBody name (Callback.once m.nextUid name L) context
        { m with nextUid := m.nextUid + 1 } := by
  simp [Events.once, hname, Events.onceBody, Events.on_single name hname]

theorem Events.once_onceInv (name : String) (hname : eventsApi name = none) (L : Nat)
    (context : Option Ref) (m : Model) (hwf : Model.WF m)
    (hfresh : ∀ n, ∀ ev ∈ m.bucket n, ev.callback.user ≠ L) :
    OnceInv L m.nextUid name (Events.once name (some L) context m) ∧
    m.nextUid ∉ (Events.once name (some L) context m).onceRan ∧
    (Events.once name (some L) context m).trace = m.trace ∧
    (Events.once name (some L) context m).self = m.self ∧
    (Events.once name (some L) context m).bucket name = m.bucket name ++
      [{ callback := Callback.once m.nextUid name L, context := context,
         ctx := context.getD m.self }] := by
  rw [Events.once_single name hname]
  have hwf1 : Model.WF { m with nextUid := m.nextUid + 1 } :=
    ⟨hwf.table, fun arr harr ev hev u n f hc =>
      ⟨Nat.lt_succ_of_lt (hwf.uids arr harr ev hev u n f hc).1,
        (hwf.uids arr harr ev hev u n f hc).2⟩,
      fun u hu => Nat.lt_succ_of_lt (hwf.ran u hu)⟩
  have hw := Events.onBody_wf name (Callback.once m.nextUid name L) context
    { m with nextUid := m.nextUid + 1 } hwf1
    (fun u n f h => by
      cases h
      exact ⟨Nat.lt_succ_self _, hname⟩)
  have hf := Events.onBody_frame name (Callback.once m.nextUid name L) context
    { m with nextUid := m.nextUid + 1 }
  have hb := (Events.onBody_table name (Callback.once m.nextUid name L) context
    { m with nextUid := m.nextUid + 1 } hwf.table).2
  have hbm : ∀ n, Model.bucket { m with nextUid := m.nextUid + 1 } n = m.bucket n := fun _ => rfl
  have hnotran : m.nextUid ∉ m.onceRan := fun h => Nat.lt_irrefl _ (hwf.ran _ h)
  refine ⟨⟨hw, fun n ev hev => ?_, ?_, fun hu => ?_, fun n hn ev hev => ?_⟩, ?_, hf.2.2.2,
    hf.2.2.1, ?_⟩
  · rw [hb n] at hev
    split at hev
    · rw [hbm] at hev
      rcases List.mem_append.1 hev with h | h
      · exact Or.inr (hfresh name ev h)
      · simp only [List.mem_singleton] at h
        rw [h]
        exact Or.inl rfl
    · exact Or.inr (hfresh n ev hev)
  · exact Events.onBody_heap
      (fun ev => ∀ n f, ev.callback = Callback.once m.nextUid n f →
        ev.callback = Callback.once m.nextUid name L)
      name _ context { m with nextUid := m.nextUid + 1 }
      (fun arr harr ev hev n f hc =>
        absurd (hwf.uids arr harr ev hev m.nextUid n f hc).1 (Nat.lt_irrefl _))
      (fun n f _ => rfl)
  · rw [hf.2.1] at hu
    exact absurd hu hnotran
  · rw [hb n] at hev
    have hn' : ¬ name = n := fun h => hn h.symm
    simp only [hn', if_false] at hev
    intro hc
    have := hfresh n ev hev
    rw [hc] at this
    exact this rfl
  · rw [hf.2.1]
    exact hnotran
  · rw [hb name]
    simp only [if_true]
    rfl

theorem onceInv_no_entry (L u : Nat) (name : String) (m : Model) (hK : OnceInv L u name m)
    (hran : u ∈ m.onceRan) : ∀ n, ∀ ev ∈ m.bucket n, ev.callback.user ≠ L := by
  intro n ev hev
  rcases hK.entries n ev hev with h | h
  · exact absurd h (hK.gone hran n ev hev)
  · exact h

theorem filter_calls_delta (L : Nat) (tr t : List Obs) (X : List (Nat × Ref × List Arg))
    (h : (calls (tr ++ t)).filter (fun c => decide (c.1 = L)) =
      (calls tr).filter (fun c => decide (c.1 = L)) ++ X) :
    (calls t).filter (fun c => decide (c.1 = L)) = X := by
  rw [calls_append, List.filter_append] at h
  exact List.append_cancel_left h

theorem triggerAll_spent (env : Env) (henv : Env.Inert env) (fuel : Nat) (L u : Nat)
    (name : String) (hname : eventsApi name = none) (later : List (List Arg)) (m : Model)
    (hK : OnceInv L u name m) (hran : u ∈ m.onceRan) :
    ∃ m' t, triggerAll (fuel + 1) env name later m = some m' ∧ OnceInv L u name m' ∧
      u ∈ m'.onceRan ∧ m'.trace = m.trace ++ t ∧
      (calls t).filter (fun c => decide (c.1 = L)) = [] := by
  induction later generalizing m with
  | nil => exact ⟨m, [], rfl, hK, hran, by simp, rfl⟩
  | cons args rest ih =>
    obtain ⟨k1, -, -, ⟨t1, ht1, -⟩, m1, r1, c1, r2⟩ :=
      triggerInert_onceInv L u name name args m hK hname
    have hran1 : u ∈ m1.onceRan := r1.2 (Or.inl hran)
    have hran2 : u ∈ (triggerInert name args m).onceRan := r2.2 (Or.inl hran1)
    have hc1 : (calls t1).filter (fun c => decide (c.1 = L)) = [] := by
      rw [ht1, List.append_assoc] at c1
      have := filter_calls_delta L m.trace t1 _ c1
      rw [this]
      simp [wrapperCall, hran, hran1]
    obtain ⟨m', t2, e2, k2, hr2, ht2, hc2⟩ := ih (triggerInert name args m) k1 hran2
    refine ⟨m', t1 ++ t2, ?_, k2, hr2, by rw [ht2, ht1, List.append_assoc], ?_⟩
    · simp only [triggerAll, trigger_inert env henv fuel name hname, Option.some_bind]
      exact e2
    · rw [calls_append, List.filter_append, hc1, hc2]
      rfl

/-- C10 (amended): on a record in a well-formed subscription state and with
empty user functions, after `once(name, L, context)` for a single event name
that is not the name of a member of `Object.prototype` and a user function `L`
that is not subscribed yet, the first `trigger(name, ...)` calls
`L` exactly once, on its context and with the arguments of that dispatch,
and leaves no record for `L` in the table, neither the wrapper nor `L`; any
number of later `trigger(name, ...)` calls never call `L`, and the table still
holds no record for `L`. -/
theorem once_fires_once (env : Env) (henv : Env.Inert env) (fuel : Nat) (m : Model)
    (hwf : Model.WF m) (name : String) (hname : eventsApi name = none)
    (_hown : name ∉ inheritedKeys) (L : Nat)
    (context : Option Ref) (hfresh : ∀ n, ∀ ev ∈ m.bucket n, ev.callback.user ≠ L)
    (args : List Arg) (later : List (List Arg)) :
    ∃ m1 t1, trigger (fuel + 1) env name args (Events.once name (some L) context m) = some m1 ∧
      m1.trace = m.trace ++ t1 ∧
      (calls t1).filter (fun c => decide (c.1 = L)) = [(L, context.getD m.self, args)] ∧
      (∀ n, ∀ ev ∈ m1.bucket n, ev.callback.user ≠ L) ∧
      ∃ m2 t2, triggerAll (fuel + 1) env name later m1 = some m2 ∧
        m2.trace = m1.trace ++ t2 ∧
        (calls t2).filter (fun c => decide (c.1 = L)) = [] ∧
        (∀ n, ∀ ev ∈ m2.bucket n, ev.callback.user ≠ L) := by
  obtain ⟨hK, hnotran, htr, hself, hbk⟩ := Events.once_onceInv name hname L context m hwf hfresh
  obtain ⟨k1, -, -, ⟨t1, ht1, -⟩, mid, r1, c1, r2⟩ :=
    triggerInert_onceInv L m.nextUid name name args
      (Events.once name (some L) context m) hK hname
  have hin : ∃ ev ∈ (Events.once name (some L) context m).bucket name,
      ev.callback = Callback.once m.nextUid name L := by
    rw [hbk]
    exact ⟨_, List.mem_append_right _ (List.mem_singleton.2 rfl), rfl⟩
  have hmid : m.nextUid ∈ mid.onceRan := r1.2 (Or.inr hin)
  have hran : m.nextUid ∈ (triggerInert name args
      (Events.once name (some L) context m)).onceRan := r2.2 (Or.inl hmid)
  have hfind : ((Events.once name (some L) context m).bucket name).find?
      (fun ev => decide (ev.callback = Callback.once m.nextUid name L)) =
      some { callback := Callback.once m.nextUid name L, context := context,
             ctx := context.getD m.self } := by
    rw [hbk, List.find?_append]
    have hnone : (m.bucket name).find?
        (fun ev => decide (ev.callback = Callback.once m.nextUid name L)) = none := by
      rw [List.find?_eq_none]
      intro ev hev
      have := hfresh name ev hev
      simp only [decide_eq_true_eq]
      intro hc
      rw [hc] at this
      exact this rfl
    rw [hnone]
    simp
  have hc1 : (calls t1).filter (fun c => decide (c.1 = L)) =
      [(L, context.getD m.self, args)] := by
    rw [ht1, List.append_assoc] at c1
    have := filter_calls_delta L _ t1 _ c1
    rw [this]
    simp [wrapperCall, hnotran, hmid, hfind]
  obtain ⟨m2, t2, e2, k2, hr2, ht2, hc2⟩ := triggerAll_spent env henv fuel L m.nextUid name hname
    later _ k1 hran
  exact ⟨_, t1, trigger_inert env henv fuel name hname args _, by rw [ht1, htr], hc1,
    onceInv_no_entry L m.nextUid name _ k1 hran, m2, t2, e2, ht2, hc2,
    onceInv_no_entry L m.nextUid name _ k2 hr2⟩

theorem once_fires_once_witness :
    ∃ m1 t1, trigger 1 Env.plain "ping" [Arg.val (Value.num 1)]
        (Events.once "ping" (some 2) none (Model.init 7 [])) = some m1 ∧
      m1.trace = [] ++ t1 ∧
      (calls t1).filter (fun c => decide (c.1 = 2)) = [(2, 7, [Arg.val (Value.num 1)])] ∧
      (∀ n, ∀ ev ∈ m1.bucket n, ev.callback.user ≠ 2) ∧
      ∃ m2 t2, triggerAll 1 Env.plain "ping" [[Arg.val (Value.num 2)], []] m1 = some m2 ∧
        m2.trace = m1.trace ++ t2 ∧
        (calls t2).filter (fun c => decide (c.1 = 2)) = [] ∧
        (∀ n, ∀ ev ∈ m2.bucket n, ev.callback.user ≠ 2) :=
  once_fires_once Env.plain (fun _ _ _ _ => rfl) 0 (Model.init 7 []) (Model.init_wf 7 [])
    "ping" (by decide) (by decide) 2 none
    (fun n ev h => by simp [Model.bucket, bucketOf, Model.init, Dict.find] at h)
    [Arg.val (Value.num 1)] [[Arg.val (Value.num 2)], []]

/-- C10 as stated fails.  When `L` is also subscribed with `on`, the first
`trigger("ping")` after `once("ping", L)` calls `L` twice, the second
`trigger("ping")` calls it again, and the record of `L` stays in the table.
When `L` calls `once("ping", L)` as it runs, the second `trigger("ping")` calls
`L` again.  For the name `"constructor"` the read of the bucket at line 33 of
event.js (reached from `once`, line 54) finds the member inherited from
`Object.prototype`, and line 35 throws. -/
theorem once_fires_once_counterexample :
    (triggerAll 1 Env.plain "ping" [[], []]
        (Events.once "ping" (some 2) none
          (Events.on "ping" (some (Callback.fn 2)) none (Model.init 7 [])))).map
        (fun m' => (calls m'.trace, m'.bucket "ping")) =
      some ([(2, 7, []), (2, 7, []), (2, 7, [])], [⟨Callback.fn 2, none, 7⟩]) ∧
    (triggerAll 2 (Env.again 2 "ping") "ping" [[], []]
        (Events.once "ping" (some 2) none (Model.init 7 []))).map
        (fun m' => calls m'.trace) =
      some [(2, 7, []), (2, 7, [])] ∧
    Dict.inherits ((Model.init 7 [])._events.getD []) "constructor" = true :=
  ⟨by rfl, by rfl, by rfl⟩

/-! ## The replay of `"change"` (claim C7) -/

theorem spent_stable (g : Nat) : Stable (Spent g) := by
  intro m m' h ⟨t, ht⟩
  unfold Spent at h ⊢
  rw [ht, calls_append, List.any_append, h]
  rfl

theorem spent_of_call (g : Nat) (ctx : Ref) (args : List Arg) (m : Model) :
    Spent g { m with trace := m.trace ++ [Obs.call g ctx args] } := by
  unfold Spent
  simp [calls_append, calls]

theorem invoke_spent (env : Env) (g : Nat) (key2 : KeyArg) (options2 : Obj)
    (henv : Env.Replays env g key2 options2) (n : Nat) :
    QuietOn (Spent g) (invoke (n + 1) env) := by
  intro cb ctx args m hm
  have hdone : ∀ f m ctx args, Spent g m → env.listener f m ctx args = Script.done := by
    intro f m ctx args h
    unfold Spent at h
    rw [henv, h]
    simp
  cases cb with
  | fn f =>
    refine ⟨{ m with trace := m.trace ++ [Obs.call f ctx args] }, ?_, same_closed.call m f ctx args⟩
    simp [invoke, runUser, hdone f m ctx args hm, runScript]
  | once uid name f =>
    simp only [invoke]
    split
    · exact ⟨m, rfl, same_refl m⟩
    · have hev := Events.off_evOnly (some name) (some (Callback.once uid name f)) none
        { m with onceRan := uid :: m.onceRan }
      have hs1 : Same m { m with onceRan := uid :: m.onceRan } :=
        ⟨rfl, rfl, traceGrows_of_eq rfl⟩
      have hs2 := same_trans hs1 (same_of_evOnly hev)
      refine ⟨_, ?_, same_trans hs2 (same_closed.call _ f ctx args)⟩
      simp only [runUser]
      rw [hdone f _ ctx args (spent_stable g m _ hm hs2.2.2)]
      rfl

theorem invoke_other (env : Env) (g : Nat) (key2 : KeyArg) (options2 : Obj)
    (henv : Env.Replays env g key2 options2) (n : Nat) (f : Nat) (hf : f ≠ g) (ctx : Ref)
    (args : List Arg) (m : Model) :
    invoke (n + 1) env (Callback.fn f) ctx args m =
      some { m with trace := m.trace ++ [Obs.call f ctx args] } := by
  simp [invoke, runUser, henv f m ctx args, hf, runScript]

theorem logged_refl (g : Nat) (m : Model) : Logged g [] m m :=
  ⟨[], by simp, rfl, rfl⟩

theorem logged_trans {g : Nat} {E1 E2 : List (String × List Arg)} {a b c : Model}
    (h1 : Logged g E1 a b) (h2 : Logged g E2 b c) : Logged g (E1 ++ E2) a c := by
  obtain ⟨t1, e1, x1, y1⟩ := h1
  obtain ⟨t2, e2, x2, y2⟩ := h2
  refine ⟨t1 ++ t2, ?_, ?_, ?_⟩
  · rw [e2, e1]
    simp
  · rw [emitted_append, x1, x2]
  · rw [calls_append, List.any_append, y1, y2]
    rfl

theorem triggerEvents_others (env : Env) (g : Nat) (key2 : KeyArg) (options2 : Obj)
    (henv : Env.Replays env g key2 options2) (n : Nat) (evs : List EventRec)
    (hevs : ∀ ev ∈ evs, EventRec.Other g ev) (args : List Arg) (m : Model) :
    ∃ m', triggerEvents (invoke (n + 1) env) evs args m = some m' ∧ Logged g [] m m' := by
  induction evs generalizing m with
  | nil => exact ⟨m, rfl, logged_refl g m⟩
  | cons ev rest ih =>
    obtain ⟨f, hcb, hf⟩ := hevs ev (List.mem_cons_self _ _)
    obtain ⟨m2, e2, l2⟩ := ih (fun x hx => hevs x (List.mem_cons_of_mem _ hx))
      { m with trace := m.trace ++ [Obs.call f ev.ctx args] }
    refine ⟨m2, ?_, ?_⟩
    · simp only [triggerEvents]
      rw [hcb, invoke_other env g key2 options2 henv n f hf]
      exact e2
    · have l1 : Logged g [] m { m with trace := m.trace ++ [Obs.call f ev.ctx args] } :=
        ⟨[Obs.call f ev.ctx args], rfl, rfl, by simp [calls, hf]⟩
      exact logged_trans l1 l2

theorem triggerEvents_append (inv : Invoker) (l1 l2 : List EventRec) (args : List Arg)
    (m : Model) :
    triggerEvents inv (l1 ++ l2) args m =
      (triggerEvents inv l1 args m).bind (triggerEvents inv l2 args) := by
  induction l1 generalizing m with
  | nil => rfl
  | cons ev rest ih =>
    simp only [List.cons_append, triggerEvents]
    cases inv ev.callback ev.ctx args m with
    | none => rfl
    | some m1 => simp [ih]

theorem Events.trigger_others (env : Env) (g : Nat) (key2 : KeyArg) (options2 : Obj)
    (henv : Env.Replays env g key2 options2) (n : Nat) (name : String)
    (hname : eventsApi name = none) (args : List Arg) (m : Model)
    (hb : ∀ ev ∈ m.bucket name, EventRec.Other g ev)
    (hall : ∀ ev ∈ m.bucket "all", EventRec.Other g ev) :
    ∃ m', Events.trigger (invoke (n + 1) env) name args m = some m' ∧
      Logged g [(name, args)] m m' := by
  have l0 : Logged g [(name, args)] m { m with trace := m.trace ++ [Obs.emit name args] } :=
    ⟨[Obs.emit name args], rfl, rfl, rfl⟩
  unfold Events.trigger
  simp only
  split
  · exact ⟨_, rfl, l0⟩
  · rename_i tbl hev
    simp only [hname, Events.triggerBody]
    have htbl : m._events.getD [] = tbl := by rw [hev]; rfl
    rw [htbl]
    simp only [Model.bucket, bucketOf, hev, Option.getD_some] at hb hall
    have h1 : ∃ m1, (match Dict.find tbl name with
        | some a => triggerEvents (invoke (n + 1) env) (m.arrays.getD a []) args
            { m with trace := m.trace ++ [Obs.emit name args] }
        | none => some { m with trace := m.trace ++ [Obs.emit name args] }) = some m1 ∧
        Logged g [] { m with trace := m.trace ++ [Obs.emit name args] } m1 := by
      cases hf : Dict.find tbl name with
      | none => exact ⟨_, rfl, logged_refl g _⟩
      | some a =>
        rw [hf] at hb
        exact triggerEvents_others env g key2 options2 henv n _ hb args _
    obtain ⟨m1, e1, l1⟩ := h1
    rw [e1]
    simp only [Option.some_bind]
    have ha1 : m1.arrays = m.arrays := by
      obtain ⟨t, ht, -⟩ := l1
      rw [ht]
    cases hf : Dict.find tbl "all" with
    | none => exact ⟨m1, rfl, logged_trans l0 l1⟩
    | some a =>
      rw [hf] at hall
      rw [ha1]
      obtain ⟨m2, e2, l2⟩ := triggerEvents_others env g key2 options2 henv n _ hall
        (Arg.val (Value.str name) :: args) m1
      exact ⟨m2, e2, by simpa using logged_trans l0 (logged_trans l1 l2)⟩

theorem Model.fireChanges_others (env : Env) (g : Nat) (key2 : KeyArg) (options2 : Obj)
    (henv : Env.Replays env g key2 options2) (n : Nat) (ks : List String) (options : Obj)
    (m : Model) (hnames : ∀ k ∈ ks, eventsApi ("change:" ++ k) = none)
    (hb : ∀ k ∈ ks, ∀ ev ∈ m.bucket ("change:" ++ k), EventRec.Other g ev)
    (hall : ∀ ev ∈ m.bucket "all", EventRec.Other g ev) :
    ∃ m', Model.fireChanges (invoke (n + 1) env) ks options m = some m' ∧
      Logged g (ks.map fun k =>
        ("change:" ++ k, [Arg.ref m.self, Arg.val (Obj.get m.attributes k), Arg.obj options]))
        m m' := by
  induction ks generalizing m with
  | nil => exact ⟨m, rfl, logged_refl g m⟩
  | cons k ks ih =>
    obtain ⟨m1, e1, l1⟩ := Events.trigger_others env g key2 options2 henv n ("change:" ++ k)
      (hnames k (List.mem_cons_self _ _))
      [Arg.ref m.self, Arg.val (Obj.get m.attributes k), Arg.obj options] m
      (hb k (List.mem_cons_self _ _)) hall
    have hm1 := l1
    obtain ⟨t, ht, -⟩ := hm1
    have hbk : ∀ name, m1.bucket name = m.bucket name := by
      intro name
      rw [ht]
      rfl
    obtain ⟨m2, e2, l2⟩ := ih m1 (fun x hx => hnames x (List.mem_cons_of_mem _ hx))
      (fun x hx => by rw [hbk]; exact hb x (List.mem_cons_of_mem _ hx))
      (by rw [hbk]; exact hall)
    have hs : m1.self = m.self := by rw [ht]
    have hat : m1.attributes = m.attributes := by rw [ht]
    rw [hs, hat] at l2
    refine ⟨m2, by simp [Model.fireChanges, e1, e2], ?_⟩
    simpa using logged_trans l1 l2

theorem Model.applied_table (env : Env) (attrs options : Obj) (e : Value) (m : Model) :
    (Model.applied env attrs options e m).2._events = m._events ∧
    (Model.applied env attrs options e m).2.arrays = m.arrays := by
  unfold Model.applied Model.setApply Model.setBegin
  simp only
  constructor <;> (repeat' split) <;> rfl

theorem Model.applied_attrsAfter (env : Env) (attrs options : Obj) (e : Value) (m : Model) :
    (Model.applied env attrs options e m).2.attributes = Model.attrsAfter env attrs options m := by
  have h1 := (Model.applied_fold env attrs options e m).2
  have h2 := (Model.applied_fold env attrs options m.validationError m).2
  rw [h1, ← h2]
  unfold Model.attrsAfter Model.applied
  simp only
  split <;> rfl

theorem changeEvents_length (env : Env) (attrs options : Obj) (e : Value) (m : Model)
    (hnd : (attrs.map Prod.fst).Nodup) :
    (Model.applied env attrs options e m).1.length =
      (changeEvents m.self m.attributes attrs options).length := by
  rw [← changeEvents_eq env attrs options e m hnd, List.length_map]

theorem Model.set_spent (env : Env) (g : Nat) (key2 : KeyArg) (attrs2 options2 : Obj)
    (henv : Env.Replays env g key2 options2) (hkey2 : key2.attrs = some attrs2)
    (hnd2 : (attrs2.map Prod.fst).Nodup)
    (hsilent2 : (Obj.get options2 "silent").truthy = false)
    (hacc2 : ∀ m, ¬ Rejects env attrs2 options2 m)
    (n : Nat) (m : Model) (hch : m._changing = true) (hm : Spent g m) :
    ∃ m', Model.set (n + 1) env key2 options2 m = some (SetResult.record, m') ∧
      Spent g m' ∧ m'.self = m.self ∧ m'._changing = true ∧
      m'._pending = (if (changeEvents m.self m.attributes attrs2 options2).length != 0
        then some options2 else m._pending) ∧
      emitted m'.trace = emitted m.trace ++ changeEvents m.self m.attributes attrs2 options2 := by
  obtain ⟨e, m', h, c, t, gr⟩ := Model.setAttrs_quietOn (spent_stable g)
    (invoke_spent env g key2 options2 henv n) n env attrs2 options2 m hm (hacc2 m)
  rw [hch] at c t
  simp only [if_true, Bool.true_or, List.append_nil, hsilent2, Bool.false_eq_true, if_false] at c t
  have hc := (Model.core_eq _ m').1 c
  have hf := Model.applied_frame env attrs2 options2 e m
  refine ⟨m', ?_, spent_stable g m m' hm gr, hc.1.trans hf.1, hc.2.2.2.2.2.2.1.trans hf.2.2.1,
    ?_, ?_⟩
  · unfold Model.set
    rw [Model.setWith_attrs _ _ _ key2 attrs2 options2 m hkey2]
    exact h
  · rw [hc.2.2.2.2.2.2.2, Model.applied_pending, hsilent2,
      changeEvents_length env attrs2 options2 e m hnd2]
    simp
  · rw [t, changeEvents_eq env attrs2 options2 e m hnd2]

theorem invoke_first (env : Env) (g : Nat) (key2 : KeyArg) (attrs2 options2 : Obj)
    (henv : Env.Replays env g key2 options2) (hkey2 : key2.attrs = some attrs2)
    (hnd2 : (attrs2.map Prod.fst).Nodup)
    (hsilent2 : (Obj.get options2 "silent").truthy = false)
    (hacc2 : ∀ m, ¬ Rejects env attrs2 options2 m)
    (n : Nat) (ctx : Ref) (args : List Arg) (m : Model) (hch : m._changing = true)
    (hfresh : (calls m.trace).any (fun c => c.1 == g) = false) :
    ∃ m', invoke (n + 2) env (Callback.fn g) ctx args m = some m' ∧
      Spent g m' ∧ m'.self = m.self ∧ m'._changing = true ∧
      m'._pending = (if (changeEvents m.self m.attributes attrs2 options2).length != 0
        then some options2 else m._pending) ∧
      emitted m'.trace = emitted m.trace ++ changeEvents m.self m.attributes attrs2 options2 := by
  obtain ⟨m', h, s, c1, c2, c3, t⟩ := Model.set_spent env g key2 attrs2 options2 henv hkey2 hnd2
    hsilent2 hacc2 n { m with trace := m.trace ++ [Obs.call g ctx args] } hch
    (spent_of_call g ctx args m)
  refine ⟨m', ?_, s, c1, c2, c3, ?_⟩
  · have hl : env.listener g m ctx args =
        Script.call (Cmd.set key2 options2) (fun _ => Script.done) := by
      rw [henv, hfresh]
      simp
    show runUser (invoke (n + 1) env) (n + 1) env g ctx args m = some m'
    unfold Model.set at h
    simp only [runUser, hl, runScript, execCmd, h, Option.map_some']
  · rw [t]
    simp [emitted_append, emitted]

theorem Events.trigger_replay (env : Env) (g : Nat) (key2 : KeyArg) (attrs2 options2 : Obj)
    (henv : Env.Replays env g key2 options2) (hkey2 : key2.attrs = some attrs2)
    (hnd2 : (attrs2.map Prod.fst).Nodup)
    (hsilent2 : (Obj.get options2 "silent").truthy = false)
    (hacc2 : ∀ m, ¬ Rejects env attrs2 options2 m)
    (n : Nat) (args : List Arg) (m : Model) (hch : m._changing = true)
    (hfresh : (calls m.trace).any (fun c => c.1 == g) = false)
    (pre post : List EventRec) (context : Option Ref) (ctx : Ref)
    (hbucket : m.bucket "change" = pre ++ ⟨Callback.fn g, context, ctx⟩ :: post)
    (hpre : ∀ ev ∈ pre, EventRec.Other g ev) :
    ∃ m', Events.trigger (invoke (n + 2) env) "change" args m = some m' ∧
      Spent g m' ∧ m'.self = m.self ∧ m'._changing = true ∧
      m'._pending = (if (changeEvents m.self m.attributes attrs2 options2).length != 0
        then some options2 else m._pending) ∧
      emitted m'.trace = emitted m.trace ++ [("change", args)] ++
        changeEvents m.self m.attributes attrs2 options2 := by
  have l0 : Logged g [("change", args)] m { m with trace := m.trace ++ [Obs.emit "change" args] } :=
    ⟨[Obs.emit "change" args], rfl, rfl, rfl⟩
  have hq := invoke_spent env g key2 options2 henv (n + 1)
  unfold Events.trigger
  simp only
  split
  · rename_i hev
    simp [Model.bucket, bucketOf, hev, Dict.find] at hbucket
  · rename_i tbl hev
    have hname : eventsApi "change" = none := by decide
    simp only [hname, Events.triggerBody]
    have htbl : m._events.getD [] = tbl := by rw [hev]; rfl
    rw [htbl]
    simp only [Model.bucket, bucketOf, htbl] at hbucket
    cases hf : Dict.find tbl "change" with
    | none =>
      rw [hf] at hbucket
      simp at hbucket
    | some a =>
      rw [hf] at hbucket
      simp only at hbucket ⊢
      rw [hbucket, triggerEvents_append]
      obtain ⟨ma, ea, la⟩ := triggerEvents_others env g key2 options2 henv (n + 1) pre hpre args
        { m with trace := m.trace ++ [Obs.emit "change" args] }
      rw [ea]
      simp only [Option.some_bind, triggerEvents]
      obtain ⟨t, ht, hte, htc⟩ := logged_trans l0 la
      have hma : (calls ma.trace).any (fun c => c.1 == g) = false := by
        rw [ht]
        simp only [calls_append, List.any_append, hfresh, htc]
        rfl
      have hcha : ma._changing = true := by rw [ht]; exact hch
      obtain ⟨mb, eb, sb, b1, b2, b3, tb⟩ := invoke_first env g key2 attrs2 options2 henv hkey2
        hnd2 hsilent2 hacc2 n ctx args ma hcha hma
      rw [eb]
      simp only [Option.some_bind]
      obtain ⟨mc, ec, sc⟩ := triggerEvents_quietOn (spent_stable g) hq post args mb sb
      rw [ec]
      simp only [Option.some_bind]
      have hsc : Spent g mc := spent_stable g mb mc sb sc.2.2
      have hd : ∃ md, (match Dict.find tbl "all" with
          | some a => triggerEvents (invoke (n + 2) env) (mc.arrays.getD a [])
              (Arg.val (Value.str "change") :: args) mc
          | none => some mc) = some md ∧ Same mc md := by
        split
        · exact triggerEvents_quietOn (spent_stable g) hq _ _ mc hsc
        · exact ⟨mc, rfl, same_refl mc⟩
      obtain ⟨md, ed, sd⟩ := hd
      have hs := same_trans sc sd
      have hc := (Model.core_eq mb md).1 hs.1
      have a1 : ma.self = m.self := by rw [ht]
      have a2 : ma.attributes = m.attributes := by rw [ht]
      have a3 : ma._pending = m._pending := by rw [ht]
      have a4 : emitted ma.trace = emitted m.trace ++ [("change", args)] := by
        rw [ht]
        simp only [emitted_append, hte]
        simp
      rw [a1, a2, a3] at b3
      rw [a1, a2, a4] at tb
      refine ⟨md, ed, spent_stable g mb md sb hs.2.2, hc.1.trans (b1.trans a1),
        hc.2.2.2.2.2.2.1.trans b2, hc.2.2.2.2.2.2.2.trans b3, hs.2.1.trans tb⟩

theorem logged_fields {g : Nat} {E : List (String × List Arg)} {m m' : Model}
    (h : Logged g E m m') :
    m'.core = m.core ∧ (∀ name, m'.bucket name = m.bucket name) ∧
      emitted m'.trace = emitted m.trace ++ E ∧
      ((calls m.trace).any (fun c => c.1 == g) = false →
        (calls m'.trace).any (fun c => c.1 == g) = false) := by
  obtain ⟨t, ht, hte, htc⟩ := h
  subst ht
  refine ⟨rfl, fun _ => rfl, ?_, ?_⟩
  · simp only [emitted_append, hte]
  · intro h0
    simp only [calls_append, List.any_append, h0, htc]
    rfl

theorem change_key_ne (k : String) : "change:" ++ k ≠ "change" := by
  intro h
  have hl := congrArg String.length h
  rw [String.length_append] at hl
  have h7 : ("change:" : String).length = 7 := by decide
  have h6 : ("change" : String).length = 6 := by decide
  omega

theorem countEvent_append (name : String) (E1 E2 : List (String × List Arg)) :
    countEvent name (E1 ++ E2) = countEvent name E1 + countEvent name E2 := by
  simp [countEvent]

theorem countEvent_changeEvents (self : Ref) (current attrs options : Obj) :
    countEvent "change" (changeEvents self current attrs options) = 0 := by
  unfold countEvent changeEvents
  rw [List.length_eq_zero, List.filter_eq_nil_iff]
  intro ev hev
  obtain ⟨kv, -, rfl⟩ := List.mem_map.1 hev
  simpa using change_key_ne kv.1

/-- C7, the amended claim: on a record type whose user function `g` calls a
non-silent, never rejected `set(key2, options2)` the first time it is entered
and whose user functions otherwise do nothing, take a record outside any `set`
on which `g` was never entered, is subscribed with `on` under `"change"`, and
on which the listeners of the other events and those ahead of `g` under
`"change"` are plain functions other than `g`.  No key of the two hashes is
the name of a member of `Object.prototype` and the keys of the outer hash hold
no white space.  An outermost, non-silent, accepted `set` that changes a key,
and after which the nested `set` changes a key, returns the record after emitting exactly: its `"change:<key>"` events,
`"change"` with its options, the `"change:<key>"` events of the nested `set`,
and `"change"` with the options of the nested `set`; so `"change"` is emitted
exactly twice.  Any nested `set(key2, options2)` made once `g` was entered
returns after emitting its `"change:<key>"` events only. -/
theorem aggregate_replay (env : Env) (g : Nat) (key2 : KeyArg) (attrs2 options2 : Obj)
    (henv : Env.Replays env g key2 options2) (hkey2 : key2.attrs = some attrs2)
    (hnd2 : (attrs2.map Prod.fst).Nodup) (_hown2 : OwnKeys attrs2)
    (hsilent2 : (Obj.get options2 "silent").truthy = false)
    (hacc2 : ∀ m, ¬ Rejects env attrs2 options2 m)
    (fuel : Nat) (key : KeyArg) (attrs options : Obj) (m : Model)
    (hkey : key.attrs = some attrs) (hnd : (attrs.map Prod.fst).Nodup)
    (_hown : OwnKeys attrs)
    (hnames : ∀ kv ∈ attrs, eventsApi ("change:" ++ kv.1) = none)
    (hout : m._changing = false)
    (hsilent : (Obj.get options "silent").truthy = false)
    (hacc : ¬ Rejects env attrs options m)
    (hfresh : ¬ Spent g m)
    (pre post : List EventRec) (context : Option Ref) (ctx : Ref)
    (hbucket : m.bucket "change" = pre ++ ⟨Callback.fn g, context, ctx⟩ :: post)
    (hpre : ∀ ev ∈ pre, EventRec.Other g ev)
    (hothers : ∀ name, name ≠ "change" → ∀ ev ∈ m.bucket name, EventRec.Other g ev)
    (hch1 : changeEvents m.self m.attributes attrs options ≠ [])
    (hch2 : changeEvents m.self (Model.attrsAfter env attrs options m) attrs2 options2 ≠ []) :
    (∃ m', Model.set (fuel + 2) env key options m = some (SetResult.record, m') ∧
      emitted m'.trace = emitted m.trace ++ changeEvents m.self m.attributes attrs options ++
        [("change", [Arg.ref m.self, Arg.obj options])] ++
        changeEvents m.self (Model.attrsAfter env attrs options m) attrs2 options2 ++
        [("change", [Arg.ref m.self, Arg.obj options2])] ∧
      countEvent "change" (emitted m'.trace) = countEvent "change" (emitted m.trace) + 2) ∧
    (∀ n m1, m1._changing = true → Spent g m1 →
      ∃ m1', Model.set (n + 1) env key2 options2 m1 = some (SetResult.record, m1') ∧
        emitted m1'.trace =
          emitted m1.trace ++ changeEvents m1.self m1.attributes attrs2 options2) := by
  constructor
  swap
  · intro n m1 h1 s1
    obtain ⟨m1', h, -, -, -, -, t⟩ := Model.set_spent env g key2 attrs2 options2 henv hkey2 hnd2
      hsilent2 hacc2 n m1 h1 s1
    exact ⟨m1', h, t⟩
  have hfresh0 : (calls m.trace).any (fun c => c.1 == g) = false := by
    unfold Spent at hfresh
    exact Bool.eq_false_iff.2 hfresh
  obtain ⟨e, he⟩ := Model._validate_of_not_rejects (invoke (fuel + 2) env) env attrs options m hacc
  have hf := Model.applied_frame env attrs options e m
  have htab := Model.applied_table env attrs options e m
  have hatt := Model.applied_attrsAfter env attrs options e m
  have hpend := Model.applied_pending env attrs options e m
  have hchs := Model.applied_changes env attrs options e m hnd
  have hce := changeEvents_eq env attrs options e m hnd
  have hlen := changeEvents_length env attrs options e m hnd
  have hset := Model.setAttrs_accepted (invoke (fuel + 2) env) (fuel + 2) env attrs options e m he
  generalize Model.applied env attrs options e m = am at hf htab hatt hpend hchs hce hlen hset
  obtain ⟨changes, m3⟩ := am
  simp only at hf htab hatt hpend hchs hce hlen hset
  have hne : (changeEvents m.self m.attributes attrs options).length ≠ 0 := by
    simpa [List.length_eq_zero] using hch1
  have hp3 : m3._pending = some options := by
    rw [hpend, hsilent, hlen]
    simp [hne]
  have hbk3 : ∀ name, m3.bucket name = m.bucket name := by
    intro name
    unfold Model.bucket
    rw [htab.1, htab.2]
  obtain ⟨m4, e4, l4⟩ := Model.fireChanges_others env g key2 options2 henv (fuel + 1) changes
    options m3
    (by
      intro k hk
      rw [hchs] at hk
      obtain ⟨kv, hkv, rfl⟩ := List.mem_map.1 hk
      exact hnames kv (List.mem_filter.1 hkv).1)
    (by
      intro k _
      rw [hbk3]
      exact hothers _ (change_key_ne k))
    (by
      rw [hbk3]
      exact hothers "all" (by decide))
  rw [hf.1, hce] at l4
  obtain ⟨c4, b4, t4, f4⟩ := logged_fields l4
  have hc4 := (Model.core_eq m3 m4).1 c4
  rw [hf.2.1] at t4 f4
  have hm0 : ((calls ({ m4 with _pending := none } : Model).trace).any fun c => c.1 == g)
      = false := f4 hfresh0
  obtain ⟨m5, e5, s5, a5, b5, p5, t5⟩ := Events.trigger_replay env g key2 attrs2 options2 henv
    hkey2 hnd2 hsilent2 hacc2 fuel [Arg.ref m4.self, Arg.obj options]
    { m4 with _pending := none } (hc4.2.2.2.2.2.2.1.trans hf.2.2.1) hm0 pre post context ctx
    (by
      have : ({ m4 with _pending := none } : Model).bucket "change" = m4.bucket "change" := rfl
      rw [this, b4, hbk3]
      exact hbucket)
    hpre
  have hs4 : m4.self = m.self := hc4.1.trans hf.1
  have ha4 : m4.attributes = Model.attrsAfter env attrs options m := hc4.2.1.trans hatt
  simp only [hs4, ha4] at a5 b5 p5 t5
  have hne2 : (changeEvents m.self (Model.attrsAfter env attrs options m) attrs2
      options2).length ≠ 0 := by
    simpa [List.length_eq_zero] using hch2
  have hp5 : m5._pending = some options2 := by
    rw [p5]
    simp [hne2]
  obtain ⟨m6, e6, c6, t6, -⟩ := Model.changeLoop_quietOn (spent_stable g)
    (invoke_spent env g key2 options2 henv (fuel + 1)) fuel m5 s5
  rw [hp5, a5] at t6
  simp only at t6
  have hres : Model.set (fuel + 2) env key options m =
      some (SetResult.record, { m6 with _pending := none, _changing := false }) := by
    unfold Model.set
    rw [Model.setWith_attrs _ _ _ key attrs options m hkey, hset, hsilent, hout]
    simp only [Bool.not_false, if_true, e4, Option.some_bind, Bool.false_eq_true, if_false]
    unfold Model.setFinish
    simp only [hsilent, Bool.not_false, if_true]
    have hloop : Model.changeLoop (invoke (fuel + 2) env) (fuel + 2) m4 = some m6 := by
      have hp4 : m4._pending = some options := hc4.2.2.2.2.2.2.2.trans hp3
      rw [Model.changeLoop, hp4]
      show (Events.trigger (invoke (fuel + 2) env) "change" [Arg.ref m4.self, Arg.obj options]
        { m4 with _pending := none }).bind (Model.changeLoop (invoke (fuel + 2) env) (fuel + 1))
          = some m6
      rw [e5]
      exact e6
    rw [hloop]
    rfl
  have htr : emitted m6.trace = emitted m.trace ++ changeEvents m.self m.attributes attrs options ++
      [("change", [Arg.ref m.self, Arg.obj options])] ++
      changeEvents m.self (Model.attrsAfter env attrs options m) attrs2 options2 ++
      [("change", [Arg.ref m.self, Arg.obj options2])] := by
    rw [t6, t5]
    have : emitted ({ m4 with _pending := none } : Model).trace = emitted m4.trace := rfl
    rw [this, t4]
  refine ⟨_, hres, htr, ?_⟩
  show countEvent "change" (emitted m6.trace) = _
  rw [htr]
  simp only [countEvent_append, countEvent_changeEvents]
  simp [countEvent]

theorem aggregate_replay_witness :
    ∃ m', Model.set 2 (Env.replay 1 (KeyArg.map [("B", Value.num 1)]) [])
        (KeyArg.map [("A", Value.num 2)]) [] Model.replayed = some (SetResult.record, m') ∧
      emitted m'.trace =
        [("change:A", [Arg.ref 7, Arg.val (Value.num 2), Arg.obj []]),
         ("change", [Arg.ref 7, Arg.obj []]),
         ("change:B", [Arg.ref 7, Arg.val (Value.num 1), Arg.obj []]),
         ("change", [Arg.ref 7, Arg.obj []])] ∧
      countEvent "change" (emitted m'.trace) = 2 := by
  have htab : Model.replayed._events = some [("change:A", 0), ("change", 1), ("all", 2)] := by rfl
  have harr : Model.replayed.arrays =
      [[⟨Callback.fn 0, none, 7⟩],
       [⟨Callback.fn 0, none, 7⟩, ⟨Callback.fn 1, none, 7⟩, ⟨Callback.fn 0, none, 7⟩],
       [⟨Callback.fn 0, none, 7⟩]] := by rfl
  have hothers : ∀ name, name ≠ "change" →
      ∀ ev ∈ Model.replayed.bucket name, EventRec.Other 1 ev := by
    intro name hn ev hev
    have h0 : EventRec.Other 1 ⟨Callback.fn 0, none, 7⟩ := ⟨0, rfl, by decide⟩
    unfold Model.bucket bucketOf at hev
    rw [htab, harr] at hev
    simp only [Option.getD_some, Dict.find] at hev
    by_cases h1 : "change:A" = name
    · rw [if_pos h1] at hev
      simp at hev
      rw [hev]
      exact h0
    · rw [if_neg h1] at hev
      by_cases h2 : "change" = name
      · exact absurd h2.symm hn
      · rw [if_neg h2] at hev
        by_cases h3 : "all" = name
        · rw [if_pos h3] at hev
          simp at hev
          rw [hev]
          exact h0
        · rw [if_neg h3] at hev
          simp at hev
  obtain ⟨m', h, t, c⟩ := (aggregate_replay (Env.replay 1 (KeyArg.map [("B", Value.num 1)]) []) 1
    (KeyArg.map [("B", Value.num 1)]) [("B", Value.num 1)] [] (fun _ _ _ _ => rfl) rfl
    (by decide) (by decide) (by rfl) (fun _ h => by obtain ⟨_, hv, _⟩ := h; cases hv)
    0 (KeyArg.map [("A", Value.num 2)]) [("A", Value.num 2)] [] Model.replayed rfl (by decide)
    (by decide) (by decide) rfl (by rfl) (fun h => by obtain ⟨_, hv, _⟩ := h; cases hv)
    (by unfold Spent; decide)
    [⟨Callback.fn 0, none, 7⟩] [⟨Callback.fn 0, none, 7⟩] none 7 (by rfl)
    (by
      intro ev hev
      rw [List.mem_singleton.1 hev]
      exact ⟨0, rfl, by decide⟩)
    hothers (by decide) (by decide)).1
  exact ⟨m', h, t, c⟩

/-- C7 as stated fails: when the nested `set` of the `"change"` listener is
silent it changes its key (`B` becomes `1`) without leaving a pending
notification, and `"change"` is emitted once, not twice.  When the outer key
is `"x change"`, the event `"change:x change"` is dispatched to the pieces
`"change:x"` and `"change"`: the listener makes its nested `set` then, and
`"change"` is emitted once.  When the listener of `"change:name"` calls
`off("change", g)`, which mutates nothing, `g` is never entered and `"change"`
is emitted once.  And on a record without own attribute `constructor` the
read of `attributes` under that name finds the member inherited from
`Object.prototype`, which the code compares with the incoming value. -/
theorem aggregate_replay_counterexample :
    (Model.set 2 (Env.replay 1 (KeyArg.map [("B", Value.num 1)]) [])
        (KeyArg.map [("x change", Value.num 2)]) [] Model.named).map
        (fun r => ((emitted r.2.trace).map Prod.fst, countEvent "change" (emitted r.2.trace))) =
      some (["change:x change", "change:B", "change"], 1) ∧
    (Model.set 2 Env.unhook (KeyArg.map [("name", Value.str "y")]) [] Model.named).map
        (fun r => ((emitted r.2.trace).map Prod.fst, countEvent "change" (emitted r.2.trace))) =
      some (["change:name", "change"], 1) ∧
    Dict.inherits Model.named.attributes "constructor" = true ∧
    ∃ m', Model.set 2
        (Env.replay 1 (KeyArg.map [("B", Value.num 1)]) [("silent", Value.bool true)])
        (KeyArg.map [("name", Value.str "y")]) [] Model.named = some (SetResult.record, m') ∧
      Model.named._changing = false ∧
      Obj.get Model.named.attributes "B" = Value.undefined ∧
      Obj.get m'.attributes "B" = Value.num 1 ∧
      calls m'.trace = [(0, 7, [Arg.ref 7, Arg.val (Value.str "y"), Arg.obj []]),
        (1, 7, [Arg.ref 7, Arg.obj []])] ∧
      emitted m'.trace = [("change:name", [Arg.ref 7, Arg.val (Value.str "y"), Arg.obj []]),
        ("change", [Arg.ref 7, Arg.obj []])] ∧
      countEvent "change" (emitted m'.trace) = 1 :=
  ⟨by rfl, by rfl, by rfl, { Model.named with
      attributes := [("name", Value.str "y"), ("B", Value.num 1)]
      changed := [("name", Value.str "y"), ("B", Value.num 1)]
      _previousAttributes := [("name", Value.str "x")]
      trace := [Obs.emit "change:name" [Arg.ref 7, Arg.val (Value.str "y"), Arg.obj []],
        Obs.call 0 7 [Arg.ref 7, Arg.val (Value.str "y"), Arg.obj []],
        Obs.emit "change" [Arg.ref 7, Arg.obj []],
        Obs.call 1 7 [Arg.ref 7, Arg.obj []]] },
    by rfl, rfl, by rfl, by rfl, by rfl, by rfl, by rfl⟩

/-! ## The laws of `off` (claims C11 and C12) -/

theorem Events.keeps_eq_not_removalLaw (callback : Option Callback) (context : Option Ref)
    (ev : EventRec) :
    Events.keeps callback context ev = !Events.removalLaw callback context ev := by
  unfold Events.keeps Events.removalLaw
  cases callback <;> cases context <;> simp [bne]

theorem Events.off_bucket (name : String) (hname : SingleName name) (cb : Option Callback)
    (context : Option Ref) (m : Model) (hwf : TableWF (m._events.getD [], m.arrays)) (n : String) :
    (Events.off (some name) cb context m).bucket n =
      if n = name then (m.bucket n).filter (Events.keeps cb context) else m.bucket n := by
  rw [Events.off_single name hname.2]
  rw [(Events.offBody_bucket (some name) cb context m hwf).2.2 n]
  have h1 : (some name : Option String) ≠ none := by simp
  have h2 : (some name : Option String) ≠ some "" := by
    intro h
    exact hname.1 (Option.some.inj h)
  by_cases hn : n = name
  · simp [hn]
  · have hn' : ¬ name = n := fun h => hn h.symm
    simp [h2, hn, hn']

theorem tableWF_foldl {α : Type} (f : Model → α → Model)
    (hf : ∀ m x, TableWF (m._events.getD [], m.arrays) →
      TableWF ((f m x)._events.getD [], (f m x).arrays))
    (l : List α) (m : Model) (h : TableWF (m._events.getD [], m.arrays)) :
    TableWF ((l.foldl f m)._events.getD [], (l.foldl f m).arrays) := by
  induction l generalizing m with
  | nil => exact h
  | cons x xs ih => exact ih (f m x) (hf m x h)

theorem Events.on_tableWF (name : String) (cb : Option Callback) (context : Option Ref)
    (m : Model) (h : TableWF (m._events.getD [], m.arrays)) :
    TableWF ((Events.on name cb context m)._events.getD [],
      (Events.on name cb context m).arrays) := by
  unfold Events.on
  cases cb with
  | none =>
    split
    · exact tableWF_foldl _ (fun _ _ h => h) _ m h
    · exact h
  | some cb =>
    split
    · exact tableWF_foldl _ (fun m n h => (Events.onBody_table n cb context m h).1) _ m h
    · exact (Events.onBody_table name cb context m h).1

theorem Events.onceBody_tableWF (name : String) (f : Nat) (context : Option Ref)
    (m : Model) (h : TableWF (m._events.getD [], m.arrays)) :
    TableWF ((Events.onceBody name f context m)._events.getD [],
      (Events.onceBody name f context m).arrays) := by
  unfold Events.onceBody
  exact Events.on_tableWF _ _ _ _ h

theorem Events.once_tableWF (name : String) (f : Option Nat) (context : Option Ref)
    (m : Model) (h : TableWF (m._events.getD [], m.arrays)) :
    TableWF ((Events.once name f context m)._events.getD [],
      (Events.once name f context m).arrays) := by
  unfold Events.once
  cases f with
  | none =>
    split
    · exact tableWF_foldl _ (fun _ _ h => h) _ m h
    · exact h
  | some f =>
    split
    · exact tableWF_foldl _ (fun m n h => Events.onceBody_tableWF n f context m h) _ m h
    · exact Events.onceBody_tableWF name f context m h

theorem Events.off_tableWF (name : Option String) (cb : Option Callback) (context : Option Ref)
    (m : Model) (h : TableWF (m._events.getD [], m.arrays)) :
    TableWF ((Events.off name cb context m)._events.getD [],
      (Events.off name cb context m).arrays) := by
  unfold Events.off
  split
  · exact h
  · split
    · exact tableWF_foldl _
        (fun m n h => (Events.offBody_bucket (some n) cb context m h).1) _ m h
    · exact (Events.offBody_bucket name cb context m h).1

theorem Model.init_tableWF (self : Ref) (attributes : Obj) :
    TableWF ((Model.init self attributes)._events.getD [], (Model.init self attributes).arrays) :=
  (Model.init_wf self attributes).table

/-- C11: for a single event name, `off(name, callback, context)` leaves under
`name`, in their order, exactly the records that do not satisfy the removal
condition of the specification: (no callback given, or the callback is the
stored callback or the original callback behind a wrapper of `once`) and (no
context given, or the context is the record's context). -/
theorem off_removal_law (name : String) (hname : SingleName name) (cb : Option Callback)
    (context : Option Ref) (m : Model) (hwf : TableWF (m._events.getD [], m.arrays)) :
    (Events.off (some name) cb context m).bucket name =
      (m.bucket name).filter fun ev => !Events.removalLaw cb context ev := by
  rw [Events.off_bucket name hname cb context m hwf name, if_pos rfl]
  congr 1
  funext ev
  exact Events.keeps_eq_not_removalLaw cb context ev

theorem Model.subscribed_tableWF :
    TableWF (Model.subscribed._events.getD [], Model.subscribed.arrays) :=
  Events.on_tableWF _ _ _ _ (Events.on_tableWF _ _ _ _ (Events.once_tableWF _ _ _ _
    (Events.on_tableWF _ _ _ _ (Model.init_tableWF 7 []))))

theorem off_removal_law_witness :
    SingleName "a" ∧
    Model.subscribed.bucket "a" =
      [⟨Callback.fn 0, some 5, 5⟩, ⟨Callback.once 0 "a" 1, none, 7⟩, ⟨Callback.fn 1, none, 7⟩] ∧
    (Events.off (some "a") (some (Callback.fn 1)) none Model.subscribed).bucket "a" =
      [⟨Callback.fn 0, some 5, 5⟩] ∧
    (Events.off (some "a") (some (Callback.fn 1)) none Model.subscribed).bucket "a" =
      (Model.subscribed.bucket "a").filter fun ev =>
        !Events.removalLaw (some (Callback.fn 1)) none ev :=
  ⟨⟨by decide, by decide⟩, by rfl, by rfl,
    off_removal_law "a" ⟨by decide, by decide⟩ (some (Callback.fn 1)) none Model.subscribed
      Model.subscribed_tableWF⟩

theorem Events.off_name_absent (name : String) (hname : SingleName name) (m : Model) :
    Dict.find ((Events.off (some name) none none m)._events.getD []) name = none := by
  rw [Events.off_single name hname.2]
  unfold Events.offBody
  cases hev : m._events with
  | none => simp [hev, Dict.find]
  | some tbl =>
    have hne : (some name != some "") = true := by
      simpa using hname.1
    simp only [Option.isSome_some, hne, Bool.and_self, Bool.not_true, Bool.false_and,
      Bool.false_eq_true, if_false, if_true, Option.getD_some, List.foldl_cons, List.foldl_nil,
      Events.offName]
    cases hf : Dict.find tbl name with
    | none => simpa using hf
    | some a => simp [Dict.find_del]

theorem Events.keeps_callback_only (cb : Callback) (ev : EventRec) :
    Events.keeps (some cb) none ev = !Events.matchesCallback cb ev := by
  unfold Events.keeps Events.matchesCallback
  have hsym : ∀ a b : Callback, (a == b) = (b == a) := by
    intro a b
    by_cases h : a = b
    · simp [h]
    · have h' : ¬ b = a := fun e => h e.symm
      simp [h, h']
  cases hc : ev.callback._callback with
  | none => simp [bne, hsym cb ev.callback]
  | some c => simp [bne, hsym cb ev.callback, hsym cb c]

/-- C12: `off()` without arguments leaves no subscription at all; `off(name)`
with a single event name removes the bucket of `name` and leaves every other
bucket as it was; `off(name, cb)` removes from the bucket of `name` the records
whose stored callback, or original callback behind a wrapper of `once`, is
`cb`, and leaves the other records of the bucket, in their order, and every
other bucket as they were. -/
theorem off_selector_laws (m : Model) (hwf : TableWF (m._events.getD [], m.arrays)) :
    ((Events.off none none none m)._events = none ∧
      ∀ n, (Events.off none none none m).bucket n = []) ∧
    (∀ name, SingleName name →
      Dict.find ((Events.off (some name) none none m)._events.getD []) name = none ∧
      (Events.off (some name) none none m).bucket name = [] ∧
      ∀ n, n ≠ name → (Events.off (some name) none none m).bucket n = m.bucket n) ∧
    (∀ name cb, SingleName name →
      (Events.off (some name) (some cb) none m).bucket name =
        (m.bucket name).filter (fun ev => !Events.matchesCallback cb ev) ∧
      ∀ n, n ≠ name → (Events.off (some name) (some cb) none m).bucket n = m.bucket n) := by
  refine ⟨?_, ?_, ?_⟩
  · have h0 : (Events.off none none none m)._events = none := by
      unfold Events.off Events.offBody
      cases hev : m._events with
      | none => simp [hev]
      | some tbl => simp [hev]
    refine ⟨h0, fun n => ?_⟩
    unfold Model.bucket
    rw [h0]
    exact bucketOf_nil _ n
  · intro name hname
    refine ⟨Events.off_name_absent name hname m, ?_, ?_⟩
    · rw [Events.off_bucket name hname none none m hwf name, if_pos rfl]
      simp [Events.keeps]
    · intro n hn
      rw [Events.off_bucket name hname none none m hwf n, if_neg hn]
  · intro name cb hname
    refine ⟨?_, ?_⟩
    · rw [Events.off_bucket name hname (some cb) none m hwf name, if_pos rfl]
      congr 1
      funext ev
      exact Events.keeps_callback_only cb ev
    · intro n hn
      rw [Events.off_bucket name hname (some cb) none m hwf n, if_neg hn]

theorem off_selector_laws_witness :
    (Events.off none none none Model.subscribed)._events = none ∧
    (Events.off (some "a") none none Model.subscribed).bucket "a" = [] ∧
    (Events.off (some "a") none none Model.subscribed).bucket "b" = [⟨Callback.fn 0, none, 7⟩] ∧
    (Events.off (some "a") (some (Callback.fn 1)) none Model.subscribed).bucket "a" =
      [⟨Callback.fn 0, some 5, 5⟩] ∧
    (Events.off (some "a") (some (Callback.fn 1)) none Model.subscribed).bucket "a" =
      (Model.subscribed.bucket "a").filter (fun ev => !Events.matchesCallback (Callback.fn 1) ev) :=
  ⟨(off_selector_laws Model.subscribed Model.subscribed_tableWF).1.1,
    by rfl, by rfl, by rfl,
    ((off_selector_laws Model.subscribed Model.subscribed_tableWF).2.2 "a" (Callback.fn 1)
      ⟨by decide, by decide⟩).1⟩

/-! ## No empty buckets (claim C13) -/

theorem noEmptySt_bound {st : Dict Nat × List (List EventRec)} (h : NoEmptySt st)
    {n : String} {a : Nat} (hf : Dict.find st.1 n = some a) : a < st.2.length := by
  by_contra hlt
  have : st.2.getD a [] = [] := by
    simp [List.getD, List.getElem?_eq_none (Nat.le_of_not_lt hlt)]
  exact h n a hf this

theorem noEmptySt_put (st : Dict Nat × List (List EventRec)) (h : NoEmptySt st)
    (name : String) (arr : List EventRec) (harr : arr ≠ []) :
    NoEmptySt (Dict.put st.1 name st.2.length, st.2 ++ [arr]) := by
  intro n a hf
  simp only [Dict.find_put] at hf
  split at hf
  · simp only [Option.some.injEq] at hf
    subst hf
    simp only
    rw [List.getD_append_length']
    exact harr
  · simp only
    rw [List.getD_append_left' _ _ _ _ (noEmptySt_bound h hf)]
    exact h n a hf

theorem noEmptySt_del (st : Dict Nat × List (List EventRec)) (h : NoEmptySt st)
    (name : String) : NoEmptySt (Dict.del st.1 name, st.2) := by
  intro n a hf
  simp only [Dict.find_del] at hf
  split at hf
  · cases hf
  · exact h n a hf

theorem Events.offName_noEmpty (cb : Option Callback) (context : Option Ref)
    (st : Dict Nat × List (List EventRec)) (name : String) (h : NoEmptySt st) :
    NoEmptySt (Events.offName cb context st name) := by
  unfold Events.offName
  split
  · exact h
  · split
    · exact noEmptySt_del st h name
    · simp only
      split
      · rename_i hlen
        refine noEmptySt_put st h name _ ?_
        intro hnil
        rw [hnil] at hlen
        simp at hlen
      · exact noEmptySt_del st h name

theorem Events.offBody_noEmpty (name : Option String) (cb : Option Callback)
    (context : Option Ref) (m : Model) (h : NoEmpty m) :
    NoEmpty (Events.offBody name cb context m) := by
  unfold Events.offBody
  split
  · exact h
  · rename_i tbl hev
    simp only
    split
    · intro n a hf
      simp [Dict.find] at hf
    · have h0 : NoEmptySt (tbl, m.arrays) := by
        unfold NoEmpty at h
        rw [hev] at h
        exact h
      have key : ∀ (names : List String) (st : Dict Nat × List (List EventRec)),
          NoEmptySt st → NoEmptySt (names.foldl (Events.offName cb context) st) := by
        intro names
        induction names with
        | nil => exact fun _ hs => hs
        | cons x xs ih => exact fun st hs => ih _ (Events.offName_noEmpty cb context st x hs)
      exact key _ _ h0

theorem Events.onBody_noEmpty (name : String) (cb : Callback) (context : Option Ref)
    (m : Model) (h : NoEmpty m) : NoEmpty (Events.onBody name cb context m) := by
  unfold Events.onBody
  simp only
  split
  · rename_i a hf
    intro n a' hf'
    simp only [Option.getD_some] at hf' ⊢
    have hlt := noEmptySt_bound h hf
    by_cases ha : a = a'
    · subst ha
      rw [List.getD_set_eq' _ _ _ _ hlt]
      simp
    · rw [List.getD_set_ne' _ _ _ _ _ ha]
      exact h n a' hf'
  · exact noEmptySt_put (m._events.getD [], m.arrays) h name _ (by simp)

theorem noEmpty_foldl {α : Type} (f : Model → α → Model)
    (hf : ∀ m x, NoEmpty m → NoEmpty (f m x)) (l : List α) (m : Model) (h : NoEmpty m) :
    NoEmpty (l.foldl f m) := by
  induction l generalizing m with
  | nil => exact h
  | cons x xs ih => exact ih (f m x) (hf m x h)

theorem Events.on_noEmpty (name : String) (cb : Option Callback) (context : Option Ref)
    (m : Model) (h : NoEmpty m) : NoEmpty (Events.on name cb context m) := by
  unfold Events.on
  cases cb with
  | none =>
    split
    · exact noEmpty_foldl _ (fun _ _ h => h) _ m h
    · exact h
  | some cb =>
    split
    · exact noEmpty_foldl _ (fun m n h => Events.onBody_noEmpty n cb context m h) _ m h
    · exact Events.onBody_noEmpty name cb context m h

theorem Events.once_noEmpty (name : String) (f : Option Nat) (context : Option Ref)
    (m : Model) (h : NoEmpty m) : NoEmpty (Events.once name f context m) := by
  have hb : ∀ n m, NoEmpty m → NoEmpty (Events.onceBody n f.get! context m) := by
    intro n m hm
    unfold Events.onceBody
    exact Events.on_noEmpty _ _ _ _ hm
  unfold Events.once
  cases f with
  | none =>
    split
    · exact noEmpty_foldl _ (fun _ _ h => h) _ m h
    · exact h
  | some f =>
    split
    · exact noEmpty_foldl _ (fun m n h => hb n m h) _ m h
    · exact hb name m h

theorem Events.off_noEmpty (name : Option String) (cb : Option Callback) (context : Option Ref)
    (m : Model) (h : NoEmpty m) : NoEmpty (Events.off name cb context m) := by
  unfold Events.off
  split
  · exact h
  · split
    · exact noEmpty_foldl _ (fun m n h => Events.offBody_noEmpty (some n) cb context m h) _ m h
    · exact Events.offBody_noEmpty name cb context m h

theorem tableClosed_foldl {R : Model → Model → Prop} (hR : TableClosed R) {α : Type}
    (f : Model → α → Model) (hf : ∀ m x, R m (f m x)) (l : List α) (m : Model) :
    R m (l.foldl f m) := by
  induction l generalizing m with
  | nil => exact hR.refl m
  | cons x xs ih => exact hR.trans _ _ _ (hf m x) (ih (f m x))

theorem tableClosed_once {R : Model → Model → Prop} (hR : TableClosed R)
    (name : String) (f : Option Nat) (context : Option Ref) (m : Model) :
    R m (Events.once name f context m) := by
  have hb : ∀ n g m, R m (Events.onceBody n g context m) := by
    intro n g m
    unfold Events.onceBody
    exact hR.trans _ _ _ (hR.frame m { m with nextUid := m.nextUid + 1 } rfl rfl)
      (hR.subscribe _ _ _ _)
  unfold Events.once
  cases f with
  | none =>
    split
    · exact tableClosed_foldl hR _ (fun m _ => hR.refl m) _ m
    · exact hR.refl m
  | some g =>
    split
    · exact tableClosed_foldl hR _ (fun m n => hb n g m) _ m
    · exact hb name g m

theorem triggerEvents_tbl {R : Model → Model → Prop} (hR : TableClosed R) {inv : Invoker}
    (hinv : InvRel R inv) (evs : List EventRec) (args : List Arg) (m m' : Model)
    (h : triggerEvents inv evs args m = some m') : R m m' := by
  induction evs generalizing m with
  | nil =>
    simp only [triggerEvents, Option.some.injEq] at h
    subst h
    exact hR.refl m
  | cons ev rest ih =>
    simp only [triggerEvents, Option.bind_eq_some] at h
    obtain ⟨m1, h1, h2⟩ := h
    exact hR.trans _ _ _ (hinv _ _ _ _ _ h1) (ih m1 h2)

theorem Events.triggerBody_tbl {R : Model → Model → Prop} (hR : TableClosed R) {inv : Invoker}
    (hinv : InvRel R inv) (name : String) (args : List Arg) (m m' : Model)
    (h : Events.triggerBody inv name args m = some m') : R m m' := by
  unfold Events.triggerBody at h
  simp only [Option.bind_eq_some] at h
  obtain ⟨m1, h1, h2⟩ := h
  have r1 : R m m1 := by
    split at h1
    · exact triggerEvents_tbl hR hinv _ _ _ _ h1
    · simp only [Option.some.injEq] at h1
      subst h1
      exact hR.refl m
  have r2 : R m1 m' := by
    split at h2
    · exact triggerEvents_tbl hR hinv _ _ _ _ h2
    · simp only [Option.some.injEq] at h2
      subst h2
      exact hR.refl m1
  exact hR.trans _ _ _ r1 r2

theorem Events.triggerEach_tbl {R : Model → Model → Prop} (hR : TableClosed R) {inv : Invoker}
    (hinv : InvRel R inv) (names : List String) (args : List Arg) (m m' : Model)
    (h : Events.triggerEach inv names args m = some m') : R m m' := by
  induction names generalizing m with
  | nil =>
    simp only [Events.triggerEach, Option.some.injEq] at h
    subst h
    exact hR.refl m
  | cons n ns ih =>
    simp only [Events.triggerEach, Option.bind_eq_some] at h
    obtain ⟨m1, h1, h2⟩ := h
    refine hR.trans _ _ _ ?_ (ih m1 h2)
    unfold Events.triggerOne at h1
    split at h1
    · simp only [Option.some.injEq] at h1
      subst h1
      exact hR.refl m
    · exact Events.triggerBody_tbl hR hinv _ _ _ _ h1

theorem Events.trigger_tbl {R : Model → Model → Prop} (hR : TableClosed R) {inv : Invoker}
    (hinv : InvRel R inv) (name : String) (args : List Arg) (m m' : Model)
    (h : Events.trigger inv name args m = some m') : R m m' := by
  unfold Events.trigger at h
  simp only at h
  refine hR.trans _ _ _
    (hR.frame m { m with trace := m.trace ++ [Obs.emit name args] } rfl rfl) ?_
  split at h
  · simp only [Option.some.injEq] at h
    subst h
    exact hR.refl _
  · split at h
    · exact Events.triggerBody_tbl hR hinv _ _ _ _ h
    · exact Events.triggerEach_tbl hR hinv _ _ _ _ h

theorem Model.fireChanges_tbl {R : Model → Model → Prop} (hR : TableClosed R) {inv : Invoker}
    (hinv : InvRel R inv) (ks : List String) (options : Obj) (m m' : Model)
    (h : Model.fireChanges inv ks options m = some m') : R m m' := by
  induction ks generalizing m with
  | nil =>
    simp only [Model.fireChanges, Option.some.injEq] at h
    subst h
    exact hR.refl m
  | cons k ks ih =>
    simp only [Model.fireChanges, Option.bind_eq_some] at h
    obtain ⟨m1, h1, h2⟩ := h
    exact hR.trans _ _ _ (Events.trigger_tbl hR hinv _ _ _ _ h1) (ih m1 h2)

theorem Model.changeLoop_tbl {R : Model → Model → Prop} (hR : TableClosed R) {inv : Invoker}
    (hinv : InvRel R inv) (fuel : Nat) (m m' : Model)
    (h : Model.changeLoop inv fuel m = some m') : R m m' := by
  induction fuel generalizing m with
  | zero =>
    simp only [Model.changeLoop] at h
    split at h
    · simp only [Option.some.injEq] at h
      subst h
      exact hR.refl m
    · simp at h
  | succ n ih =>
    simp only [Model.changeLoop] at h
    split at h
    · simp only [Option.some.injEq] at h
      subst h
      exact hR.refl m
    · simp only [Option.bind_eq_some] at h
      obtain ⟨m1, h1, h2⟩ := h
      exact hR.trans _ _ _ (hR.frame m { m with _pending := none } rfl rfl)
        (hR.trans _ _ _ (Events.trigger_tbl hR hinv _ _ _ _ h1) (ih m1 h2))

theorem Model._validate_tbl {R : Model → Model → Prop} (hR : TableClosed R) {inv : Invoker}
    (hinv : InvRel R inv) (env : Env) (attrs options : Obj) (m : Model) (ok : Bool)
    (m' : Model) (h : Model._validate inv env attrs options m = some (ok, m')) : R m m' := by
  by_cases hrej : Rejects env attrs options m
  · obtain ⟨validate, hv, ho, hres⟩ := hrej
    rw [Model._validate_of_rejects inv env attrs options m validate hv ho hres] at h
    simp only [Option.map_eq_some', Prod.mk.injEq] at h
    obtain ⟨m1, h1, -, rfl⟩ := h
    have k1 := Events.trigger_tbl hR hinv _ _ _ _ h1
    refine hR.trans _ _ _ ?_ k1
    exact hR.frame _ _ rfl rfl
  · obtain ⟨e, he⟩ := Model._validate_of_not_rejects inv env attrs options m hrej
    rw [he] at h
    simp only [Option.some.injEq, Prod.mk.injEq] at h
    rw [← h.2]
    exact hR.frame m _ rfl rfl

theorem Model.setApply_table (env : Env) (attrs options : Obj) (m : Model) :
    (Model.setApply env attrs options (Model.setBegin m)).2._events = m._events ∧
    (Model.setApply env attrs options (Model.setBegin m)).2.arrays = m.arrays := by
  unfold Model.setApply Model.setBegin
  simp only
  constructor <;> (repeat' split) <;> rfl

theorem Model.setAttrs_tbl {R : Model → Model → Prop} (hR : TableClosed R) {inv : Invoker}
    (hinv : InvRel R inv) (fuel : Nat) (env : Env) (attrs options : Obj) (m : Model)
    (r : SetResult) (m' : Model)
    (h : Model.setAttrs inv fuel env attrs options m = some (r, m')) : R m m' := by
  unfold Model.setAttrs at h
  simp only [Option.bind_eq_some] at h
  obtain ⟨⟨ok, m1⟩, h1, h2⟩ := h
  have r1 : R m m1 := Model._validate_tbl hR hinv env attrs options m ok m1 h1
  refine hR.trans _ _ _ r1 ?_
  cases ok with
  | false =>
    simp only [Bool.not_false, if_true, Option.some.injEq, Prod.mk.injEq] at h2
    rw [← h2.2]
    exact hR.refl m1
  | true =>
    simp only [Bool.not_true, Bool.false_eq_true, if_false, Option.bind_eq_some] at h2
    obtain ⟨m3, h3, h4⟩ := h2
    have ht := Model.setApply_table env attrs options m1
    generalize Model.setApply env attrs options (Model.setBegin m1) = am at h3 ht
    have r2 : R m1 am.2 := hR.frame _ _ ht.1 ht.2
    have r3 : R am.2 m3 := by
      unfold Model.setNotify at h3
      split at h3
      · refine hR.trans _ _ _ ?_ (Model.fireChanges_tbl hR hinv _ _ _ _ h3)
        apply hR.frame
        · split <;> rfl
        · split <;> rfl
      · simp only [Option.some.injEq] at h3
        subst h3
        exact hR.refl _
    refine hR.trans _ _ _ r2 (hR.trans _ _ _ r3 ?_)
    split at h4
    · simp only [Option.some.injEq, Prod.mk.injEq] at h4
      rw [← h4.2]
      exact hR.refl m3
    · obtain ⟨m5, h5, -, rfl⟩ := Model.setFinish_some _ _ _ _ _ _ h4
      have r4 : R m3 m5 := by
        split at h5
        · exact Model.changeLoop_tbl hR hinv _ _ _ h5
        · simp only [Option.some.injEq] at h5
          subst h5
          exact hR.refl _
      exact hR.trans _ _ _ r4 (hR.frame _ _ rfl rfl)

theorem Model.setWith_tbl {R : Model → Model → Prop} (hR : TableClosed R) {inv : Invoker}
    (hinv : InvRel R inv) (fuel : Nat) (env : Env) (key : KeyArg) (options : Obj) (m : Model)
    (r : SetResult) (m' : Model)
    (h : Model.setWith inv fuel env key options m = some (r, m')) : R m m' := by
  unfold Model.setWith at h
  split at h
  · simp only [Option.some.injEq, Prod.mk.injEq] at h
    rw [← h.2]
    exact hR.refl m
  · exact Model.setAttrs_tbl hR hinv fuel env _ options m r m' h
  · exact Model.setAttrs_tbl hR hinv fuel env _ options m r m' h

theorem execCmd_tbl {R : Model → Model → Prop} (hR : TableClosed R) {inv : Invoker}
    (hinv : InvRel R inv) (fuel : Nat) (env : Env) (c : Cmd) (m m' : Model)
    (h : execCmd inv fuel env c m = some m') : R m m' := by
  rcases c with ⟨key, options⟩ | ⟨name, callback, context⟩ | ⟨name, callback, context⟩ |
    ⟨name, callback, context⟩ | ⟨name, args⟩
  · simp only [execCmd, Option.map_eq_some'] at h
    obtain ⟨⟨r, m2⟩, h2, rfl⟩ := h
    exact Model.setWith_tbl hR hinv fuel env key options m r m2 h2
  · simp only [execCmd, Option.some.injEq] at h
    subst h
    exact hR.subscribe _ _ _ _
  · simp only [execCmd, Option.some.injEq] at h
    subst h
    exact tableClosed_once hR _ _ _ _
  · simp only [execCmd, Option.some.injEq] at h
    subst h
    exact hR.unsubscribe _ _ _ _
  · simp only [execCmd] at h
    exact Events.trigger_tbl hR hinv _ _ _ _ h

theorem runScript_tbl {R : Model → Model → Prop} (hR : TableClosed R) {inv : Invoker}
    (hinv : InvRel R inv) (fuel : Nat) (env : Env) (s : Script) (m m' : Model)
    (h : runScript inv fuel env s m = some m') : R m m' := by
  induction s generalizing m with
  | done =>
    simp only [runScript, Option.some.injEq] at h
    subst h
    exact hR.refl m
  | call c next ih =>
    simp only [runScript] at h
    cases h1 : execCmd inv fuel env c m with
    | none => simp [h1] at h
    | some m1 =>
      rw [h1] at h
      exact hR.trans _ _ _ (execCmd_tbl hR hinv fuel env c m m1 h1) (ih m1 m1 h)

theorem invoke_tbl {R : Model → Model → Prop} (hR : TableClosed R) (env : Env) (fuel : Nat) :
    InvRel R (invoke fuel env) := by
  induction fuel with
  | zero =>
    intro cb ctx args a b h
    simp [invoke] at h
  | succ n ih =>
    intro cb ctx args a b h
    cases cb with
    | fn f =>
      simp only [invoke, runUser] at h
      have k1 := runScript_tbl hR ih n env _ _ _ h
      refine hR.trans _ _ _ ?_ k1
      exact hR.frame _ _ rfl rfl
    | once uid name f =>
      simp only [invoke] at h
      split at h
      · simp only [Option.some.injEq] at h
        subst h
        exact hR.refl a
      · simp only [runUser] at h
        refine hR.trans _ _ _ (hR.frame a { a with onceRan := uid :: a.onceRan } rfl rfl) ?_
        refine hR.trans _ _ _ (hR.unsubscribe (some name) (some (Callback.once uid name f)) none _) ?_
        have k1 := runScript_tbl hR ih n env _ _ _ h
        refine hR.trans _ _ _ ?_ k1
        exact hR.frame _ _ rfl rfl

theorem noEmpty_tableClosed : TableClosed (fun m m' => NoEmpty m → NoEmpty m') where
  refl := fun _ h => h
  trans := fun _ _ _ h1 h2 h => h2 (h1 h)
  frame := fun m m' he ha h => by
    unfold NoEmpty at h ⊢
    rw [he, ha]
    exact h
  subscribe := fun name cb context m h => Events.on_noEmpty name cb context m h
  unsubscribe := fun name cb context m h => Events.off_noEmpty name cb context m h

theorem noEmpty_of_none (m : Model) (h : m._events = none) : NoEmpty m := by
  intro n a hf
  simp only [h, Option.getD_none, Dict.find] at hf
  cases hf

theorem noEmpty_bucket {m : Model} (h : NoEmpty m) (n : String)
    (hn : Dict.has (m._events.getD []) n = true) : m.bucket n ≠ [] := by
  unfold Dict.has at hn
  cases hf : Dict.find (m._events.getD []) n with
  | none => simp [hf] at hn
  | some a =>
    have := h n a hf
    unfold Model.bucket bucketOf
    simp only [hf]
    exact this

/-- C13: in every state that user code reaches from a record without
subscriptions by calls of `on`, `once`, `off` and `trigger` (and `set`), whatever
the listeners do in turn, every event name present in the subscription table
has a non-empty sequence of subscription records. -/
theorem no_empty_buckets (env : Env) (fuel : Nat) (s : Script) (m m' : Model)
    (hm : m._events = none) (h : runScript (invoke fuel env) fuel env s m = some m') :
    ∀ n, Dict.has (m'._events.getD []) n = true → m'.bucket n ≠ [] := by
  have hR := noEmpty_tableClosed
  have k := runScript_tbl hR (invoke_tbl hR env fuel) fuel env s m m' h (noEmpty_of_none m hm)
  exact fun n hn => noEmpty_bucket k n hn

theorem no_empty_buckets_witness :
    (Model.init 7 [])._events = none ∧
    runScript (invoke 1 Env.plain) 1 Env.plain Script.onTriggerOff (Model.init 7 []) =
      some { Model.init 7 [] with
        _events := some []
        arrays := [[⟨Callback.fn 0, none, 7⟩]]
        trace := [Obs.emit "a" [], Obs.call 0 7 []] } ∧
    ∀ n, Dict.has (({ Model.init 7 [] with
        _events := some []
        arrays := [[⟨Callback.fn 0, none, 7⟩]]
        trace := [Obs.emit "a" [], Obs.call 0 7 []] } : Model)._events.getD []) n = true →
      ({ Model.init 7 [] with
        _events := some []
        arrays := [[⟨Callback.fn 0, none, 7⟩]]
        trace := [Obs.emit "a" [], Obs.call 0 7 []] } : Model).bucket n ≠ [] :=
  ⟨rfl, by rfl, no_empty_buckets Env.plain 1 Script.onTriggerOff (Model.init 7 []) _ rfl (by rfl)⟩

/-! ## `changedAttributes` (claim C18) -/

theorem Dict.put_absent {α : Type} (o : Dict α) (k : String) (v : α)
    (h : k ∉ o.map Prod.fst) : Dict.put o k v = o ++ [(k, v)] := by
  induction o with
  | nil => rfl
  | cons hd tl ih =>
    obtain ⟨k0, v0⟩ := hd
    simp only [List.map_cons, List.mem_cons, not_or] at h
    have h0 : ¬ k0 = k := fun e => h.1 e.symm
    simp [Dict.put, h0, ih h.2]

theorem Model.diffAttr_foldl (old : Obj) (l acc : Obj)
    (hnd : ((acc ++ l).map Prod.fst).Nodup) :
    l.foldl (Model.diffAttr old) (orFalse acc) =
      orFalse (acc ++ l.filter fun kv => !isEqual (Obj.get old kv.1) kv.2) := by
  induction l generalizing acc with
  | nil => simp
  | cons kv rest ih =>
    have hnd' : ((acc ++ [kv] ++ rest).map Prod.fst).Nodup := by
      simpa using hnd
    have hrest : ((acc ++ rest).map Prod.fst).Nodup := by
      rw [List.map_append] at hnd ⊢
      rw [List.map_cons] at hnd
      exact (List.nodup_append.1 hnd).1.append
        ((List.nodup_cons.1 (List.nodup_append.1 hnd).2.1).2)
        (fun x hx hy => (List.nodup_append.1 hnd).2.2 hx (List.mem_cons_of_mem _ hy))
    have hfresh : kv.1 ∉ acc.map Prod.fst := by
      rw [List.map_append, List.map_cons] at hnd
      intro hx
      exact (List.nodup_append.1 hnd).2.2 hx (List.mem_cons_self _ _)
    simp only [List.foldl_cons]
    by_cases he : isEqual (Obj.get old kv.1) kv.2 = true
    · have h1 : Model.diffAttr old (orFalse acc) kv = orFalse acc := by
        simp [Model.diffAttr, he]
      rw [h1, ih acc hrest]
      simp [List.filter_cons, he]
    · have h1 : Model.diffAttr old (orFalse acc) kv = orFalse (acc ++ [kv]) := by
        have hg : (orFalse acc).getD [] = acc := by
          unfold orFalse
          split
          · rename_i h0
            simp [h0]
          · rfl
        simp only [Model.diffAttr, he, Bool.false_eq_true, if_false, hg]
        rw [Dict.put_absent acc kv.1 kv.2 hfresh]
        simp [orFalse]
      rw [h1, ih (acc ++ [kv]) hnd']
      simp [List.filter_cons, he]

/-- C18: `changedAttributes()` without a diff map is `false` when `changed` is
empty and a copy of `changed` otherwise; `changedAttributes(diff)` is the
sub-map of `diff`, in its key order, of the entries whose value differs by
`_.isEqual` from the baseline (`_previousAttributes` while a `set` is in
flight, `attributes` otherwise), or `false` when that sub-map is empty. -/
theorem changedAttributes_spec (m : Model) :
    Model.changedAttributes m none = orFalse m.changed ∧
    ∀ diff : Obj, (diff.map Prod.fst).Nodup →
      Model.changedAttributes m (some diff) =
        orFalse (diff.filter fun kv => !isEqual (Obj.get m.baseline kv.1) kv.2) := by
  refine ⟨?_, ?_⟩
  · unfold Model.changedAttributes Model.hasChanged orFalse
    cases hc : m.changed with
    | nil => simp
    | cons hd tl => simp
  · intro diff hnd
    unfold Model.changedAttributes
    simp only
    have h0 : (none : Option Obj) = orFalse [] := rfl
    rw [h0, Model.diffAttr_foldl _ diff [] (by simpa using hnd)]
    simp only [List.nil_append]
    unfold Model.baseline
    cases m._changing <;> rfl

theorem changedAttributes_spec_witness :
    Model.changedAttributes Model.namedAfter none = some [("name", Value.str "y")] ∧
    Model.changedAttributes Model.namedAfter
        (some [("name", Value.str "y"), ("age", Value.num 3)]) = some [("age", Value.num 3)] ∧
    Model.changedAttributes Model.namedAfter
        (some [("name", Value.str "y"), ("age", Value.num 3)]) =
      orFalse ([("name", Value.str "y"), ("age", Value.num 3)].filter fun kv =>
        !isEqual (Obj.get Model.namedAfter.baseline kv.1) kv.2) :=
  ⟨by rfl, by rfl,
    (changedAttributes_spec Model.namedAfter).2 [("name", Value.str "y"), ("age", Value.num 3)]
      (by decide)⟩

/-! ## Dispatch to the records of a name and of `"all"` (claims C14 and C24) -/

theorem wrapperIds_cons (ev : EventRec) (rest : List EventRec) :
    wrapperIds (ev :: rest) =
      (match ev.callback.wrapperId with
        | some u => [u]
        | none => []) ++ wrapperIds rest := by
  unfold wrapperIds
  rw [List.filterMap_cons]
  cases ev.callback.wrapperId <;> rfl

theorem wrapperIds_append (l1 l2 : List EventRec) :
    wrapperIds (l1 ++ l2) = wrapperIds l1 ++ wrapperIds l2 := by
  unfold wrapperIds
  exact List.filterMap_append _ _ _

theorem runInert_fresh_trace (cb : Callback) (ctx : Ref) (args : List Arg) (m : Model)
    (hfresh : ∀ u, cb.wrapperId = some u → u ∉ m.onceRan) :
    (runInert cb ctx args m).trace = m.trace ++ [Obs.call cb.user ctx args] := by
  cases cb with
  | fn f => rfl
  | once u n f =>
    have hu : u ∉ m.onceRan := hfresh u rfl
    simp only [runInert, hu, if_false, Callback.user]

theorem dispatchInert_fresh (evs : List EventRec) (args : List Arg) (m : Model)
    (hwf : Model.WF m)
    (hevs : ∀ ev ∈ evs, ∀ u n f, ev.callback = Callback.once u n f →
      u < m.nextUid ∧ eventsApi n = none)
    (hfr : FreshWrappers evs m) :
    Model.WF (dispatchInert evs args m) ∧
    (∃ extra, (dispatchInert evs args m).arrays = m.arrays ++ extra) ∧
    (dispatchInert evs args m).nextUid = m.nextUid ∧
    (dispatchInert evs args m).trace = m.trace ++
      evs.map (fun ev => Obs.call ev.callback.user ev.ctx args) ∧
    (∀ u, u ∈ (dispatchInert evs args m).onceRan → u ∈ m.onceRan ∨ u ∈ wrapperIds evs) := by
  induction evs generalizing m with
  | nil =>
    exact ⟨hwf, ⟨[], by simp [dispatchInert]⟩, rfl, by simp [dispatchInert],
      fun u h => Or.inl h⟩
  | cons ev rest ih =>
    have hcb := hevs ev (List.mem_cons_self _ _)
    obtain ⟨w1, ⟨ex1, e1⟩, n1, -, -, -⟩ := runInert_spec ev.callback ev.ctx args m hwf hcb
    have hran := runInert_onceRan ev.callback ev.ctx args m (fun u n f h => (hcb u n f h).2)
    have hids := wrapperIds_cons ev rest
    have hhead : ∀ u, ev.callback.wrapperId = some u → u ∉ m.onceRan := by
      intro u hu
      apply hfr.2 u
      rw [hids, hu]
      simp
    have t1 := runInert_fresh_trace ev.callback ev.ctx args m hhead
    have hfr' : FreshWrappers rest (runInert ev.callback ev.ctx args m) := by
      refine ⟨?_, ?_⟩
      · have := hfr.1
        rw [hids] at this
        exact (List.nodup_append.1 this).2.1
      · intro u hu hin
        rcases (hran u).1 hin with h0 | ⟨n, f, hc⟩
        · exact hfr.2 u (by rw [hids]; exact List.mem_append_right _ hu) h0
        · have hnd := hfr.1
          rw [hids, hc] at hnd
          simp only [Callback.wrapperId, List.singleton_append, List.nodup_cons] at hnd
          exact hnd.1 hu
    obtain ⟨w2, ⟨ex2, e2⟩, n2, t2, r2⟩ :=
      ih (runInert ev.callback ev.ctx args m) w1
        (fun ev' h' u n f hc => by
          rw [n1]
          exact hevs ev' (List.mem_cons_of_mem _ h') u n f hc)
        hfr'
    have hd : dispatchInert (ev :: rest) args m =
        dispatchInert rest args (runInert ev.callback ev.ctx args m) := rfl
    rw [hd]
    refine ⟨w2, ⟨ex1 ++ ex2, by rw [e2, e1, List.append_assoc]⟩, n2.trans n1, ?_, ?_⟩
    · rw [t2, t1]
      simp
    · intro u hu
      rcases r2 u hu with h0 | h0
      · rcases (hran u).1 h0 with h1 | ⟨n, f, hc⟩
        · exact Or.inl h1
        · right
          rw [hids, hc]
          simp [Callback.wrapperId]
      · right
        rw [hids]
        exact List.mem_append_right _ h0

theorem passInert_eq (a : Option Nat) (args : List Arg) (m : Model) :
    passInert a args m = dispatchInert (match a with
      | some a => m.arrays.getD a []
      | none => []) args m := by
  cases a <;> rfl

theorem freshWrappers_left {l1 l2 : List EventRec} {m : Model}
    (h : FreshWrappers (l1 ++ l2) m) : FreshWrappers l1 m := by
  unfold FreshWrappers at h ⊢
  rw [wrapperIds_append] at h
  exact ⟨(List.nodup_append.1 h.1).1, fun u hu => h.2 u (List.mem_append_left _ hu)⟩

theorem triggerInert_fresh (name : String) (args : List Arg) (m : Model) (hwf : Model.WF m)
    (hfr : FreshWrappers (m.bucket name ++ m.bucket "all") m) :
    (triggerInert name args m).trace = m.trace ++ [Obs.emit name args] ++
      (m.bucket name).map (fun ev => Obs.call ev.callback.user ev.ctx args) ++
      (m.bucket "all").map (fun ev =>
        Obs.call ev.callback.user ev.ctx (Arg.val (Value.str name) :: args)) := by
  have hwf0 : Model.WF { m with trace := m.trace ++ [Obs.emit name args] } :=
    ⟨hwf.table, hwf.uids, hwf.ran⟩
  unfold triggerInert
  split
  · rename_i hev
    simp [Model.bucket, bucketOf, hev, Dict.find]
  · rename_i tbl hev
    have hbn := Model.bucket_find m tbl hev name
    have hba := Model.bucket_find m tbl hev "all"
    rw [passInert_eq (Dict.find tbl name), ← hbn]
    have hfr1 : FreshWrappers (m.bucket name)
        { m with trace := m.trace ++ [Obs.emit name args] } := freshWrappers_left hfr
    obtain ⟨w1, ⟨ex1, e1⟩, nu1, t1, r1⟩ := dispatchInert_fresh (m.bucket name) args
      { m with trace := m.trace ++ [Obs.emit name args] } hwf0 (Model.bucket_uids m hwf name) hfr1
    have hsame : (match Dict.find tbl "all" with
        | some a => (dispatchInert (m.bucket name) args
            { m with trace := m.trace ++ [Obs.emit name args] }).arrays.getD a []
        | none => []) = m.bucket "all" := by
      rw [hba]
      cases hfa : Dict.find tbl "all" with
      | none => rfl
      | some a =>
        simp only
        have ha : a < m.arrays.length := by
          have := hwf.table.bound "all" a (by simpa [hev] using hfa)
          simpa using this
        rw [e1]
        exact List.getD_append_left' _ _ _ _ ha
    rw [passInert_eq (Dict.find tbl "all"), hsame]
    have hfr2 : FreshWrappers (m.bucket "all") (dispatchInert (m.bucket name) args
        { m with trace := m.trace ++ [Obs.emit name args] }) := by
      unfold FreshWrappers at hfr ⊢
      rw [wrapperIds_append] at hfr
      refine ⟨(List.nodup_append.1 hfr.1).2.1, fun u hu hin => ?_⟩
      rcases r1 u hin with h0 | h0
      · exact hfr.2 u (List.mem_append_right _ hu) h0
      · exact (List.nodup_append.1 hfr.1).2.2 h0 hu
    obtain ⟨-, -, -, t2, -⟩ := dispatchInert_fresh (m.bucket "all")
      (Arg.val (Value.str name) :: args) _ w1
      (fun ev h u n f hcb => by
        rw [nu1]
        exact Model.bucket_uids m hwf "all" ev h u n f hcb) hfr2
    rw [t2, t1]

theorem calls_map_call (evs : List EventRec) (args : List Arg) :
    calls (evs.map fun ev => Obs.call ev.callback.user ev.ctx args) = callsOf evs args := by
  induction evs with
  | nil => rfl
  | cons ev rest ih => simpa [calls, callsOf] using ih

theorem Events.on_fn_wf (name : String) (hname : eventsApi name = none) (f : Nat)
    (context : Option Ref) (m : Model) (hwf : Model.WF m) :
    Model.WF (Events.on name (some (Callback.fn f)) context m) := by
  rw [Events.on_single name hname]
  exact Events.onBody_wf name _ context m hwf (fun u n g h => by cases h)

theorem Events.once_wf (name : String) (hname : eventsApi name = none) (f : Nat)
    (context : Option Ref) (m : Model) (hwf : Model.WF m) :
    Model.WF (Events.once name (some f) context m) := by
  rw [Events.once_single name hname]
  have hwf1 : Model.WF { m with nextUid := m.nextUid + 1 } :=
    ⟨hwf.table, fun arr harr ev hev u n g hc =>
      ⟨Nat.lt_succ_of_lt (hwf.uids arr harr ev hev u n g hc).1,
        (hwf.uids arr harr ev hev u n g hc).2⟩,
      fun u hu => Nat.lt_succ_of_lt (hwf.ran u hu)⟩
  exact Events.onBody_wf name _ context _ hwf1 (fun u n g h => by
    cases h
    exact ⟨Nat.lt_succ_self _, hname⟩)

theorem Model.subscribed_wf : Model.WF Model.subscribed :=
  Events.on_fn_wf "b" (by decide) 0 none _
    (Events.on_fn_wf "a" (by decide) 1 none _
      (Events.once_wf "a" (by decide) 1 none _
        (Events.on_fn_wf "a" (by decide) 0 (some 5) _ (Model.init_wf 7 []))))

theorem Model.wild_wf : Model.WF Model.wild :=
  Events.on_fn_wf "all" (by decide) 2 (some 9) _ Model.subscribed_wf

/-- C14 (amended): for one event name `n` that is not the name of a member of
`Object.prototype`, listeners that do nothing themselves and a well-formed
table in which the wrappers of `once` under `n` and `"all"` are distinct and
have not run (as `on` and `once` leave them), `trigger(n, ...args)` returns and
calls first the listener of every record subscribed under `n`, in insertion
order, with `args`, and then the listener of every record subscribed under
`"all"`, in insertion order, with `n` put in front of `args`, each on the `ctx`
stored in its record; and `on(n, callback, context)` stores in the record it
appends the context given, or the record itself when none was given. -/
theorem trigger_dispatch_order (env : Env) (henv : Env.Inert env) (fuel : Nat) (n : String)
    (hn : eventsApi n = none) (_hown : n ∉ inheritedKeys) (args : List Arg) (m : Model)
    (hwf : Model.WF m) (hfr : FreshWrappers (m.bucket n ++ m.bucket "all") m) :
    (∃ m', trigger (fuel + 1) env n args m = some m' ∧
      calls m'.trace = calls m.trace ++ callsOf (m.bucket n) args ++
        callsOf (m.bucket "all") (Arg.val (Value.str n) :: args)) ∧
    ∀ (cb : Callback) (context : Option Ref) (k : String),
      (Events.on n (some cb) context m).bucket k =
        if n = k then
          m.bucket n ++ [{ callback := cb, context := context, ctx := context.getD m.self }]
        else m.bucket k := by
  constructor
  · refine ⟨triggerInert n args m, trigger_inert env henv fuel n hn args m, ?_⟩
    rw [triggerInert_fresh n args m hwf hfr]
    simp only [calls_append, calls_map_call, calls, List.append_nil, callsOf]
  · intro cb context k
    rw [Events.on_single n hn]
    exact (Events.onBody_table n cb context m hwf.table).2 k

theorem trigger_dispatch_order_witness :
    (∃ m', trigger 1 Env.plain "a" [Arg.val (Value.num 1)] Model.wild = some m' ∧
      calls m'.trace =
        [(0, 5, [Arg.val (Value.num 1)]), (1, 7, [Arg.val (Value.num 1)]),
         (1, 7, [Arg.val (Value.num 1)]),
         (2, 9, [Arg.val (Value.str "a"), Arg.val (Value.num 1)])]) ∧
    (Events.on "a" (some (Callback.fn 4)) none Model.wild).bucket "a" =
      [⟨Callback.fn 0, some 5, 5⟩, ⟨Callback.once 0 "a" 1, none, 7⟩, ⟨Callback.fn 1, none, 7⟩,
        ⟨Callback.fn 4, none, 7⟩] := by
  have hba : Model.wild.bucket "a" =
      [⟨Callback.fn 0, some 5, 5⟩, ⟨Callback.once 0 "a" 1, none, 7⟩, ⟨Callback.fn 1, none, 7⟩] := by
    rfl
  have hbw : Model.wild.bucket "all" = [⟨Callback.fn 2, some 9, 9⟩] := by rfl
  have hran : Model.wild.onceRan = [] := by rfl
  have hself : Model.wild.self = 7 := by rfl
  obtain ⟨⟨m', h, c⟩, hon⟩ := trigger_dispatch_order Env.plain (fun _ _ _ _ => rfl) 0 "a"
    (by decide) (by decide) [Arg.val (Value.num 1)] Model.wild Model.wild_wf
    (by
      rw [hba, hbw]
      unfold FreshWrappers
      rw [hran]
      decide)
  refine ⟨⟨m', h, ?_⟩, ?_⟩
  · rw [c, hba, hbw]
    rfl
  · rw [hon (Callback.fn 4) none "a", if_pos rfl, hba, hself]
    rfl

/-- C14 as stated fails.  In a table that exists, the read of the bucket of the
name `"constructor"` finds the member inherited from `Object.prototype`, on
which lines 205-207 of event.js throw.  And when the listener `f0` of `"a"`
calls `on("all", f2)`: on a record without wildcard bucket `trigger("a")` calls
`f0` alone although `f2` is under `"all"` when the pass over `"all"` is due;
on a record with `f4` under `"all"` it calls `f0`, `f4` and `f2`. -/
theorem trigger_dispatch_order_counterexample :
    Dict.inherits ((Events.on "a" (some (Callback.fn 0)) none (Model.init 7 []))._events.getD [])
      "constructor" = true ∧
    (trigger 2 Env.meddle "a" []
        (Events.on "a" (some (Callback.fn 0)) none (Model.init 7 []))).map
        (fun m' => (calls m'.trace, m'.bucket "all")) =
      some ([(0, 7, [])], [⟨Callback.fn 2, none, 7⟩]) ∧
    (trigger 2 Env.meddle "a" []
        (Events.on "all" (some (Callback.fn 4)) none
          (Events.on "a" (some (Callback.fn 0)) none (Model.init 7 [])))).map
        (fun m' => calls m'.trace) =
      some [(0, 7, []), (4, 7, [Arg.val (Value.str "a")]), (2, 7, [Arg.val (Value.str "a")])] :=
  ⟨by rfl, by rfl, by rfl⟩

theorem wrapperIds_plain (evs : List EventRec)
    (h : ∀ ev ∈ evs, ∃ f, ev.callback = Callback.fn f) : wrapperIds evs = [] := by
  induction evs with
  | nil => rfl
  | cons ev rest ih =>
    obtain ⟨f, hf⟩ := h ev (List.mem_cons_self _ _)
    rw [wrapperIds_cons, hf, ih (fun x hx => h x (List.mem_cons_of_mem _ hx))]
    rfl

/-- C24, the amended claim: when the records under `"all"` were subscribed with
`on` and the listeners do nothing themselves, `trigger("all", ...args)` calls
the listener of each of them exactly twice: all of them in insertion order
with `args`, then all of them in insertion order with `"all"` put in front of
`args`. -/
theorem trigger_all_twice (env : Env) (henv : Env.Inert env) (fuel : Nat) (args : List Arg)
    (m : Model) (hwf : Model.WF m)
    (hplain : ∀ ev ∈ m.bucket "all", ∃ f, ev.callback = Callback.fn f) :
    ∃ m', trigger (fuel + 1) env "all" args m = some m' ∧
      calls m'.trace = calls m.trace ++ callsOf (m.bucket "all") args ++
        callsOf (m.bucket "all") (Arg.val (Value.str "all") :: args) := by
  refine ⟨triggerInert "all" args m, trigger_inert env henv fuel "all" (by decide) args m, ?_⟩
  have hids : wrapperIds (m.bucket "all" ++ m.bucket "all") = [] := by
    rw [wrapperIds_append, wrapperIds_plain _ hplain]
    rfl
  have hfr : FreshWrappers (m.bucket "all" ++ m.bucket "all") m := by
    unfold FreshWrappers
    rw [hids]
    exact ⟨List.nodup_nil, fun u hu => by cases hu⟩
  rw [triggerInert_fresh "all" args m hwf hfr]
  simp only [calls_append, calls_map_call, calls, List.append_nil]

theorem trigger_all_twice_witness :
    ∃ m', trigger 1 Env.plain "all" [Arg.val (Value.num 1)] Model.wild = some m' ∧
      calls m'.trace = [(2, 9, [Arg.val (Value.num 1)]),
        (2, 9, [Arg.val (Value.str "all"), Arg.val (Value.num 1)])] := by
  have hbw : Model.wild.bucket "all" = [⟨Callback.fn 2, some 9, 9⟩] := by rfl
  obtain ⟨m', h, c⟩ := trigger_all_twice Env.plain (fun _ _ _ _ => rfl) 0
    [Arg.val (Value.num 1)] Model.wild Model.wild_wf
    (by
      rw [hbw]
      intro ev hev
      rw [List.mem_singleton.1 hev]
      exact ⟨2, rfl⟩)
  refine ⟨m', h, ?_⟩
  rw [c, hbw]
  rfl

/-- C24 as stated fails: a listener subscribed under `"all"` with `once` is
called once by `trigger("all", 1)`, with the arguments alone; the second pass
finds the latch of its wrapper set.  And when the wildcard listener `f0` itself
calls `on("all", f1)`, `trigger("all")` calls `f0` twice but `f1`, subscribed
during the first pass, only once, with `"all"` in front. -/
theorem trigger_all_twice_counterexample :
    ((Events.once "all" (some 3) none (Model.init 7 [])).bucket "all" =
      [⟨Callback.once 0 "all" 3, none, 7⟩] ∧
    ∃ m', trigger 1 Env.plain "all" [Arg.val (Value.num 1)]
        (Events.once "all" (some 3) none (Model.init 7 [])) = some m' ∧
      calls m'.trace = [(3, 7, [Arg.val (Value.num 1)])]) ∧
    (trigger 2 Env.recruit "all" []
        (Events.on "all" (some (Callback.fn 0)) none (Model.init 7 []))).map
        (fun m' => calls m'.trace) =
      some [(0, 7, []), (0, 7, [Arg.val (Value.str "all")]),
        (1, 7, [Arg.val (Value.str "all")])] :=
  ⟨⟨by rfl,
    { Model.init 7 [] with
      _events := some []
      arrays := [[⟨Callback.once 0 "all" 3, none, 7⟩]]
      nextUid := 1
      onceRan := [0]
      trace := [Obs.emit "all" [Arg.val (Value.num 1)], Obs.call 3 7 [Arg.val (Value.num 1)]] },
    by rfl, by rfl⟩, by rfl⟩

/-! ## Subscriptions changed during a dispatch (claim C15) -/

/-- C15 at a failing input: the record has `f0`, `f1` under `"a"` and `f4` under
`"all"`; `f0` calls `off("a", f1)`, `on("a", f3)` and `on("all", f2)`.  During
`trigger("a")` the pass over `"a"` is the snapshot `f0`, `f1` (the unsubscribed
`f1` is called, the newly subscribed `f3` is not), but the pass over `"all"`
calls `f4` and then `f2`, which was subscribed during the dispatch: `on` pushed
it on the array that `trigger` had read before the first pass. -/
theorem dispatch_snapshot_wildcard :
    Model.meddled.bucket "a" = [⟨Callback.fn 0, none, 7⟩, ⟨Callback.fn 1, none, 7⟩] ∧
    Model.meddled.bucket "all" = [⟨Callback.fn 4, none, 7⟩] ∧
    ∃ m', trigger 1 Env.meddle "a" [] Model.meddled = some m' ∧
      calls m'.trace = [(0, 7, []), (1, 7, []),
        (4, 7, [Arg.val (Value.str "a")]), (2, 7, [Arg.val (Value.str "a")])] ∧
      m'.bucket "a" = [⟨Callback.fn 0, none, 7⟩, ⟨Callback.fn 3, none, 7⟩] ∧
      m'.bucket "all" = [⟨Callback.fn 4, none, 7⟩, ⟨Callback.fn 2, none, 7⟩] :=
  ⟨by rfl, by rfl,
    { Model.init 7 [] with
      _events := some [("a", 2), ("all", 1)]
      arrays := [[⟨Callback.fn 0, none, 7⟩, ⟨Callback.fn 1, none, 7⟩],
        [⟨Callback.fn 4, none, 7⟩, ⟨Callback.fn 2, none, 7⟩],
        [⟨Callback.fn 0, none, 7⟩, ⟨Callback.fn 3, none, 7⟩]]
      trace := [Obs.emit "a" [], Obs.call 0 7 [], Obs.call 1 7 [],
        Obs.call 4 7 [Arg.val (Value.str "a")], Obs.call 2 7 [Arg.val (Value.str "a")]] },
    by rfl, by rfl, by rfl, by rfl⟩

/-! ## The constructor and `clone` (claim C20) -/

theorem Events.trigger_none (inv : Invoker) (name : String) (args : List Arg) (m : Model)
    (h : m._events = none) :
    Events.trigger inv name args m = some { m with trace := m.trace ++ [Obs.emit name args] } := by
  unfold Events.trigger
  simp only [h]

theorem Model.fireChanges_none (inv : Invoker) (ks : List String) (options : Obj) (m : Model)
    (h : m._events = none) :
    ∃ t, Model.fireChanges inv ks options m = some { m with trace := m.trace ++ t } := by
  induction ks generalizing m with
  | nil => exact ⟨[], by simp [Model.fireChanges]⟩
  | cons k ks ih =>
    obtain ⟨t, ht⟩ := ih { m with trace := m.trace ++ [Obs.emit ("change:" ++ k)
      [Arg.ref m.self, Arg.val (Obj.get m.attributes k), Arg.obj options]] } h
    refine ⟨Obs.emit ("change:" ++ k)
      [Arg.ref m.self, Arg.val (Obj.get m.attributes k), Arg.obj options] :: t, ?_⟩
    simp only [Model.fireChanges, Events.trigger_none inv _ _ m h, Option.some_bind, ht]
    simp

theorem Model.changeLoop_none (inv : Invoker) (fuel : Nat) (m : Model) (h : m._events = none) :
    ∃ t, Model.changeLoop inv (fuel + 1) m =
      some { m with _pending := none, trace := m.trace ++ t } := by
  cases hp : m._pending with
  | none =>
    refine ⟨[], ?_⟩
    simp only [Model.changeLoop, hp, List.append_nil]
    congr 1
    cases m
    simp only at hp
    subst hp
    rfl
  | some o =>
    refine ⟨[Obs.emit "change" [Arg.ref m.self, Arg.obj o]], ?_⟩
    simp only [Model.changeLoop, hp]
    rw [Events.trigger_none inv _ _ _ (by exact h)]
    simp only [Option.some_bind]
    cases fuel <;> simp [Model.changeLoop]

theorem Model.setAttrs_none (inv : Invoker) (fuel : Nat) (env : Env) (attrs options : Obj)
    (m : Model) (hev : m._events = none) (hacc : ¬ Rejects env attrs options m) :
    ∃ e m', Model.setAttrs inv (fuel + 1) env attrs options m = some (SetResult.record, m') ∧
      SameAttrs (Model.applied env attrs options e m).2 m' ∧ m'.self = m.self := by
  obtain ⟨e, he⟩ := Model._validate_of_not_rejects inv env attrs options m hacc
  refine ⟨e, ?_⟩
  rw [Model.setAttrs_accepted inv (fuel + 1) env attrs options e m he]
  have htab := Model.applied_table env attrs options e m
  have hself := (Model.applied_frame env attrs options e m).1
  generalize Model.applied env attrs options e m = am at htab hself
  obtain ⟨changes, m3⟩ := am
  simp only at htab hself ⊢
  have h3 : m3._events = none := htab.1.trans hev
  have h4 : ∃ t, (if !(Obj.get options "silent").truthy then
      Model.fireChanges inv changes options m3 else some m3) =
      some { m3 with trace := m3.trace ++ t } := by
    split
    · exact Model.fireChanges_none inv changes options m3 h3
    · exact ⟨[], by simp⟩
  obtain ⟨t4, e4⟩ := h4
  rw [e4]
  simp only [Option.some_bind]
  split
  · exact ⟨_, rfl, ⟨rfl, rfl, rfl, rfl⟩, hself⟩
  · unfold Model.setFinish
    have h5 : ∃ t, (if !(Obj.get options "silent").truthy then
        Model.changeLoop inv (fuel + 1) { m3 with trace := m3.trace ++ t4 }
        else some { m3 with trace := m3.trace ++ t4 }) =
        some { m3 with _pending := (if !(Obj.get options "silent").truthy then none
          else m3._pending), trace := m3.trace ++ t4 ++ t } := by
      split
      · obtain ⟨t, ht⟩ := Model.changeLoop_none inv fuel { m3 with trace := m3.trace ++ t4 } h3
        exact ⟨t, ht⟩
      · exact ⟨[], by simp⟩
    obtain ⟨t5, e5⟩ := h5
    rw [e5]
    exact ⟨_, rfl, ⟨rfl, rfl, rfl, rfl⟩, hself⟩

theorem Model.setAttr_fold_current (prev : Obj) (attrs : Obj) (st : List String × Obj × Obj) :
    (attrs.foldl (Model.setAttr false prev) st).2.2 = extend st.2.2 attrs := by
  induction attrs generalizing st with
  | nil => rfl
  | cons kv rest ih =>
    simp only [List.foldl_cons, extend]
    rw [ih]
    rfl

theorem Model.applied_extend (env : Env) (attrs options : Obj) (e : Value) (m : Model)
    (hunset : (Obj.get options "unset").truthy = false) :
    (Model.applied env attrs options e m).2.attributes = extend m.attributes attrs := by
  rw [(Model.applied_fold env attrs options e m).2, hunset, Model.setAttr_fold_current]

theorem extend_nodup (l acc : Obj) (hnd : ((acc ++ l).map Prod.fst).Nodup) :
    extend acc l = acc ++ l := by
  induction l generalizing acc with
  | nil => simp [extend]
  | cons kv rest ih =>
    have hfresh : kv.1 ∉ acc.map Prod.fst := by
      rw [List.map_append, List.map_cons] at hnd
      intro hx
      exact (List.nodup_append.1 hnd).2.2 hx (List.mem_cons_self _ _)
    have hnd' : ((acc ++ [kv] ++ rest).map Prod.fst).Nodup := by simpa using hnd
    have step : extend acc (kv :: rest) = extend (Dict.put acc kv.1 kv.2) rest := rfl
    rw [step, Dict.put_absent acc kv.1 kv.2 hfresh, ih (acc ++ [(kv.1, kv.2)]) hnd']
    simp

theorem Dict.find_absent {α : Type} (o : Dict α) (k : String) (h : k ∉ o.map Prod.fst) :
    Dict.find o k = none := by
  induction o with
  | nil => rfl
  | cons hd tl ih =>
    obtain ⟨k0, v0⟩ := hd
    simp only [List.map_cons, List.mem_cons, not_or] at h
    have h0 : ¬ k0 = k := fun e => h.1 e.symm
    simp [Dict.find, h0, ih h.2]

theorem defaults_fresh (l acc : Obj) (hnd : ((acc ++ l).map Prod.fst).Nodup) :
    defaults acc l = acc ++ l := by
  induction l generalizing acc with
  | nil => simp [defaults]
  | cons kv rest ih =>
    have hfresh : kv.1 ∉ acc.map Prod.fst := by
      rw [List.map_append, List.map_cons] at hnd
      intro hx
      exact (List.nodup_append.1 hnd).2.2 hx (List.mem_cons_self _ _)
    have hnd' : ((acc ++ [kv] ++ rest).map Prod.fst).Nodup := by simpa using hnd
    have hget : Obj.get acc kv.1 = Value.undefined := by
      simp [Obj.get, Dict.find_absent acc kv.1 hfresh]
    have step : defaults acc (kv :: rest) = defaults (Dict.put acc kv.1 kv.2) rest := by
      simp only [defaults, List.foldl_cons, hget, if_true]
    rw [step, Dict.put_absent acc kv.1 kv.2 hfresh, ih (acc ++ [(kv.1, kv.2)]) hnd']
    simp

theorem Dict.put_keys {α : Type} (o : Dict α) (k : String) (v : α) :
    (Dict.put o k v).map Prod.fst =
      if k ∈ o.map Prod.fst then o.map Prod.fst else o.map Prod.fst ++ [k] := by
  induction o with
  | nil => simp [Dict.put]
  | cons hd tl ih =>
    obtain ⟨k0, v0⟩ := hd
    by_cases h0 : k0 = k
    · subst h0
      simp [Dict.put]
    · have h0' : ¬ k = k0 := fun e => h0 e.symm
      simp only [Dict.put, h0, if_false, List.map_cons, ih, List.mem_cons, h0', false_or]
      split <;> simp

theorem Dict.put_nodup {α : Type} (o : Dict α) (k : String) (v : α)
    (h : (o.map Prod.fst).Nodup) : ((Dict.put o k v).map Prod.fst).Nodup := by
  rw [Dict.put_keys]
  split
  · exact h
  · rename_i hk
    exact List.Nodup.append h (List.nodup_singleton k) (by
      intro x hx hy
      rw [List.mem_singleton] at hy
      subst hy
      exact hk hx)

theorem defaults_nodup (src obj : Obj) (h : (obj.map Prod.fst).Nodup) :
    ((defaults obj src).map Prod.fst).Nodup := by
  induction src generalizing obj with
  | nil => exact h
  | cons kv rest ih =>
    simp only [defaults, List.foldl_cons]
    split
    · exact ih _ (Dict.put_nodup obj kv.1 kv.2 h)
    · exact ih _ h

theorem defaults_defined (src obj : Obj)
    (h : ∀ kv ∈ src, Obj.get obj kv.1 ≠ Value.undefined) : defaults obj src = obj := by
  induction src with
  | nil => rfl
  | cons kv rest ih =>
    have h0 := h kv (List.mem_cons_self _ _)
    simp only [defaults, List.foldl_cons, h0, if_false]
    exact ih (fun x hx => h x (List.mem_cons_of_mem _ hx))

/-- What `clone()` returns on a record type that keeps the default `parse` and
`initialize`: a new record whose `attributes` are `_.defaults` of the
attributes of the original and the defaults of the type; they are the
attributes of the original when it holds a defined value for every default
key. -/
theorem Model.clone_defaults (env : Env) (dflts : Obj) (fuel : Nat) (self : Ref) (m : Model)
    (hnd : (m.attributes.map Prod.fst).Nodup) :
    ∃ c, Model.clone (fuel + 1) env dflts self m = some c ∧
      c.self = self ∧ c.attributes = defaults m.attributes dflts ∧
      ((∀ kv ∈ dflts, Obj.get m.attributes kv.1 ≠ Value.undefined) →
        c.attributes = m.attributes) := by
  have hd0 : defaults [] m.attributes = m.attributes :=
    defaults_fresh m.attributes [] (by simpa using hnd)
  have hndD : ((defaults m.attributes dflts).map Prod.fst).Nodup :=
    defaults_nodup dflts m.attributes hnd
  have hacc : ∀ (a : Obj) (x : Model), ¬ Rejects env a [] x := by
    intro a x hr
    obtain ⟨_, _, hv, _⟩ := hr
    simp [Obj.get, Dict.find, Value.truthy] at hv
  unfold Model.clone Model.construct Model.set Model.setWith
  simp only [Option.getD_some, hd0]
  obtain ⟨e, m', hset, hs, hself⟩ := Model.setAttrs_none (invoke (fuel + 1) env) fuel env
    (defaults m.attributes dflts) []
    { self := self, attributes := [], changed := [], _previousAttributes := [],
      id := Value.undefined, validationError := Value.null, _changing := false,
      _pending := none, _events := none, arrays := [], nextUid := 0, onceRan := [], trace := [] }
    rfl (hacc _ _)
  rw [hset]
  have hattr : m'.attributes = defaults m.attributes dflts := by
    rw [hs.1, Model.applied_extend env _ [] e _ (by rfl)]
    exact extend_nodup _ [] (by simpa using hndD)
  refine ⟨{ m' with changed := [] }, rfl, hself, hattr, fun hdef => ?_⟩
  show m'.attributes = m.attributes
  rw [hattr, defaults_defined dflts m.attributes hdef]

/-- C20 at a failing input: on a record type that declares the defaults
`{a: 1}`, a record whose attributes are `{}` (after `unset("a")`) is cloned
into a record with the attributes `{a: 1}`, which are not the attributes of
the original. -/
theorem clone_merges_defaults :
    (Model.init 7 []).attributes = [] ∧
    ∃ c, Model.clone 1 Env.plain [("a", Value.num 1)] 8 (Model.init 7 []) = some c ∧
      c.attributes = [("a", Value.num 1)] ∧ c.attributes ≠ (Model.init 7 []).attributes :=
  ⟨rfl,
    { Model.init 8 [("a", Value.num 1)] with
      id := Value.undefined
      trace := [Obs.emit "change:a" [Arg.ref 8, Arg.val (Value.num 1), Arg.obj []],
        Obs.emit "change" [Arg.ref 8, Arg.obj []]] },
    by rfl, by rfl, by decide⟩

/-! ## The map is applied before the listeners run (claim C23) -/

theorem Model.applied_id (env : Env) (attrs options : Obj) (e : Value) (m : Model) :
    (Model.applied env attrs options e m).2.id =
      if Dict.has attrs env.idAttribute then Obj.get attrs env.idAttribute else m.id := by
  unfold Model.applied Model.setApply Model.setBegin
  simp only
  cases Dict.has attrs env.idAttribute <;> cases m._changing <;> (repeat' split) <;> rfl

theorem Model.fireChanges_foldlM (inv : Invoker) (changes : List String) (options : Obj)
    (m : Model) :
    Model.fireChanges inv changes options m =
      changes.foldlM (fun m0 k => Events.trigger inv ("change:" ++ k)
        [Arg.ref m0.self, Arg.val (Obj.get m0.attributes k), Arg.obj options] m0) m := by
  induction changes generalizing m with
  | nil => rfl
  | cons k ks ih =>
    rw [List.foldlM_cons]
    show (Events.trigger inv ("change:" ++ k) _ m).bind (Model.fireChanges inv ks options) = _
    cases h : Events.trigger inv ("change:" ++ k)
      [Arg.ref m.self, Arg.val (Obj.get m.attributes k), Arg.obj options] m with
    | none => rfl
    | some m1 => exact ih m1

theorem Model.setAttr_foldl_find_other (unset : Bool) (prev : Obj) (attrs : Obj)
    (st : List String × Obj × Obj) (k : String) (hk : k ∉ attrs.map Prod.fst) :
    Dict.find (attrs.foldl (Model.setAttr unset prev) st).2.2 k = Dict.find st.2.2 k := by
  induction attrs generalizing st with
  | nil => rfl
  | cons kv rest ih =>
    simp only [List.map_cons, List.mem_cons, not_or] at hk
    simp only [List.foldl_cons]
    rw [ih _ hk.2]
    unfold Model.setAttr
    cases unset
    · simp [Dict.find_put, Ne.symm hk.1]
    · simp [Dict.find_del, Ne.symm hk.1]

theorem Model.setAttr_foldl_find (unset : Bool) (prev : Obj) (attrs : Obj)
    (hnd : (attrs.map Prod.fst).Nodup) (st : List String × Obj × Obj)
    (kv : String × Value) (hm : kv ∈ attrs) :
    Dict.find (attrs.foldl (Model.setAttr unset prev) st).2.2 kv.1 =
      if unset then none else some kv.2 := by
  induction attrs generalizing st with
  | nil => simp at hm
  | cons kv0 rest ih =>
    simp only [List.map_cons, List.nodup_cons] at hnd
    simp only [List.foldl_cons]
    rcases List.mem_cons.1 hm with h0 | h0
    · subst h0
      rw [Model.setAttr_foldl_find_other unset prev rest _ kv.1 hnd.1]
      unfold Model.setAttr
      cases unset
      · simp [Dict.find_put]
      · simp [Dict.find_del]
    · exact ih hnd.2 _ h0

theorem Model.applied_find (env : Env) (attrs options : Obj) (e : Value) (m : Model)
    (hnd : (attrs.map Prod.fst).Nodup) (kv : String × Value) (hm : kv ∈ attrs) :
    Dict.find (Model.applied env attrs options e m).2.attributes kv.1 =
      if (Obj.get options "unset").truthy then none else some kv.2 := by
  have key := fun st => Model.setAttr_foldl_find (Obj.get options "unset").truthy
    (Model.setBegin { m with validationError := e })._previousAttributes attrs hnd st kv hm
  unfold Model.applied Model.setApply
  simp only
  split <;> split <;> exact key _

/-- C23: in every `set` that passes validation, whatever the listeners do, the
`"change:<key>"` events are dispatched one after the other, for keys of the
incoming hash, starting from a record `am` on which nothing was dispatched yet
and in which every incoming key is already applied to `attributes` (an own
key with the incoming value, or no own key under `unset`) and `id` is updated;
each dispatch passes the value `attributes` holds for its key in the record it
is dispatched on, as the earlier dispatches left it.  When no incoming key is
the name of a member of `Object.prototype`, the keys dispatched are the
incoming keys whose value differs from the value current before the call, in
the order of the hash, and in `am` the map `changed` already follows the
snapshot (`unset` being used with `undefined` values only). -/
theorem set_applies_before_notifying (inv : Invoker) (fuel : Nat) (env : Env)
    (attrs options : Obj) (m : Model) (hnd : (attrs.map Prod.fst).Nodup)
    (hacc : ¬ Rejects env attrs options m) :
    ∃ changes am,
      Model.setAttrs inv fuel env attrs options m =
        (if !(Obj.get options "silent").truthy then
          changes.foldlM (fun m0 k => Events.trigger inv ("change:" ++ k)
            [Arg.ref m0.self, Arg.val (Obj.get m0.attributes k), Arg.obj options] m0) am
          else some am).bind (fun m4 =>
            if m._changing then some (SetResult.record, m4)
            else Model.setFinish inv fuel options m4) ∧
      am.trace = m.trace ∧
      (∀ k ∈ changes, k ∈ attrs.map Prod.fst) ∧
      (∀ kv ∈ attrs, Dict.find am.attributes kv.1 =
        if (Obj.get options "unset").truthy then none else some kv.2) ∧
      (Dict.has attrs env.idAttribute = true → am.id = Obj.get attrs env.idAttribute) ∧
      (env.idAttribute ∉ inheritedKeys → Dict.has attrs env.idAttribute = false →
        am.id = m.id) ∧
      (OwnKeys attrs →
        changes = (attrs.filter fun kv => !isEqual (Obj.get m.attributes kv.1) kv.2).map
          Prod.fst ∧
        (UnsetSafe attrs options → Good m → ChangedInv am)) := by
  obtain ⟨e, he⟩ := Model._validate_of_not_rejects inv env attrs options m hacc
  have hch := Model.applied_changes env attrs options e m hnd
  have hid := Model.applied_id env attrs options e m
  refine ⟨(Model.applied env attrs options e m).1, (Model.applied env attrs options e m).2,
    ?_, (Model.applied_frame env attrs options e m).2.1, ?_,
    fun kv hkv => Model.applied_find env attrs options e m hnd kv hkv, ?_, ?_, ?_⟩
  · rw [Model.setAttrs_accepted inv fuel env attrs options e m he, Model.fireChanges_foldlM]
  · intro k hk
    rw [hch] at hk
    obtain ⟨kv, hkv, rfl⟩ := List.mem_map.1 hk
    exact List.mem_map_of_mem _ (List.mem_filter.1 hkv).1
  · intro h
    rw [hid, h]
    rfl
  · intro _ h
    rw [hid, h]
    rfl
  · intro _
    exact ⟨hch, fun hs hg => Model.applied_changedInv env attrs options e m hs hg⟩

theorem set_applies_before_notifying_witness :
    (∃ am,
      Model.setAttrs (invoke 2 Env.override) 2 Env.override
          [("a", Value.num 1), ("b", Value.num 2)] [] Model.pair =
        (["a", "b"].foldlM (fun m0 k => Events.trigger (invoke 2 Env.override) ("change:" ++ k)
            [Arg.ref m0.self, Arg.val (Obj.get m0.attributes k), Arg.obj []] m0) am).bind
          (fun m4 => Model.setFinish (invoke 2 Env.override) 2 [] m4) ∧
      am.trace = Model.pair.trace ∧
      Dict.find am.attributes "a" = some (Value.num 1) ∧
      Dict.find am.attributes "b" = some (Value.num 2)) ∧
    ∃ m', Model.set 2 Env.override (KeyArg.map [("a", Value.num 1), ("b", Value.num 2)]) []
        Model.pair = some (SetResult.record, m') ∧
      calls m'.trace =
        [(0, 7, [Arg.ref 7, Arg.val (Value.num 1), Arg.obj []]),
         (1, 7, [Arg.ref 7, Arg.val (Value.num 5), Arg.obj []]),
         (1, 7, [Arg.ref 7, Arg.val (Value.num 5), Arg.obj []])] := by
  obtain ⟨changes, am, h, ht, -, hv, -, -, hc⟩ := set_applies_before_notifying
    (invoke 2 Env.override) 2 Env.override [("a", Value.num 1), ("b", Value.num 2)] []
    Model.pair (by decide) (fun hr => by obtain ⟨_, hv, _⟩ := hr; cases hv)
  have hch : changes = ["a", "b"] := by
    rw [(hc (by decide)).1]
    rfl
  rw [hch] at h
  refine ⟨⟨am, h, ht, hv ("a", Value.num 1) (by simp), hv ("b", Value.num 2) (by simp)⟩, ?_⟩
  exact ⟨{ Model.pair with
      attributes := [("a", Value.num 1), ("b", Value.num 5)]
      changed := [("a", Value.num 1), ("b", Value.num 5)]
      trace := [Obs.emit "change:a" [Arg.ref 7, Arg.val (Value.num 1), Arg.obj []],
        Obs.call 0 7 [Arg.ref 7, Arg.val (Value.num 1), Arg.obj []],
        Obs.emit "change:b" [Arg.ref 7, Arg.val (Value.num 5), Arg.obj []],
        Obs.call 1 7 [Arg.ref 7, Arg.val (Value.num 5), Arg.obj []],
        Obs.emit "change:b" [Arg.ref 7, Arg.val (Value.num 5), Arg.obj []],
        Obs.call 1 7 [Arg.ref 7, Arg.val (Value.num 5), Arg.obj []],
        Obs.emit "change" [Arg.ref 7, Arg.obj []]] }, by rfl, by rfl⟩

/-! ## Silent `set` (claim C22) -/

theorem Model.applied_congr (env : Env) (attrs o1 o2 : Obj) (e1 e2 : Value) (m1 m2 : Model)
    (hunset : (Obj.get o1 "unset").truthy = (Obj.get o2 "unset").truthy)
    (ha : m2.attributes = m1.attributes) (hc : m2.changed = m1.changed)
    (hp : m2._previousAttributes = m1._previousAttributes) (hid : m2.id = m1.id)
    (hch : m2._changing = m1._changing) :
    SameAttrs (Model.applied env attrs o1 e1 m1).2 (Model.applied env attrs o2 e2 m2).2 := by
  have f1 := Model.applied_fold env attrs o1 e1 m1
  have f2 := Model.applied_fold env attrs o2 e2 m2
  refine ⟨?_, ?_, ?_, ?_⟩
  · rw [f1.2, f2.2, hunset, ha, hc, hp, hch]
  · rw [f1.1, f2.1, hunset, ha, hc, hp, hch]
  · rw [Model.applied_prev, Model.applied_prev, ha, hp, hch]
  · rw [Model.applied_id, Model.applied_id, hid]

theorem Model.setAttrs_silent (inv : Invoker) (fuel : Nat) (env : Env) (attrs options : Obj)
    (m : Model) (hout : m._changing = false)
    (hS : (Obj.get options "silent").truthy = true) (hacc : ¬ Rejects env attrs options m) :
    ∃ e, Model.setAttrs inv fuel env attrs options m =
      some (SetResult.record,
        { (Model.applied env attrs options e m).2 with _pending := none, _changing := false }) := by
  obtain ⟨e, he⟩ := Model._validate_of_not_rejects inv env attrs options m hacc
  refine ⟨e, ?_⟩
  rw [Model.setAttrs_accepted inv fuel env attrs options e m he]
  simp only [hS, hout, Bool.not_true, Bool.false_eq_true, if_false, Option.some_bind,
    Model.setFinish]

/-- C22 (amended): take an outermost `set` whose options have `silent` set, and
the same call with options that differ in `silent` (they agree on `unset`), made
on the record without listeners.  (1) When validation passes on both, then
whatever the listeners do the silent call returns the record for every fuel,
emits nothing and calls no listener, and leaves `attributes`, `changed`,
`_previousAttributes` and `id` as the other call leaves them.  (2) When
validation fails on both and the listeners only subscribe and unsubscribe
(under names that are not names of members of `Object.prototype`), the silent
call returns `false`, emits `"invalid"` only, and leaves these four fields as
the other call leaves them. -/
theorem silent_set (env : Env) (fuel : Nat) (key : KeyArg) (attrs optS optN : Obj) (m : Model)
    (hkey : key.attrs = some attrs) (hout : m._changing = false)
    (hS : (Obj.get optS "silent").truthy = true)
    (hunset : (Obj.get optS "unset").truthy = (Obj.get optN "unset").truthy) :
    (¬ Rejects env attrs optS m → ¬ Rejects env attrs optN { m with _events := none } →
      ∃ m1 m2, Model.set fuel env key optS m = some (SetResult.record, m1) ∧
        Model.set (fuel + 1) env key optN { m with _events := none }
          = some (SetResult.record, m2) ∧
        m1.trace = m.trace ∧
        m1.attributes = m2.attributes ∧ m1.changed = m2.changed ∧
        m1._previousAttributes = m2._previousAttributes ∧ m1.id = m2.id) ∧
    (Env.All env Cmd.Passive → Env.All env Cmd.Own →
      Rejects env attrs optS m → Rejects env attrs optN { m with _events := none } →
      ∃ m1 m2 E, Model.set (fuel + 1) env key optS m = some (SetResult.rejected, m1) ∧
        Model.set (fuel + 1) env key optN { m with _events := none }
          = some (SetResult.rejected, m2) ∧
        emitted m1.trace = emitted m.trace ++ E ∧ (∀ ev ∈ E, ev.1 = "invalid") ∧
        m1.attributes = m2.attributes ∧ m1.changed = m2.changed ∧
        m1._previousAttributes = m2._previousAttributes ∧ m1.id = m2.id) := by
  unfold Model.set
  rw [Model.setWith_attrs _ _ _ key attrs optS m hkey,
    Model.setWith_attrs _ _ _ key attrs optS m hkey,
    Model.setWith_attrs _ _ _ key attrs optN _ hkey]
  constructor
  · intro hacc hacc0
    obtain ⟨e, h1⟩ := Model.setAttrs_silent (invoke fuel env) fuel env attrs optS m hout hS hacc
    obtain ⟨e0, m2, h2, s2, -⟩ := Model.setAttrs_none (invoke (fuel + 1) env) fuel env attrs optN
      { m with _events := none } rfl hacc0
    have hcg := Model.applied_congr env attrs optS optN e e0 m { m with _events := none }
      hunset rfl rfl rfl rfl rfl
    refine ⟨_, m2, h1, h2, (Model.applied_frame env attrs optS e m).2.1, ?_, ?_, ?_, ?_⟩
    · show (Model.applied env attrs optS e m).2.attributes = m2.attributes
      rw [s2.1, hcg.1]
    · show (Model.applied env attrs optS e m).2.changed = m2.changed
      rw [s2.2.1, hcg.2.1]
    · show (Model.applied env attrs optS e m).2._previousAttributes = m2._previousAttributes
      rw [s2.2.2.1, hcg.2.2.1]
    · show (Model.applied env attrs optS e m).2.id = m2.id
      rw [s2.2.2.2, hcg.2.2.2]
  · intro henv _ hrej hrej0
    obtain ⟨validate, hv, ho, hres⟩ := hrej
    obtain ⟨validate0, hv0, ho0, hres0⟩ := hrej0
    obtain ⟨m1, e1, c1, t1⟩ := Events.trigger_quiet (invoke_passive env henv fuel) "invalid"
      [Arg.ref m.self, Arg.val (validate m (extend (extend [] m.attributes) attrs) optS),
        Arg.obj (extend optS [("validationError",
          validate m (extend (extend [] m.attributes) attrs) optS)])]
      { m with validationError := validate m (extend (extend [] m.attributes) attrs) optS }
    have hc := (Model.core_eq _ m1).1 c1
    rw [Model.setAttrs_rejected _ _ env attrs optS m validate hv ho hres, e1,
      Model.setAttrs_rejected _ _ env attrs optN _ validate0 hv0 ho0 hres0,
      Events.trigger_none _ _ _ _ rfl]
    exact ⟨m1, _, _, rfl, rfl, t1, by simp, hc.2.1, hc.2.2.1, hc.2.2.2.1, hc.2.2.2.2.1⟩

theorem silent_set_witness :
    (∃ m1 m2,
      Model.set 0 Env.strictSet (KeyArg.map [("name", Value.str "y")])
        [("silent", Value.bool true)] Model.named = some (SetResult.record, m1) ∧
      Model.set 1 Env.strictSet (KeyArg.map [("name", Value.str "y")]) []
        { Model.named with _events := none } = some (SetResult.record, m2) ∧
      m1.trace = Model.named.trace ∧
      m1.attributes = m2.attributes ∧ m1.changed = m2.changed ∧
      m1._previousAttributes = m2._previousAttributes ∧ m1.id = m2.id) ∧
    ∃ m1 m2 E,
      Model.set 1 Env.strict (KeyArg.map [("n", Value.num 0)])
        [("silent", Value.bool true), ("validate", Value.bool true)]
        (Model.init 7 [("n", Value.num 1)]) = some (SetResult.rejected, m1) ∧
      Model.set 1 Env.strict (KeyArg.map [("n", Value.num 0)]) [("validate", Value.bool true)]
        { Model.init 7 [("n", Value.num 1)] with _events := none }
          = some (SetResult.rejected, m2) ∧
      emitted m1.trace = emitted (Model.init 7 [("n", Value.num 1)]).trace ++ E ∧
      (∀ ev ∈ E, ev.1 = "invalid") ∧
      m1.attributes = m2.attributes ∧ m1.changed = m2.changed ∧
      m1._previousAttributes = m2._previousAttributes ∧ m1.id = m2.id :=
  ⟨(silent_set Env.strictSet 0 (KeyArg.map [("name", Value.str "y")])
      [("name", Value.str "y")] [("silent", Value.bool true)] [] Model.named rfl rfl (by rfl)
      (by rfl)).1
      (fun h => by obtain ⟨_, _, ho, _⟩ := h; exact absurd ho (by decide))
      (fun h => by obtain ⟨_, _, ho, _⟩ := h; exact absurd ho (by decide)),
    (silent_set Env.strict 0 (KeyArg.map [("n", Value.num 0)])
      [("n", Value.num 0)] [("silent", Value.bool true), ("validate", Value.bool true)]
      [("validate", Value.bool true)] (Model.init 7 [("n", Value.num 1)]) rfl rfl (by rfl)
      (by rfl)).2
      (fun _ _ _ _ => Script.All.done) (fun _ _ _ _ => Script.All.done)
      ⟨_, rfl, by rfl, by rfl⟩ ⟨_, rfl, by rfl, by rfl⟩⟩

/-- C22 as stated fails.  A silent `set({n: 0})` that the validator rejects
triggers `"invalid"`, and a listener of `"invalid"` that calls `set({x: 1})`
makes the call emit `"change:x"` and `"change"` and leave `x` in `attributes`.
And on a record type whose validator rejects the calls that have `silent` set,
the silent `set({a: 1})` is rejected and leaves `attributes` empty while the
same call without `silent` returns the record with `{a: 1}`. -/
theorem silent_set_counterexample :
    (Model.set 2 Env.strictSet (KeyArg.map [("n", Value.num 0)])
        [("silent", Value.bool true), ("validate", Value.bool true)]
        (Events.on "invalid" (some (Callback.fn 0)) none
          (Model.init 7 [("n", Value.num 1)]))).map
        (fun r => (r.1, (emitted r.2.trace).map Prod.fst, r.2.attributes)) =
      some (SetResult.rejected, ["invalid", "change:x", "change"],
        [("n", Value.num 1), ("x", Value.num 1)]) ∧
    (Model.set 1 Env.shy (KeyArg.map [("a", Value.num 1)])
        [("silent", Value.bool true), ("validate", Value.bool true)] (Model.init 7 [])).map
        (fun r => (r.1, r.2.attributes)) = some (SetResult.rejected, []) ∧
    (Model.set 1 Env.shy (KeyArg.map [("a", Value.num 1)])
        [("validate", Value.bool true)] (Model.init 7 [])).map
        (fun r => (r.1, r.2.attributes)) = some (SetResult.record, [("a", Value.num 1)]) :=
  ⟨by rfl, by rfl, by rfl⟩

/-! ## Lists of names and event maps (claim C21) -/

theorem splitAux_word (w cs cur : List Char) (b : Bool)
    (hw : ∀ c ∈ w, isSpace c = false) :
    splitAux (w ++ cs) cur b = splitAux cs (w.reverse ++ cur) (if w = [] then b else false) := by
  induction w generalizing cur b with
  | nil => simp
  | cons c rest ih =>
    have hc : isSpace c = false := hw c (List.mem_cons_self _ _)
    have hrest : ∀ x ∈ rest, isSpace x = false := fun x hx => hw x (List.mem_cons_of_mem _ hx)
    have step : splitAux (c :: rest ++ cs) cur b = splitAux (rest ++ cs) (c :: cur) false := by
      simp only [List.cons_append, splitAux, hc, Bool.false_eq_true, if_false]
      rfl
    rw [step, ih (c :: cur) false hrest]
    simp only [List.reverse_cons, List.append_assoc, List.singleton_append]
    cases rest <;> simp

theorem singleName_chars (n : String) (h : SingleName n) :
    n.data ≠ [] ∧ ∀ c ∈ n.data, isSpace c = false := by
  obtain ⟨hne, hapi⟩ := h
  refine ⟨fun hd => hne ?_, ?_⟩
  · cases n
    simp only at hd
    subst hd
    rfl
  · unfold eventsApi at hapi
    simp only [hne, if_false] at hapi
    have ht : eventSplitterTest n = false := by
      by_contra hc
      simp only [Bool.not_eq_false] at hc
      simp [hc] at hapi
    intro c hc
    unfold eventSplitterTest at ht
    by_contra hsp
    simp only [Bool.not_eq_false] at hsp
    have : n.data.any isSpace = true := List.any_eq_true.2 ⟨c, hc, hsp⟩
    rw [ht] at this
    cases this

theorem spaced_cons (n n2 : String) (rest : List String) :
    (spaced (n :: n2 :: rest)).data = n.data ++ ' ' :: (spaced (n2 :: rest)).data := by
  show (n ++ " " ++ spaced (n2 :: rest)).data = _
  simp [String.data_append]

theorem splitAux_spaced (names : List String) (hne : names ≠ [])
    (hs : ∀ n ∈ names, SingleName n) (b : Bool) :
    splitAux (spaced names).data [] b = names := by
  induction names generalizing b with
  | nil => exact absurd rfl hne
  | cons n rest ih =>
    obtain ⟨hnd, hnc⟩ := singleName_chars n (hs n (List.mem_cons_self _ _))
    cases rest with
    | nil =>
      have h1 := splitAux_word n.data [] [] b hnc
      simp only [List.append_nil] at h1
      show splitAux n.data [] b = [n]
      rw [h1]
      simp [splitAux]
    | cons n2 rest2 =>
      rw [spaced_cons, splitAux_word n.data _ [] b hnc]
      have hsp : isSpace ' ' = true := by decide
      simp only [hnd, if_false, List.append_nil, splitAux, hsp, if_true, Bool.false_eq_true,
        List.reverse_reverse]
      rw [ih (by simp) (fun x hx => hs x (List.mem_cons_of_mem _ hx)) true]

theorem eventsApi_spaced (n n2 : String) (rest : List String)
    (hs : ∀ x ∈ n :: n2 :: rest, SingleName x) :
    eventsApi (spaced (n :: n2 :: rest)) = some (n :: n2 :: rest) := by
  have hd := spaced_cons n n2 rest
  have hne : spaced (n :: n2 :: rest) ≠ "" := by
    intro h
    rw [h] at hd
    have : ([] : List Char) = n.data ++ ' ' :: (spaced (n2 :: rest)).data := hd
    simp at this
  have ht : eventSplitterTest (spaced (n :: n2 :: rest)) = true := by
    unfold eventSplitterTest
    rw [hd]
    have hsp : isSpace ' ' = true := by decide
    simp [hsp]
  unfold eventsApi
  simp only [hne, if_false, ht, if_true, Option.some.injEq]
  exact splitAux_spaced _ (by simp) hs false

theorem foldl_congr_mem {α β : Type} (f g : β → α → β) (l : List α)
    (h : ∀ x ∈ l, ∀ b, f b x = g b x) (b : β) : l.foldl f b = l.foldl g b := by
  induction l generalizing b with
  | nil => rfl
  | cons x xs ih =>
    simp only [List.foldl_cons]
    rw [h x (List.mem_cons_self _ _) b]
    exact ih (fun y hy => h y (List.mem_cons_of_mem _ hy)) _

theorem Events.on_piece (n : String) (hn : eventsApi n = none) (cb : Option Callback)
    (context : Option Ref) (m : Model) :
    Events.on n cb context m = match cb with
      | some c => Events.onBody n c context m
      | none => m := by
  unfold Events.on
  rw [hn]

theorem Events.trigger_piece (inv : Invoker) (n : String) (hn : eventsApi n = none)
    (args : List Arg) (m : Model) :
    Events.trigger inv n args m =
      Events.triggerOne inv n args { m with trace := m.trace ++ [Obs.emit n args] } := by
  unfold Events.trigger Events.triggerOne
  simp only [hn]

theorem Events.triggerEach_none (inv : Invoker) (names : List String) (args : List Arg)
    (m : Model) (h : m._events = none) : Events.triggerEach inv names args m = some m := by
  induction names with
  | nil => rfl
  | cons n ns ih => simp [Events.triggerEach, Events.triggerOne, h, ih]

/-- C21: for single event names `n1`, ..., `nk` (`k ≥ 1`), `on("n1 ... nk", cb,
context)` is `on(n1, cb, context)`, ..., `on(nk, cb, context)` in that order;
`on(map, context)` with an event map (the context is the second argument) is
`on(ni, ci, context)` for each entry of the map in key order; and `trigger("n1 ... nk", ...args)` is, once the call
is logged, the dispatches of `n1`, ..., `nk` in that order with the same
arguments, the dispatch of one name being what `trigger` of that name does
once its call is logged. -/
theorem multi_name_expansion (names : List String) (hne : names ≠ [])
    (hs : ∀ n ∈ names, SingleName n) :
    (∀ cb context m, Events.on (spaced names) cb context m =
      names.foldl (fun m n => Events.on n cb context m) m) ∧
    (∀ (map : Dict Callback) context third m, Events.onMap map context third m =
      map.foldl (fun m kv => Events.on kv.1 (some kv.2) context m) m) ∧
    (∀ inv args m, Events.trigger inv (spaced names) args m =
      Events.triggerEach inv names args
        { m with trace := m.trace ++ [Obs.emit (spaced names) args] }) ∧
    (∀ inv args m, ∀ n ∈ names, Events.trigger inv n args m =
      Events.triggerOne inv n args { m with trace := m.trace ++ [Obs.emit n args] }) := by
  refine ⟨?_, fun _ _ _ _ => rfl, ?_,
    fun inv args m n hn => Events.trigger_piece inv n (hs n hn).2 args m⟩
  · intro cb context m
    cases names with
    | nil => exact absurd rfl hne
    | cons n rest =>
      cases rest with
      | nil => rfl
      | cons n2 rest2 =>
        have hapi := eventsApi_spaced n n2 rest2 hs
        unfold Events.on
        simp only [hapi]
        refine foldl_congr_mem _ _ _ (fun x hx b => ?_) m
        have hx1 : eventsApi x = none := (hs x hx).2
        simp only [hx1]
        cases cb <;> rfl
  · intro inv args m
    cases names with
    | nil => exact absurd rfl hne
    | cons n rest =>
      cases rest with
      | nil =>
        show Events.trigger inv n args m = _
        rw [Events.trigger_piece inv n (hs n (List.mem_cons_self _ _)).2 args m]
        have hsp : spaced [n] = n := rfl
        rw [hsp]
        simp only [Events.triggerEach]
        cases Events.triggerOne inv n args
          { m with trace := m.trace ++ [Obs.emit n args] } <;> rfl
      | cons n2 rest2 =>
        have hapi := eventsApi_spaced n n2 rest2 hs
        unfold Events.trigger
        simp only [hapi]
        split
        · rename_i hev
          exact (Events.triggerEach_none inv (n :: n2 :: rest2) args
            { m with trace := m.trace ++ [Obs.emit (spaced (n :: n2 :: rest2)) args] } hev).symm
        · rfl

theorem multi_name_expansion_witness :
    (∀ n ∈ ["a", "b", "all"], SingleName n) ∧
    Events.on "a b all" (some (Callback.fn 0)) (some 5) (Model.init 7 []) =
      Events.on "all" (some (Callback.fn 0)) (some 5)
        (Events.on "b" (some (Callback.fn 0)) (some 5)
          (Events.on "a" (some (Callback.fn 0)) (some 5) (Model.init 7 []))) ∧
    Events.onMap [("a", Callback.fn 0), ("b", Callback.fn 1)] (some 5) none (Model.init 7 []) =
      Events.on "b" (some (Callback.fn 1)) (some 5)
        (Events.on "a" (some (Callback.fn 0)) (some 5) (Model.init 7 [])) ∧
    trigger 1 Env.plain "a b all" [] Model.wild =
      Events.triggerEach (invoke 1 Env.plain) ["a", "b", "all"] []
        { Model.wild with trace := Model.wild.trace ++ [Obs.emit "a b all" []] } := by
  have hs : ∀ n ∈ ["a", "b", "all"], SingleName n := by
    intro n hn
    simp only [List.mem_cons, List.mem_singleton, List.not_mem_nil, or_false] at hn
    rcases hn with rfl | rfl | rfl <;> exact ⟨by decide, by decide⟩
  have h := multi_name_expansion ["a", "b", "all"] (by simp) hs
  exact ⟨hs, h.1 (some (Callback.fn 0)) (some 5) (Model.init 7 []),
    h.2.1 [("a", Callback.fn 0), ("b", Callback.fn 1)] (some 5) none (Model.init 7 []),
    h.2.2.1 (invoke 1 Env.plain) [] Model.wild⟩

/-! ## Several entities (claims C16, C17 and C19) -/

@[simp] theorem World.setModel_model (w : World) (r x : Ref) (m : Model) :
    ((w.setModel r m).objs x).model = if x = r then m else (w.objs x).model := by
  by_cases h : x = r <;> simp [World.setModel, World.put, h]

@[simp] theorem World.setModel_listeningTo (w : World) (r x : Ref) (m : Model) :
    ((w.setModel r m).objs x)._listeningTo = (w.objs x)._listeningTo := by
  by_cases h : x = r <;> simp [World.setModel, World.put, h]

@[simp] theorem World.setModel_listenId (w : World) (r x : Ref) (m : Model) :
    ((w.setModel r m).objs x)._listenId = (w.objs x)._listenId := by
  by_cases h : x = r <;> simp [World.setModel, World.put, h]

@[simp] theorem World.setModel_collection (w : World) (r x : Ref) (m : Model) :
    ((w.setModel r m).objs x).collection = (w.objs x).collection := by
  by_cases h : x = r <;> simp [World.setModel, World.put, h]

@[simp] theorem World.setListeningTo_model (w : World) (r x : Ref) (d : Dict Ref) :
    ((w.setListeningTo r d).objs x).model = (w.objs x).model := by
  by_cases h : x = r <;> simp [World.setListeningTo, World.put, h]

@[simp] theorem World.setListeningTo_listeningTo (w : World) (r x : Ref) (d : Dict Ref) :
    ((w.setListeningTo r d).objs x)._listeningTo =
      if x = r then some d else (w.objs x)._listeningTo := by
  by_cases h : x = r <;> simp [World.setListeningTo, World.put, h]

@[simp] theorem World.setListeningTo_listenId (w : World) (r x : Ref) (d : Dict Ref) :
    ((w.setListeningTo r d).objs x)._listenId = (w.objs x)._listenId := by
  by_cases h : x = r <;> simp [World.setListeningTo, World.put, h]

@[simp] theorem World.setListeningTo_collection (w : World) (r x : Ref) (d : Dict Ref) :
    ((w.setListeningTo r d).objs x).collection = (w.objs x).collection := by
  by_cases h : x = r <;> simp [World.setListeningTo, World.put, h]

@[simp] theorem World.setListenId_model (w : World) (r x : Ref) (id : String) :
    ((w.setListenId r id).objs x).model = (w.objs x).model := by
  by_cases h : x = r <;> simp [World.setListenId, World.put, h]

@[simp] theorem World.setListenId_listeningTo (w : World) (r x : Ref) (id : String) :
    ((w.setListenId r id).objs x)._listeningTo = (w.objs x)._listeningTo := by
  by_cases h : x = r <;> simp [World.setListenId, World.put, h]

@[simp] theorem World.setListenId_listenId (w : World) (r x : Ref) (id : String) :
    ((w.setListenId r id).objs x)._listenId =
      if x = r then some id else (w.objs x)._listenId := by
  by_cases h : x = r <;> simp [World.setListenId, World.put, h]

@[simp] theorem World.setListeningTo_idCounter (w : World) (r : Ref) (d : Dict Ref) :
    (w.setListeningTo r d).idCounter = w.idCounter := rfl

@[simp] theorem uniqueId_objs (pre : String) (w : World) : (uniqueId pre w).2.objs = w.objs := rfl

@[simp] theorem uniqueId_fst (pre : String) (w : World) :
    (uniqueId pre w).1 = pre ++ toString (w.idCounter + 1) := rfl

theorem Events.listen_model (once : Bool) (self other : Ref) (name : String)
    (callback : Option Nat) (w : World) (x : Ref) :
    ((Events.listen once self other name callback w).objs x).model =
      if x = other then
        match once with
        | true => Events.once name callback (some self) (w.objs other).model
        | false => Events.on name (callback.map Callback.fn) (some self) (w.objs other).model
      else (w.objs x).model := by
  unfold Events.listen
  simp only [World.setListeningTo_listenId]
  cases hid : (w.objs other)._listenId <;> simp

theorem Events.listen_listenId (once : Bool) (self other : Ref) (name : String)
    (callback : Option Nat) (w : World) (x : Ref) :
    ((Events.listen once self other name callback w).objs x)._listenId =
      if x = other then
        some (((w.objs other)._listenId).getD ("l" ++ toString (w.idCounter + 1)))
      else (w.objs x)._listenId := by
  unfold Events.listen
  simp only [World.setListeningTo_listenId]
  cases hid : (w.objs other)._listenId with
  | none => simp
  | some id =>
    by_cases hx : x = other
    · subst hx
      simp [hid]
    · simp [hx]

theorem Events.listen_listeningTo (once : Bool) (self other : Ref) (name : String)
    (callback : Option Nat) (w : World) (x : Ref) :
    ((Events.listen once self other name callback w).objs x)._listeningTo =
      if x = self then
        some (Dict.put ((w.objs self)._listeningTo.getD [])
          (((w.objs other)._listenId).getD ("l" ++ toString (w.idCounter + 1))) other)
      else (w.objs x)._listeningTo := by
  unfold Events.listen
  simp only [World.setListeningTo_listenId]
  cases hid : (w.objs other)._listenId <;> by_cases hx : x = self <;> simp [hx]

/-- C16 (amended): for all entities `self` and `other` (possibly the same), every
string name and every callback, present or absent, `self.listenTo(other, name,
callback)` leaves the record state of `other`, subscription table included, as
`other.on(name, callback, self)` leaves it (nothing is subscribed for an absent
callback), every other entity's record state alone, and `listenToOnce` does so
with `once`; `other` has a listen id afterwards, its former one if it had one,
and the `listeningTo` mapping of `self` maps this id to `other`. -/
theorem listenTo_as_on (self other : Ref) (name : String) (callback : Option Nat) (w : World) :
    ((Events.listenTo self other name callback w).objs other).model =
      Events.on name (callback.map Callback.fn) (some self) (w.objs other).model ∧
    ((Events.listenToOnce self other name callback w).objs other).model =
      Events.once name callback (some self) (w.objs other).model ∧
    (∀ x, x ≠ other →
      ((Events.listenTo self other name callback w).objs x).model = (w.objs x).model) ∧
    ∃ id, ((Events.listenTo self other name callback w).objs other)._listenId = some id ∧
      (∀ id0, (w.objs other)._listenId = some id0 → id = id0) ∧
      Dict.find (((Events.listenTo self other name callback w).objs self)._listeningTo.getD [])
        id = some other := by
  refine ⟨?_, ?_, ?_, ?_⟩
  · rw [Events.listenTo, Events.listen_model]
    simp
  · rw [Events.listenToOnce, Events.listen_model]
    simp
  · intro x hx
    rw [Events.listenTo, Events.listen_model]
    simp [hx]
  · refine ⟨((w.objs other)._listenId).getD ("l" ++ toString (w.idCounter + 1)), ?_, ?_, ?_⟩
    · rw [Events.listenTo, Events.listen_listenId]
      simp
    · intro id0 h0
      simp [h0]
    · rw [Events.listenTo, Events.listen_listeningTo]
      simp [Dict.find_put]

/-- C16, counterexample: `self.listenTo(other, "x")` without callback subscribes
nothing on the entity `2`, whereas `on("x", callback, self)` leaves a record
under `"x"` for every callback. -/
theorem listenTo_as_on_counterexample :
    ((Events.listenTo 1 2 "x" none World.init).objs 2).model.bucket "x" = [] ∧
    ∀ cb : Callback,
      (Events.on "x" (some cb) (some 1) (World.init.objs 2).model).bucket "x" ≠ [] := by
  refine ⟨by rfl, ?_⟩
  intro cb h
  have : (Events.on "x" (some cb) (some 1) (World.init.objs 2).model).bucket "x" =
      [{ callback := cb, context := some 1, ctx := 1 }] := by rfl
  rw [this] at h
  cases h

theorem Events.keeps_context (self : Ref) :
    Events.keeps none (some self) = fun ev => ev.context != some self := by
  funext ev
  by_cases h : ev.context = some self
  · simp [Events.keeps, h]
  · have h' : ¬ some self = ev.context := fun e => h e.symm
    have e1 : (some self != ev.context) = true := by simpa [bne_iff_ne] using h'
    have e2 : (ev.context != some self) = true := by simpa [bne_iff_ne] using h
    simp [Events.keeps, e1, e2]

theorem Events.off_context_bucket (self : Ref) (m : Model)
    (hwf : TableWF (m._events.getD [], m.arrays)) (n : String) :
    (Events.off none none (some self) m).bucket n =
      (m.bucket n).filter (fun ev => ev.context != some self) := by
  rw [← Events.keeps_context]
  unfold Events.off
  split
  · rename_i hev
    have : m.bucket n = [] := by
      unfold Model.bucket bucketOf
      simp [hev, Dict.find]
    rw [this]
    rfl
  · simp only [Option.bind]
    rw [(Events.offBody_bucket none none (some self) m hwf).2.2 n]
    simp

theorem Events.stopStep_model (self : Ref) (name : Option String) (cb : Option Callback)
    (remove : Bool) (w : World) (e : String × Ref) (x : Ref) :
    ((Events.stopStep self name cb remove w e).objs x).model =
      if x = e.2 then Events.off name cb (some self) (w.objs e.2).model
      else (w.objs x).model := by
  unfold Events.stopStep
  simp only []
  split <;> simp

theorem Events.stopStep_collection (self : Ref) (name : Option String) (cb : Option Callback)
    (remove : Bool) (w : World) (e : String × Ref) (x : Ref) :
    ((Events.stopStep self name cb remove w e).objs x).collection = (w.objs x).collection := by
  unfold Events.stopStep
  simp only []
  split <;> simp

theorem Events.stopStep_remove (self : Ref) (name : Option String) (cb : Option Callback)
    (w : World) (e : String × Ref) :
    ((Events.stopStep self name cb true w e).objs self)._listeningTo =
      some (Dict.del ((w.objs self)._listeningTo.getD []) e.1) := by
  unfold Events.stopStep
  simp

theorem Events.stopStep_evOnly (self : Ref) (name : Option String) (cb : Option Callback)
    (remove : Bool) (w : World) (e : String × Ref) (x : Ref) :
    EvOnly (w.objs x).model ((Events.stopStep self name cb remove w e).objs x).model := by
  rw [Events.stopStep_model]
  split
  · rename_i h
    rw [h]
    exact Events.off_evOnly _ _ _ _
  · exact evOnly_refl _

theorem Events.stopFold_frame (self : Ref) (name : Option String) (cb : Option Callback)
    (remove : Bool) (entries : List (String × Ref)) (w : World) (x : Ref) :
    EvOnly (w.objs x).model
      ((entries.foldl (Events.stopStep self name cb remove) w).objs x).model ∧
    ((entries.foldl (Events.stopStep self name cb remove) w).objs x).collection =
      (w.objs x).collection := by
  induction entries generalizing w with
  | nil => exact ⟨evOnly_refl _, rfl⟩
  | cons e rest ih =>
    simp only [List.foldl_cons]
    obtain ⟨h1, h2⟩ := ih (Events.stopStep self name cb remove w e)
    exact ⟨evOnly_trans (Events.stopStep_evOnly self name cb remove w e x) h1,
      h2.trans (Events.stopStep_collection self name cb remove w e x)⟩

theorem Events.stopAll_bucket (self : Ref) (entries : List (String × Ref)) (w : World)
    (hwf : w.WF) (o : Ref) (n : String) :
    ((entries.foldl (Events.stopStep self none none true) w).objs o).model.bucket n =
      if o ∈ entries.map Prod.snd then
        ((w.objs o).model.bucket n).filter (fun ev => ev.context != some self)
      else (w.objs o).model.bucket n := by
  induction entries generalizing w with
  | nil => simp
  | cons e rest ih =>
    simp only [List.foldl_cons]
    have hwf1 : (Events.stopStep self none none true w e).WF := by
      intro x
      rw [Events.stopStep_model]
      split
      · exact Events.off_tableWF _ _ _ _ (hwf _)
      · exact hwf x
    rw [ih _ hwf1, Events.stopStep_model]
    by_cases ho : o = e.2
    · subst ho
      simp only [if_true, List.map_cons, List.mem_cons, true_or]
      rw [Events.off_context_bucket self _ (hwf _)]
      split
      · rw [List.filter_filter]
        simp
      · rfl
    · simp only [ho, if_false, List.map_cons, List.mem_cons, false_or]

theorem Events.stopAll_listeningTo (self : Ref) (entries : List (String × Ref)) (w : World) :
    ((entries.foldl (Events.stopStep self none none true) w).objs self)._listeningTo.getD [] =
      entries.foldl (fun d e => Dict.del d e.1) ((w.objs self)._listeningTo.getD []) := by
  induction entries generalizing w with
  | nil => rfl
  | cons e rest ih =>
    simp only [List.foldl_cons]
    rw [ih, Events.stopStep_remove]
    rfl

theorem Dict.mem_del {α : Type} (d : Dict α) (k : String) (kv : String × α)
    (h : kv ∈ Dict.del d k) : kv ∈ d ∧ kv.1 ≠ k := by
  induction d with
  | nil => simp [Dict.del] at h
  | cons hd tl ih =>
    obtain ⟨k0, v0⟩ := hd
    by_cases h0 : k0 = k
    · simp only [Dict.del, h0, if_true] at h
      exact ⟨List.mem_cons_of_mem _ (ih h).1, (ih h).2⟩
    · simp only [Dict.del, h0, if_false, List.mem_cons] at h
      rcases h with h | h
      · subst h
        exact ⟨List.mem_cons_self _ _, h0⟩
      · exact ⟨List.mem_cons_of_mem _ (ih h).1, (ih h).2⟩

theorem Dict.del_all {α : Type} (l d : Dict α) (h : ∀ kv ∈ d, kv.1 ∈ l.map Prod.fst) :
    l.foldl (fun d e => Dict.del d e.1) d = [] := by
  induction l generalizing d with
  | nil =>
    cases d with
    | nil => rfl
    | cons hd tl => simpa using h hd (List.mem_cons_self _ _)
  | cons e rest ih =>
    simp only [List.foldl_cons]
    apply ih
    intro kv hkv
    obtain ⟨h1, h2⟩ := Dict.mem_del d e.1 kv hkv
    have := h kv h1
    simp only [List.map_cons, List.mem_cons] at this
    rcases this with h3 | h3
    · exact absurd h3 h2
    · exact h3

theorem isEmptyTable_iff (m : Model) (h : NoEmpty m) :
    isEmptyTable m._events = true ↔ ∀ n, m.bucket n = [] := by
  constructor
  · intro he n
    unfold Model.bucket bucketOf
    cases hev : m._events with
    | none => simp [Dict.find]
    | some tbl =>
      rw [hev] at he
      cases tbl with
      | nil => simp [Dict.find]
      | cons hd tl => simp [isEmptyTable] at he
  · intro hb
    cases hev : m._events with
    | none => rfl
    | some tbl =>
      cases tbl with
      | nil => rfl
      | cons hd tl =>
        exfalso
        refine noEmpty_bucket h hd.1 ?_ (hb hd.1)
        simp [hev, Dict.has, Dict.find]

theorem Events.stopListening_all (self : Ref) (w : World) (hwf : w.WF) (htr : Tracked w self) :
    (∀ o n, ((Events.stopListening self none none none w).objs o).model.bucket n =
      ((w.objs o).model.bucket n).filter (fun ev => ev.context != some self)) ∧
    ((Events.stopListening self none none none w).objs self)._listeningTo.getD [] = [] := by
  have hkeep : ∀ o n, o ∉ ((w.objs self)._listeningTo.getD []).map Prod.snd →
      ((w.objs o).model.bucket n).filter (fun ev => ev.context != some self) =
        (w.objs o).model.bucket n := by
    intro o n ho
    rw [List.filter_eq_self]
    intro ev hev
    simp only [bne_iff_ne, ne_eq]
    intro hctx
    exact ho (htr o n ev hev hctx)
  unfold Events.stopListening
  cases hlt : (w.objs self)._listeningTo with
  | none =>
    simp only [hlt, Option.getD_none]
    refine ⟨fun o n => (hkeep o n ?_).symm, trivial⟩
    simp [hlt]
  | some lt =>
    have hrem : (!((none : Option String).isSome && (none : Option String) != some "") &&
        (none : Option Nat).isNone) = true := rfl
    simp only [hrem, Option.map_none']
    constructor
    · intro o n
      rw [Events.stopAll_bucket self lt w hwf o n]
      split
      · rfl
      · rename_i ho
        refine (hkeep o n ?_).symm
        simpa [hlt] using ho
    · rw [Events.stopAll_listeningTo, hlt]
      exact Dict.del_all lt lt (fun kv hkv => List.mem_map_of_mem _ hkv)

theorem Events.stopListening_one (self other : Ref) (name : Option String)
    (callback : Option Nat) (w : World) (lt : Dict Ref) (id : String)
    (hgiven : (∃ n, name = some n ∧ n ≠ "") ∨ callback.isSome = true)
    (hne : NoEmpty (w.objs other).model)
    (hlt : (w.objs self)._listeningTo = some lt) (hid : (w.objs other)._listenId = some id)
    (hentry : Dict.has lt id = true) :
    ((Events.stopListening self (some other) name callback w).objs other).model =
      Events.off name (callback.map Callback.fn) (some self) (w.objs other).model ∧
    (Dict.has (((Events.stopListening self (some other) name callback w).objs self)._listeningTo.getD
        []) id = false ↔
      ∀ n, ((Events.stopListening self (some other) name callback w).objs other).model.bucket n
        = []) := by
  have hrem : (!(name.isSome && name != some "") && callback.isNone) = false := by
    rcases hgiven with ⟨n, rfl, hn⟩ | hc
    · have : (some n != some "") = true := by
        simp only [bne_iff_ne, ne_eq, Option.some.injEq]
        exact hn
      simp [this]
    · cases callback with
      | none => cases hc
      | some c => simp
  have hstep : Events.stopListening self (some other) name callback w =
      Events.stopStep self name (callback.map Callback.fn) false w (id, other) := by
    unfold Events.stopListening
    simp only [hlt, hrem, hid, Option.getD_some, List.foldl_cons, List.foldl_nil]
  rw [hstep]
  refine ⟨by rw [Events.stopStep_model]; simp, ?_⟩
  have hne1 := Events.off_noEmpty name (callback.map Callback.fn) (some self) _ hne
  have hiff := isEmptyTable_iff _ hne1
  have hm := Events.stopStep_model self name (callback.map Callback.fn) false w (id, other) other
  simp only [if_true] at hm
  rw [hm]
  rw [← hiff]
  unfold Events.stopStep
  simp only [World.setModel_model, if_true, Bool.false_or]
  cases hemp : isEmptyTable
      (Events.off name (callback.map Callback.fn) (some self) (w.objs other).model)._events with
  | true =>
    simp [hlt, Dict.has_del]
  | false =>
    simp [hlt, hentry]

theorem World.init_tables : World.init.WF := fun o => Model.init_tableWF o []

theorem World.setModel_wf (w : World) (r : Ref) (m : Model) (hw : w.WF)
    (hm : TableWF (m._events.getD [], m.arrays)) : (w.setModel r m).WF := by
  intro o
  rw [World.setModel_model]
  split
  · exact hm
  · exact hw o

theorem Events.listen_wf (once : Bool) (self other : Ref) (name : String)
    (callback : Option Nat) (w : World) (hw : w.WF) :
    (Events.listen once self other name callback w).WF := by
  intro o
  rw [Events.listen_model]
  split
  · cases once
    · exact Events.on_tableWF _ _ _ _ (hw other)
    · exact Events.once_tableWF _ _ _ _ (hw other)
  · exact hw o

theorem World.listening_wf : World.listening.WF := by
  unfold World.listening Events.listenToOnce Events.listenTo
  apply Events.listen_wf
  apply Events.listen_wf
  apply World.setModel_wf _ _ _ World.init_tables
  exact Events.on_tableWF _ _ _ _ (Model.init_tableWF 2 [])

theorem World.listening_tracked : Tracked World.listening 1 := by
  intro o n ev hev _
  have hval : ((World.listening.objs 1)._listeningTo.getD []).map Prod.snd = [2, 3] := by rfl
  rw [hval]
  by_cases h2 : o = 2
  · simp [h2]
  by_cases h3 : o = 3
  · simp [h3]
  exfalso
  have hm : (World.listening.objs o).model = Model.init o [] := by
    unfold World.listening Events.listenToOnce Events.listenTo
    rw [Events.listen_model, if_neg h3, Events.listen_model, if_neg h2, World.setModel_model,
      if_neg h2]
    rfl
  rw [hm] at hev
  simp [Model.bucket, bucketOf, Model.init, Dict.find] at hev

theorem World.listening_noEmpty : NoEmpty (World.listening.objs 2).model := by
  have hm : (World.listening.objs 2).model =
      Events.on "x" (some (Callback.fn 0)) (some 1)
        (Events.on "x" (some (Callback.fn 5)) (some 7) (Model.init 2 [])) := by
    unfold World.listening Events.listenToOnce Events.listenTo
    rw [Events.listen_model, if_neg (by decide), Events.listen_model, if_pos rfl,
      World.setModel_model, if_pos rfl]
    rfl
  rw [hm]
  exact Events.on_noEmpty _ _ _ _ (Events.on_noEmpty _ _ _ _ (noEmpty_of_none _ rfl))

/-- C17: in a world of well-formed subscription tables, (1) if every entity
holding a subscription whose context is `self` is remembered in the
`listeningTo` mapping of `self` (it listened through `listenTo` and
`listenToOnce` only), then after `self.stopListening()` the subscriptions of
every entity under every name are the former ones without those whose context
is `self`, in the same order, and the `listeningTo` mapping of `self` has no
entry; (2) `self.stopListening(other, name, callback)` with a non-empty name or
a callback given, `other` being remembered under its listen id and having no
name without subscription in its table, does `other.off(name, callback, self)`
and drops the entry of `other` if and only if `other` has no subscription left
under any name. -/
theorem stopListening_releases (w : World) (self : Ref) (hwf : w.WF) :
    (Tracked w self →
      (∀ o n, ((Events.stopListening self none none none w).objs o).model.bucket n =
        ((w.objs o).model.bucket n).filter (fun ev => ev.context != some self)) ∧
      ((Events.stopListening self none none none w).objs self)._listeningTo.getD [] = []) ∧
    ∀ (other : Ref) (name : Option String) (callback : Option Nat) (lt : Dict Ref) (id : String),
      ((∃ n, name = some n ∧ n ≠ "") ∨ callback.isSome = true) →
      NoEmpty (w.objs other).model →
      (w.objs self)._listeningTo = some lt → (w.objs other)._listenId = some id →
      Dict.has lt id = true →
      ((Events.stopListening self (some other) name callback w).objs other).model =
        Events.off name (callback.map Callback.fn) (some self) (w.objs other).model ∧
      (Dict.has (((Events.stopListening self (some other) name callback w).objs
          self)._listeningTo.getD []) id = false ↔
        ∀ n, ((Events.stopListening self (some other) name callback w).objs
          other).model.bucket n = []) :=
  ⟨fun htr => Events.stopListening_all self w hwf htr,
    fun other name callback lt id hgiven hne hlt hid hentry =>
      Events.stopListening_one self other name callback w lt id hgiven hne hlt hid hentry⟩

/-- C17, witness: the entity `1` listens to `"x"` on `2` and once to `"y"` on `3`,
and `2` has another subscription to `"x"` on the context `7`.  After
`stopListening()` the entity `2` keeps that one alone and `3` keeps none;
`stopListening(2, "x")` leaves the entry of `2` in place, since `2` still has a
subscription. -/
theorem stopListening_releases_witness :
    (((Events.stopListening 1 none none none World.listening).objs 2).model.bucket "x" =
        [{ callback := Callback.fn 5, context := some 7, ctx := 7 }] ∧
      ((Events.stopListening 1 none none none World.listening).objs 3).model.bucket "y" = [] ∧
      ((Events.stopListening 1 none none none World.listening).objs 1)._listeningTo.getD []
        = []) ∧
    Dict.has (((Events.stopListening 1 (some 2) (some "x") none World.listening).objs
        1)._listeningTo.getD []) "l1" = true := by
  have h := stopListening_releases World.listening 1 World.listening_wf
  obtain ⟨hb, hl⟩ := h.1 World.listening_tracked
  have h2 := (h.2 2 (some "x") none [("l1", 2), ("l2", 3)] "l1" (Or.inl ⟨"x", rfl, by decide⟩)
    World.listening_noEmpty (by rfl) (by rfl) (by rfl)).2
  refine ⟨⟨?_, ?_, hl⟩, ?_⟩
  · rw [hb 2 "x"]
    rfl
  · rw [hb 3 "y"]
    rfl
  · cases hh : Dict.has (((Events.stopListening 1 (some 2) (some "x") none World.listening).objs
        1)._listeningTo.getD []) "l1" with
    | true => rfl
    | false =>
      exfalso
      have hx := h2.1 hh "x"
      have hv : ((Events.stopListening 1 (some 2) (some "x") none World.listening).objs
          2).model.bucket "x" = [{ callback := Callback.fn 5, context := some 7, ctx := 7 }] := by
        rfl
      rw [hv] at hx
      cases hx

theorem Events.stopListening_frame (self : Ref) (obj : Option Ref) (name : Option String)
    (callback : Option Nat) (w : World) (x : Ref) :
    EvOnly (w.objs x).model ((Events.stopListening self obj name callback w).objs x).model ∧
    ((Events.stopListening self obj name callback w).objs x).collection =
      (w.objs x).collection := by
  unfold Events.stopListening
  split
  · exact ⟨evOnly_refl _, rfl⟩
  · exact Events.stopFold_frame _ _ _ _ _ _ _

theorem Model.isNew_congr (env : Env) (m m' : Model) (h : m'.attributes = m.attributes) :
    Model.isNew env m' = Model.isNew env m := by
  unfold Model.isNew
  rw [h]

/-- C19 (amended): for every record `r` that is new, of a record type whose id
attribute is not named like a member of `Object.prototype`, in a world of
well-formed subscription tables where every entity holding a subscription
whose context is `r` is remembered in the `listeningTo` mapping of `r` (the
record subscribed to other entities through `listenTo` and `listenToOnce`
only), with listeners that only subscribe and unsubscribe on the record, under
names that are not inherited either, and options without truthy `success`:
`destroy(options)` returns; it emits on the record, after what was emitted
before, exactly `"destroy"` with the record, its collection and the options
(with the `success` wrapper added); afterwards the `listeningTo` mapping of the
record has no entry and the subscriptions of every other entity under every
name are the former ones without those whose context is the record. -/
theorem destroy_new_record (fuel : Nat) (env : Env) (henv : Env.All env Cmd.Passive)
    (_hown : Env.All env Cmd.Own) (_hid : env.idAttribute ∉ inheritedKeys)
    (r : Ref) (options : Obj) (w : World) (hwf : w.WF) (htr : Tracked w r)
    (hself : (w.objs r).model.self = r) (hnew : Model.isNew env (w.objs r).model = true)
    (hsucc : (Obj.get options "success").truthy = false) :
    ∃ w', Model.destroy (fuel + 1) env r options w = some w' ∧
      emitted (w'.objs r).model.trace = emitted (w.objs r).model.trace ++
        [("destroy",
          [Arg.ref r, collectionArg (w.objs r).collection, Arg.withSuccess options])] ∧
      (w'.objs r)._listeningTo.getD [] = [] ∧
      ∀ o, o ≠ r → ∀ n, (w'.objs o).model.bucket n =
        ((w.objs o).model.bucket n).filter (fun ev => ev.context != some r) := by
  obtain ⟨hb, hl⟩ := Events.stopListening_all r w hwf htr
  obtain ⟨hev, hcoll⟩ := Events.stopListening_frame r none none none w r
  have htrace := evOnly_trace hev
  have hattr : ((Events.stopListening r none none none w).objs r).model.attributes =
      (w.objs r).model.attributes := by
    unfold EvOnly at hev
    rw [hev]
  have hs : ((Events.stopListening r none none none w).objs r).model.self = r := by
    unfold EvOnly at hev
    rw [hev]
    exact hself
  obtain ⟨m1, e1, c1, t1⟩ := Events.trigger_quiet (invoke_passive env henv fuel) "destroy"
    [Arg.ref r, collectionArg (w.objs r).collection, Arg.withSuccess options]
    ((Events.stopListening r none none none w).objs r).model
  have hnew1 : Model.isNew env m1 = true := by
    rw [Model.isNew_congr env _ m1 ((Model.core_eq _ _).1 c1).2.1,
      Model.isNew_congr env _ _ hattr]
    exact hnew
  refine ⟨(Events.stopListening r none none none w).setModel r m1, ?_, ?_, ?_, ?_⟩
  · unfold Model.destroy
    rw [if_pos hnew]
    simp only [hs, hcoll, e1, hsucc]
    show Option.map _ (if (!Model.isNew env m1) = true then _ else some m1) = _
    rw [hnew1]
    rfl
  · rw [World.setModel_model, if_pos rfl, t1, htrace]
  · rw [World.setModel_listeningTo]
    exact hl
  · intro o ho n
    rw [World.setModel_model, if_neg ho]
    exact hb o n

/-- C19, witness: the entity `1` of `World.listening` is a new record; destroying
it emits `"destroy"`, empties its `listeningTo` mapping and leaves on the
entity `2` the subscription of the context `7` alone. -/
theorem destroy_new_record_witness :
    ∃ w', Model.destroy 1 Env.plain 1 [] World.listening = some w' ∧
      emitted (w'.objs 1).model.trace =
        [("destroy", [Arg.ref 1, Arg.val Value.undefined, Arg.withSuccess []])] ∧
      (w'.objs 1)._listeningTo.getD [] = [] ∧
      (w'.objs 2).model.bucket "x" =
        [{ callback := Callback.fn 5, context := some 7, ctx := 7 }] := by
  obtain ⟨w', h1, h2, h3, h4⟩ := destroy_new_record 0 Env.plain (fun _ _ _ _ => Script.All.done)
    (fun _ _ _ _ => Script.All.done) (by decide)
    1 [] World.listening World.listening_wf World.listening_tracked (by rfl) (by rfl) (by rfl)
  refine ⟨w', h1, ?_, h3, ?_⟩
  · rw [h2]
    rfl
  · rw [h4 2 (by decide) "x"]
    rfl

/-- C19, counterexample: the new record `1` has a listener subscribed to its own
`"change"` event; `destroy()` returns and the subscription is still in the
record's table afterwards.  And when the entity `2` was subscribed with the
record as context by a direct `on("x", f5, record)`, which no `listeningTo`
mapping remembers, `destroy()` leaves that subscription in place. -/
theorem destroy_new_record_counterexample :
    (Model.destroy 1 Env.plain 1 [] World.publisher).map
        (fun w' => (w'.objs 1).model.bucket "change") =
      some [{ callback := Callback.fn 0, context := none, ctx := 1 }] ∧
    (Model.destroy 1 Env.plain 1 [] World.untracked).map
        (fun w' => (w'.objs 2).model.bucket "x") =
      some [{ callback := Callback.fn 5, context := some 1, ctx := 1 }] := by
  constructor <;> rfl

end Backbone
